import Mathlib

/-!
# balong-usbdload: container codec, partition-table codec, front-ends

A shallow embedding of `usbloader-packer.c`, `ptable-editor.c` and the `main`
functions of `loader-patch.c`, `ptable-injector.c` and `ptable-list.c`.

Conventions of the embedding

* A file or a heap buffer is a `List Byte`; its length is the C `file_size`.
* `uint32_t` values are natural numbers; every place where the C arithmetic is
  carried out in 32 bits reduces modulo `2 ^ 32` explicitly.
* A structure overlaid on raw bytes is read and written little-endian, the byte
  order of the hosts the tools are built for.
* An access outside an allocated buffer is undefined behaviour in C.  The
  embedding never invents a value for it: the operation ends in
  `Outcome.fault`.
* Operations of the file system (creating a directory, opening or writing a
  file) are taken to succeed; only the contents of the files are modelled.
* Functions and constants that the headers declare and the sources at hand do
  not define are parameters (`headmagic`, the procedures of `patcher.h`) or,
  for the search of the table, definitions marked as modelled from the
  specification.
-/

namespace Balong

set_option maxRecDepth 16000

/-! ## Bytes and raw memory -/

/-- One octet. -/
abbrev Byte := Fin 256

/-- The octet holding the low eight bits of `n`. -/
def byte (n : Nat) : Byte := ⟨n % 256, Nat.mod_lt n (by decide)⟩

/-- An access outside an allocated buffer: `size` bytes at byte offset
`offset` of the buffer. -/
inductive Fault where
  | read (offset size : Nat) : Fault
  | write (offset size : Nat) : Fault
deriving DecidableEq

/-- Result of running one of the tools on given file contents. -/
inductive Outcome (α : Type) where
  /-- The function returned 1 (success) with these outputs. -/
  | ok (a : α) : Outcome α
  /-- The function returned 0 before producing any output. -/
  | fail : Outcome α
  /-- The function accessed memory outside a buffer (undefined in C). -/
  | fault (f : Fault) : Outcome α
deriving DecidableEq

/-- Little-endian image of a `uint32_t`. -/
def le32 (v : Nat) : List Byte :=
  [byte v, byte (v / 256), byte (v / 65536), byte (v / 16777216)]

/-- Load of a `uint32_t` at byte offset `p` of `buf`; `none` when one of the
four bytes lies outside the buffer. -/
def readU32 (buf : List Byte) (p : Nat) : Option Nat :=
  match buf[p]?, buf[p + 1]?, buf[p + 2]?, buf[p + 3]? with
  | some a, some b, some c, some d =>
      some (a.val + 256 * b.val + 65536 * c.val + 16777216 * d.val)
  | _, _, _, _ => none

/-- The `size` bytes at `buf + off`; `none` when the range leaves the buffer. -/
def slice (buf : List Byte) (off size : Nat) : Option (List Byte) :=
  if off + size ≤ buf.length then some ((buf.drop off).take size) else none

/-- The call `memcpy(buf + off, data, data.length)`; `none` when the
destination range leaves the buffer. -/
def memcpy (buf : List Byte) (off : Nat) (data : List Byte) : Option (List Byte) :=
  if off + data.length ≤ buf.length then
    some (buf.take off ++ data ++ buf.drop (off + data.length))
  else none

/-! ## usbloader-packer.c: the container -/

def MAX_BLOCKS : Nat := 10

def MAGIC_SIGNATURE : Nat := 0x00020000

/-- The macro `HEADER_SIZE`: 84 bytes, from start to first data block. -/
def HEADER_SIZE : Nat := 0x54

/-- Block descriptor (`struct block_desc`, 16 bytes). -/
structure block_desc where
  /-- boot mode: 1 = direct start, 2 = via A-core restart -/
  lmode : Nat
  /-- component size -/
  size : Nat
  /-- component loading address in memory -/
  adr : Nat
  /-- offset to the component from the beginning of the file -/
  offset : Nat
deriving DecidableEq

/-- Number of bytes of `struct block_desc`: four `uint32_t`. -/
def sizeof_block_desc : Nat := 4 + 4 + 4 + 4

/-- Number of bytes of `struct usbloader_header`: `magic`, `reserved1[32]`
and `blocks[MAX_BLOCKS]`. -/
def sizeof_usbloader_header : Nat := 4 + 32 + MAX_BLOCKS * sizeof_block_desc

/-- Byte offset of `header->blocks[i]` in `struct usbloader_header`. -/
def blocks_offset (i : Nat) : Nat := 4 + 32 + sizeof_block_desc * i

/-- Memory image of a `struct block_desc`. -/
def encode_desc (d : block_desc) : List Byte :=
  le32 d.lmode ++ le32 d.size ++ le32 d.adr ++ le32 d.offset

/-- Descriptor slot `i` of a buffer, all four fields (used to state
properties; the code reads the fields one by one). -/
def slot (buf : List Byte) (i : Nat) : Option block_desc :=
  match readU32 buf (blocks_offset i), readU32 buf (blocks_offset i + 4),
        readU32 buf (blocks_offset i + 8), readU32 buf (blocks_offset i + 12) with
  | some m, some s, some a, some o => some ⟨m, s, a, o⟩
  | _, _, _, _ => none

/-- One block saved by `unpack_loader`: the slot it came from, its descriptor
as written to the metadata, and the bytes written to `block<i>_<name>.bin`. -/
structure Extracted where
  index : Nat
  desc : block_desc
  data : List Byte
deriving DecidableEq

/-- What `unpack_loader` leaves in the output directory. -/
structure Unpacked where
  /-- contents of `header.bin` -/
  header : List Byte
  /-- the extracted blocks, in the order they were written -/
  blocks : List Extracted
deriving DecidableEq

/-- The block loop of `unpack_loader` from slot `i` on, with `n` iterations
left (`n = MAX_BLOCKS - i`).  `block->size` is read before `block->offset`
(short-circuit `||`), and the sum `block->offset + block->size` is a 32-bit
sum. -/
def unpack_blocks (buffer : List Byte) : Nat → Nat → Outcome (List Extracted)
  | 0, _ => .ok []
  | n + 1, i =>
    match readU32 buffer (blocks_offset i + 4) with
    | none => .fault (.read (blocks_offset i + 4) 4)
    | some size =>
      if size = 0 then .ok [] else
      match readU32 buffer (blocks_offset i + 12) with
      | none => .fault (.read (blocks_offset i + 12) 4)
      | some offset =>
        if offset < HEADER_SIZE then .ok [] else
        if (offset + size) % 2 ^ 32 > buffer.length then .ok [] else
        match slice buffer offset size with
        | none => .fault (.read offset size)
        | some data =>
          match readU32 buffer (blocks_offset i), readU32 buffer (blocks_offset i + 8) with
          | some lmode, some adr =>
            match unpack_blocks buffer n (i + 1) with
            | .ok rest => .ok (⟨i, ⟨lmode, size, adr, offset⟩, data⟩ :: rest)
            | .fail => .fail
            | .fault f => .fault f
          | _, _ => .fault (.read (blocks_offset i) 16)

/-- The function `unpack_loader` on the contents of the input file. -/
def unpack_loader (buffer : List Byte) : Outcome Unpacked :=
  if buffer.length < HEADER_SIZE then .fail else
  match readU32 buffer 0 with
  | none => .fault (.read 0 4)
  | some magic =>
    if magic ≠ MAGIC_SIGNATURE then .fail else
    match unpack_blocks buffer MAX_BLOCKS 0 with
    | .ok blocks => .ok ⟨buffer.take HEADER_SIZE, blocks⟩
    | .fail => .fail
    | .fault f => .fault f

/-- Entry `i` of the arrays `blocks` and `block_files` that `parse_metadata`
hands to `pack_loader`, together with the contents of the file it names
(`none` when `read_file` cannot read it). -/
structure PackBlock where
  desc : block_desc
  file : Option (List Byte)
deriving DecidableEq

/-- The first loop of `pack_loader`: `total_size`. -/
def total_size (blocks : List PackBlock) : Nat :=
  blocks.foldl (fun total b => if b.desc.size > 0 then total + b.desc.size else total)
    HEADER_SIZE

/-- The second loop of `pack_loader` from block `i` on; `current_offset` is a
`uint32_t`. -/
def pack_blocks : List PackBlock → Nat → Nat → List Byte → Outcome (List Byte)
  | [], _, _, buffer => .ok buffer
  | b :: rest, i, current_offset, buffer =>
    if b.desc.size = 0 then pack_blocks rest (i + 1) current_offset buffer else
    match b.file with
    | none => .fail
    | some block_data =>
      let block_size := block_data.length
      let size := if block_size ≠ b.desc.size then block_size % 2 ^ 32 else b.desc.size
      let d : block_desc := ⟨b.desc.lmode, size, b.desc.adr, current_offset⟩
      match memcpy buffer (blocks_offset i) (encode_desc d) with
      | none => .fault (.write (blocks_offset i) sizeof_block_desc)
      | some buffer1 =>
        match memcpy buffer1 current_offset block_data with
        | none => .fault (.write current_offset block_size)
        | some buffer2 =>
          pack_blocks rest (i + 1) ((current_offset + block_size) % 2 ^ 32) buffer2

/-- The copy of at most `HEADER_SIZE` bytes of `header.bin` into the buffer,
when the file exists and can be read. -/
def copy_header (header_file : Option (List Byte)) (buffer : List Byte) :
    Option (List Byte) :=
  match header_file with
  | none => some buffer
  | some header_data =>
    memcpy buffer 0 (header_data.take (min header_data.length HEADER_SIZE))

/-- The buffer of `pack_loader` before the block loop: `calloc`, the copy of
`header.bin`, and the magic. -/
def pack_header (header_file : Option (List Byte)) (total : Nat) : Option (List Byte) :=
  match copy_header header_file (List.replicate total (0 : Byte)) with
  | none => none
  | some buffer1 => memcpy buffer1 0 (le32 MAGIC_SIGNATURE)

/-- The function `pack_loader`: `header_file` is the contents of `header.bin`
(`none` when it does not exist), `blocks` the first `block_count` entries of
the parsed metadata.  The result is the contents of the output file. -/
def pack_loader (header_file : Option (List Byte)) (blocks : List PackBlock) :
    Outcome (List Byte) :=
  if blocks.length = 0 then .fail else
  match pack_header header_file (total_size blocks) with
  | none => .fault (.write 0 HEADER_SIZE)
  | some buffer => pack_blocks blocks 0 HEADER_SIZE buffer

/-! ## Container: predicates and inputs used in the statements -/

/-- The fields of a descriptor fit the `uint32_t` type. -/
def block_desc.wf (d : block_desc) : Prop :=
  d.lmode < 2 ^ 32 ∧ d.size < 2 ^ 32 ∧ d.adr < 2 ^ 32 ∧ d.offset < 2 ^ 32

/-- A block as the round-trip law takes it: `uint32_t` fields, a readable,
non-empty payload file and a declared size equal to its length. -/
def PackBlock.sound (b : PackBlock) : Prop :=
  b.desc.wf ∧ ∃ data, b.file = some data ∧ data ≠ [] ∧ b.desc.size = data.length

/-- Sum of the declared sizes. -/
def payload_sum (bs : List PackBlock) : Nat := (bs.map (fun b => b.desc.size)).sum

/-- The first `HEADER_SIZE` bytes of the buffer of `pack_loader` after the
copy of `header.bin`: the file cut to `HEADER_SIZE` bytes, followed by the
zeros of `calloc` where the file is shorter or absent. -/
def header_template (header_file : Option (List Byte)) : List Byte :=
  match header_file with
  | none => List.replicate HEADER_SIZE 0
  | some header_data =>
    header_data.take HEADER_SIZE ++ List.replicate (HEADER_SIZE - header_data.length) 0

/-- The block lists of the round-trip law: between 1 and 10 blocks, each with
a non-empty payload whose length is the declared size. -/
def packable (blocks : List PackBlock) : Prop :=
  1 ≤ blocks.length ∧ blocks.length ≤ MAX_BLOCKS ∧ ∀ b ∈ blocks, b.sound

/-- The round-trip law: packing succeeds, unpacking the packed buffer succeeds
with as many blocks as were packed, and block `i` has the payload, mode and
address of the `i`-th packed block. -/
def round_trip (header_file : Option (List Byte)) (blocks : List PackBlock) : Prop :=
  ∃ out u, pack_loader header_file blocks = Outcome.ok out ∧
    unpack_loader out = Outcome.ok u ∧ u.blocks.length = blocks.length ∧
    ∀ (i : Nat) (b : PackBlock), blocks[i]? = some b →
      ∃ e : Extracted, u.blocks[i]? = some e ∧ b.file = some e.data ∧
        e.desc.lmode = b.desc.lmode ∧ e.desc.adr = b.desc.adr

/-- A container with a three-slot header: magic, 32 reserved zero bytes, three
descriptors, then the payload area. -/
def container (s0 s1 s2 : block_desc) (payload : List Byte) : List Byte :=
  le32 MAGIC_SIGNATURE ++ List.replicate 32 0 ++ encode_desc s0 ++ encode_desc s1 ++
    encode_desc s2 ++ payload

/-- A block of the metadata whose declared size is the length of its file. -/
def block_of (lmode adr : Nat) (data : List Byte) : PackBlock :=
  ⟨⟨lmode, data.length, adr, 0⟩, some data⟩

/-- The stop index in the words of the specification: the first slot whose
size is zero, whose offset is below the header size, or whose exact sum
`offset + size` exceeds the buffer length; `MAX_BLOCKS` when there is none. -/
def spec_stop_index (buffer : List Byte) : Nat :=
  ((List.range MAX_BLOCKS).find? (fun i =>
    match slot buffer i with
    | none => true
    | some d => d.size = 0 ∨ d.offset < HEADER_SIZE ∨ d.offset + d.size > buffer.length)).getD
    MAX_BLOCKS

/-- The blocks the specification extracts from slot `i` on, with `n` slots
left: the stop rule with the exact sum `offset + size`. -/
def spec_blocks (buffer : List Byte) : Nat → Nat → List Extracted
  | 0, _ => []
  | n + 1, i =>
    match slot buffer i with
    | none => []
    | some d =>
      if d.size = 0 ∨ d.offset < HEADER_SIZE ∨ d.offset + d.size > buffer.length then []
      else ⟨i, d, (buffer.drop d.offset).take d.size⟩ :: spec_blocks buffer n (i + 1)

/-- A 100-byte file whose slot 0 declares 32 bytes at offset `0xFFFFFFF0`. -/
def wrap_container_a : List Byte :=
  container ⟨1, 0x20, 0, 0xFFFFFFF0⟩ ⟨0, 0, 0, 0⟩ ⟨0, 0, 0, 0⟩ (List.replicate 16 0)

/-- An 84-byte file whose slot 0 declares one byte at offset `0xFFFFFFFF`. -/
def wrap_container_b : List Byte :=
  container ⟨1, 1, 0x1000, 0xFFFFFFFF⟩ ⟨0, 0, 0, 0⟩ ⟨0, 0, 0, 0⟩ []

/-- Three blocks; the first payload has the bytes of a descriptor
`{lmode = 1, size = 1, adr = 0, offset = 84}` followed by 16 zero bytes. -/
def phantom_blocks : List PackBlock :=
  [block_of 1 0x1000 (encode_desc ⟨1, 1, 0, 84⟩ ++ List.replicate 16 0),
   block_of 2 0x2000 [0xAA], block_of 1 0x3000 [0xBB]]

/-- Four blocks of 1, 1, 1 and 20 bytes. -/
def four_blocks : List PackBlock :=
  [block_of 1 0x1000 [0x11], block_of 2 0x2000 [0x22], block_of 1 0x3000 [0x33],
   block_of 1 0x4000 (List.replicate 20 0xAA)]

/-- A header file with the magic and two stale descriptors: slot 0 and slot 1
both declare one byte at offset 84. -/
def stale_header : List Byte :=
  container ⟨1, 1, 0, 84⟩ ⟨1, 1, 0, 84⟩ ⟨0, 0, 0, 0⟩ []

/-- C10 as stated: in every buffer `pack_loader` produces, slot `i` has a zero
size field. -/
def skipped_slot_is_zero (header_file : Option (List Byte)) (blocks : List PackBlock)
    (i : Nat) : Prop :=
  ∀ out, pack_loader header_file blocks = Outcome.ok out →
    readU32 out (blocks_offset i + 4) = some 0

/-! ## Container: declared and actual payload length -/

/-- The block with its declared size replaced by the length of its payload
file (unchanged when the file cannot be read). -/
def declare_actual (b : PackBlock) : PackBlock :=
  match b.file with
  | none => b
  | some data => { b with desc := { b.desc with size := data.length } }

/-- A block that declares one byte and comes with a payload of two. -/
def long_payload_block : PackBlock := ⟨⟨1, 1, 0x1000, 0⟩, some [0xAA, 0xBB]⟩

/-- A block that declares two bytes and comes with a payload of one. -/
def short_payload_block : PackBlock := ⟨⟨1, 2, 0x1000, 0⟩, some [0xAA]⟩

/-- The packed file of one block with mode 1, address `0x1000` and the given
payload: magic, 32 reserved bytes, the descriptor with the length of the
payload and offset 84, two empty slots, the payload. -/
def one_block_file (payload : List Byte) : List Byte :=
  container ⟨1, payload.length, 0x1000, HEADER_SIZE⟩ ⟨0, 0, 0, 0⟩ ⟨0, 0, 0, 0⟩ payload

/-! ## parts.h: the partition table -/

/-- Partition descriptor (`struct ptable_line`, 48 bytes). -/
structure ptable_line where
  /-- `char name[16]` -/
  name : List Byte
  start : Nat
  lsize : Nat
  length : Nat
  loadaddr : Nat
  entry : Nat
  type : Nat
  /-- partition flags -/
  nproperty : Nat
  count : Nat
deriving DecidableEq

/-- Full structure of the partition table page (`struct ptable_t`, 2048
bytes). -/
structure ptable_t where
  /-- `uint8_t head[16]` -/
  head : List Byte
  /-- `uint8_t version[16]` -/
  version : List Byte
  /-- `uint8_t product[16]` -/
  product : List Byte
  /-- `struct ptable_line part[41]` -/
  part : List ptable_line
  /-- `uint8_t tail[32]` -/
  tail : List Byte
deriving DecidableEq

/-- The values of the C type `struct ptable_line`: a 16-byte name and eight
`unsigned` fields. -/
def ptable_line.wf (l : ptable_line) : Prop :=
  l.name.length = 16 ∧ l.start < 2 ^ 32 ∧ l.lsize < 2 ^ 32 ∧ l.length < 2 ^ 32 ∧
  l.loadaddr < 2 ^ 32 ∧ l.entry < 2 ^ 32 ∧ l.type < 2 ^ 32 ∧ l.nproperty < 2 ^ 32 ∧
  l.count < 2 ^ 32

/-- The values of the C type `struct ptable_t`. -/
def ptable_t.wf (t : ptable_t) : Prop :=
  t.head.length = 16 ∧ t.version.length = 16 ∧ t.product.length = 16 ∧
  t.part.length = 41 ∧ (∀ l ∈ t.part, l.wf) ∧ t.tail.length = 32

def sizeof_ptable_line : Nat := 16 + 8 * 4

def sizeof_ptable_t : Nat := 16 + 16 + 16 + 41 * sizeof_ptable_line + 32

/-- Memory image of a `struct ptable_line`: the fields in declaration order. -/
def encode_line (l : ptable_line) : List Byte :=
  l.name ++ le32 l.start ++ le32 l.lsize ++ le32 l.length ++ le32 l.loadaddr ++
    le32 l.entry ++ le32 l.type ++ le32 l.nproperty ++ le32 l.count

/-- The `unsigned` stored in the first four bytes of `bs`. -/
def u32 (bs : List Byte) : Nat := (readU32 bs 0).getD 0

/-- The `struct ptable_line` stored in the first 48 bytes of `bs`. -/
def decode_line (bs : List Byte) : ptable_line :=
  { name := bs.take 16
    start := u32 (bs.drop 16)
    lsize := u32 (bs.drop 20)
    length := u32 (bs.drop 24)
    loadaddr := u32 (bs.drop 28)
    entry := u32 (bs.drop 32)
    type := u32 (bs.drop 36)
    nproperty := u32 (bs.drop 40)
    count := u32 (bs.drop 44) }

/-- The array of `n` `struct ptable_line` stored at the start of `bs`. -/
def decode_lines : Nat → List Byte → List ptable_line
  | 0, _ => []
  | n + 1, bs => decode_line bs :: decode_lines n (bs.drop sizeof_ptable_line)

/-- The bytes `fwrite(&ptable, sizeof(ptable), 1, out)` writes (`build_bin`). -/
def fwrite_ptable (t : ptable_t) : List Byte :=
  t.head ++ t.version ++ t.product ++ (t.part.map encode_line).flatten ++ t.tail

/-- The table `fread(&ptable, sizeof(ptable), 1, in)` reads (`dump_bin`);
`none` when the file has fewer than `sizeof(ptable)` bytes. -/
def fread_ptable (input : List Byte) : Option ptable_t :=
  if input.length < sizeof_ptable_t then none
  else some
    { head := input.take 16
      version := (input.drop 16).take 16
      product := (input.drop 32).take 16
      part := decode_lines 41 (input.drop 48)
      tail := (input.drop (48 + 41 * sizeof_ptable_line)).take 32 }

/-! ## ptable-editor.c: the text form of the partition table -/

def MAX_LINE : Nat := 256

/-- The byte of an ASCII character. -/
def ch (c : Char) : Byte := byte c.toNat

/-- The bytes of an ASCII string literal (without terminator). -/
def str (s : String) : List Byte := s.toList.map ch

/-- The function `isspace` of the C locale: space, `\t`, `\n`, `\v`, `\f`,
`\r`. -/
def isspace (c : Byte) : Bool := c.val = 32 || (9 ≤ c.val && c.val ≤ 13)

/-- The C string held in a buffer: the bytes before the first NUL. -/
def cstr (buf : List Byte) : List Byte := buf.takeWhile (fun c => c ≠ 0)

/-- The C string starting at the first byte of a memory region; `none` when
the region holds no NUL. -/
def c_string (mem : List Byte) : Option (List Byte) :=
  if (cstr mem).length < mem.length then some (cstr mem) else none

/-- The function `strip` on a C string: leading and trailing white space is
removed. -/
def strip (s : List Byte) : List Byte :=
  ((s.dropWhile isspace).reverse.dropWhile isspace).reverse

/-- The buffer `dst` (`len + 1` bytes) after `trim_trailing_zero(dst, src,
len)`: the bytes of `src` with every trailing NUL or space replaced by NUL. -/
def trim_trailing_zero (src : List Byte) : List Byte :=
  let kept := (src.reverse.dropWhile (fun c => c.val = 0 || c.val = 32)).reverse
  kept ++ List.replicate (src.length + 1 - kept.length) 0

/-- Lower-case hexadecimal digit. -/
def hex_char (d : Nat) : Byte := if d < 10 then byte (48 + d) else byte (87 + d)

/-- Digits of `n` in base 16, most significant first, in front of `acc`; at
most `fuel` digits. -/
def fmt_x_loop : Nat → Nat → List Byte → List Byte
  | 0, _, acc => acc
  | fuel + 1, n, acc =>
    if n / 16 = 0 then hex_char (n % 16) :: acc
    else fmt_x_loop fuel (n / 16) (hex_char (n % 16) :: acc)

/-- The conversion `%x` of an `unsigned`: at most eight digits. -/
def fmt_x (v : Nat) : List Byte := fmt_x_loop 8 (v % 2 ^ 32) []

/-- The conversion `%02x` of a `uint8_t`. -/
def fmt_02x (b : Byte) : List Byte := [hex_char (b.val / 16), hex_char (b.val % 16)]

/-- The ten `fprintf` calls of `write_text` for one partition; `name` is the
C string at `line->name`. -/
def write_entry (line : ptable_line) (name : List Byte) : List Byte :=
  str "[partition]\n" ++
  (str "name=" ++ name ++ str "\n") ++
  (str "start=0x" ++ fmt_x line.start ++ str "\n") ++
  (str "length=0x" ++ fmt_x line.length ++ str "\n") ++
  (str "lsize=0x" ++ fmt_x line.lsize ++ str "\n") ++
  (str "loadaddr=0x" ++ fmt_x line.loadaddr ++ str "\n") ++
  (str "entry=0x" ++ fmt_x line.entry ++ str "\n") ++
  (str "nproperty=0x" ++ fmt_x line.nproperty ++ str "\n") ++
  (str "type=0x" ++ fmt_x line.type ++ str "\n") ++
  (str "count=0x" ++ fmt_x line.count ++ str "\n\n")

/-- The partition loop of `write_text` over `part[idx], part[idx + 1], ...`.
The string printed by `%s` for `line->name` is read from the memory of the
table, which continues with the other fields of the entry, the following
entries and `tail`; when no NUL follows, the read runs from the name past the
last byte of the table. -/
def write_parts (tail : List Byte) : Nat → List ptable_line → Outcome (List Byte)
  | _, [] => .ok []
  | idx, line :: rest =>
    if line.name[0]? = some 0 then .ok [] else
    match c_string (((line :: rest).map encode_line).flatten ++ tail) with
    | none =>
      .fault (.read (48 + sizeof_ptable_line * idx)
        (sizeof_ptable_t - (48 + sizeof_ptable_line * idx) + 1))
    | some name =>
      if name = str "T" then .ok (write_entry line name) else
      match write_parts tail (idx + 1) rest with
      | .ok out => .ok (write_entry line name ++ out)
      | .fail => .fail
      | .fault f => .fault f

/-- The lines `write_text` prints before the partitions. -/
def write_header (t : ptable_t) : List Byte :=
  (str "version=" ++ cstr (trim_trailing_zero t.version) ++ str "\n") ++
  (str "product=" ++ cstr (trim_trailing_zero t.product) ++ str "\n") ++
  (str "tail=" ++ ((t.tail.take 32).map fmt_02x).flatten ++ str "\n\n")

/-- The function `write_text`: the text written to `out`. -/
def write_text (t : ptable_t) : Outcome (List Byte) :=
  match write_parts t.tail 0 (t.part.take 41) with
  | .ok out => .ok (write_header t ++ out)
  | .fail => .fail
  | .fault f => .fault f

/-- Value of a digit or letter in `strtoul` (`36` for any other byte). -/
def digit_val (c : Byte) : Nat :=
  if 48 ≤ c.val ∧ c.val ≤ 57 then c.val - 48
  else if 97 ≤ c.val ∧ c.val ≤ 122 then c.val - 87
  else if 65 ≤ c.val ∧ c.val ≤ 90 then c.val - 55
  else 36

/-- The value of the longest prefix of `s` made of digits of `base`. -/
def parse_digits (base : Nat) (s : List Byte) : Nat :=
  ((s.takeWhile (fun c => digit_val c < base)).map digit_val).foldl
    (fun acc d => acc * base + d) 0

def ULONG_MAX : Nat := 2 ^ 64 - 1

/-- The optional sign of `strtoul`: whether it is a minus, and the rest. -/
def strtoul_sign (s : List Byte) : Bool × List Byte :=
  match s with
  | c :: r => if c = ch '-' then (true, r) else if c = ch '+' then (false, r) else (false, s)
  | [] => (false, s)

/-- The magnitude `strtoul` reads with base 0: hexadecimal after `0x` followed
by a hexadecimal digit, else octal after a leading `0`, else decimal. -/
def strtoul_magnitude (s : List Byte) : Nat :=
  match s with
  | c0 :: c1 :: c2 :: r =>
    if c0 = ch '0' ∧ (c1 = ch 'x' ∨ c1 = ch 'X') ∧ digit_val c2 < 16 then
      parse_digits 16 (c2 :: r)
    else if c0 = ch '0' then parse_digits 8 s else parse_digits 10 s
  | c0 :: _ => if c0 = ch '0' then parse_digits 8 s else parse_digits 10 s
  | [] => 0

/-- The call `strtoul(s, NULL, 0)` with a 64-bit `unsigned long`: white space,
an optional sign, the magnitude; `ULONG_MAX` on overflow, the negated value
after a minus sign. -/
def strtoul (s : List Byte) : Nat :=
  let signed := strtoul_sign (s.dropWhile isspace)
  let v := strtoul_magnitude signed.2
  if v > ULONG_MAX then ULONG_MAX else if signed.1 then (2 ^ 64 - v) % 2 ^ 64 else v

/-- The call `sscanf(byte_str, "%02x", &value)` on the two characters
`c0 c1`: the value stored when the call returns 1, `none` otherwise.  White
space is skipped, then at most two characters are read: an optional sign,
an optional `0x`, hexadecimal digits. -/
def scan_02x (c0 c1 : Byte) : Option Nat :=
  match [c0, c1].dropWhile isspace with
  | [] => none
  | [a] => if digit_val a < 16 then some (digit_val a) else none
  | a :: b :: _ =>
    if a = ch '-' then
      (if digit_val b < 16 then some ((2 ^ 32 - digit_val b) % 2 ^ 32) else none)
    else if a = ch '+' then (if digit_val b < 16 then some (digit_val b) else none)
    else if digit_val a < 16 then
      (if digit_val b < 16 then some (16 * digit_val a + digit_val b) else some (digit_val a))
    else none

/-- The loop of `parse_tail` over the pairs of characters. -/
def parse_tail_loop : List Byte → Option (List Byte)
  | c0 :: c1 :: rest =>
    match scan_02x c0 c1 with
    | none => none
    | some value =>
      match parse_tail_loop rest with
      | none => none
      | some bytes => some (byte value :: bytes)
  | _ => some []

/-- The function `parse_tail`: the 32 bytes stored in `tail`, `none` when it
returns -1. -/
def parse_tail (hex : List Byte) : Option (List Byte) :=
  if hex.length ≠ 64 then none else parse_tail_loop hex

def zero_line : ptable_line := ⟨List.replicate 16 0, 0, 0, 0, 0, 0, 0, 0, 0⟩

/-- The function `clear_ptable`; `headmagic` is the 16-byte constant declared
in `parts.h`, whose value is defined outside the sources at hand. -/
def clear_ptable (headmagic : List Byte) : ptable_t :=
  { head := headmagic
    version := List.replicate 16 0
    product := List.replicate 16 0
    part := List.replicate 41 zero_line
    tail := List.replicate 32 0 }

/-- The chunks successive calls of `fgets(linebuf, n, in)` return: each ends
after a newline, after `n - 1` bytes, or at the end of the file.  `acc` is the
chunk being read. -/
def fgets_loop (n : Nat) : List Byte → List Byte → List (List Byte)
  | [], acc => if acc = [] then [] else [acc]
  | c :: cs, acc =>
    if c = ch '\n' ∨ acc.length + 2 ≥ n then (acc ++ [c]) :: fgets_loop n cs []
    else fgets_loop n cs (acc ++ [c])

def fgets_chunks (n : Nat) (input : List Byte) : List (List Byte) := fgets_loop n input []

/-- Why `parse_text` returns -1. -/
inductive ParseError where
  | too_many_partitions
  | invalid_line
  | invalid_tail
  | data_before_header
  | name_too_long
  | unknown_key
deriving DecidableEq

deriving instance DecidableEq for Except

/-- The variables `current` and `*ptable` of `parse_text`. -/
structure ParseState where
  current : Int
  ptable : ptable_t
deriving DecidableEq

/-- A 16-byte field after `memset(dst, 0, 16)` and the copy of at most 16
characters of `value` (`strncpy`, or `strcpy` of a shorter string). -/
def copy16 (value : List Byte) : List Byte :=
  value.take 16 ++ List.replicate (16 - value.length) 0

/-- The update `lineptr->... = ...` on `part[current]`. -/
def update_line (st : ParseState) (f : ptable_line → ptable_line) : ParseState :=
  { st with ptable := { st.ptable with
      part := st.ptable.part.set st.current.toNat
        (f (st.ptable.part.getD st.current.toNat zero_line)) } }

/-- The branch of `parse_text` for a `key=value` line. -/
def parse_key_value (st : ParseState) (key value : List Byte) : Except ParseError ParseState :=
  if key = str "version" then
    .ok { st with ptable := { st.ptable with version := copy16 value } }
  else if key = str "product" then
    .ok { st with ptable := { st.ptable with product := copy16 value } }
  else if key = str "tail" then
    match parse_tail value with
    | none => .error .invalid_tail
    | some tail => .ok { st with ptable := { st.ptable with tail := tail } }
  else if st.current < 0 then .error .data_before_header
  else if key = str "name" then
    if value.length ≥ 16 then .error .name_too_long
    else .ok (update_line st (fun l => { l with name := copy16 value }))
  else if key = str "start" then
    .ok (update_line st (fun l => { l with start := strtoul value % 2 ^ 32 }))
  else if key = str "length" then
    .ok (update_line st (fun l => { l with length := strtoul value % 2 ^ 32 }))
  else if key = str "lsize" then
    .ok (update_line st (fun l => { l with lsize := strtoul value % 2 ^ 32 }))
  else if key = str "loadaddr" then
    .ok (update_line st (fun l => { l with loadaddr := strtoul value % 2 ^ 32 }))
  else if key = str "entry" then
    .ok (update_line st (fun l => { l with entry := strtoul value % 2 ^ 32 }))
  else if key = str "nproperty" then
    .ok (update_line st (fun l => { l with nproperty := strtoul value % 2 ^ 32 }))
  else if key = str "type" then
    .ok (update_line st (fun l => { l with type := strtoul value % 2 ^ 32 }))
  else if key = str "count" then
    .ok (update_line st (fun l => { l with count := strtoul value % 2 ^ 32 }))
  else .error .unknown_key

/-- The body of the `while (fgets(...))` loop of `parse_text` for one chunk
`linebuf`. -/
def parse_line (st : ParseState) (linebuf : List Byte) : Except ParseError ParseState :=
  let line := strip (cstr linebuf)
  if line.head? = none ∨ line.head? = some (ch '#') then .ok st
  else if line = str "[partition]" then
    if st.current ≥ 40 then .error .too_many_partitions
    else .ok { current := st.current + 1,
               ptable := { st.ptable with
                 part := st.ptable.part.set (st.current + 1).toNat zero_line } }
  else
    match line.dropWhile (fun c => c ≠ ch '=') with
    | [] => .error .invalid_line
    | _ :: after =>
      parse_key_value st (strip (line.takeWhile (fun c => c ≠ ch '='))) (strip after)

/-- The `while` loop of `parse_text` over the chunks of the input. -/
def parse_lines : List (List Byte) → ParseState → Except ParseError ParseState
  | [], st => .ok st
  | linebuf :: rest, st =>
    match parse_line st linebuf with
    | .error e => .error e
    | .ok st1 => parse_lines rest st1

/-- The statement after the loop: `ptable->part[current + 1].name[0] = 0`
when `0 <= current < 40`. -/
def terminate_table (st : ParseState) : ptable_t :=
  if 0 ≤ st.current ∧ st.current < 40 then
    { st.ptable with
      part := st.ptable.part.set (st.current + 1).toNat
        (let l := st.ptable.part.getD (st.current + 1).toNat zero_line
         { l with name := l.name.set 0 0 }) }
  else st.ptable

/-- The function `parse_text` on the contents of the input file: the table,
or the reason of the return of -1. -/
def parse_text (headmagic : List Byte) (input : List Byte) : Except ParseError ptable_t :=
  match parse_lines (fgets_chunks MAX_LINE input) ⟨-1, clear_ptable headmagic⟩ with
  | .error e => .error e
  | .ok st => .ok (terminate_table st)

/-- The function `dump_bin`: the text written for the contents of the input
file; `Outcome.fail` is the return of -1. -/
def dump_bin (input : List Byte) : Outcome (List Byte) :=
  match fread_ptable input with
  | none => .fail
  | some ptable => write_text ptable

/-- The function `build_bin`: the bytes written for the contents of the input
file, or the reason of the return of -1. -/
def build_bin (headmagic : List Byte) (input : List Byte) : Except ParseError (List Byte) :=
  match parse_text headmagic input with
  | .error e => .error e
  | .ok ptable => .ok (fwrite_ptable ptable)

/-! ## Partition table: predicates used in the statements -/

/-- A fixed-size field without its trailing NUL/space padding. -/
def unpad (field : List Byte) : List Byte :=
  (field.reverse.dropWhile (fun c => c.val = 0 || c.val = 32)).reverse

/-- A string with no white space at either end. -/
def clean (s : List Byte) : Prop :=
  (∀ c, s.head? = some c → isspace c = false) ∧ (∀ c, s.getLast? = some c → isspace c = false)

/-- A string that a `key=value` line carries unchanged: no NUL, no line feed,
no white space at either end. -/
def text_ok (s : List Byte) : Prop :=
  (∀ c ∈ s, c ≠ 0 ∧ c ≠ ch '\n') ∧ clean s

/-- An entry that holds nothing: a name made of padding only and eight zero
fields. -/
def blank (l : ptable_line) : Prop :=
  unpad l.name = [] ∧ l.start = 0 ∧ l.lsize = 0 ∧ l.length = 0 ∧ l.loadaddr = 0 ∧
  l.entry = 0 ∧ l.type = 0 ∧ l.nproperty = 0 ∧ l.count = 0

/-- No entry is stored after the logical terminator: after the first entry
whose name is empty or equals `T`, every entry is blank. -/
def no_entries_after_terminator : List ptable_line → Prop
  | [] => True
  | l :: rest =>
    if l.name[0]? = some 0 ∨ cstr l.name = str "T" then ∀ x ∈ rest, blank x
    else no_entries_after_terminator rest

/-- Two entries agree in the eight numeric fields and, up to trailing
NUL/space padding, in the name. -/
def agrees (p q : ptable_line) : Prop :=
  unpad p.name = unpad q.name ∧ p.start = q.start ∧ p.lsize = q.lsize ∧
  p.length = q.length ∧ p.loadaddr = q.loadaddr ∧ p.entry = q.entry ∧ p.type = q.type ∧
  p.nproperty = q.nproperty ∧ p.count = q.count

/-- The text round trip: `write_text` succeeds, `parse_text` accepts its
output, and the parsed table equals the original in `head`, in `tail` and in
the numeric fields of the 41 entries, and in `version`, `product` and the names
up to trailing NUL/space padding. -/
def text_round_trip (headmagic : List Byte) (t : ptable_t) : Prop :=
  ∃ text t', write_text t = Outcome.ok text ∧ parse_text headmagic text = Except.ok t' ∧
    t'.head = t.head ∧ t'.tail = t.tail ∧ unpad t'.version = unpad t.version ∧
    unpad t'.product = unpad t.product ∧ t'.part.length = t.part.length ∧
    ∀ (i : Nat) (p q : ptable_line), t'.part[i]? = some p → t.part[i]? = some q → agrees p q

/-- The tables of the text round-trip law as the claim describes them: the
head is the magic, every name holds a NUL, and nothing is stored after the
logical terminator. -/
def text_table (headmagic : List Byte) (t : ptable_t) : Prop :=
  t.wf ∧ t.head = headmagic ∧ (∀ l ∈ t.part, (0 : Byte) ∈ l.name) ∧
  no_entries_after_terminator t.part

/-! ## Partition table: tables used as inputs -/

/-- A head magic for the examples: the string `ptable-list.c` compares the
head with, NUL-padded to 16 bytes. -/
def example_magic : List Byte := str "pTableHead" ++ List.replicate 6 0

/-- A table with one partition. -/
def example_table : ptable_t :=
  { head := example_magic
    version := copy16 (str "V1.0")
    product := copy16 (str "E3372")
    part := ⟨copy16 (str "modem"), 0x100, 0, 0x200, 0, 0, 0, 0, 0⟩ ::
      List.replicate 40 zero_line
    tail := List.replicate 32 0 }

/-- The table `example_table` with a version that begins with a space. -/
def spaced_table : ptable_t := { example_table with version := copy16 (str " V1.0") }

/-- The table `example_table` with a version that holds a NUL before its last
character. -/
def nul_table : ptable_t :=
  { example_table with version := str "V1" ++ [0] ++ str "x" ++ List.replicate 12 0 }

/-- The table `example_table` with a line feed in the name of its partition. -/
def newline_table : ptable_t :=
  { example_table with
    part := ⟨copy16 (str "a\nb"), 0x100, 0, 0x200, 0, 0, 0, 0, 0⟩ ::
      List.replicate 40 zero_line }

/-- A table without partitions whose first entry has an empty name and
`start = 1`. -/
def hidden_table : ptable_t :=
  { example_table with
    part := ⟨List.replicate 16 0, 1, 0, 0, 0, 0, 0, 0, 0⟩ :: List.replicate 40 zero_line }

/-! ## Partition table: notions used in the proofs -/

/-- A key that `parse_text` reads back unchanged. -/
def key_ok (k : List Byte) : Prop :=
  k ≠ [] ∧ (∀ c ∈ k, isspace c = false ∧ c ≠ ch '=' ∧ c ≠ 0) ∧ k.head? ≠ some (ch '#')

/-- Value of a list of digits in base 16. -/
def hex_value (ds : List Nat) : Nat := ds.foldl (fun acc d => acc * 16 + d) 0

/-- NUL or space: the padding bytes. -/
def is_pad (c : Byte) : Bool := c.val = 0 || c.val = 32

/-- The entry `parse_text` builds from the lines `write_text` prints for `l`. -/
def parsed_line (l : ptable_line) : ptable_line := { l with name := copy16 (unpad l.name) }

/-- The table `t` with the partition array `P`. -/
def with_part (t : ptable_t) (P : List ptable_line) : ptable_t := { t with part := P }

/-- Nothing is stored from the first empty-named entry on, nor after the first
entry named `T`. -/
def blank_from_terminator : List ptable_line → Prop
  | [] => True
  | l :: rest =>
    if l.name[0]? = some 0 then ∀ x ∈ l :: rest, blank x
    else if cstr l.name = str "T" then ∀ x ∈ rest, blank x
    else blank_from_terminator rest

/-! ## Partition table: the predicates of the statements are decidable -/

instance (s : List Byte) : Decidable (clean s) :=
  decidable_of_iff
    ((s.head?.all fun c => !isspace c) = true ∧ (s.getLast?.all fun c => !isspace c) = true)
    (by
      unfold clean
      cases s.head? <;> cases s.getLast? <;> simp)

instance (s : List Byte) : Decidable (text_ok s) :=
  inferInstanceAs (Decidable ((∀ c ∈ s, c ≠ 0 ∧ c ≠ ch '\n') ∧ clean s))

instance (l : ptable_line) : Decidable l.wf :=
  inferInstanceAs (Decidable (l.name.length = 16 ∧ l.start < 2 ^ 32 ∧ l.lsize < 2 ^ 32 ∧
    l.length < 2 ^ 32 ∧ l.loadaddr < 2 ^ 32 ∧ l.entry < 2 ^ 32 ∧ l.type < 2 ^ 32 ∧
    l.nproperty < 2 ^ 32 ∧ l.count < 2 ^ 32))

instance (l : ptable_line) : Decidable (blank l) :=
  inferInstanceAs (Decidable (unpad l.name = [] ∧ l.start = 0 ∧ l.lsize = 0 ∧ l.length = 0 ∧
    l.loadaddr = 0 ∧ l.entry = 0 ∧ l.type = 0 ∧ l.nproperty = 0 ∧ l.count = 0))

/-! ## Partition table: the terminator rule of the text form -/

/-- The name of an entry is its C string: empty, or equal to the sentinel. -/
def is_terminator (l : ptable_line) : Bool :=
  decide (cstr l.name = [] ∨ cstr l.name = str "T")

/-- The entries the terminator rule emits, in the words of the rule: with `k`
the index of the first entry whose name is empty or `T`, the entries `0..k`
when entry `k` is named `T`, the entries before `k` when its name is empty, and
every entry when there is no such `k`. -/
def spec_emitted (part : List ptable_line) : List ptable_line :=
  match part.findIdx? is_terminator with
  | none => part
  | some k =>
    if cstr (part.getD k zero_line).name = str "T" then part.take (k + 1) else part.take k

/-- The line `key=value` with its line feed. -/
def key_value_line (key value : List Byte) : List Byte := (key ++ ch '=' :: value) ++ [ch '\n']

/-- The `[partition]` block of the text form for an entry whose name is
printed as `name`, in the words of the format: the marker line, the line of
the name, the lines of the eight numbers in the order `start`, `length`,
`lsize`, `loadaddr`, `entry`, `nproperty`, `type`, `count`, each in
hexadecimal after `0x`, and a blank line. -/
def spec_block (l : ptable_line) (name : List Byte) : List Byte :=
  str "[partition]\n" ++
  key_value_line (str "name") name ++
  key_value_line (str "start") (str "0x" ++ fmt_x l.start) ++
  key_value_line (str "length") (str "0x" ++ fmt_x l.length) ++
  key_value_line (str "lsize") (str "0x" ++ fmt_x l.lsize) ++
  key_value_line (str "loadaddr") (str "0x" ++ fmt_x l.loadaddr) ++
  key_value_line (str "entry") (str "0x" ++ fmt_x l.entry) ++
  key_value_line (str "nproperty") (str "0x" ++ fmt_x l.nproperty) ++
  key_value_line (str "type") (str "0x" ++ fmt_x l.type) ++
  key_value_line (str "count") (str "0x" ++ fmt_x l.count) ++
  str "\n"

/-- The `[partition]` blocks of the given entries, one after the other, each
with the C string of its name field as name. -/
def spec_blocks_text (ls : List ptable_line) : List Byte :=
  (ls.map (fun l => spec_block l (cstr l.name))).flatten

/-- The strings `%s` prints for the names of the first `m` entries of `ls`:
for each, the bytes from the first byte of its name up to the first NUL in the
memory of the table, which goes on with the other fields of the entry, the
entries after it and `tail`; `none` when for one of them no NUL follows in the
table. -/
def printed_names (tail : List Byte) : List ptable_line → Nat → Option (List (List Byte))
  | _, 0 => some []
  | [], _ + 1 => some []
  | l :: rest, m + 1 =>
    match c_string (((l :: rest).map encode_line).flatten ++ tail),
      printed_names tail rest m with
    | some name, some names => some (name :: names)
    | _, _ => none

/-- A table of 41 entries named `T`. -/
def sentinel_table : ptable_t :=
  { example_table with
    part := List.replicate 41 ⟨copy16 (str "T"), 1, 0, 2, 0, 0, 0, 0, 0⟩ }

/-- A table whose 41 entries are all named `part`. -/
def full_table : ptable_t :=
  { example_table with
    part := List.replicate 41 ⟨copy16 (str "part"), 1, 0, 2, 0, 0, 0, 0, 0⟩ }

/-- A table whose entry 0 has a name of 16 characters, without NUL, and the
start `0x31323334`; entry 1 has an empty name. -/
def long_name_table : ptable_t :=
  { example_table with
    part := ⟨str "ABCDEFGHIJKLMNOP", 0x31323334, 0, 0x200, 0, 0, 0, 0, 0⟩ ::
      List.replicate 40 zero_line }

/-- A table of bytes `A`: no byte of it is NUL. -/
def unterminated_table : ptable_t :=
  { head := List.replicate 16 (ch 'A')
    version := List.replicate 16 (ch 'A')
    product := List.replicate 16 (ch 'A')
    part := List.replicate 41
      ⟨List.replicate 16 (ch 'A'), 0x41414141, 0x41414141, 0x41414141, 0x41414141,
        0x41414141, 0x41414141, 0x41414141, 0x41414141⟩
    tail := List.replicate 32 (ch 'A') }

/-! ## Partition table: the lines of a text -/

/-- The lines of a text, each with the line feed that ends it (the last line
may have none); `acc` is the line being read. -/
def text_lines_loop : List Byte → List Byte → List (List Byte)
  | [], acc => if acc = [] then [] else [acc]
  | c :: cs, acc =>
    if c = ch '\n' then (acc ++ [c]) :: text_lines_loop cs []
    else text_lines_loop cs (acc ++ [c])

def text_lines (input : List Byte) : List (List Byte) := text_lines_loop input []

/-- Every line of the text, its line feed included, fits the buffer `linebuf`
of `parse_text` with the terminator `fgets` adds. -/
def lines_fit (input : List Byte) : Prop := ∀ l ∈ text_lines input, l.length < MAX_LINE

instance (input : List Byte) : Decidable (lines_fit input) :=
  inferInstanceAs (Decidable (∀ l ∈ text_lines input, l.length < MAX_LINE))

/-- What the loop body of `parse_text` takes a line for, before it acts on
it. -/
inductive LineKind where
  /-- blank, or a comment: the first character left by `strip` is `#` -/
  | ignored
  /-- the line `[partition]` -/
  | marker
  /-- a line with `=`: the stripped text before the first `=` and after it -/
  | key_value (key value : List Byte)
  /-- anything else: a line without `=` -/
  | invalid
deriving DecidableEq

/-- The reading of one line in `parse_text`: `strip`, the tests for a blank
line, a comment and the marker, and the split at the first `=`. -/
def read_line (linebuf : List Byte) : LineKind :=
  let line := strip (cstr linebuf)
  if line.head? = none ∨ line.head? = some (ch '#') then .ignored
  else if line = str "[partition]" then .marker
  else
    match line.dropWhile (fun c => c ≠ ch '=') with
    | [] => .invalid
    | _ :: after => .key_value (strip (line.takeWhile (fun c => c ≠ ch '='))) (strip after)

/-- The key of a `key=value` line. -/
def line_key (l : List Byte) : Option (List Byte) :=
  match read_line l with
  | .key_value key _ => some key
  | _ => none

/-- The keys of the `key=value` lines among `ls`. -/
def keys_of (ls : List (List Byte)) : List (List Byte) := ls.filterMap line_key

/-- The number of `[partition]` lines among `ls`. -/
def opened (ls : List (List Byte)) : Nat := ls.countP (fun l => read_line l = .marker)

/-- The lines of group `k`, where the `[partition]` lines cut the text into
groups: group 0 holds the lines before the first marker, group `i + 1` the
lines after marker `i` and before the next. -/
def group : List (List Byte) → Nat → List (List Byte)
  | [], _ => []
  | l :: rest, 0 => if read_line l = .marker then [] else l :: group rest 0
  | l :: rest, k + 1 => if read_line l = .marker then group rest k else group rest (k + 1)

/-- The lines of the text that belong to entry `i`. -/
def entry_lines (input : List Byte) (i : Nat) : List (List Byte) :=
  group (text_lines input) (i + 1)

/-- The eight numeric fields of an entry. -/
inductive NumField where
  | start | length | lsize | loadaddr | entry | nproperty | type | count
deriving DecidableEq

/-- The key of a numeric field in the text form. -/
def NumField.key : NumField → List Byte
  | .start => str "start"
  | .length => str "length"
  | .lsize => str "lsize"
  | .loadaddr => str "loadaddr"
  | .entry => str "entry"
  | .nproperty => str "nproperty"
  | .type => str "type"
  | .count => str "count"

def NumField.get : NumField → ptable_line → Nat
  | .start, l => l.start
  | .length, l => l.length
  | .lsize, l => l.lsize
  | .loadaddr, l => l.loadaddr
  | .entry, l => l.entry
  | .nproperty, l => l.nproperty
  | .type, l => l.type
  | .count, l => l.count

def NumField.set : NumField → ptable_line → Nat → ptable_line
  | .start, l, v => { l with start := v }
  | .length, l, v => { l with length := v }
  | .lsize, l, v => { l with lsize := v }
  | .loadaddr, l, v => { l with loadaddr := v }
  | .entry, l, v => { l with entry := v }
  | .nproperty, l, v => { l with nproperty := v }
  | .type, l, v => { l with type := v }
  | .count, l, v => { l with count := v }

def NumField.all : List NumField :=
  [.start, .length, .lsize, .loadaddr, .entry, .nproperty, .type, .count]

/-- The keys of the table header. -/
def header_keys : List (List Byte) := [str "version", str "product", str "tail"]

/-- The keys of an entry. -/
def entry_keys : List (List Byte) := str "name" :: NumField.all.map NumField.key

/-- The twelve keys `parse_text` knows. -/
def known_keys : List (List Byte) := header_keys ++ entry_keys

/-! ## Partition table: what a text asks for -/

/-- The assignment `parse_text` makes to the open entry for an entry key;
other keys leave the entry as it is. -/
def assign (l : ptable_line) (key value : List Byte) : ptable_line :=
  if key = str "name" then { l with name := copy16 value }
  else if key = str "start" then { l with start := strtoul value % 2 ^ 32 }
  else if key = str "length" then { l with length := strtoul value % 2 ^ 32 }
  else if key = str "lsize" then { l with lsize := strtoul value % 2 ^ 32 }
  else if key = str "loadaddr" then { l with loadaddr := strtoul value % 2 ^ 32 }
  else if key = str "entry" then { l with entry := strtoul value % 2 ^ 32 }
  else if key = str "nproperty" then { l with nproperty := strtoul value % 2 ^ 32 }
  else if key = str "type" then { l with type := strtoul value % 2 ^ 32 }
  else if key = str "count" then { l with count := strtoul value % 2 ^ 32 }
  else l

/-- The entry after one more line of its group. -/
def fill (l : ptable_line) (line : List Byte) : ptable_line :=
  match read_line line with
  | .key_value key value => assign l key value
  | _ => l

/-- The entry a group of lines asks for: the assignments of its lines, in
order of appearance, to an all-zero entry. -/
def entry_of (ls : List (List Byte)) : ptable_line := ls.foldl fill zero_line

/-- A line that `parse_text` takes without complaint: a blank line, a comment,
a marker, or a `key=value` line with a known key, where `tail` has a value
`parse_tail` takes, `name` a value of at most 15 characters, and the key of an
entry stands after a marker (`in_entry`). -/
def valid_line (in_entry : Bool) (l : List Byte) : Bool :=
  match read_line l with
  | .ignored => true
  | .marker => true
  | .invalid => false
  | .key_value key value =>
    decide (key = str "version") || decide (key = str "product") ||
    (decide (key = str "tail") && (parse_tail value).isSome) ||
    (in_entry && decide (key = str "name") && decide (value.length < 16)) ||
    (in_entry && decide (key ∈ NumField.all.map NumField.key))

/-- Every line of the list is valid where it stands: the lines before the
first marker as lines outside an entry (when `in_entry` is false), all others
as lines of an entry. -/
def valid_lines : Bool → List (List Byte) → Bool
  | _, [] => true
  | in_entry, l :: rest =>
    valid_line in_entry l && valid_lines (in_entry || decide (read_line l = .marker)) rest

/-- The invariant of the loop of `parse_text`: the table keeps its 41 entries,
`current` stays between -1 and 40, and the entries after `current` are
all-zero. -/
def ParseState.inv (st : ParseState) : Prop :=
  st.ptable.part.length = 41 ∧ -1 ≤ st.current ∧ st.current ≤ 40 ∧
  ∀ i : Nat, st.current < (i : Int) → i < 41 → st.ptable.part[i]? = some zero_line

/-- Entry `i` after the loop of `parse_text` has run over the lines `ls` from
the state `st`: an entry before the open one stays, the open one takes the
assignments of the lines before the next marker, and entry `current + k` is
what group `k` asks for. -/
def run_entry (st : ParseState) (ls : List (List Byte)) (i : Nat) : ptable_line :=
  if (i : Int) < st.current then st.ptable.part.getD i zero_line
  else if (i : Int) = st.current then (group ls 0).foldl fill (st.ptable.part.getD i zero_line)
  else entry_of (group ls (i - st.current).toNat)

/-! ## Partition table: texts used as inputs -/

/-- The text of the scenario: one entry with a name, a start and a length. -/
def modem_text : List Byte := str "[partition]\nname=modem\nstart=0x100\nlength=0x200\n"

/-- The table of the scenario: entry 0 named `modem` with start `0x100` and
length `0x200`, everything else zero. -/
def modem_table (headmagic : List Byte) : ptable_t :=
  { clear_ptable headmagic with
    part := ⟨copy16 (str "modem"), 0x100, 0, 0x200, 0, 0, 0, 0, 0⟩ ::
      List.replicate 40 zero_line }

/-- The first 255 bytes of a comment line: what one call of `fgets` takes of a
longer line. -/
def long_comment : List Byte := ch '#' :: List.replicate 254 (ch 'x')

/-- A text of one comment line of 265 bytes that ends in `version=1`. -/
def long_comment_version : List Byte := long_comment ++ str "version=1\n"

/-- A text of three lines: a comment of 267 bytes that ends in `[partition]`,
a marker, and a name. -/
def long_comment_marker : List Byte :=
  long_comment ++ str "[partition]\n" ++ str "[partition]\nname=a\n"

/-- A text that opens two entries, named `a` and `b`. -/
def two_entries_text : List Byte := str "[partition]\nname=a\n[partition]\nname=b\n"

/-- A text of 42 markers. -/
def markers_text : List Byte := (List.replicate 42 (str "[partition]\n")).flatten

/-- A text of one line of 267 bytes: `[partition]`, 244 spaces and
`[partition]` again. -/
def double_marker_line : List Byte :=
  str "[partition]" ++ List.replicate 244 (ch ' ') ++ str "[partition]\n"

/-- A text with an unknown key in an entry. -/
def unknown_key_text : List Byte := str "[partition]\nname=a\ncolour=1\n"

/-- A text with the key of an entry before the first marker. -/
def early_key_text : List Byte := str "version=1\nstart=0\n[partition]\n"

/-- A text with a line that has no `=`. -/
def no_equals_text : List Byte := str "[partition]\nname\n"

/-! ## Partition table: lines that `parse_text` passes over -/

/-- A position between two lines of a text: its start, or after a line feed
(`pre` is the text before the position). -/
def at_line_boundary (pre : List Byte) : Prop := pre = [] ∨ pre.getLast? = some (ch '\n')

/-- A blank line: white space only (`body` is the line without its line
feed). -/
def blank_line (body : List Byte) : Prop := ∀ c ∈ body, isspace c = true

/-- A line that begins with `#`. -/
def comment_line (body : List Byte) : Prop := body.head? = some (ch '#')

instance (pre : List Byte) : Decidable (at_line_boundary pre) :=
  inferInstanceAs (Decidable (pre = [] ∨ pre.getLast? = some (ch '\n')))

instance (body : List Byte) : Decidable (blank_line body) :=
  inferInstanceAs (Decidable (∀ c ∈ body, isspace c = true))

instance (body : List Byte) : Decidable (comment_line body) :=
  inferInstanceAs (Decidable (body.head? = some (ch '#')))

/-- A comment line of 256 bytes, 257 with its line feed. -/
def long_comment_line : List Byte := long_comment ++ str "y"

/-! ## Partition table: numbers in the text form -/

/-- The string `digits` is a non-empty string of digits of `base` that denotes
`n`: the value of a digit or letter is `digit_val`. -/
def denotes (base : Nat) (digits : List Byte) (n : Nat) : Prop :=
  digits ≠ [] ∧ (∀ c ∈ digits, digit_val c < base) ∧
  (digits.map digit_val).foldl (fun acc d => acc * base + d) 0 = n

instance (base : Nat) (digits : List Byte) (n : Nat) : Decidable (denotes base digits n) :=
  inferInstanceAs (Decidable (digits ≠ [] ∧ (∀ c ∈ digits, digit_val c < base) ∧
    (digits.map digit_val).foldl (fun acc d => acc * base + d) 0 = n))

/-- A decimal string without a leading zero: its first digit is not `0`, or
it is the string `0`. -/
def no_leading_zero (digits : List Byte) : Prop :=
  digits.head? ≠ some (ch '0') ∨ digits = [ch '0']

instance (digits : List Byte) : Decidable (no_leading_zero digits) :=
  inferInstanceAs (Decidable (digits.head? ≠ some (ch '0') ∨ digits = [ch '0']))

/-- A text whose entry has the start `010`. -/
def leading_zero_text : List Byte := str "[partition]\nstart=010\n"

/-- A text whose entry has as start `0x`, 300 zeros and a `1`. -/
def long_hex_text : List Byte :=
  str "[partition]\n" ++
    key_value_line (str "start") (str "0x" ++ (List.replicate 300 (ch '0') ++ str "1"))

/-! ## Partition table: a file without a NUL -/

/-- A file of 2048 bytes `A`. -/
def unterminated_file : List Byte := List.replicate 2048 (ch 'A')

/-! ## Partition table: the tail in the text form -/

/-- A hexadecimal digit: `0`..`9`, `a`..`f` or `A`..`F`. -/
def hex_digit (c : Byte) : Prop := digit_val c < 16

instance (c : Byte) : Decidable (hex_digit c) := inferInstanceAs (Decidable (digit_val c < 16))

/-- The byte two hexadecimal digits denote. -/
def hex_pair (c0 c1 : Byte) : Byte := byte (16 * digit_val c0 + digit_val c1)

/-- A tail value of 64 characters whose second character is `g`. -/
def non_hex_tail : List Byte := str "1g" ++ List.replicate 62 (ch '0')

/-- A tail value of 64 characters that starts with a space inside the value:
`0`, then a space and `1`. -/
def spaced_tail : List Byte := str "00 1" ++ List.replicate 60 (ch '0')

/-! ## Partition table: the names of a parsed table -/

/-- A 16-byte name field that holds a name of at most 15 characters followed
by NUL bytes only. -/
def name_ok (name : List Byte) : Prop :=
  name.length = 16 ∧ (cstr name).length ≤ 15 ∧
  name = cstr name ++ List.replicate (16 - (cstr name).length) 0

instance (name : List Byte) : Decidable (name_ok name) :=
  inferInstanceAs (Decidable (name.length = 16 ∧ (cstr name).length ≤ 15 ∧
    name = cstr name ++ List.replicate (16 - (cstr name).length) 0))

/-- A text of two lines, a marker and a line of 277 bytes: 250 spaces, then
the key `name` with the value `version=1234567890123` of 21 characters. -/
def long_name_text : List Byte :=
  str "[partition]\n" ++ (List.replicate 250 (ch ' ') ++ str "name=version=1234567890123\n")

/-! ## Partition table: the number a value denotes -/

/-- The value of a string of digits in a base. -/
def digits_value (base : Nat) (ds : List Byte) : Nat :=
  (ds.map digit_val).foldl (fun acc d => acc * base + d) 0

/-- Every character is a digit of the base. -/
def all_digits (base : Nat) (ds : List Byte) : Bool :=
  ds.all (fun c => decide (digit_val c < base))

/-- The valid numerals, without sign: the number the string denotes, `none`
when the string is no numeral.  The numerals are those of C: decimal digits
that do not start with `0`; `0` followed by octal digits; `0x` or `0X`
followed by at least one hexadecimal digit. -/
def spec_numeral (s : List Byte) : Option Nat :=
  match s with
  | [] => none
  | c0 :: r =>
    if c0 = ch '0' then
      match r with
      | [] => some 0
      | c1 :: ds =>
        if c1 = ch 'x' ∨ c1 = ch 'X' then
          (if ds ≠ [] ∧ all_digits 16 ds = true then some (digits_value 16 ds) else none)
        else if all_digits 8 (c1 :: ds) = true then some (digits_value 8 (c1 :: ds)) else none
    else if all_digits 10 (c0 :: r) = true then some (digits_value 10 (c0 :: r)) else none

/-- The valid numerals: the number a numeral with an optional sign denotes,
`none` when the string is no such numeral. -/
def spec_signed_numeral (s : List Byte) : Option Int :=
  match s with
  | [] => none
  | c :: r =>
    if c = ch '-' then (spec_numeral r).map (fun n => - (n : Int))
    else if c = ch '+' then (spec_numeral r).map (fun n => (n : Int))
    else (spec_numeral (c :: r)).map (fun n => (n : Int))

/-- The result of `f` on the longest leading part of `s` of at most `k`
characters on which `f` gives a result. -/
def longest_from {α : Type} (f : List Byte → Option α) (s : List Byte) : Nat → Option α
  | 0 => f (s.take 0)
  | k + 1 =>
    match f (s.take (k + 1)) with
    | some v => some v
    | none => longest_from f s k

/-- The number a value denotes, in the words of the claim: the number denoted
by the longest leading part of the value that is a valid numeral, 0 when no
leading part is one. -/
def spec_leading_numeral (value : List Byte) : Int :=
  (longest_from spec_signed_numeral value value.length).getD 0

/-- The decimal numeral of `2 ^ 64`. -/
def two_pow_64 : List Byte := str "18446744073709551616"

/-- A text whose entry has the start `2 ^ 64`. -/
def overflow_text : List Byte := str "[partition]\n" ++ key_value_line (str "start") two_pow_64

/-- A text whose entry has as start a string of 300 digits `1`. -/
def long_number_text : List Byte :=
  str "[partition]\n" ++ key_value_line (str "start") (List.replicate 300 (ch '1'))

/-! ## usbloader-packer.c: the metadata file -/

/-- Decimal digit. -/
def dec_char (d : Nat) : Byte := byte (48 + d)

/-- Digits of `n` in base 10, most significant first, in front of `acc`; at
most `fuel` digits. -/
def fmt_dec_loop : Nat → Nat → List Byte → List Byte
  | 0, _, acc => acc
  | fuel + 1, n, acc =>
    if n / 10 = 0 then dec_char (n % 10) :: acc
    else fmt_dec_loop fuel (n / 10) (dec_char (n % 10) :: acc)

/-- The conversion `%u` of an `unsigned`: at most ten digits. -/
def fmt_u (v : Nat) : List Byte := fmt_dec_loop 10 (v % 2 ^ 32) []

/-- The conversion `%zu` of a 64-bit `size_t`: at most twenty digits. -/
def fmt_zu (v : Nat) : List Byte := fmt_dec_loop 20 (v % 2 ^ 64) []

/-- The conversion `%d` of an `int` that is not negative. -/
def fmt_d (v : Nat) : List Byte := fmt_dec_loop 10 (v % 2 ^ 31) []

/-- The conversion `%08x` of an `unsigned`: `%x` padded with zeros to eight
digits. -/
def fmt_08x (v : Nat) : List Byte :=
  List.replicate (8 - (fmt_x v).length) (ch '0') ++ fmt_x v

/-- The name `unpack_loader` gives to block `i`. -/
def block_name (i : Nat) : List Byte :=
  if i = 0 then str "raminit" else if i = 1 then str "usbldr" else str "unknown"

/-- The name `block%d_%s.bin` of the file block `i` is saved to, in the output
directory. -/
def block_file_name (i : Nat) : List Byte :=
  str "block" ++ fmt_d i ++ str "_" ++ block_name i ++ str ".bin"

/-- The seven `fprintf` calls of `unpack_loader` that write the metadata of
one extracted block. -/
def metadata_block (e : Extracted) : List Byte :=
  (str "[Block" ++ fmt_d e.index ++ str "]\n") ++
  (str "name=" ++ block_name e.index ++ str "\n") ++
  (str "lmode=" ++ fmt_u e.desc.lmode ++ str "\n") ++
  (str "address=0x" ++ fmt_08x e.desc.adr ++ str "\n") ++
  (str "size=0x" ++ fmt_08x e.desc.size ++ str "\n") ++
  (str "offset=0x" ++ fmt_08x e.desc.offset ++ str "\n") ++
  (str "file=" ++ block_file_name e.index ++ str "\n\n")

/-- The three `fprintf` calls of `unpack_loader` before the block loop;
`input_file` is the path of the container as given on the command line. -/
def metadata_header (input_file : List Byte) (file_size : Nat) : List Byte :=
  str "# USB Loader Metadata\n" ++
  (str "# Original file: " ++ input_file ++ str "\n") ++
  (str "# File size: " ++ fmt_zu file_size ++ str " bytes\n\n")

/-- The contents of `metadata.txt` when `unpack_loader` has extracted the
given blocks. -/
def metadata_text (input_file : List Byte) (file_size : Nat) (blocks : List Extracted) :
    List Byte :=
  metadata_header input_file file_size ++ (blocks.map metadata_block).flatten

/-- The string `snprintf(buf, sizeof(buf), ...)` leaves in a buffer of 512
bytes, `s` being the text the format asks for: its first 511 characters. -/
def snprintf_512 (s : List Byte) : List Byte := s.take 511

/-- The path `header_path` of `unpack_loader`: `"%s/header.bin"`. -/
def header_path (output_dir : List Byte) : List Byte :=
  snprintf_512 (output_dir ++ str "/header.bin")

/-- The path `meta_path` of `unpack_loader`: `"%s/metadata.txt"`. -/
def meta_path (output_dir : List Byte) : List Byte :=
  snprintf_512 (output_dir ++ str "/metadata.txt")

/-- The path `block_path` of `unpack_loader` for block `i`:
`"%s/block%d_%s.bin"`. -/
def block_path (output_dir : List Byte) (i : Nat) : List Byte :=
  snprintf_512 (output_dir ++ str "/" ++ block_file_name i)

/-- The path `block_path` of `pack_loader` for the file name `file` read from
the metadata: `"%s/%s"`. -/
def pack_block_path (input_dir file : List Byte) : List Byte :=
  snprintf_512 (input_dir ++ str "/" ++ file)

/-- The output directory `main` takes when no `-d` is given:
`"%s.unpacked"`, in a buffer of 512 bytes. -/
def default_dir (unpack_file : List Byte) : List Byte :=
  snprintf_512 (unpack_file ++ str ".unpacked")

/-- A file `unpack_loader` creates: the path it is opened under and the bytes
written to it. -/
structure SavedFile where
  path : List Byte
  data : List Byte
deriving DecidableEq

/-- The files `unpack_loader(input_file, output_dir)` creates for the
container `buffer`, in the order in which it opens them: the header, the
metadata, and one file for each extracted block.  Creating the directory and
writing the files is taken to succeed. -/
def unpack_files (input_file output_dir buffer : List Byte) : Outcome (List SavedFile) :=
  match unpack_loader buffer with
  | .ok u =>
    .ok (⟨header_path output_dir, u.header⟩ ::
      ⟨meta_path output_dir, metadata_text input_file buffer.length u.blocks⟩ ::
      u.blocks.map (fun e => ⟨block_path output_dir e.index, e.data⟩))
  | .fail => .fail
  | .fault f => .fault f

/-- The conversion of a `long` to `int`: the low 32 bits in two's
complement. -/
def to_int32 (v : Int) : Int := (v + 2 ^ 31) % 2 ^ 32 - 2 ^ 31

/-- The conversion `%d` of `sscanf` at the start of `s`: white space, an
optional sign, decimal digits; the `int` stored, `none` when there is no
digit.  The digits are read as a 64-bit `long`, which saturates, and the
result is stored as an `int`. -/
def scan_d (s : List Byte) : Option Int :=
  let signed := strtoul_sign (s.dropWhile isspace)
  let ds := signed.2.takeWhile (fun c => decide (digit_val c < 10))
  if ds = [] then none else
  let m : Int := ((ds.map digit_val).foldl (fun acc d => acc * 10 + d) 0 : Nat)
  some (to_int32 (if signed.1 then max (-m) (-(2 ^ 63)) else min m (2 ^ 63 - 1)))

/-- The call `sscanf(line, "[Block%d]", &current_block)`: the value stored
when the call returns 1, `none` otherwise. -/
def scan_block_header (line : List Byte) : Option Int :=
  if line.take 6 = str "[Block" then scan_d (line.drop 6) else none

/-- The call `sscanf(line, "%63[^=]=%255[^\r\n]", key, value)`: the key and
the value stored when the call returns 2, `none` otherwise.  The key is the
longest run of at most 63 characters other than `=`, it must not be empty and
`=` must follow; the value is the longest run of at most 255 characters other
than carriage return and line feed, and must not be empty. -/
def scan_key_value (line : List Byte) : Option (List Byte × List Byte) :=
  let key := (line.takeWhile (fun c => c ≠ ch '=')).take 63
  if key = [] then none else
  match line.drop key.length with
  | [] => none
  | c :: rest =>
    if c ≠ ch '=' then none else
    let value := (rest.takeWhile (fun c => c ≠ ch '\r' ∧ c ≠ ch '\n')).take 255
    if value = [] then none else some (key, value)

def zero_desc : block_desc := ⟨0, 0, 0, 0⟩

/-- The arrays `blocks` and `block_files` and the variables `current_block`
and `*block_count` of `parse_metadata`; a file name is the C string held in
its 256 bytes. -/
structure MetaState where
  blocks : List block_desc
  block_files : List (List Byte)
  current_block : Int
  block_count : Int
deriving DecidableEq

/-- The assignment to a field of `blocks[current_block]`. -/
def update_block (st : MetaState) (f : block_desc → block_desc) : MetaState :=
  { st with
    blocks := st.blocks.set st.current_block.toNat
      (f (st.blocks.getD st.current_block.toNat zero_desc)) }

/-- The body of the `while (fgets(...))` loop of `parse_metadata` for one
chunk `line`. -/
def meta_line (st : MetaState) (line : List Byte) : MetaState :=
  if line.head? = some (ch '#') ∨ line.head? = some (ch '\n') ∨ line.head? = some (ch '\r')
  then st
  else if line.head? = some (ch '[') then
    match scan_block_header (cstr line) with
    | none => st
    | some v =>
      { st with
        current_block := v,
        block_count :=
          if 0 ≤ v ∧ v < MAX_BLOCKS ∧ v ≥ st.block_count then v + 1 else st.block_count }
  else if st.current_block < 0 ∨ st.current_block ≥ MAX_BLOCKS then st
  else
    match scan_key_value (cstr line) with
    | none => st
    | some (key, value) =>
      if key = str "lmode" then
        update_block st (fun d => { d with lmode := strtoul value % 2 ^ 32 })
      else if key = str "address" then
        update_block st (fun d => { d with adr := strtoul value % 2 ^ 32 })
      else if key = str "size" then
        update_block st (fun d => { d with size := strtoul value % 2 ^ 32 })
      else if key = str "file" then
        { st with block_files := st.block_files.set st.current_block.toNat (value.take 255) }
      else st

/-- The function `parse_metadata` on the contents of the metadata file, with
the arrays as the caller hands them over: the arrays and the block count when
it returns 1. -/
def parse_metadata (meta : List Byte) (blocks : List block_desc)
    (block_files : List (List Byte)) : MetaState :=
  (fgets_chunks 512 meta).foldl meta_line ⟨blocks, block_files, -1, 0⟩

/-- The arrays of `pack_loader` after the two calls of `memset`. -/
def zero_blocks : List block_desc := List.replicate MAX_BLOCKS zero_desc

def zero_files : List (List Byte) := List.replicate MAX_BLOCKS []

/-- A path with a line feed in it: `x`, a line feed and `[Block5]`. -/
def line_feed_path : List Byte := str "x\n[Block5]"

/-- An output directory whose name has 500 bytes. -/
def long_dir : List Byte := List.replicate 500 (ch 'd')

/-- The state of `parse_metadata` after the lines `unpack_loader` writes for
one block: the block becomes the current one, its mode, size and address are
stored, its offset is left as it was, and its file name is stored. -/
def store_block (st : MetaState) (e : Extracted) : MetaState :=
  { blocks := st.blocks.set e.index
      ⟨e.desc.lmode % 2 ^ 32, e.desc.size % 2 ^ 32, e.desc.adr % 2 ^ 32,
        (st.blocks.getD e.index zero_desc).offset⟩,
    block_files := st.block_files.set e.index (block_file_name e.index),
    current_block := e.index,
    block_count := if (e.index : Int) ≥ st.block_count then e.index + 1 else st.block_count }

/-- A value that `sscanf` reads back from a line of the metadata: not empty,
without carriage return, line feed or NUL, of at most 255 characters. -/
def value_ok (a : List Byte) : Prop :=
  a ≠ [] ∧ (∀ c ∈ a, c ≠ ch '\r' ∧ c ≠ ch '\n' ∧ c ≠ 0) ∧ a.length ≤ 255

instance (a : List Byte) : Decidable (value_ok a) :=
  inferInstanceAs (Decidable (a ≠ [] ∧ (∀ c ∈ a, c ≠ ch '\r' ∧ c ≠ ch '\n' ∧ c ≠ 0) ∧
    a.length ≤ 255))

/-! ## Partition table: the entries `parse_text` writes -/

/-- The index `i` of the entry `part[i]` that the branch of `parse_text` for a
`key=value` line writes: `current` for a key of an entry that is taken,
nothing for the keys of the header and for a line that ends in an error. -/
def parse_key_value_writes (st : ParseState) (key value : List Byte) : List Int :=
  if key = str "version" then []
  else if key = str "product" then []
  else if key = str "tail" then []
  else if st.current < 0 then []
  else if key = str "name" then
    if value.length ≥ 16 then [] else [st.current]
  else if key = str "start" then [st.current]
  else if key = str "length" then [st.current]
  else if key = str "lsize" then [st.current]
  else if key = str "loadaddr" then [st.current]
  else if key = str "entry" then [st.current]
  else if key = str "nproperty" then [st.current]
  else if key = str "type" then [st.current]
  else if key = str "count" then [st.current]
  else []

/-- The indices of the entries that one turn of the `while (fgets(...))` loop
of `parse_text` writes, for the chunk `linebuf`: `current + 1` for a marker
(the `memset` of `part[current]` after `current++`), the index of the branch
for a `key=value` line, nothing otherwise. -/
def parse_line_writes (st : ParseState) (linebuf : List Byte) : List Int :=
  let line := strip (cstr linebuf)
  if line.head? = none ∨ line.head? = some (ch '#') then []
  else if line = str "[partition]" then
    if st.current ≥ 40 then [] else [st.current + 1]
  else
    match line.dropWhile (fun c => c ≠ ch '=') with
    | [] => []
    | _ :: after =>
      parse_key_value_writes st (strip (line.takeWhile (fun c => c ≠ ch '='))) (strip after)

/-- The index of the entry the statement after the loop writes:
`part[current + 1].name[0] = 0` when `0 <= current < 40`. -/
def terminate_writes (st : ParseState) : List Int :=
  if 0 ≤ st.current ∧ st.current < 40 then [st.current + 1] else []

/-- The indices of the entries written from the state `st` on, in order: those
of the turns of the loop up to the end of the chunks or the first error, and,
when the loop ends without error, that of the statement after it. -/
def parse_lines_writes : List (List Byte) → ParseState → List Int
  | [], st => terminate_writes st
  | linebuf :: rest, st =>
    parse_line_writes st linebuf ++
      match parse_line st linebuf with
      | .error _ => []
      | .ok st1 => parse_lines_writes rest st1

/-- The indices of the entries of `ptable->part` that `parse_text` writes
after `clear_ptable`, in order. -/
def parse_text_writes (headmagic input : List Byte) : List Int :=
  parse_lines_writes (fgets_chunks MAX_LINE input) ⟨-1, clear_ptable headmagic⟩

/-! ## loader-patch.c: the front-end of the patcher -/

/-- The patching procedures declared in `patcher.h`. -/
inductive Patcher where
  | pv7r1 | pv7r2 | pv7r11 | pv7r22 | pv7r22_2 | pv7r22_3 | perasebad
deriving DecidableEq

/-- The bodies of the procedures of `patcher.h`, which are defined outside
the sources at hand: `procs p buf fsize` is the `uint32_t` the procedure `p`
returns on the buffer `buf` (0 when it does not find its signature) and the
buffer as the procedure leaves it. -/
abbrev Procedures := Patcher → List Byte → Nat → Nat × List Byte

/-- What a run of `main` does that can be seen from outside. -/
structure PatchRun where
  /-- the procedures called, in order, each with the value assigned to `res` -/
  calls : List (Patcher × Nat)
  /-- the bytes written to the output file; `none` when no file is written -/
  written : Option (List Byte)
deriving DecidableEq

/-- The part of `main` after the label `endpatch`: the bad-block patch under
`-b`, and the output file under `-o`. -/
def endpatch (procs : Procedures) (oflag bflag : Bool) (fsize : Nat)
    (calls : List (Patcher × Nat)) (buf : List Byte) : PatchRun :=
  if bflag then
    let r := procs .perasebad buf fsize
    { calls := calls ++ [(.perasebad, r.1 % 2 ^ 32)],
      written := if oflag then some r.2 else none }
  else
    { calls := calls, written := if oflag then some buf else none }

/-- The function `main` of `loader-patch.c` from the point where the options
are parsed and the input file is open: `file` is the contents of the input
file, `oflag` and `bflag` tell whether `-o` and `-b` were given.  `fsize` and
`res` are `uint32_t`. -/
def loader_patch_main (procs : Procedures) (oflag bflag : Bool) (file : List Byte) :
    PatchRun :=
  let fsize := file.length % 2 ^ 32
  let buf := file.take fsize
  let r1 := procs .pv7r1 buf fsize
  let c1 := [(Patcher.pv7r1, r1.1 % 2 ^ 32)]
  if r1.1 % 2 ^ 32 ≠ 0 then endpatch procs oflag bflag fsize c1 r1.2 else
  let r2 := procs .pv7r2 r1.2 fsize
  let c2 := c1 ++ [(Patcher.pv7r2, r2.1 % 2 ^ 32)]
  if r2.1 % 2 ^ 32 ≠ 0 then endpatch procs oflag bflag fsize c2 r2.2 else
  let r3 := procs .pv7r11 r2.2 fsize
  let c3 := c2 ++ [(Patcher.pv7r11, r3.1 % 2 ^ 32)]
  if r3.1 % 2 ^ 32 ≠ 0 then endpatch procs oflag bflag fsize c3 r3.2 else
  let r4 := procs .pv7r22 r3.2 fsize
  let c4 := c3 ++ [(Patcher.pv7r22, r4.1 % 2 ^ 32)]
  if r4.1 % 2 ^ 32 ≠ 0 then endpatch procs oflag bflag fsize c4 r4.2 else
  let r5 := procs .pv7r22_2 r4.2 fsize
  let c5 := c4 ++ [(Patcher.pv7r22_2, r5.1 % 2 ^ 32)]
  if r5.1 % 2 ^ 32 ≠ 0 then endpatch procs oflag bflag fsize c5 r5.2 else
  let r6 := procs .pv7r22_3 r5.2 fsize
  let c6 := c5 ++ [(Patcher.pv7r22_3, r6.1 % 2 ^ 32)]
  endpatch procs oflag bflag fsize c6 r6.2

/-- The order of the revisions in the caller protocol. -/
def revision_order : List Patcher :=
  [.pv7r1, .pv7r2, .pv7r11, .pv7r22, .pv7r22_2, .pv7r22_3]

/-- The caller protocol in the words of the specification: try the revisions
of an ordered list and stop at the first that reports a match.  The result is
the list of the procedures tried, each with what it returned, and the buffer
they leave. -/
def try_revisions (procs : Procedures) (fsize : Nat) :
    List Patcher → List Byte → List (Patcher × Nat) × List Byte
  | [], buf => ([], buf)
  | p :: rest, buf =>
    let r := procs p buf fsize
    if r.1 % 2 ^ 32 ≠ 0 then ([(p, r.1 % 2 ^ 32)], r.2)
    else
      let tried := try_revisions procs fsize rest r.2
      ((p, r.1 % 2 ^ 32) :: tried.1, tried.2)

/-- The caller protocol in the words of the specification, whole: the
revisions, then the bad-block patch when it is asked for, then the output
file when one is asked for. -/
def spec_patch_run (procs : Procedures) (oflag bflag : Bool) (file : List Byte) : PatchRun :=
  let fsize := file.length % 2 ^ 32
  let tried := try_revisions procs fsize revision_order (file.take fsize)
  let bad := procs .perasebad tried.2 fsize
  { calls := if bflag then tried.1 ++ [(.perasebad, bad.1 % 2 ^ 32)] else tried.1
    written := if oflag then some (if bflag then bad.2 else tried.2) else none }

/-- Procedures for the examples: `pv7r11` finds its signature at offset
`0x40` and sets the first byte of the buffer to `0xFF`; no other procedure
finds its signature, and none of them changes the buffer. -/
def example_procs : Procedures := fun p buf _ =>
  match p with
  | .pv7r11 => (0x40, buf.set 0 0xFF)
  | _ => (0, buf)

/-! ## ptable-injector.c and ptable-list.c: the table inside a loader -/

/-- Modelled from the spec: the scan of `locate`, whose code is defined outside
the sources at hand, over the rest of a buffer that starts at offset `off`:
the first offset at which the 16 bytes of the head magic stand. -/
def locate_at (headmagic : List Byte) : List Byte → Nat → Option Nat
  | [], _ => none
  | c :: cs, off =>
    if (c :: cs).take 16 = headmagic then some off else locate_at headmagic cs (off + 1)

/-- Modelled from the spec: the search for the table, whose code
(`find_ptable` and `find_ptable_ram` of `parts.h`) is defined outside the
sources at hand.  The model follows the sentence "locate(stream-or-buffer):
scans for the first occurrence of the fixed head magic anywhere in the input":
the offset of the first occurrence, `none` for NotFound. -/
def locate (headmagic buf : List Byte) : Option Nat := locate_at headmagic buf 0

/-- Modelled from the spec: the `uint32_t` that `find_ptable(ldr)` returns,
defined outside the sources at hand.  The model follows the sentence
"locate(stream-or-buffer): scans for the first occurrence of the fixed head
magic anywhere in the input" and the declaration in `parts.h`: the offset
`locate` finds, as a 32-bit number; for NotFound the value 0, which is what
the caller in `ptable-injector.c` tests for. -/
def find_ptable (headmagic ldr : List Byte) : Nat :=
  match locate headmagic ldr with
  | some k => k % 2 ^ 32
  | none => 0

/-- The object `obj` after `fread(&obj, sizeof(obj), 1, stream)` whose result
is not looked at, `data` being the bytes left in the stream: the bytes read
take the place of the leading bytes of the object, and when the stream ends
early the rest of the object keeps what it held. -/
def fread_into (obj data : List Byte) : List Byte :=
  data.take obj.length ++ obj.drop data.length

/-- The file after `fseek(f, off, SEEK_SET)` and `fwrite` of `data`: the bytes
at `off` are overwritten, and a file that ends before is extended (with zero
bytes up to `off`). -/
def write_at (file : List Byte) (off : Nat) (data : List Byte) : List Byte :=
  file.take off ++ List.replicate (off - file.length) 0 ++ data ++ file.drop (off + data.length)

/-- The call `memcmp(a, b, n) != 0` on buffers that hold `n` bytes. -/
def memcmp_differs (a b : List Byte) (n : Nat) : Bool := decide (a.take n ≠ b.take n)

/-- What `main` of `ptable-injector.c` prints when it gives up. -/
inductive InjectorMessage where
  | table_not_found
  | cannot_open_input
  | not_a_partition_table
deriving DecidableEq

/-- What a run of `main` of `ptable-injector.c` does that can be seen from
outside. -/
structure InjectorRun where
  /-- the message printed before an early return -/
  message : Option InjectorMessage
  /-- the variable `ptable` after "read the current table"; `none` when the
  run ends before -/
  current : Option (List Byte)
  /-- the contents of `ptable.bin` under `-x` -/
  extracted : Option (List Byte)
  /-- the argument of `show_map` under `-m` -/
  shown : Option (List Byte)
  /-- the contents of the loader file when `main` returns -/
  loader : List Byte
deriving DecidableEq

/-- The function `main` of `ptable-injector.c` from the statement "read the
current table" on, which is reached when a table was found.  `ldr` is the
contents of the loader file, `stack` the bytes the variable `ptable` holds
before it is assigned (2048 bytes of the stack), `mflag`, `xflag`, `rflag`
tell whether `-m`, `-x`, `-r` were given, `input` is the contents of the file
named after `-r` (`none` when it cannot be opened), `ptaddr` is the value of
the variable of that name, and `pos` the position of the stream `ldr`: `main`
reads the current table from the stream without seeking. -/
def injector_found (headmagic stack : List Byte) (mflag xflag rflag : Bool)
    (input : Option (List Byte)) (ldr : List Byte) (ptaddr pos : Nat) : InjectorRun :=
  let ptable := fread_into stack (ldr.drop pos)
  let extracted := if xflag then some ptable else none
  let shown := if mflag then some ptable else none
  if mflag || xflag then
    { message := none, current := some ptable, extracted := extracted, shown := shown,
      loader := ldr }
  else if rflag then
    match input with
    | none =>
      { message := some .cannot_open_input, current := some ptable, extracted := extracted,
        shown := shown, loader := ldr }
    | some file =>
      let replacement := fread_into ptable file
      if memcmp_differs replacement headmagic 16 then
        { message := some .not_a_partition_table, current := some ptable,
          extracted := extracted, shown := shown, loader := ldr }
      else
        { message := none, current := some ptable, extracted := extracted, shown := shown,
          loader := write_at ldr ptaddr replacement }
  else
    { message := none, current := some ptable, extracted := extracted, shown := shown,
      loader := ldr }

/-- The function `main` of `ptable-injector.c` from the point where the
options are parsed and the loader file is open: the search for the table, the
test of its result, and the rest of `main` (`injector_found`).  The function
`find_ptable` is defined outside the sources at hand and nothing says where it
leaves the stream, so that position is the argument `pos`. -/
def ptable_injector (headmagic stack : List Byte) (mflag xflag rflag : Bool)
    (input : Option (List Byte)) (ldr : List Byte) (pos : Nat) : InjectorRun :=
  let ptaddr := find_ptable headmagic ldr
  if ptaddr = 0 then
    { message := some .table_not_found, current := none, extracted := none, shown := none,
      loader := ldr }
  else injector_found headmagic stack mflag xflag rflag input ldr ptaddr pos

/-- The call `strncmp(s1, s2, n)` on the memory at `s1` and `s2`: characters
are compared up to the first difference, the first NUL, or `n` characters;
`none` when the comparison runs past the memory given. -/
def strncmp : List Byte → List Byte → Nat → Option Int
  | _, _, 0 => some 0
  | a :: s1, b :: s2, n + 1 =>
    if a ≠ b then some ((a.val : Int) - (b.val : Int))
    else if a = 0 then some 0
    else strncmp s1 s2 n
  | _, _, _ + 1 => none

/-- The function `main` of `ptable-list.c` from the point where the file is
open: the table handed to `show_map`, `none` when the program prints "The file
is not a partition table".  `file` is the contents of the file and `stack`
the bytes the variable `ptable` holds before the read. -/
def ptable_list (stack file : List Byte) : Option (List Byte) :=
  let ptable := fread_into stack file
  if strncmp ptable (str "pTableHead" ++ [0]) 16 ≠ some 0 then none else some ptable

/-- The test of `dump_bin` in `ptable-editor.c` on the contents of the input
file: whether "Warning: head magic does not match" is printed, the table being
printed all the same; `none` when `fread` does not return 1 and `dump_bin`
returns -1 before the test. -/
def dump_bin_warning (headmagic input : List Byte) : Option Bool :=
  match fread_ptable input with
  | none => none
  | some ptable => some (memcmp_differs ptable.head headmagic 16)

/-- A loader for the examples: four bytes of code, then the 2048 bytes of
`example_table`. -/
def example_loader : List Byte := str "BOOT" ++ fwrite_ptable example_table

/-- A replacement file of 20 bytes: the head magic and the first four bytes of
a version. -/
def short_replacement : List Byte := example_magic ++ str "V9.9"

/-- A file that holds a table at offset 0. -/
def table_file : List Byte := fwrite_ptable example_table

/-- A file of 2048 bytes whose head is `pTableHead`, a NUL and `junk!`. -/
def junk_head_file : List Byte :=
  str "pTableHead" ++ [0] ++ str "junk!" ++ List.replicate 2032 0

/-- A loader of 20 bytes that does not hold the head magic. -/
def plain_loader : List Byte := List.replicate 20 (ch 'A')

/-- A file that starts with the head magic. -/
def magic_first : List Byte := example_magic ++ str "rest"

/-! ## Lemmas on raw memory and on the container codec -/

theorem memcpy_length {buf data : List Byte} {off : Nat} {buf' : List Byte}
    (h : memcpy buf off data = some buf') : buf'.length = buf.length := by
  unfold memcpy at h
  split at h
  · cases h
    simp only [List.length_append, List.length_take, List.length_drop]
    omega
  · cases h

theorem memcpy_getElem? {buf data : List Byte} {off : Nat} {buf' : List Byte}
    (h : memcpy buf off data = some buf') (p : Nat) :
    buf'[p]? = if off ≤ p ∧ p < off + data.length then data[p - off]? else buf[p]? := by
  unfold memcpy at h
  split at h
  next hle =>
    cases h
    have hlt : (List.take off buf).length = off := by
      simp only [List.length_take]; omega
    by_cases h1 : p < off
    · have : ¬ (off ≤ p ∧ p < off + data.length) := by omega
      rw [if_neg this, List.append_assoc, List.getElem?_append_left (by omega)]
      exact List.getElem?_take_of_lt h1
    · by_cases h2 : p < off + data.length
      · rw [if_pos ⟨by omega, h2⟩, List.append_assoc, List.getElem?_append_right (by omega), hlt,
          List.getElem?_append_left (by omega)]
      · have : ¬ (off ≤ p ∧ p < off + data.length) := by omega
        rw [if_neg this, List.getElem?_append_right (by simp only [List.length_append]; omega)]
        simp only [List.length_append, hlt, List.getElem?_drop]
        congr 1
        omega
  · cases h

theorem memcpy_isSome {buf data : List Byte} {off : Nat} (h : off + data.length ≤ buf.length) :
    memcpy buf off data = some (buf.take off ++ data ++ buf.drop (off + data.length)) := by
  unfold memcpy; rw [if_pos h]

theorem readU32_congr {a b : List Byte} {p : Nat}
    (h : ∀ q, p ≤ q → q < p + 4 → a[q]? = b[q]?) : readU32 a p = readU32 b p := by
  unfold readU32
  rw [h p (by omega) (by omega), h (p + 1) (by omega) (by omega), h (p + 2) (by omega) (by omega),
    h (p + 3) (by omega) (by omega)]

theorem readU32_lt {buf : List Byte} {p v : Nat} (h : readU32 buf p = some v) : v < 2 ^ 32 := by
  unfold readU32 at h
  split at h
  · cases h
    rename_i a b c d _ _ _ _
    have := a.isLt; have := b.isLt; have := c.isLt; have := d.isLt
    omega
  · cases h

theorem readU32_isSome {buf : List Byte} {p : Nat} (h : p + 4 ≤ buf.length) :
    ∃ v, readU32 buf p = some v := by
  unfold readU32
  rw [List.getElem?_eq_getElem (by omega : p < buf.length),
    List.getElem?_eq_getElem (by omega : p + 1 < buf.length),
    List.getElem?_eq_getElem (by omega : p + 2 < buf.length),
    List.getElem?_eq_getElem (by omega : p + 3 < buf.length)]
  exact ⟨_, rfl⟩

theorem readU32_some_length {buf : List Byte} {p v : Nat} (h : readU32 buf p = some v) :
    p + 4 ≤ buf.length := by
  unfold readU32 at h
  split at h
  · rename_i a b c d _ _ _ hd
    have := (List.getElem?_eq_some_iff.mp hd).1
    omega
  · cases h

theorem le32_length (v : Nat) : (le32 v).length = 4 := rfl

theorem readU32_le32 {buf : List Byte} {p v : Nat}
    (h : ∀ k, k < 4 → buf[p + k]? = (le32 v)[k]?) : readU32 buf p = some (v % 2 ^ 32) := by
  unfold readU32
  have h0 := h 0 (by omega); have h1 := h 1 (by omega)
  have h2 := h 2 (by omega); have h3 := h 3 (by omega)
  simp only [Nat.add_zero] at h0
  rw [h0, h1, h2, h3]
  simp only [le32, byte, List.getElem?_cons_zero, List.getElem?_cons_succ, Option.some.injEq]
  omega

theorem slot_eq_some {buf : List Byte} {i : Nat} {d : block_desc} :
    slot buf i = some d ↔
      readU32 buf (blocks_offset i) = some d.lmode ∧
      readU32 buf (blocks_offset i + 4) = some d.size ∧
      readU32 buf (blocks_offset i + 8) = some d.adr ∧
      readU32 buf (blocks_offset i + 12) = some d.offset := by
  unfold slot
  constructor
  · intro h
    split at h
    · rename_i m s a o hm hs ha ho
      cases h
      exact ⟨hm, hs, ha, ho⟩
    · cases h
  · rintro ⟨hm, hs, ha, ho⟩
    rw [hm, hs, ha, ho]

theorem slice_eq_some {buf : List Byte} {off size : Nat} (h : off + size ≤ buf.length) :
    slice buf off size = some ((buf.drop off).take size) := by
  unfold slice; rw [if_pos h]

/-- One iteration of the block loop that stops on a zero size. -/
theorem unpack_blocks_stop {buf : List Byte} {n i : Nat}
    (h : readU32 buf (blocks_offset i + 4) = some 0) :
    unpack_blocks buf (n + 1) i = Outcome.ok [] := by
  simp [unpack_blocks, h]

/-- One iteration of the block loop on a slot that passes both checks and
whose range lies inside the buffer. -/
theorem unpack_blocks_accept {buf : List Byte} {n i : Nat} {d : block_desc}
    (hd : slot buf i = some d) (hs : d.size ≠ 0) (ho : HEADER_SIZE ≤ d.offset)
    (hin : d.offset + d.size ≤ buf.length) :
    unpack_blocks buf (n + 1) i =
      match unpack_blocks buf n (i + 1) with
      | .ok rest => .ok (⟨i, d, (buf.drop d.offset).take d.size⟩ :: rest)
      | .fail => .fail
      | .fault f => .fault f := by
  obtain ⟨hm, hsz, ha, hof⟩ := slot_eq_some.mp hd
  have hmod : ¬ ((d.offset + d.size) % 2 ^ 32 > buf.length) := by
    have := Nat.mod_le (d.offset + d.size) (2 ^ 32)
    omega
  have hlt : ¬ (d.offset < HEADER_SIZE) := by omega
  rw [unpack_blocks]
  simp only [hsz, hof, hm, ha, if_neg hs, if_neg hlt, if_neg hmod, slice_eq_some hin]

theorem unpack_loader_of_blocks {buf : List Byte} {bs : List Extracted}
    (hlen : HEADER_SIZE ≤ buf.length) (hmagic : readU32 buf 0 = some MAGIC_SIGNATURE)
    (hb : unpack_blocks buf MAX_BLOCKS 0 = Outcome.ok bs) :
    unpack_loader buf = Outcome.ok ⟨buf.take HEADER_SIZE, bs⟩ := by
  unfold unpack_loader
  rw [if_neg (by omega), hmagic]
  simp only [ne_eq, not_true_eq_false, if_false, hb]

theorem blocks_offset_eq (i : Nat) : blocks_offset i = 36 + 16 * i := by
  unfold blocks_offset sizeof_block_desc; omega

theorem encode_desc_length (d : block_desc) : (encode_desc d).length = 16 := rfl

theorem memcpy_some_le {buf data : List Byte} {off : Nat} {buf' : List Byte}
    (h : memcpy buf off data = some buf') : off + data.length ≤ buf.length := by
  unfold memcpy at h
  split at h
  · assumption
  · cases h

/-- Frame property of the block loop of `pack_loader`: below the write cursor,
only the descriptor slots of the blocks that are packed change. -/
theorem pack_blocks_frame : ∀ (bs : List PackBlock) (i cur : Nat) (buf out : List Byte),
    pack_blocks bs i cur buf = Outcome.ok out → buf.length < 2 ^ 32 →
    out.length = buf.length ∧
    ∀ p, p < cur →
      (∀ j b, bs[j]? = some b → b.desc.size ≠ 0 →
        ¬ (blocks_offset (i + j) ≤ p ∧ p < blocks_offset (i + j) + 16)) →
      out[p]? = buf[p]? := by
  intro bs
  induction bs with
  | nil =>
    intro i cur buf out h _
    simp only [pack_blocks, Outcome.ok.injEq] at h
    subst h
    exact ⟨rfl, fun _ _ _ => rfl⟩
  | cons b rest ih =>
    intro i cur buf out h hlen
    rw [pack_blocks] at h
    by_cases hz : b.desc.size = 0
    · rw [if_pos hz] at h
      obtain ⟨hl, hf⟩ := ih (i + 1) cur buf out h hlen
      refine ⟨hl, fun p hp hslots => hf p hp ?_⟩
      intro j b' hj hb'
      have := hslots (j + 1) b' (by simpa using hj) hb'
      rwa [show i + (j + 1) = i + 1 + j by omega] at this
    · rw [if_neg hz] at h
      cases hfile : b.file with
      | none => rw [hfile] at h; cases h
      | some data =>
        rw [hfile] at h
        simp only at h
        split at h
        · cases h
        · rename_i buf1 h1
          split at h
          · cases h
          · rename_i buf2 h2
            have hl1 := memcpy_length h1
            have hl2 := memcpy_length h2
            have hle2 := memcpy_some_le h2
            have hcur : (cur + data.length) % 2 ^ 32 = cur + data.length :=
              Nat.mod_eq_of_lt (by omega)
            rw [hcur] at h
            obtain ⟨hl, hf⟩ := ih (i + 1) (cur + data.length) buf2 out h (by omega)
            refine ⟨by omega, fun p hp hslots => ?_⟩
            rw [hf p (by omega) ?_, memcpy_getElem? h2, if_neg (by omega), memcpy_getElem? h1,
              if_neg ?_]
            · have := hslots 0 b (by simp) hz
              rw [encode_desc_length]
              simpa using this
            · intro j b' hj hb'
              have := hslots (j + 1) b' (by simpa using hj) hb'
              rwa [show i + (j + 1) = i + 1 + j by omega] at this

theorem byte_val (n : Nat) : (byte n).val = n % 256 := rfl

theorem slot_of_bytes {buf : List Byte} {i : Nat} {d : block_desc} (hd : d.wf)
    (h : ∀ k, k < 16 → buf[blocks_offset i + k]? = (encode_desc d)[k]?) :
    slot buf i = some d := by
  obtain ⟨h1, h2, h3, h4⟩ := hd
  have e0 := h 0 (by omega); have e1 := h 1 (by omega); have e2 := h 2 (by omega)
  have e3 := h 3 (by omega); have e4 := h 4 (by omega); have e5 := h 5 (by omega)
  have e6 := h 6 (by omega); have e7 := h 7 (by omega); have e8 := h 8 (by omega)
  have e9 := h 9 (by omega); have e10 := h 10 (by omega); have e11 := h 11 (by omega)
  have e12 := h 12 (by omega); have e13 := h 13 (by omega); have e14 := h 14 (by omega)
  have e15 := h 15 (by omega)
  simp only [Nat.add_zero, encode_desc, le32, List.cons_append, List.nil_append,
    List.getElem?_cons_zero, List.getElem?_cons_succ] at e0 e1 e2 e3 e4 e5 e6 e7 e8 e9 e10 e11 e12 e13 e14 e15
  simp only [slot, readU32, Nat.add_assoc, Nat.reduceAdd, e0, e1, e2, e3, e4, e5, e6, e7, e8, e9,
    e10, e11, e12, e13, e14, e15, byte_val]
  cases d
  simp only [Option.some.injEq, block_desc.mk.injEq] at *
  refine ⟨by omega, by omega, by omega, by omega⟩

theorem slice_of_bytes {buf data : List Byte} {off : Nat}
    (h : ∀ k, k < data.length → buf[off + k]? = data[k]?) :
    (buf.drop off).take data.length = data := by
  apply List.ext_getElem?
  intro k
  by_cases hk : k < data.length
  · rw [List.getElem?_take_of_lt hk, List.getElem?_drop, h k hk]
  · rw [List.getElem?_eq_none (by simp only [List.length_take, List.length_drop]; omega),
      List.getElem?_eq_none (by omega)]

theorem pack_blocks_cons_sound {b : PackBlock} {rest : List PackBlock} {i cur : Nat}
    {buf data buf1 buf2 : List Byte} (hfile : b.file = some data)
    (hsz : b.desc.size = data.length) (hne : data ≠ [])
    (h1 : memcpy buf (blocks_offset i)
      (encode_desc ⟨b.desc.lmode, b.desc.size, b.desc.adr, cur⟩) = some buf1)
    (h2 : memcpy buf1 cur data = some buf2) :
    pack_blocks (b :: rest) i cur buf =
      pack_blocks rest (i + 1) ((cur + data.length) % 2 ^ 32) buf2 := by
  have hz : b.desc.size ≠ 0 := by
    rw [hsz]
    intro h0
    exact hne (List.length_eq_zero.mp h0)
  rw [pack_blocks, if_neg hz, hfile]
  simp only [ne_eq, hsz, not_true_eq_false, if_false]
  rw [hsz] at h1
  rw [h1]
  simp only [h2]

theorem pack_blocks_sound : ∀ (bs : List PackBlock) (i cur : Nat) (buf : List Byte),
    (∀ b ∈ bs, b.sound) → i + bs.length ≤ 3 → HEADER_SIZE ≤ cur →
    cur + payload_sum bs ≤ buf.length → buf.length < 2 ^ 32 →
    ∃ out, pack_blocks bs i cur buf = Outcome.ok out ∧
      ∀ j b, bs[j]? = some b → ∃ data off, b.file = some data ∧
        slot out (i + j) = some ⟨b.desc.lmode, b.desc.size, b.desc.adr, off⟩ ∧
        HEADER_SIZE ≤ off ∧ off + b.desc.size ≤ out.length ∧
        (out.drop off).take b.desc.size = data := by
  intro bs
  induction bs with
  | nil =>
    intro i cur buf _ _ _ _ _
    exact ⟨buf, rfl, fun j b h => by simp at h⟩
  | cons b rest ih =>
    intro i cur buf hs hi hcur hsum hlen
    have h84 : HEADER_SIZE = 84 := rfl
    obtain ⟨hwf, data, hfile, hne, hsz⟩ := hs b (List.mem_cons_self _ _)
    have hsum' : cur + (data.length + payload_sum rest) ≤ buf.length := by
      simpa [payload_sum, hsz] using hsum
    simp only [List.length_cons] at hi
    have hoff := blocks_offset_eq i
    obtain ⟨buf1, h1⟩ : ∃ buf1, memcpy buf (blocks_offset i)
        (encode_desc ⟨b.desc.lmode, b.desc.size, b.desc.adr, cur⟩) = some buf1 :=
      ⟨_, memcpy_isSome (by rw [encode_desc_length]; omega)⟩
    have hl1 := memcpy_length h1
    obtain ⟨buf2, h2⟩ : ∃ buf2, memcpy buf1 cur data = some buf2 :=
      ⟨_, memcpy_isSome (by omega)⟩
    have hl2 := memcpy_length h2
    have hcur' : (cur + data.length) % 2 ^ 32 = cur + data.length :=
      Nat.mod_eq_of_lt (by omega)
    obtain ⟨out, hout, hcontent⟩ := ih (i + 1) (cur + data.length) buf2
      (fun b' hb' => hs b' (List.mem_cons_of_mem _ hb')) (by omega) (by omega) (by omega)
      (by omega)
    have hstep := @pack_blocks_cons_sound b rest i cur buf data buf1 buf2 hfile hsz hne h1 h2
    rw [hcur'] at hstep
    obtain ⟨hlout, hframe⟩ := pack_blocks_frame rest (i + 1) (cur + data.length) buf2 out hout
      (by omega)
    refine ⟨out, by rw [hstep, hout], ?_⟩
    intro j b' hj
    cases j with
    | zero =>
      simp only [List.getElem?_cons_zero, Option.some.injEq] at hj
      subst hj
      refine ⟨data, cur, hfile, ?_, hcur, by omega, ?_⟩
      · apply slot_of_bytes
        · obtain ⟨w1, w2, w3, _⟩ := hwf
          exact ⟨w1, w2, w3, by show cur < 2 ^ 32; omega⟩
        · intro k hk
          rw [Nat.add_zero, hframe _ (by omega) ?_, memcpy_getElem? h2, if_neg (by omega),
            memcpy_getElem? h1, if_pos (by rw [encode_desc_length]; omega)]
          · congr 1; omega
          · intro j' b'' hj' _
            have hj'' : j' < rest.length := (List.getElem?_eq_some_iff.mp hj').1
            have := blocks_offset_eq (i + 1 + j')
            omega
      · rw [hsz]
        apply slice_of_bytes
        intro k hk
        rw [hframe _ (by omega) ?_, memcpy_getElem? h2, if_pos (by omega)]
        · congr 1; omega
        · intro j' b'' hj' _
          have hj'' : j' < rest.length := (List.getElem?_eq_some_iff.mp hj').1
          have := blocks_offset_eq (i + 1 + j')
          omega
    | succ j =>
      simp only [List.getElem?_cons_succ] at hj
      obtain ⟨data', off, hf, hslot, ho, hin, hsl⟩ := hcontent j b' hj
      refine ⟨data', off, hf, ?_, ho, hin, hsl⟩
      rwa [show i + (j + 1) = i + 1 + j by omega]

theorem total_size_eq (bs : List PackBlock) : total_size bs = HEADER_SIZE + payload_sum bs := by
  unfold total_size payload_sum
  generalize HEADER_SIZE = t
  induction bs generalizing t with
  | nil => simp
  | cons b rest ih =>
    simp only [List.foldl_cons, List.map_cons, List.sum_cons]
    rw [ih]
    split <;> omega

theorem pack_header_spec (header_file : Option (List Byte)) {total : Nat}
    (ht : HEADER_SIZE ≤ total) :
    ∃ buf, pack_header header_file total = some buf ∧ buf.length = total ∧
      readU32 buf 0 = some MAGIC_SIGNATURE ∧
      ∀ p, 4 ≤ p → p < HEADER_SIZE → buf[p]? = (header_template header_file)[p]? := by
  have h84 : HEADER_SIZE = 84 := rfl
  have hcopy : ∃ buf1, copy_header header_file (List.replicate total (0 : Byte)) = some buf1 ∧
      buf1.length = total ∧
      ∀ p, p < HEADER_SIZE → buf1[p]? = (header_template header_file)[p]? := by
    cases header_file with
    | none =>
      refine ⟨_, rfl, by simp, ?_⟩
      intro p hp
      simp only [header_template, List.getElem?_replicate]
      rw [if_pos (by omega), if_pos hp]
    | some h =>
      have hlen : (h.take (min h.length HEADER_SIZE)).length = min h.length 84 := by
        simp only [List.length_take, h84]; omega
      obtain ⟨buf1, hb⟩ : ∃ buf1, memcpy (List.replicate total (0 : Byte)) 0
          (h.take (min h.length HEADER_SIZE)) = some buf1 :=
        ⟨_, memcpy_isSome (by rw [hlen, List.length_replicate]; omega)⟩
      refine ⟨buf1, hb, by rw [memcpy_length hb, List.length_replicate], ?_⟩
      intro p hp
      rw [memcpy_getElem? hb, hlen]
      simp only [header_template, Nat.zero_le, Nat.zero_add, true_and, Nat.sub_zero]
      by_cases hph : p < h.length
      · rw [if_pos (by omega), List.getElem?_append_left (by simp only [List.length_take]; omega),
          List.getElem?_take_of_lt (by omega), List.getElem?_take_of_lt (by omega)]
      · rw [if_neg (by omega), List.getElem?_append_right (by simp only [List.length_take]; omega)]
        simp only [List.getElem?_replicate, List.length_take]
        rw [if_pos (by omega), if_pos (by omega)]
  obtain ⟨buf1, hb1, hl1, hc1⟩ := hcopy
  obtain ⟨buf, hb⟩ : ∃ buf, memcpy buf1 0 (le32 MAGIC_SIGNATURE) = some buf :=
    ⟨_, memcpy_isSome (by rw [le32_length]; omega)⟩
  refine ⟨buf, ?_, by rw [memcpy_length hb, hl1], ?_, ?_⟩
  · unfold pack_header
    simp only [hb1, hb]
  · have := @readU32_le32 buf 0 MAGIC_SIGNATURE (fun k hk => by
      rw [memcpy_getElem? hb, if_pos (by rw [le32_length]; omega), Nat.zero_add, Nat.sub_zero])
    rw [this]; rfl
  · intro p hp4 hp
    rw [memcpy_getElem? hb, if_neg (by rw [le32_length]; omega), hc1 p hp]

theorem total_size_set (bs : List PackBlock) (i : Nat) (b b' : PackBlock)
    (hb : bs[i]? = some b) (hz : b.desc.size = 0) (hz' : b'.desc.size = 0) :
    total_size (bs.set i b') = total_size bs := by
  rw [total_size_eq, total_size_eq]
  congr 1
  unfold payload_sum
  induction bs generalizing i with
  | nil => rfl
  | cons a rest ih =>
    cases i with
    | zero =>
      simp only [List.getElem?_cons_zero, Option.some.injEq] at hb
      subst hb
      simp [hz, hz']
    | succ i =>
      simp only [List.getElem?_cons_succ] at hb
      simp only [List.set_cons_succ, List.map_cons, List.sum_cons, ih i hb]

theorem pack_blocks_set : ∀ (bs : List PackBlock) (j : Nat) (b b' : PackBlock) (i cur : Nat)
    (buf : List Byte), bs[j]? = some b → b.desc.size = 0 → b'.desc.size = 0 →
    pack_blocks (bs.set j b') i cur buf = pack_blocks bs i cur buf := by
  intro bs
  induction bs with
  | nil => intro j b b' i cur buf hb; simp at hb
  | cons a rest ih =>
    intro j b b' i cur buf hb hz hz'
    cases j with
    | zero =>
      simp only [List.getElem?_cons_zero, Option.some.injEq] at hb
      subst hb
      rw [List.set_cons_zero, pack_blocks, pack_blocks, if_pos hz, if_pos hz']
    | succ j =>
      simp only [List.getElem?_cons_succ] at hb
      rw [List.set_cons_succ, pack_blocks, pack_blocks]
      by_cases ha : a.desc.size = 0
      · rw [if_pos ha, if_pos ha, ih j b b' _ _ _ hb hz hz']
      · rw [if_neg ha, if_neg ha]
        cases a.file with
        | none => rfl
        | some data =>
          simp only
          split
          · rfl
          · split
            · rfl
            · exact ih j b b' _ _ _ hb hz hz'

theorem unpack_fail_of_magic (buf : List Byte) (v : Nat) (hlen : HEADER_SIZE ≤ buf.length)
    (h : readU32 buf 0 = some v) (hv : v ≠ MAGIC_SIGNATURE) :
    unpack_loader buf = Outcome.fail := by
  unfold unpack_loader
  rw [if_neg (by omega), h]
  simp only [ne_eq, hv, not_false_eq_true, if_true]

theorem block_of_sound (lmode adr : Nat) (data : List Byte) (hm : lmode < 2 ^ 32)
    (ha : adr < 2 ^ 32) (hd : data ≠ []) (hl : data.length < 2 ^ 32) :
    (block_of lmode adr data).sound :=
  ⟨⟨hm, hl, ha, (show (0 : Nat) < 2 ^ 32 by decide)⟩, data, rfl, hd, rfl⟩

/-- Packing a first payload of `2 ^ 32 - 84` bytes and a second payload `[7]`:
the 32-bit cursor wraps to 0 and the second payload is copied over the first
byte of the magic. -/
theorem pack_wraps_cursor (data0 : List Byte) (h0 : data0.length = 2 ^ 32 - 84) :
    ∃ out, pack_loader none
        [⟨⟨1, 2 ^ 32 - 84, 0x1000, 0⟩, some data0⟩, block_of 2 0x2000 [7]] = Outcome.ok out ∧
      HEADER_SIZE ≤ out.length ∧ readU32 out 0 = some 131079 := by
  have h84 : HEADER_SIZE = 84 := rfl
  have htot : total_size [⟨⟨1, 2 ^ 32 - 84, 0x1000, 0⟩, some data0⟩, block_of 2 0x2000 [7]] =
      2 ^ 32 + 1 := by
    rw [total_size_eq]
    simp [payload_sum, block_of, h84]
  obtain ⟨buf0, hb0⟩ : ∃ buf0, memcpy (List.replicate (2 ^ 32 + 1) (0 : Byte)) 0
      (le32 MAGIC_SIGNATURE) = some buf0 :=
    ⟨_, memcpy_isSome (by rw [le32_length, List.length_replicate]; omega)⟩
  have hl0 : buf0.length = 2 ^ 32 + 1 := by rw [memcpy_length hb0, List.length_replicate]
  have hph : pack_header none (2 ^ 32 + 1) = some buf0 := by
    unfold pack_header copy_header
    exact hb0
  obtain ⟨buf1, hb1⟩ : ∃ buf1, memcpy buf0 (blocks_offset 0)
      (encode_desc ⟨1, 2 ^ 32 - 84, 0x1000, HEADER_SIZE⟩) = some buf1 :=
    ⟨_, memcpy_isSome (by rw [encode_desc_length, blocks_offset_eq]; omega)⟩
  have hl1 : buf1.length = 2 ^ 32 + 1 := by rw [memcpy_length hb1, hl0]
  obtain ⟨buf2, hb2⟩ : ∃ buf2, memcpy buf1 HEADER_SIZE data0 = some buf2 :=
    ⟨_, memcpy_isSome (by rw [h0, hl1, h84]; omega)⟩
  have hl2 : buf2.length = 2 ^ 32 + 1 := by rw [memcpy_length hb2, hl1]
  obtain ⟨buf3, hb3⟩ : ∃ buf3, memcpy buf2 (blocks_offset 1)
      (encode_desc ⟨2, 1, 0x2000, 0⟩) = some buf3 :=
    ⟨_, memcpy_isSome (by rw [encode_desc_length, blocks_offset_eq]; omega)⟩
  have hl3 : buf3.length = 2 ^ 32 + 1 := by rw [memcpy_length hb3, hl2]
  obtain ⟨buf4, hb4⟩ : ∃ buf4, memcpy buf3 0 [7] = some buf4 :=
    ⟨_, memcpy_isSome (by simp only [List.length_singleton]; omega)⟩
  have hl4 : buf4.length = 2 ^ 32 + 1 := by rw [memcpy_length hb4, hl3]
  have hne0 : data0 ≠ [] := by
    intro e
    rw [e] at h0
    simp at h0
  have hcur : (HEADER_SIZE + data0.length) % 2 ^ 32 = 0 := by rw [h0, h84]; decide
  have hstep1 := @pack_blocks_cons_sound ⟨⟨1, 2 ^ 32 - 84, 0x1000, 0⟩, some data0⟩
    [block_of 2 0x2000 [7]] 0 HEADER_SIZE buf0 data0 buf1 buf2 rfl h0.symm hne0 hb1 hb2
  have hstep2 := @pack_blocks_cons_sound (block_of 2 0x2000 [7]) [] 1 0 buf2 [7] buf3 buf4
    rfl rfl (by simp) hb3 hb4
  refine ⟨buf4, ?_, by omega, ?_⟩
  · unfold pack_loader
    rw [if_neg (by simp), htot, hph]
    simp only
    rw [hstep1, hcur, hstep2]
    rfl
  · have low : ∀ k, 1 ≤ k → k < 4 → buf4[k]? = (le32 MAGIC_SIGNATURE)[k]? := by
      intro k hk1 hk4
      rw [memcpy_getElem? hb4, if_neg (by simp only [List.length_singleton]; omega),
        memcpy_getElem? hb3, if_neg (by rw [blocks_offset_eq]; omega),
        memcpy_getElem? hb2, if_neg (by omega),
        memcpy_getElem? hb1, if_neg (by rw [blocks_offset_eq]; omega),
        memcpy_getElem? hb0, if_pos (by rw [le32_length]; omega), Nat.sub_zero]
    have e0 : buf4[0]? = some 7 := by
      rw [memcpy_getElem? hb4, if_pos (by simp)]
      rfl
    unfold readU32
    rw [e0, low 1 (by omega) (by omega), low 2 (by omega) (by omega),
      low 3 (by omega) (by omega)]
    rfl

/-- Packing a skipped block 0, a payload of `2 ^ 32 - 84` bytes and a payload
of 44 bytes `0xFF`: the 32-bit cursor wraps to 0 and the last payload is copied
over the magic, the reserved bytes and the first two fields of slot 0. -/
theorem pack_wraps_over_slot (data0 : List Byte) (h0 : data0.length = 2 ^ 32 - 84) :
    ∃ out, pack_loader none
        [⟨⟨0, 0, 0, 0⟩, none⟩, ⟨⟨1, 2 ^ 32 - 84, 0x1000, 0⟩, some data0⟩,
          block_of 2 0x2000 (List.replicate 44 0xFF)] = Outcome.ok out ∧
      readU32 out (blocks_offset 0 + 4) = some 0xFFFFFFFF := by
  have h84 : HEADER_SIZE = 84 := rfl
  have htot : total_size [⟨⟨0, 0, 0, 0⟩, none⟩, ⟨⟨1, 2 ^ 32 - 84, 0x1000, 0⟩, some data0⟩,
      block_of 2 0x2000 (List.replicate 44 0xFF)] = 2 ^ 32 + 44 := by
    rw [total_size_eq]
    show HEADER_SIZE + List.sum [0, 2 ^ 32 - 84, (List.replicate 44 (0xFF : Byte)).length] = _
    rw [List.length_replicate]
    decide
  obtain ⟨buf0, hb0⟩ : ∃ buf0, memcpy (List.replicate (2 ^ 32 + 44) (0 : Byte)) 0
      (le32 MAGIC_SIGNATURE) = some buf0 :=
    ⟨_, memcpy_isSome (by rw [le32_length, List.length_replicate]; omega)⟩
  have hl0 : buf0.length = 2 ^ 32 + 44 := by rw [memcpy_length hb0, List.length_replicate]
  have hph : pack_header none (2 ^ 32 + 44) = some buf0 := by
    unfold pack_header copy_header
    exact hb0
  obtain ⟨buf1, hb1⟩ : ∃ buf1, memcpy buf0 (blocks_offset 1)
      (encode_desc ⟨1, 2 ^ 32 - 84, 0x1000, HEADER_SIZE⟩) = some buf1 :=
    ⟨_, memcpy_isSome (by rw [encode_desc_length, blocks_offset_eq]; omega)⟩
  have hl1 : buf1.length = 2 ^ 32 + 44 := by rw [memcpy_length hb1, hl0]
  obtain ⟨buf2, hb2⟩ : ∃ buf2, memcpy buf1 HEADER_SIZE data0 = some buf2 :=
    ⟨_, memcpy_isSome (by rw [h0, hl1, h84]; omega)⟩
  have hl2 : buf2.length = 2 ^ 32 + 44 := by rw [memcpy_length hb2, hl1]
  obtain ⟨buf3, hb3⟩ : ∃ buf3, memcpy buf2 (blocks_offset 2)
      (encode_desc ⟨2, 44, 0x2000, 0⟩) = some buf3 :=
    ⟨_, memcpy_isSome (by rw [encode_desc_length, blocks_offset_eq]; omega)⟩
  have hl3 : buf3.length = 2 ^ 32 + 44 := by rw [memcpy_length hb3, hl2]
  obtain ⟨buf4, hb4⟩ : ∃ buf4, memcpy buf3 0 (List.replicate 44 (0xFF : Byte)) = some buf4 :=
    ⟨_, memcpy_isSome (by rw [List.length_replicate]; omega)⟩
  have hne0 : data0 ≠ [] := by
    intro e
    rw [e] at h0
    simp at h0
  have hcur : (HEADER_SIZE + data0.length) % 2 ^ 32 = 0 := by rw [h0, h84]; decide
  have hstep1 := @pack_blocks_cons_sound ⟨⟨1, 2 ^ 32 - 84, 0x1000, 0⟩, some data0⟩
    [block_of 2 0x2000 (List.replicate 44 0xFF)] 1 HEADER_SIZE buf0 data0 buf1 buf2 rfl h0.symm
    hne0 hb1 hb2
  have hstep2 := @pack_blocks_cons_sound (block_of 2 0x2000 (List.replicate 44 0xFF)) [] 2 0
    buf2 (List.replicate 44 0xFF) buf3 buf4 rfl rfl (by decide) hb3 hb4
  refine ⟨buf4, ?_, ?_⟩
  · unfold pack_loader
    rw [if_neg (by simp), htot, hph]
    simp only
    rw [pack_blocks, if_pos rfl, hstep1, hcur, hstep2]
    rfl
  · have hr : readU32 buf4 (blocks_offset 0 + 4) =
        readU32 (List.replicate 44 (0xFF : Byte)) (blocks_offset 0 + 4) := by
      apply readU32_congr
      intro q hq1 hq2
      rw [blocks_offset_eq] at hq1 hq2
      rw [memcpy_getElem? hb4, if_pos (by rw [List.length_replicate]; omega), Nat.sub_zero]
    rw [hr]
    decide

theorem slot_isSome {buf : List Byte} {i : Nat} (h : blocks_offset i + 16 ≤ buf.length) :
    ∃ d, slot buf i = some d := by
  obtain ⟨m, hm⟩ := @readU32_isSome buf (blocks_offset i) (by omega)
  obtain ⟨s, hs⟩ := @readU32_isSome buf (blocks_offset i + 4) (by omega)
  obtain ⟨a, ha⟩ := @readU32_isSome buf (blocks_offset i + 8) (by omega)
  obtain ⟨o, ho⟩ := @readU32_isSome buf (blocks_offset i + 12) (by omega)
  exact ⟨⟨m, s, a, o⟩, slot_eq_some.mpr ⟨hm, hs, ha, ho⟩⟩

/-- On a buffer that holds the whole descriptor table, and as long as no sum
`offset + size` reaches `2 ^ 32`, the block loop of `unpack_loader` follows the
stop rule of the specification. -/
theorem unpack_blocks_eq_spec (buf : List Byte) (hlen : sizeof_usbloader_header ≤ buf.length)
    (hsum : ∀ i d, i < MAX_BLOCKS → slot buf i = some d → d.offset + d.size < 2 ^ 32) :
    ∀ n i, i + n = MAX_BLOCKS → unpack_blocks buf n i = Outcome.ok (spec_blocks buf n i) := by
  have hsz : sizeof_usbloader_header = 196 := rfl
  have hmb : MAX_BLOCKS = 10 := rfl
  have h84 : HEADER_SIZE = 84 := rfl
  intro n
  induction n with
  | zero => intro i _; rfl
  | succ n ih =>
    intro i hi
    have hbo := blocks_offset_eq i
    obtain ⟨d, hd⟩ := @slot_isSome buf i (by omega)
    have hs := hsum i d (by omega) hd
    obtain ⟨hm, hsize, ha, ho⟩ := slot_eq_some.mp hd
    rw [spec_blocks, hd]
    simp only
    by_cases hstop : d.size = 0 ∨ d.offset < HEADER_SIZE ∨ d.offset + d.size > buf.length
    · rw [if_pos hstop, unpack_blocks, hsize]
      simp only
      by_cases h0 : d.size = 0
      · rw [if_pos h0]
      · rw [if_neg h0, ho]
        simp only
        by_cases h1 : d.offset < HEADER_SIZE
        · rw [if_pos h1]
        · rw [if_neg h1, if_pos (by
            rw [Nat.mod_eq_of_lt hs]
            rcases hstop with h | h | h
            · exact absurd h h0
            · exact absurd h h1
            · exact h)]
    · simp only [not_or, Nat.not_lt, not_lt] at hstop
      obtain ⟨h0, h1, h2⟩ := hstop
      rw [if_neg (by
        simp only [not_or, Nat.not_lt, not_lt]
        exact ⟨h0, h1, h2⟩), unpack_blocks_accept hd h0 h1 h2, ih (i + 1) (by omega)]

/-- The function `unpack_loader` under the same conditions. -/
theorem unpack_loader_eq_spec (buf : List Byte) (hlen : sizeof_usbloader_header ≤ buf.length)
    (hmagic : readU32 buf 0 = some MAGIC_SIGNATURE)
    (hsum : ∀ i d, i < MAX_BLOCKS → slot buf i = some d → d.offset + d.size < 2 ^ 32) :
    unpack_loader buf = Outcome.ok ⟨buf.take HEADER_SIZE, spec_blocks buf MAX_BLOCKS 0⟩ := by
  have hsz : sizeof_usbloader_header = 196 := rfl
  have h84 : HEADER_SIZE = 84 := rfl
  exact unpack_loader_of_blocks (by omega) hmagic
    (unpack_blocks_eq_spec buf hlen hsum MAX_BLOCKS 0 (Nat.zero_add _))

/-! ## Container: the claims -/

/-- C8: `unpack_loader` returns 0, and writes neither header nor block, for
every file shorter than `HEADER_SIZE` and for every file whose leading four
bytes, read as a little-endian 32-bit integer, are not `0x00020000`. -/
theorem unpack_rejects_bad_header (buffer : List Byte)
    (h : buffer.length < HEADER_SIZE ∨ readU32 buffer 0 ≠ some MAGIC_SIGNATURE) :
    unpack_loader buffer = Outcome.fail := by
  unfold unpack_loader
  by_cases hlen : buffer.length < HEADER_SIZE
  · rw [if_pos hlen]
  · rw [if_neg hlen]
    have hm : readU32 buffer 0 ≠ some MAGIC_SIGNATURE := by
      rcases h with h | h
      · exact absurd h hlen
      · exact h
    have h84 : HEADER_SIZE = 84 := rfl
    obtain ⟨v, hv⟩ := @readU32_isSome buffer 0 (by omega)
    rw [hv] at hm ⊢
    have : v ≠ MAGIC_SIGNATURE := fun e => hm (by rw [e])
    simp only [ne_eq, this, not_false_eq_true, if_true]

/-- C7: on a buffer that begins with the magic and whose slots 0 and 1 are
populated, in bounds and contiguous while slot 2 has size zero,
`unpack_loader` yields exactly two blocks, each with the bytes
`[offset, offset + size)` of the buffer. -/
theorem unpack_two_blocks (buffer : List Byte) (d0 d1 : block_desc)
    (hmagic : readU32 buffer 0 = some MAGIC_SIGNATURE)
    (h0 : slot buffer 0 = some d0) (h1 : slot buffer 1 = some d1)
    (h2 : readU32 buffer (blocks_offset 2 + 4) = some 0)
    (hs0 : d0.size ≠ 0) (hs1 : d1.size ≠ 0)
    (ho0 : HEADER_SIZE ≤ d0.offset) (hcont : d1.offset = d0.offset + d0.size)
    (hin : d1.offset + d1.size ≤ buffer.length) :
    unpack_loader buffer = Outcome.ok ⟨buffer.take HEADER_SIZE,
      [⟨0, d0, (buffer.drop d0.offset).take d0.size⟩,
       ⟨1, d1, (buffer.drop d1.offset).take d1.size⟩]⟩ := by
  have h84 : HEADER_SIZE = 84 := rfl
  apply unpack_loader_of_blocks (by omega) hmagic
  have hM : MAX_BLOCKS = 7 + 1 + 1 + 1 := rfl
  rw [hM, unpack_blocks_accept h0 hs0 ho0 (by omega),
    unpack_blocks_accept h1 hs1 (by omega) hin, unpack_blocks_stop h2]

/-- C1, amended: for one or two blocks with non-empty payloads and declared
sizes equal to the payload lengths, a packed file that fits 32-bit offsets and
a header template whose slot after the last block has a zero size field,
unpacking the packed buffer yields exactly the packed blocks, with the same
payload bytes, mode and load address. -/
theorem pack_unpack_round_trip (header_file : Option (List Byte)) (blocks : List PackBlock)
    (hp : packable blocks) (hn : blocks.length ≤ 2) (htot : total_size blocks < 2 ^ 32)
    (ht : readU32 (header_template header_file) (blocks_offset blocks.length + 4) = some 0) :
    round_trip header_file blocks := by
  have h84 : HEADER_SIZE = 84 := rfl
  obtain ⟨h1, _, hs⟩ := hp
  have htotal := total_size_eq blocks
  obtain ⟨buf0, hb0, hl0, hmagic0, htempl⟩ :=
    @pack_header_spec header_file (total_size blocks) (by omega)
  obtain ⟨out, hout, hcontent⟩ := pack_blocks_sound blocks 0 HEADER_SIZE buf0 hs (by omega)
    (Nat.le_refl _) (by omega) (by omega)
  obtain ⟨hlout, hframe⟩ := pack_blocks_frame blocks 0 HEADER_SIZE buf0 out hout (by omega)
  have hpack : pack_loader header_file blocks = Outcome.ok out := by
    unfold pack_loader
    rw [if_neg (by omega), hb0]
    exact hout
  -- the magic and the first free slot come from the header of the buffer
  have hslots : ∀ p, (p < 36 ∨ blocks_offset blocks.length ≤ p) →
      ∀ (j : Nat) (b : PackBlock), blocks[j]? = some b → b.desc.size ≠ 0 →
        ¬ (blocks_offset (0 + j) ≤ p ∧ p < blocks_offset (0 + j) + 16) := by
    intro p hp j b hj _
    have hj' : j < blocks.length := (List.getElem?_eq_some_iff.mp hj).1
    have := blocks_offset_eq (0 + j)
    have := blocks_offset_eq blocks.length
    rw [Nat.zero_add] at *
    omega
  have hmagic : readU32 out 0 = some MAGIC_SIGNATURE := by
    rw [← hmagic0]
    apply readU32_congr
    intro q _ hq
    exact hframe q (by omega) (hslots q (Or.inl (by omega)))
  have hstop : readU32 out (blocks_offset blocks.length + 4) = some 0 := by
    rw [← ht]
    have hbo := blocks_offset_eq blocks.length
    apply readU32_congr
    intro q hq1 hq2
    rw [hframe q (by omega) (hslots q (Or.inr (by omega))), htempl q (by omega) (by omega)]
  have hMB : MAX_BLOCKS = 7 + 1 + 1 + 1 := rfl
  match blocks, h1, hn with
  | [b0], _, _ =>
    obtain ⟨d0, o0, hf0, hs0, ho0, hin0, hsl0⟩ := hcontent 0 b0 rfl
    obtain ⟨_, d0', hf0', hne0, hsz0⟩ := hs b0 (List.mem_cons_self _ _)
    have hz0 : b0.desc.size ≠ 0 := by
      rw [hsz0]; exact fun h0 => hne0 (List.length_eq_zero.mp h0)
    have hs0' : slot out 0 = some ⟨b0.desc.lmode, b0.desc.size, b0.desc.adr, o0⟩ := hs0
    have hstop' : readU32 out (blocks_offset (0 + 1) + 4) = some 0 := hstop
    have hub : unpack_blocks out MAX_BLOCKS 0 = Outcome.ok
        [⟨0, ⟨b0.desc.lmode, b0.desc.size, b0.desc.adr, o0⟩, d0⟩] := by
      rw [hMB, unpack_blocks_accept hs0' hz0 ho0 hin0, unpack_blocks_stop hstop']
      simp only [hsl0]
    have hu := @unpack_loader_of_blocks out _ (by omega) hmagic hub
    refine ⟨out, _, hpack, hu, rfl, ?_⟩
    intro i b hi
    cases i with
    | zero =>
      simp only [List.getElem?_cons_zero, Option.some.injEq] at hi
      subst hi
      exact ⟨_, rfl, hf0, rfl, rfl⟩
    | succ i => simp at hi
  | [b0, b1], _, _ =>
    obtain ⟨d0, o0, hf0, hs0, ho0, hin0, hsl0⟩ := hcontent 0 b0 rfl
    obtain ⟨d1, o1, hf1, hs1, ho1, hin1, hsl1⟩ := hcontent 1 b1 rfl
    obtain ⟨_, d0', hf0', hne0, hsz0⟩ := hs b0 (List.mem_cons_self _ _)
    obtain ⟨_, d1', hf1', hne1, hsz1⟩ := hs b1 (List.mem_cons_of_mem _ (List.mem_cons_self _ _))
    have hz0 : b0.desc.size ≠ 0 := by
      rw [hsz0]; exact fun h0 => hne0 (List.length_eq_zero.mp h0)
    have hz1 : b1.desc.size ≠ 0 := by
      rw [hsz1]; exact fun h0 => hne1 (List.length_eq_zero.mp h0)
    have hs0' : slot out 0 = some ⟨b0.desc.lmode, b0.desc.size, b0.desc.adr, o0⟩ := hs0
    have hstop' : readU32 out (blocks_offset (0 + 1 + 1) + 4) = some 0 := hstop
    have hub : unpack_blocks out MAX_BLOCKS 0 = Outcome.ok
        [⟨0, ⟨b0.desc.lmode, b0.desc.size, b0.desc.adr, o0⟩, d0⟩,
         ⟨1, ⟨b1.desc.lmode, b1.desc.size, b1.desc.adr, o1⟩, d1⟩] := by
      rw [hMB, unpack_blocks_accept hs0' hz0 ho0 hin0, unpack_blocks_accept hs1 hz1 ho1 hin1,
        unpack_blocks_stop hstop']
      simp only [hsl0, hsl1]
    have hu := @unpack_loader_of_blocks out _ (by omega) hmagic hub
    refine ⟨out, _, hpack, hu, rfl, ?_⟩
    intro i b hi
    match i, hi with
    | 0, hi =>
      simp only [List.getElem?_cons_zero, Option.some.injEq] at hi
      subst hi
      exact ⟨_, rfl, hf0, rfl, rfl⟩
    | 1, hi =>
      simp only [List.getElem?_cons_succ, List.getElem?_cons_zero, Option.some.injEq] at hi
      subst hi
      exact ⟨_, rfl, hf1, rfl, rfl⟩
    | i + 2, hi => simp at hi

/-- C10, amended: for every header template, every block list and every `i`, a
block `i` with declared size zero is skipped: replacing its mode, address,
offset and file changes nothing in the result, and the turn of the block loop
for it writes nothing, the buffer and the cursor going on to the next block as
they are.  When its slot lies inside the header and the packed file fits
32-bit offsets, the slot of the output is the slot of the header template (all
zero when there is no `header.bin`). -/
theorem pack_skips_zero_size (header_file : Option (List Byte)) (blocks : List PackBlock) (i : Nat)
    (b : PackBlock) (hb : blocks[i]? = some b) (hz : b.desc.size = 0) :
    (∀ b' : PackBlock, b'.desc.size = 0 →
      pack_loader header_file (blocks.set i b') = pack_loader header_file blocks) ∧
    (∀ (rest : List PackBlock) (j cur : Nat) (buffer : List Byte),
      pack_blocks (b :: rest) j cur buffer = pack_blocks rest (j + 1) cur buffer) ∧
    (blocks_offset i + sizeof_block_desc ≤ HEADER_SIZE → total_size blocks < 2 ^ 32 →
      ∀ out, pack_loader header_file blocks = Outcome.ok out →
        slot out i = slot (header_template header_file) i) := by
  have h84 : HEADER_SIZE = 84 := rfl
  have h16 : sizeof_block_desc = 16 := rfl
  have hbo := blocks_offset_eq i
  have hil : i < blocks.length := (List.getElem?_eq_some_iff.mp hb).1
  refine ⟨?_, ?_, ?_⟩
  · intro b' hz'
    unfold pack_loader
    rw [List.length_set, total_size_set blocks i b b' hb hz hz']
    split
    · rfl
    · split
      · rfl
      · exact pack_blocks_set blocks i b b' _ _ _ hb hz hz'
  · intro rest j cur buffer
    rw [pack_blocks, if_pos hz]
  · intro hi htot out hout
    have htotal := total_size_eq blocks
    obtain ⟨buf0, hb0, hl0, -, htempl⟩ :=
      @pack_header_spec header_file (total_size blocks) (by omega)
    unfold pack_loader at hout
    rw [if_neg (by omega), hb0] at hout
    obtain ⟨-, hframe⟩ := pack_blocks_frame blocks 0 HEADER_SIZE buf0 out hout (by omega)
    have hbytes : ∀ q, blocks_offset i ≤ q → q < blocks_offset i + 16 →
        out[q]? = (header_template header_file)[q]? := by
      intro q hq1 hq2
      rw [hframe q (by omega) ?_, htempl q (by omega) (by omega)]
      intro j b' hj hb'
      have := blocks_offset_eq (0 + j)
      rw [Nat.zero_add] at *
      by_cases hji : j = i
      · subst hji
        rw [hb] at hj
        cases hj
        exact absurd hz hb'
      · omega
    unfold slot
    rw [readU32_congr (fun q h1 h2 => hbytes q (by omega) (by omega)),
      readU32_congr (p := blocks_offset i + 4) (fun q h1 h2 => hbytes q (by omega) (by omega)),
      readU32_congr (p := blocks_offset i + 8) (fun q h1 h2 => hbytes q (by omega) (by omega)),
      readU32_congr (p := blocks_offset i + 12) (fun q h1 h2 => hbytes q (by omega) (by omega))]

/-- C10, counterexample: three block lists with a block of declared size zero
whose slot in the output has a non-zero size field.  With a `header.bin` whose
slot 1 is populated, slot 1 keeps the descriptor of the template; slot 3 lies
in the payload area and holds bytes of the first payload; and with a payload of
`2 ^ 32 - 84` bytes the next payload is copied over slot 0. -/
theorem skipped_slot_counterexamples :
    (([block_of 1 0x1000 [0x77], ⟨⟨2, 0, 0x2000, 0⟩, none⟩] : List PackBlock)[1]? =
        some ⟨⟨2, 0, 0x2000, 0⟩, none⟩ ∧
      ¬ skipped_slot_is_zero (some stale_header)
        [block_of 1 0x1000 [0x77], ⟨⟨2, 0, 0x2000, 0⟩, none⟩] 1) ∧
    (([block_of 1 0x1000 (List.replicate 16 0xAA), ⟨⟨0, 0, 0, 0⟩, none⟩, ⟨⟨0, 0, 0, 0⟩, none⟩,
        ⟨⟨2, 0, 0x2000, 0⟩, none⟩] : List PackBlock)[3]? = some ⟨⟨2, 0, 0x2000, 0⟩, none⟩ ∧
      ¬ skipped_slot_is_zero none
        [block_of 1 0x1000 (List.replicate 16 0xAA), ⟨⟨0, 0, 0, 0⟩, none⟩, ⟨⟨0, 0, 0, 0⟩, none⟩,
          ⟨⟨2, 0, 0x2000, 0⟩, none⟩] 3) ∧
    (([⟨⟨0, 0, 0, 0⟩, none⟩,
        ⟨⟨1, 2 ^ 32 - 84, 0x1000, 0⟩, some (List.replicate (2 ^ 32 - 84) 0)⟩,
        block_of 2 0x2000 (List.replicate 44 0xFF)] : List PackBlock)[0]? =
          some ⟨⟨0, 0, 0, 0⟩, none⟩ ∧
      ¬ skipped_slot_is_zero none
        [⟨⟨0, 0, 0, 0⟩, none⟩,
          ⟨⟨1, 2 ^ 32 - 84, 0x1000, 0⟩, some (List.replicate (2 ^ 32 - 84) 0)⟩,
          block_of 2 0x2000 (List.replicate 44 0xFF)] 0) := by
  refine ⟨⟨rfl, fun h => ?_⟩, ⟨rfl, fun h => ?_⟩, ⟨rfl, fun h => ?_⟩⟩
  · have h1 := h (container ⟨1, 1, 0x1000, 84⟩ ⟨1, 1, 0, 84⟩ ⟨0, 0, 0, 0⟩ [0x77]) (by decide)
    revert h1
    decide
  · have h1 := h (container ⟨1, 16, 0x1000, 84⟩ ⟨0, 0, 0, 0⟩ ⟨0, 0, 0, 0⟩
      (List.replicate 16 0xAA)) (by decide)
    revert h1
    decide
  · obtain ⟨out, hp, hr⟩ :=
      pack_wraps_over_slot (List.replicate (2 ^ 32 - 84) 0) (List.length_replicate _ _)
    have h1 := h out hp
    rw [hr] at h1
    revert h1
    decide

/-- C1, counterexample: four block lists that meet the hypotheses of the claim
and do not survive the round trip.  With a `header.bin` whose slot 1 is
populated, one packed block is unpacked as two; three blocks whose first
payload looks like a descriptor are unpacked as four; of four blocks, three
are unpacked, with overwritten payloads; and with a first payload of
`2 ^ 32 - 84` bytes the second payload lands on the magic and `unpack_loader`
rejects the file. -/
theorem round_trip_counterexamples :
    (packable [block_of 1 0x1000 [0x77]] ∧
      ¬ round_trip (some stale_header) [block_of 1 0x1000 [0x77]]) ∧
    (packable phantom_blocks ∧ ¬ round_trip none phantom_blocks) ∧
    (packable four_blocks ∧ ¬ round_trip none four_blocks) ∧
    (packable [⟨⟨1, 2 ^ 32 - 84, 0x1000, 0⟩, some (List.replicate (2 ^ 32 - 84) 0)⟩,
        block_of 2 0x2000 [7]] ∧
      ¬ round_trip none [⟨⟨1, 2 ^ 32 - 84, 0x1000, 0⟩, some (List.replicate (2 ^ 32 - 84) 0)⟩,
        block_of 2 0x2000 [7]]) := by
  refine ⟨⟨⟨by decide, by decide, ?_⟩, ?_⟩, ⟨⟨by decide, by decide, ?_⟩, ?_⟩,
    ⟨⟨by decide, by decide, ?_⟩, ?_⟩, ⟨⟨Nat.le_succ 1, by decide, ?_⟩, ?_⟩⟩
  · intro b hb
    rw [List.mem_singleton] at hb
    subst hb
    exact block_of_sound _ _ _ (by decide) (by decide) (by decide) (by decide)
  · rintro ⟨out, u, hp, hu, hl, -⟩
    have hp' : pack_loader (some stale_header) [block_of 1 0x1000 [0x77]] = Outcome.ok
        (container ⟨1, 1, 0x1000, 84⟩ ⟨1, 1, 0, 84⟩ ⟨0, 0, 0, 0⟩ [0x77]) := by decide
    rw [hp'] at hp
    cases hp
    have hu' : unpack_loader (container ⟨1, 1, 0x1000, 84⟩ ⟨1, 1, 0, 84⟩ ⟨0, 0, 0, 0⟩ [0x77]) =
        Outcome.ok ⟨container ⟨1, 1, 0x1000, 84⟩ ⟨1, 1, 0, 84⟩ ⟨0, 0, 0, 0⟩ [],
          [⟨0, ⟨1, 1, 0x1000, 84⟩, [0x77]⟩, ⟨1, ⟨1, 1, 0, 84⟩, [0x77]⟩]⟩ := by decide
    rw [hu'] at hu
    cases hu
    simp at hl
  · intro b hb
    simp only [phantom_blocks, List.mem_cons, List.mem_singleton, List.not_mem_nil,
      or_false] at hb
    rcases hb with hb | hb | hb <;> subst hb <;>
      exact block_of_sound _ _ _ (by decide) (by decide) (by decide) (by decide)
  · rintro ⟨out, u, hp, hu, hl, -⟩
    have hp' : pack_loader none phantom_blocks = Outcome.ok
        (container ⟨1, 32, 0x1000, 84⟩ ⟨2, 1, 0x2000, 116⟩ ⟨1, 1, 0x3000, 117⟩
          (encode_desc ⟨1, 1, 0, 84⟩ ++ List.replicate 16 0 ++ [0xAA, 0xBB])) := by decide
    rw [hp'] at hp
    cases hp
    have hu' : unpack_loader
        (container ⟨1, 32, 0x1000, 84⟩ ⟨2, 1, 0x2000, 116⟩ ⟨1, 1, 0x3000, 117⟩
          (encode_desc ⟨1, 1, 0, 84⟩ ++ List.replicate 16 0 ++ [0xAA, 0xBB])) = Outcome.ok
        ⟨container ⟨1, 32, 0x1000, 84⟩ ⟨2, 1, 0x2000, 116⟩ ⟨1, 1, 0x3000, 117⟩ [],
         [⟨0, ⟨1, 32, 0x1000, 84⟩, encode_desc ⟨1, 1, 0, 84⟩ ++ List.replicate 16 0⟩,
          ⟨1, ⟨2, 1, 0x2000, 116⟩, [0xAA]⟩, ⟨2, ⟨1, 1, 0x3000, 117⟩, [0xBB]⟩,
          ⟨3, ⟨1, 1, 0, 84⟩, [1]⟩]⟩ := by decide
    rw [hu'] at hu
    cases hu
    revert hl
    decide
  · intro b hb
    simp only [four_blocks, List.mem_cons, List.mem_singleton, List.not_mem_nil,
      or_false] at hb
    rcases hb with hb | hb | hb | hb <;> subst hb <;>
      exact block_of_sound _ _ _ (by decide) (by decide) (by decide) (by decide)
  · rintro ⟨out, u, hp, hu, hl, -⟩
    have hp' : pack_loader none four_blocks = Outcome.ok
        (container ⟨1, 1, 0x1000, 84⟩ ⟨2, 1, 0x2000, 85⟩ ⟨1, 1, 0x3000, 86⟩
          ([1, 0, 0] ++ List.replicate 20 0xAA)) := by decide
    rw [hp'] at hp
    cases hp
    have hu' : unpack_loader
        (container ⟨1, 1, 0x1000, 84⟩ ⟨2, 1, 0x2000, 85⟩ ⟨1, 1, 0x3000, 86⟩
          ([1, 0, 0] ++ List.replicate 20 0xAA)) = Outcome.ok
        ⟨container ⟨1, 1, 0x1000, 84⟩ ⟨2, 1, 0x2000, 85⟩ ⟨1, 1, 0x3000, 86⟩ [],
         [⟨0, ⟨1, 1, 0x1000, 84⟩, [1]⟩, ⟨1, ⟨2, 1, 0x2000, 85⟩, [0]⟩,
          ⟨2, ⟨1, 1, 0x3000, 86⟩, [0]⟩]⟩ := by decide
    rw [hu'] at hu
    cases hu
    revert hl
    decide
  · intro b hb
    simp only [List.mem_cons, List.mem_singleton, List.not_mem_nil, or_false] at hb
    rcases hb with hb | hb <;> subst hb
    · refine ⟨by unfold block_desc.wf; decide, List.replicate (2 ^ 32 - 84) 0, rfl, ?_,
        (List.length_replicate _ _).symm⟩
      intro e
      have := congrArg List.length e
      rw [List.length_replicate] at this
      exact absurd this (by decide)
    · exact block_of_sound _ _ _ (by decide) (by decide) (by decide) (by decide)
  · rintro ⟨out, u, hp, hu, -⟩
    obtain ⟨out', hp', hlen, hm⟩ :=
      pack_wraps_cursor (List.replicate (2 ^ 32 - 84) 0) (List.length_replicate _ _)
    have e : out' = out := by
      rw [hp'] at hp
      injection hp
    rw [← e, unpack_fail_of_magic out' 131079 hlen hm (by decide)] at hu
    cases hu

/-- C1, witness: two blocks packed without `header.bin`. -/
theorem pack_unpack_round_trip_witness :
    packable [block_of 1 0x1000 [1, 2, 3], block_of 2 0x2000 [4, 5]] ∧
    [block_of 1 0x1000 [1, 2, 3], block_of 2 0x2000 [4, 5]].length ≤ 2 ∧
    total_size [block_of 1 0x1000 [1, 2, 3], block_of 2 0x2000 [4, 5]] < 2 ^ 32 ∧
    readU32 (header_template none)
      (blocks_offset [block_of 1 0x1000 [1, 2, 3], block_of 2 0x2000 [4, 5]].length + 4) =
        some 0 ∧
    round_trip none [block_of 1 0x1000 [1, 2, 3], block_of 2 0x2000 [4, 5]] :=
  have hp : packable [block_of 1 0x1000 [1, 2, 3], block_of 2 0x2000 [4, 5]] :=
    ⟨by decide, by decide, fun b hb => by
      simp only [List.mem_cons, List.mem_singleton, List.not_mem_nil, or_false] at hb
      rcases hb with hb | hb <;> subst hb
      · exact ⟨by unfold block_desc.wf block_of; decide, [1, 2, 3], rfl, by decide, rfl⟩
      · exact ⟨by unfold block_desc.wf block_of; decide, [4, 5], rfl, by decide, rfl⟩⟩
  ⟨hp, by decide, by decide, by decide,
    pack_unpack_round_trip none _ hp (by decide) (by decide) (by decide)⟩

/-- C4: a 100-byte file with the magic whose slot 0 declares 32 bytes at
offset `0xFFFFFFF0`.  The exact sum `offset + size` exceeds the file length,
so the stop index of the specification is 0 and no block is to be extracted;
the 32-bit sum of the code is 16, the slot is accepted and its payload is read
at `buffer + 0xFFFFFFF0`. -/
theorem unpack_passes_stop_index :
    HEADER_SIZE ≤ wrap_container_a.length ∧
    readU32 wrap_container_a 0 = some MAGIC_SIGNATURE ∧
    slot wrap_container_a 0 = some ⟨1, 0x20, 0, 0xFFFFFFF0⟩ ∧
    0xFFFFFFF0 + 0x20 > wrap_container_a.length ∧
    spec_stop_index wrap_container_a = 0 ∧
    unpack_loader wrap_container_a = Outcome.fault (Fault.read 0xFFFFFFF0 0x20) := by
  decide

/-- C5: an 84-byte file with the magic whose slot 0 declares one byte at
offset `0xFFFFFFFF`.  The 32-bit sum `offset + size` is 0, the bounds check
passes, and `unpack_loader` reads the block at `buffer + 0xFFFFFFFF`, outside
the buffer. -/
theorem unpack_reads_outside_buffer :
    wrap_container_b.length = 84 ∧
    slot wrap_container_b 0 = some ⟨1, 1, 0x1000, 0xFFFFFFFF⟩ ∧
    0xFFFFFFFF + 1 > wrap_container_b.length ∧
    unpack_loader wrap_container_b = Outcome.fault (Fault.read 0xFFFFFFFF 1) := by
  decide

/-- C6: `HEADER_SIZE` is 84 while magic, padding and ten descriptors take 196
bytes; slot 3 starts at `HEADER_SIZE`, where the first payload is placed.
Packing the three blocks of `phantom_blocks` and unpacking the result yields a
fourth block, read from the bytes of the first payload. -/
theorem header_size_cuts_descriptor_table :
    HEADER_SIZE = 84 ∧ sizeof_usbloader_header = 196 ∧ blocks_offset 3 = HEADER_SIZE ∧
    pack_loader none phantom_blocks = Outcome.ok
      (container ⟨1, 32, 0x1000, 84⟩ ⟨2, 1, 0x2000, 116⟩ ⟨1, 1, 0x3000, 117⟩
        (encode_desc ⟨1, 1, 0, 84⟩ ++ List.replicate 16 0 ++ [0xAA, 0xBB])) ∧
    unpack_loader
      (container ⟨1, 32, 0x1000, 84⟩ ⟨2, 1, 0x2000, 116⟩ ⟨1, 1, 0x3000, 117⟩
        (encode_desc ⟨1, 1, 0, 84⟩ ++ List.replicate 16 0 ++ [0xAA, 0xBB])) = Outcome.ok
      ⟨container ⟨1, 32, 0x1000, 84⟩ ⟨2, 1, 0x2000, 116⟩ ⟨1, 1, 0x3000, 117⟩ [],
       [⟨0, ⟨1, 32, 0x1000, 84⟩, encode_desc ⟨1, 1, 0, 84⟩ ++ List.replicate 16 0⟩,
        ⟨1, ⟨2, 1, 0x2000, 116⟩, [0xAA]⟩, ⟨2, ⟨1, 1, 0x3000, 117⟩, [0xBB]⟩,
        ⟨3, ⟨1, 1, 0, 84⟩, [1]⟩]⟩ := by
  decide

/-- C7, witness: a header with two contiguous blocks of two and three bytes. -/
theorem unpack_two_blocks_witness :
    readU32 (container ⟨1, 2, 0x1000, 84⟩ ⟨2, 3, 0x2000, 86⟩ ⟨0, 0, 0, 0⟩ [1, 2, 3, 4, 5]) 0 =
      some MAGIC_SIGNATURE ∧
    unpack_loader (container ⟨1, 2, 0x1000, 84⟩ ⟨2, 3, 0x2000, 86⟩ ⟨0, 0, 0, 0⟩ [1, 2, 3, 4, 5]) =
      Outcome.ok ⟨container ⟨1, 2, 0x1000, 84⟩ ⟨2, 3, 0x2000, 86⟩ ⟨0, 0, 0, 0⟩ [],
        [⟨0, ⟨1, 2, 0x1000, 84⟩, [1, 2]⟩, ⟨1, ⟨2, 3, 0x2000, 86⟩, [3, 4, 5]⟩]⟩ :=
  ⟨by decide,
    unpack_two_blocks (container ⟨1, 2, 0x1000, 84⟩ ⟨2, 3, 0x2000, 86⟩ ⟨0, 0, 0, 0⟩ [1, 2, 3, 4, 5])
      ⟨1, 2, 0x1000, 84⟩ ⟨2, 3, 0x2000, 86⟩ (by decide) (by decide) (by decide) (by decide)
      (by decide) (by decide) (by decide) (by decide) (by decide)⟩

/-- C8, witness: 84 zero bytes do not begin with the magic. -/
theorem unpack_rejects_bad_header_witness :
    ((List.replicate 84 (0 : Byte)).length < HEADER_SIZE ∨
      readU32 (List.replicate 84 (0 : Byte)) 0 ≠ some MAGIC_SIGNATURE) ∧
    unpack_loader (List.replicate 84 (0 : Byte)) = Outcome.fail :=
  ⟨Or.inr (by decide), unpack_rejects_bad_header _ (Or.inr (by decide))⟩

/-- C9: four blocks of 1, 1, 1 and 20 bytes.  The descriptor of block 3 is
written at byte 84, over the payloads of blocks 0 to 2, and the payload of
block 3, written at the cursor 87, overwrites that descriptor: its offset
field in the output is `0xAAAAAAAA`, not 87. -/
theorem pack_overwrites_descriptor :
    pack_loader none four_blocks = Outcome.ok
      (container ⟨1, 1, 0x1000, 84⟩ ⟨2, 1, 0x2000, 85⟩ ⟨1, 1, 0x3000, 86⟩
        ([1, 0, 0] ++ List.replicate 20 0xAA)) ∧
    readU32 (container ⟨1, 1, 0x1000, 84⟩ ⟨2, 1, 0x2000, 85⟩ ⟨1, 1, 0x3000, 86⟩
        ([1, 0, 0] ++ List.replicate 20 0xAA)) (blocks_offset 3 + 12) = some 0xAAAAAAAA ∧
    HEADER_SIZE + 1 + 1 + 1 = 87 := by
  decide

/-- C10, witness: two blocks without `header.bin`; block 1 has size zero, a
mode, an address and no file.  `pack_loader` gives a container whose slot 1 is
the all-zero slot of the template, and gives the same container whatever
block of size zero stands in place of block 1. -/
theorem pack_skips_zero_size_witness :
    ([block_of 1 0x1000 [0x77], ⟨⟨2, 0, 0x2000, 0⟩, none⟩] : List PackBlock)[1]? =
      some ⟨⟨2, 0, 0x2000, 0⟩, none⟩ ∧
    (⟨⟨2, 0, 0x2000, 0⟩, none⟩ : PackBlock).desc.size = 0 ∧
    pack_loader none [block_of 1 0x1000 [0x77], ⟨⟨2, 0, 0x2000, 0⟩, none⟩] =
      Outcome.ok (container ⟨1, 1, 0x1000, 84⟩ ⟨0, 0, 0, 0⟩ ⟨0, 0, 0, 0⟩ [0x77]) ∧
    (∀ b' : PackBlock, b'.desc.size = 0 →
      pack_loader none
        (([block_of 1 0x1000 [0x77], ⟨⟨2, 0, 0x2000, 0⟩, none⟩] : List PackBlock).set 1 b') =
      pack_loader none [block_of 1 0x1000 [0x77], ⟨⟨2, 0, 0x2000, 0⟩, none⟩]) ∧
    blocks_offset 1 + sizeof_block_desc ≤ HEADER_SIZE ∧
    total_size [block_of 1 0x1000 [0x77], ⟨⟨2, 0, 0x2000, 0⟩, none⟩] < 2 ^ 32 ∧
    slot (container ⟨1, 1, 0x1000, 84⟩ ⟨0, 0, 0, 0⟩ ⟨0, 0, 0, 0⟩ [0x77]) 1 =
      slot (header_template none) 1 :=
  have h := pack_skips_zero_size none [block_of 1 0x1000 [0x77], ⟨⟨2, 0, 0x2000, 0⟩, none⟩] 1
    ⟨⟨2, 0, 0x2000, 0⟩, none⟩ rfl rfl
  ⟨rfl, rfl, by decide, h.1, by decide, by decide,
    h.2.2 (by decide) (by decide) _ (by decide)⟩

/-! ## Container: declared and actual payload length (C11) -/

theorem memcpy_fits (buf data : List Byte) (off : Nat) (h : off + data.length ≤ buf.length) :
    ∃ buf', memcpy buf off data = some buf' ∧ buf'.length = buf.length :=
  ⟨_, memcpy_isSome h, memcpy_length (memcpy_isSome h)⟩

theorem pack_header_fits (header_file : Option (List Byte)) (total : Nat)
    (h : HEADER_SIZE ≤ total) :
    ∃ buf, pack_header header_file total = some buf ∧ buf.length = total := by
  unfold pack_header copy_header
  cases header_file with
  | none =>
    obtain ⟨b, hb, hl⟩ := memcpy_fits (List.replicate total (0 : Byte)) (le32 MAGIC_SIGNATURE) 0
      (by simp [le32, HEADER_SIZE] at *; omega)
    exact ⟨b, hb, by rw [hl, List.length_replicate]⟩
  | some hd =>
    obtain ⟨b1, hb1, hl1⟩ := memcpy_fits (List.replicate total (0 : Byte))
      (hd.take (min hd.length HEADER_SIZE)) 0 (by simp [HEADER_SIZE] at *; omega)
    rw [List.length_replicate] at hl1
    obtain ⟨b, hb, hl⟩ := memcpy_fits b1 (le32 MAGIC_SIGNATURE) 0
      (by simp [le32, hl1, HEADER_SIZE] at *; omega)
    refine ⟨b, ?_, by rw [hl, hl1]⟩
    simp only [hb1, hb]

/-- A lone block whose payload is longer than its non-zero declared size makes
`pack_loader` copy the payload past the end of the buffer, which it allocated
from the declared size. -/
theorem pack_longer_payload_faults (header_file : Option (List Byte))
    (lmode size adr offset : Nat) (data : List Byte) (h0 : 0 < size)
    (h1 : size < data.length) :
    pack_loader header_file [⟨⟨lmode, size, adr, offset⟩, some data⟩] =
      Outcome.fault (Fault.write HEADER_SIZE data.length) := by
  have htot : total_size [⟨⟨lmode, size, adr, offset⟩, some data⟩] = HEADER_SIZE + size := by
    simp [total_size, h0]
  obtain ⟨buf, hbuf, hlen⟩ := pack_header_fits header_file (HEADER_SIZE + size)
    (Nat.le_add_right _ _)
  unfold pack_loader
  rw [if_neg (by simp), htot, hbuf]
  simp only [pack_blocks]
  rw [if_neg (by omega)]
  obtain ⟨b2, hb2, hl2⟩ := memcpy_fits buf
    (encode_desc ⟨lmode, if data.length ≠ size then data.length % 2 ^ 32 else size, adr,
      HEADER_SIZE⟩) (blocks_offset 0)
    (by rw [encode_desc_length, hlen]; simp [blocks_offset, sizeof_block_desc, HEADER_SIZE]; omega)
  rw [hb2]
  simp only
  have : memcpy b2 HEADER_SIZE data = none := by
    unfold memcpy
    rw [if_neg (by omega)]
  rw [this]

/-- C11, the defect: `pack_loader` sizes its buffer from the declared sizes
before it replaces a declared size by the length of the payload.  A block that
declares one byte and brings two makes it write past the end of the 85-byte
buffer, where a declared size of two gives the 86-byte file; a block that
declares two bytes and brings one gives 86 bytes, the last one a zero that the
85-byte file of a declared size of one does not have. -/
theorem pack_sizes_buffer_from_declared :
    pack_loader none [long_payload_block] = Outcome.fault (Fault.write 84 2) ∧
    pack_loader none [declare_actual long_payload_block] =
      Outcome.ok (one_block_file [0xAA, 0xBB]) ∧
    pack_loader none [short_payload_block] = Outcome.ok (one_block_file [0xAA] ++ [0]) ∧
    pack_loader none [declare_actual short_payload_block] =
      Outcome.ok (one_block_file [0xAA]) := by
  refine ⟨by decide, by decide, by decide, by decide⟩

/-! ## Lemmas on the partition-table codec -/

theorem u32_le32_append (v : Nat) (rest : List Byte) (h : v < 2 ^ 32) :
    u32 (le32 v ++ rest) = v := by
  unfold u32
  rw [@readU32_le32 (le32 v ++ rest) 0 v (fun k hk => by
    rw [Nat.zero_add, List.getElem?_append_left (by rw [le32_length]; exact hk)]),
    Nat.mod_eq_of_lt h]
  rfl

theorem drop_le32_append (v : Nat) (rest : List Byte) : (le32 v ++ rest).drop 4 = rest := by
  rfl

theorem encode_line_length (l : ptable_line) (h : l.name.length = 16) :
    (encode_line l).length = sizeof_ptable_line := by
  simp [encode_line, le32_length, h, sizeof_ptable_line]

theorem decode_line_encode_line (l : ptable_line) (h : l.wf) (rest : List Byte) :
    decode_line (encode_line l ++ rest) = l := by
  obtain ⟨hn, h1, h2, h3, h4, h5, h6, h7, h8⟩ := h
  have hd : ∀ (k : Nat) (xs : List Byte), (l.name ++ xs).drop (16 + k) = xs.drop k := by
    intro k xs
    rw [← hn, List.drop_append]
  have e : encode_line l ++ rest = l.name ++ (le32 l.start ++ (le32 l.lsize ++ (le32 l.length ++
      (le32 l.loadaddr ++ (le32 l.entry ++ (le32 l.type ++ (le32 l.nproperty ++
      (le32 l.count ++ rest)))))))) := by
    simp only [encode_line, List.append_assoc]
  rw [e]
  unfold decode_line
  rw [show (20 : Nat) = 16 + 4 from rfl, show (24 : Nat) = 16 + 8 from rfl,
    show (28 : Nat) = 16 + 12 from rfl, show (32 : Nat) = 16 + 16 from rfl,
    show (36 : Nat) = 16 + 20 from rfl, show (40 : Nat) = 16 + 24 from rfl,
    show (44 : Nat) = 16 + 28 from rfl]
  rw [hd 4, hd 8, hd 12, hd 16, hd 20, hd 24, hd 28]
  have h0 := hd 0
  simp only [Nat.add_zero, List.drop_zero] at h0
  rw [h0]
  have t16 : (l.name ++ (le32 l.start ++ (le32 l.lsize ++ (le32 l.length ++
      (le32 l.loadaddr ++ (le32 l.entry ++ (le32 l.type ++ (le32 l.nproperty ++
      (le32 l.count ++ rest))))))))).take 16 = l.name := by
    rw [← hn, List.take_left]
  rw [t16]
  cases l
  simp only [ptable_line.mk.injEq, true_and]
  simp only at h1 h2 h3 h4 h5 h6 h7 h8
  refine ⟨u32_le32_append _ _ h1, ?_, ?_, ?_, ?_, ?_, ?_, ?_⟩
  · exact u32_le32_append _ _ h2
  · exact u32_le32_append _ _ h3
  · exact u32_le32_append _ _ h4
  · exact u32_le32_append _ _ h5
  · exact u32_le32_append _ _ h6
  · exact u32_le32_append _ _ h7
  · exact u32_le32_append _ _ h8

theorem decode_lines_encode (ls : List ptable_line) (h : ∀ l ∈ ls, l.wf) (rest : List Byte) :
    decode_lines ls.length ((ls.map encode_line).flatten ++ rest) = ls := by
  induction ls with
  | nil => rfl
  | cons l ls ih =>
    have hl := h l (List.mem_cons_self _ _)
    simp only [List.map_cons, List.flatten_cons, List.length_cons, decode_lines, List.append_assoc]
    rw [decode_line_encode_line l hl, ← encode_line_length l hl.1, List.drop_left,
      ih (fun l' hl' => h l' (List.mem_cons_of_mem _ hl'))]

theorem join_encode_length (ls : List ptable_line) (h : ∀ l ∈ ls, l.wf) :
    ((ls.map encode_line).flatten).length = ls.length * sizeof_ptable_line := by
  induction ls with
  | nil => simp
  | cons l ls ih =>
    simp only [List.map_cons, List.flatten_cons, List.length_append, List.length_cons]
    rw [encode_line_length l (h l (List.mem_cons_self _ _)).1,
      ih (fun l' hl' => h l' (List.mem_cons_of_mem _ hl'))]
    rw [Nat.add_mul]; omega

theorem fwrite_ptable_length (t : ptable_t) (h : t.wf) :
    (fwrite_ptable t).length = sizeof_ptable_t := by
  obtain ⟨h1, h2, h3, h4, h5, h6⟩ := h
  simp only [fwrite_ptable, List.length_append, h1, h2, h3, h6, join_encode_length t.part h5, h4]
  rfl

/-! ## Lemmas on the text form of the partition table -/

theorem dropWhile_append_of_all {α : Type} (p : α → Bool) (xs ys : List α)
    (h : ∀ x ∈ xs, p x = true) : (xs ++ ys).dropWhile p = ys.dropWhile p := by
  induction xs with
  | nil => rfl
  | cons x xs ih =>
    rw [List.cons_append, List.dropWhile_cons, if_pos (h x (List.mem_cons_self _ _))]
    exact ih (fun y hy => h y (List.mem_cons_of_mem _ hy))

theorem takeWhile_append_of_all {α : Type} (p : α → Bool) (xs ys : List α)
    (h : ∀ x ∈ xs, p x = true) : (xs ++ ys).takeWhile p = xs ++ ys.takeWhile p := by
  induction xs with
  | nil => rfl
  | cons x xs ih =>
    rw [List.cons_append, List.takeWhile_cons, if_pos (h x (List.mem_cons_self _ _)),
      ih (fun y hy => h y (List.mem_cons_of_mem _ hy)), List.cons_append]

theorem dropWhile_of_head {α : Type} (p : α → Bool) (xs : List α)
    (h : ∀ c, xs.head? = some c → p c = false) : xs.dropWhile p = xs := by
  cases xs with
  | nil => rfl
  | cons x xs =>
    have hx := h x rfl
    rw [List.dropWhile_cons, hx]
    rfl

/-- `strip` removes trailing white space from a string with clean ends. -/
theorem strip_append_spaces (a w : List Byte) (ha : clean a)
    (hw : ∀ c ∈ w, isspace c = true) : strip (a ++ w) = a := by
  unfold strip
  cases a with
  | nil =>
    have : ([] ++ w).dropWhile isspace = [] := by
      rw [List.nil_append, List.dropWhile_eq_nil_iff]
      exact hw
    rw [this]
    rfl
  | cons x xs =>
    have h1 : ((x :: xs) ++ w).dropWhile isspace = (x :: xs) ++ w :=
      dropWhile_of_head _ _ (fun c hc => ha.1 c (by simpa using hc))
    rw [h1, List.reverse_append,
      dropWhile_append_of_all _ _ _ (fun c hc => hw c (List.mem_reverse.mp hc)),
      dropWhile_of_head _ _ (fun c hc => ha.2 c (by
        rw [List.head?_reverse] at hc; exact hc)),
      List.reverse_reverse]

theorem strip_clean (a : List Byte) (ha : clean a) : strip a = a := by
  have := strip_append_spaces a [] ha (fun c hc => by simp at hc)
  rwa [List.append_nil] at this

theorem cstr_of_no_nul (s : List Byte) (h : ∀ c ∈ s, c ≠ 0) : cstr s = s := by
  unfold cstr
  rw [List.takeWhile_eq_self_iff]
  intro c hc
  simpa using h c hc

theorem cstr_append_nul (s rest : List Byte) (h : ∀ c ∈ s, c ≠ 0) :
    cstr (s ++ 0 :: rest) = s := by
  unfold cstr
  rw [takeWhile_append_of_all _ _ _ (fun c hc => by simpa using h c hc)]
  simp

theorem clean_key_value (k a : List Byte) (hk : key_ok k) (ha : clean a) :
    clean (k ++ ch '=' :: a) := by
  obtain ⟨hne, hall, _⟩ := hk
  constructor
  · intro c hc
    cases k with
    | nil => exact absurd rfl hne
    | cons x xs =>
      simp only [List.cons_append, List.head?_cons, Option.some.injEq] at hc
      subst hc
      exact (hall x (List.mem_cons_self _ _)).1
  · intro c hc
    cases a with
    | nil =>
      have : (k ++ [ch '=']).getLast? = some (ch '=') := by simp
      rw [this] at hc
      cases hc
      decide
    | cons y ys =>
      have : (k ++ ch '=' :: y :: ys).getLast? = (y :: ys).getLast? := by
        rw [show k ++ ch '=' :: y :: ys = (k ++ [ch '=']) ++ (y :: ys) by simp,
          List.getLast?_append_of_ne_nil _ (by simp)]
      rw [this] at hc
      exact ha.2 c hc

theorem clean_of_key (k : List Byte) (hk : key_ok k) : clean k := by
  obtain ⟨hne, hall, _⟩ := hk
  constructor
  · intro c hc
    exact (hall c (List.mem_of_mem_head? hc)).1
  · intro c hc
    exact (hall c (List.mem_of_mem_getLast? hc)).1

/-- A line `key=value` followed by white space is handed to `parse_key_value`
with that key and that value. -/
theorem parse_line_key_value (st : ParseState) (k a w : List Byte) (hk : key_ok k)
    (ha : clean a) (hnul : ∀ c ∈ a, c ≠ 0) (hw : ∀ c ∈ w, isspace c = true) :
    parse_line st (k ++ ch '=' :: (a ++ w)) = parse_key_value st k a := by
  have hkc := clean_of_key k hk
  obtain ⟨hne, hall, hhash⟩ := hk
  have hw0 : ∀ c ∈ w, c ≠ 0 := by
    intro c hc h0
    have := hw c hc
    rw [h0] at this
    exact absurd this (by decide)
  have h1 : cstr (k ++ ch '=' :: (a ++ w)) = k ++ ch '=' :: (a ++ w) := by
    apply cstr_of_no_nul
    intro c hc
    simp only [List.mem_append, List.mem_cons] at hc
    rcases hc with hc | hc | hc | hc
    · exact (hall c hc).2.2
    · rw [hc]; decide
    · exact hnul c hc
    · exact hw0 c hc
  have h2 : strip (k ++ ch '=' :: (a ++ w)) = k ++ ch '=' :: a := by
    rw [show k ++ ch '=' :: (a ++ w) = (k ++ ch '=' :: a) ++ w by simp]
    exact strip_append_spaces _ _ (clean_key_value k a ⟨hne, hall, hhash⟩ ha) hw
  have h3 : (k ++ ch '=' :: a).head? = k.head? := by
    cases k with
    | nil => exact absurd rfl hne
    | cons x xs => rfl
  have h4 : k.head? ≠ none := by
    cases k with
    | nil => exact absurd rfl hne
    | cons x xs => simp
  have h5 : k ++ ch '=' :: a ≠ str "[partition]" := by
    intro h
    have : ch '=' ∈ str "[partition]" := by rw [← h]; simp
    revert this
    decide
  have h6 : (k ++ ch '=' :: a).dropWhile (fun c => c ≠ ch '=') = ch '=' :: a := by
    rw [dropWhile_append_of_all _ _ _ (fun c hc => by simpa using (hall c hc).2.1)]
    simp
  have h7 : (k ++ ch '=' :: a).takeWhile (fun c => c ≠ ch '=') = k := by
    rw [takeWhile_append_of_all _ _ _ (fun c hc => by simpa using (hall c hc).2.1)]
    simp
  unfold parse_line
  simp only [h1, h2, h3, h6, h7]
  rw [if_neg (by simp only [not_or]; exact ⟨h4, hhash⟩), if_neg h5, strip_clean k hkc,
    strip_clean a ha]

theorem parse_line_blank (st : ParseState) : parse_line st [ch '\n'] = Except.ok st := by
  rfl

theorem parse_line_partition (st : ParseState) (h : st.current < 40) :
    parse_line st (str "[partition]\n") = Except.ok
      { current := st.current + 1,
        ptable := { st.ptable with
          part := st.ptable.part.set (st.current + 1).toNat zero_line } } := by
  have h1 : strip (cstr (str "[partition]\n")) = str "[partition]" := by decide
  unfold parse_line
  simp only [h1]
  rw [if_neg (by decide), if_pos trivial, if_neg (by omega)]

theorem hex_char_props : ∀ d, d < 16 →
    digit_val (hex_char d) = d ∧ isspace (hex_char d) = false ∧ hex_char d ≠ 0 ∧
    hex_char d ≠ ch '\n' := by
  decide

theorem fmt_x_loop_append : ∀ (fuel n : Nat) (acc : List Byte),
    fmt_x_loop fuel n acc = fmt_x_loop fuel n [] ++ acc := by
  intro fuel
  induction fuel with
  | zero => intro n acc; rfl
  | succ f ih =>
    intro n acc
    unfold fmt_x_loop
    split
    · rfl
    · rw [ih (n / 16) (hex_char (n % 16) :: acc), ih (n / 16) [hex_char (n % 16)]]
      simp

/-- Every character of a `%x` conversion is a hexadecimal digit. -/
theorem fmt_x_loop_hex : ∀ (fuel n : Nat), ∀ c ∈ fmt_x_loop fuel n [],
    ∃ d, d < 16 ∧ c = hex_char d := by
  intro fuel
  induction fuel with
  | zero => intro n c hc; simp [fmt_x_loop] at hc
  | succ f ih =>
    intro n c hc
    unfold fmt_x_loop at hc
    split at hc
    · simp only [List.mem_singleton] at hc
      exact ⟨n % 16, Nat.mod_lt _ (by decide), hc⟩
    · rw [fmt_x_loop_append] at hc
      simp only [List.mem_append, List.mem_singleton] at hc
      rcases hc with hc | hc
      · exact ih _ c hc
      · exact ⟨n % 16, Nat.mod_lt _ (by decide), hc⟩

theorem fmt_x_loop_ne_nil (fuel n : Nat) : fmt_x_loop (fuel + 1) n [] ≠ [] := by
  unfold fmt_x_loop
  split
  · simp
  · rw [fmt_x_loop_append]; simp

theorem fmt_x_loop_length : ∀ (fuel n : Nat), (fmt_x_loop fuel n []).length ≤ fuel := by
  intro fuel
  induction fuel with
  | zero => intro n; simp [fmt_x_loop]
  | succ f ih =>
    intro n
    unfold fmt_x_loop
    split
    · simp
    · rw [fmt_x_loop_append]
      have := ih (n / 16)
      simp only [List.length_append, List.length_singleton]
      omega

theorem hex_value_append (xs : List Nat) (d : Nat) :
    hex_value (xs ++ [d]) = hex_value xs * 16 + d := by
  simp [hex_value, List.foldl_append]

theorem fmt_x_loop_value : ∀ (fuel n : Nat),
    hex_value ((fmt_x_loop (fuel + 1) n []).map digit_val) = n % 16 ^ (fuel + 1) := by
  intro fuel
  induction fuel with
  | zero =>
    intro n
    have hd := (hex_char_props (n % 16) (Nat.mod_lt _ (by decide))).1
    unfold fmt_x_loop
    split
    · simp [hex_value, hd]
    · simp [fmt_x_loop, hex_value, hd]
  | succ f ih =>
    intro n
    have hd := (hex_char_props (n % 16) (Nat.mod_lt _ (by decide))).1
    unfold fmt_x_loop
    split
    · rename_i h0
      have hlt : n < 16 := by omega
      have : n % 16 ^ (f + 1 + 1) = n := Nat.mod_eq_of_lt (by
        calc n < 16 := hlt
          _ = 16 ^ 1 := by norm_num
          _ ≤ 16 ^ (f + 1 + 1) := Nat.pow_le_pow_right (by decide) (by omega))
      simp only [List.map_cons, List.map_nil, hex_value, List.foldl_cons, List.foldl_nil, hd]
      rw [this]; omega
    · rw [fmt_x_loop_append, List.map_append, List.map_cons, List.map_nil, hex_value_append,
        ih (n / 16), hd]
      rw [show (16 : Nat) ^ (f + 1 + 1) = 16 * 16 ^ (f + 1) by rw [Nat.pow_succ]; omega,
        Nat.mod_mul]
      omega

theorem fmt_x_props (v : Nat) :
    (∀ c ∈ fmt_x v, ∃ d, d < 16 ∧ c = hex_char d) ∧ fmt_x v ≠ [] ∧ (fmt_x v).length ≤ 8 ∧
    hex_value ((fmt_x v).map digit_val) = v % 2 ^ 32 := by
  refine ⟨fmt_x_loop_hex 8 _, fmt_x_loop_ne_nil 7 _, fmt_x_loop_length 8 _, ?_⟩
  unfold fmt_x
  rw [fmt_x_loop_value 7 (v % 2 ^ 32)]
  exact Nat.mod_eq_of_lt (by
    have := Nat.mod_lt v (show 0 < 2 ^ 32 by decide)
    calc v % 2 ^ 32 < 2 ^ 32 := this
      _ = 16 ^ (7 + 1) := by norm_num)

theorem hex_value_lt (ds : List Nat) (h : ∀ d ∈ ds, d < 16) : hex_value ds < 16 ^ ds.length := by
  induction ds using List.reverseRecOn with
  | nil => simp [hex_value]
  | append_singleton xs d ih =>
    rw [hex_value_append, List.length_append, List.length_singleton, Nat.pow_succ]
    have h1 := ih (fun x hx => h x (List.mem_append_left _ hx))
    have h2 := h d (List.mem_append_right _ (List.mem_singleton_self _))
    omega

/-- `strtoul` reads back what `0x%x` prints. -/
theorem strtoul_fmt_x (v : Nat) : strtoul (str "0x" ++ fmt_x v) = v % 2 ^ 32 := by
  obtain ⟨hhex, hne, hlen, hval⟩ := fmt_x_props v
  cases hf : fmt_x v with
  | nil => exact absurd hf hne
  | cons c r =>
    rw [hf] at hhex hval hlen
    obtain ⟨d, hd, hc⟩ := hhex c (List.mem_cons_self _ _)
    have hcd : digit_val c < 16 := by rw [hc, (hex_char_props d hd).1]; exact hd
    have hall : ∀ x ∈ c :: r, (fun y => decide (digit_val y < 16)) x = true := by
      intro x hx
      obtain ⟨e, he, hxe⟩ := hhex x hx
      simp only [decide_eq_true_eq]
      rw [hxe, (hex_char_props e he).1]; exact he
    have hpd : parse_digits 16 (c :: r) = v % 2 ^ 32 := by
      unfold parse_digits
      rw [List.takeWhile_eq_self_iff.mpr hall]
      exact hval
    have hs : str "0x" ++ c :: r = ch '0' :: ch 'x' :: c :: r := rfl
    have hdw : (ch '0' :: ch 'x' :: c :: r).dropWhile isspace = ch '0' :: ch 'x' :: c :: r := rfl
    have hsign : strtoul_sign (ch '0' :: ch 'x' :: c :: r) = (false, ch '0' :: ch 'x' :: c :: r) :=
      rfl
    have hmag : strtoul_magnitude (ch '0' :: ch 'x' :: c :: r) = v % 2 ^ 32 := by
      unfold strtoul_magnitude
      simp only []
      rw [if_pos ⟨trivial, Or.inl trivial, hcd⟩, hpd]
    have hlt : v % 2 ^ 32 < 2 ^ 32 := Nat.mod_lt v (by decide)
    unfold strtoul
    rw [hs, hdw, hsign]
    simp only [hmag]
    rw [if_neg (by unfold ULONG_MAX; omega)]
    rfl

theorem scan_02x_fmt : ∀ b : Byte,
    scan_02x (hex_char (b.val / 16)) (hex_char (b.val % 16)) = some b.val := by
  decide

theorem byte_val_self (b : Byte) : byte b.val = b := by
  apply Fin.ext
  rw [byte_val]
  exact Nat.mod_eq_of_lt b.isLt

theorem parse_tail_loop_fmt (bs : List Byte) :
    parse_tail_loop ((bs.map fmt_02x).flatten) = some bs := by
  induction bs with
  | nil => rfl
  | cons b bs ih =>
    have e : ((b :: bs).map fmt_02x).flatten =
        hex_char (b.val / 16) :: hex_char (b.val % 16) :: (bs.map fmt_02x).flatten := rfl
    rw [e, parse_tail_loop, scan_02x_fmt b]
    simp only [ih, byte_val_self]

theorem flatten_fmt_02x_length (bs : List Byte) :
    ((bs.map fmt_02x).flatten).length = 2 * bs.length := by
  induction bs with
  | nil => rfl
  | cons b bs ih =>
    simp only [List.map_cons, List.flatten_cons, List.length_append, ih, fmt_02x,
      List.length_cons, List.length_nil]
    omega

theorem flatten_fmt_02x_hex (bs : List Byte) :
    ∀ c ∈ (bs.map fmt_02x).flatten, ∃ d, d < 16 ∧ c = hex_char d := by
  intro c hc
  simp only [List.mem_flatten, List.mem_map] at hc
  obtain ⟨l, ⟨b, _, hb⟩, hcl⟩ := hc
  subst hb
  simp only [fmt_02x, List.mem_cons, List.mem_singleton, List.not_mem_nil, or_false] at hcl
  rcases hcl with h | h
  · exact ⟨b.val / 16, by have := b.isLt; omega, h⟩
  · exact ⟨b.val % 16, Nat.mod_lt _ (by decide), h⟩

/-- `parse_tail` reads back the 64 characters printed for a 32-byte tail. -/
theorem parse_tail_fmt (bs : List Byte) (h : bs.length = 32) :
    parse_tail ((bs.map fmt_02x).flatten) = some bs := by
  unfold parse_tail
  rw [if_neg (by rw [flatten_fmt_02x_length, h]; decide), parse_tail_loop_fmt]

/-- A line shorter than the buffer is returned by `fgets` as one chunk. -/
theorem fgets_loop_line (n : Nat) : ∀ (l acc rest : List Byte),
    (∀ c ∈ l, c ≠ ch '\n') → acc.length + l.length + 1 < n →
    fgets_loop n (l ++ ch '\n' :: rest) acc = (acc ++ l ++ [ch '\n']) :: fgets_loop n rest [] := by
  intro l
  induction l with
  | nil =>
    intro acc rest _ _
    simp only [List.nil_append, List.append_nil, fgets_loop]
    rw [if_pos (Or.inl trivial)]
  | cons c cs ih =>
    intro acc rest hnl hlen
    simp only [List.length_cons] at hlen
    rw [List.cons_append, fgets_loop,
      if_neg (by
        simp only [not_or]
        exact ⟨hnl c (List.mem_cons_self _ _), by omega⟩),
      ih (acc ++ [c]) rest (fun x hx => hnl x (List.mem_cons_of_mem _ hx))
        (by simp only [List.length_append, List.length_singleton]; omega)]
    simp

theorem fgets_chunks_line (l rest : List Byte) (hnl : ∀ c ∈ l, c ≠ ch '\n')
    (hlen : l.length + 1 < MAX_LINE) :
    fgets_chunks MAX_LINE (l ++ ch '\n' :: rest) =
      (l ++ [ch '\n']) :: fgets_chunks MAX_LINE rest := by
  unfold fgets_chunks
  rw [fgets_loop_line MAX_LINE l [] rest hnl (by simpa using hlen)]
  simp

theorem fgets_chunks_nil : fgets_chunks MAX_LINE [] = [] := rfl

theorem unpad_eq (f : List Byte) : unpad f = (f.reverse.dropWhile is_pad).reverse := rfl

theorem field_decomp (f : List Byte) :
    ∃ pad, f = unpad f ++ pad ∧ ∀ c ∈ pad, is_pad c = true := by
  refine ⟨(f.reverse.takeWhile is_pad).reverse, ?_, ?_⟩
  · rw [unpad_eq, ← List.reverse_append, List.takeWhile_append_dropWhile, List.reverse_reverse]
  · intro c hc
    rw [List.mem_reverse] at hc
    exact (List.mem_takeWhile_imp hc)

theorem unpad_length_le (f : List Byte) : (unpad f).length ≤ f.length := by
  obtain ⟨pad, h, _⟩ := field_decomp f
  have := congrArg List.length h
  simp only [List.length_append] at this
  omega

theorem unpad_last (f : List Byte) : ∀ c, (unpad f).getLast? = some c → is_pad c = false := by
  intro c hc
  rw [unpad_eq, List.getLast?_reverse] at hc
  have := List.head?_dropWhile_not is_pad f.reverse
  rw [hc] at this
  simpa using this

theorem unpad_append (a pad : List Byte) (ha : ∀ c, a.getLast? = some c → is_pad c = false)
    (hp : ∀ c ∈ pad, is_pad c = true) : unpad (a ++ pad) = a := by
  rw [unpad_eq, List.reverse_append,
    dropWhile_append_of_all _ _ _ (fun c hc => hp c (List.mem_reverse.mp hc)),
    dropWhile_of_head _ _ (fun c hc => ha c (by rw [List.head?_reverse] at hc; exact hc)),
    List.reverse_reverse]

theorem is_pad_of_text_ok_last (a : List Byte) (h : text_ok a) :
    ∀ c, a.getLast? = some c → is_pad c = false := by
  intro c hc
  have h1 := h.2.2 c hc
  have h2 := (h.1 c (List.mem_of_mem_getLast? hc)).1
  have h3 : c.val ≠ 0 := fun e => h2 (Fin.ext e)
  have h4 : c.val ≠ 32 := by
    intro e
    have : c = 32 := Fin.ext e
    rw [this] at h1
    exact absurd h1 (by decide)
  simp [is_pad, h3, h4]

theorem copy16_eq (a : List Byte) (h : a.length ≤ 16) :
    copy16 a = a ++ List.replicate (16 - a.length) 0 := by
  unfold copy16
  rw [List.take_of_length_le h]

theorem mem_replicate_pad (n : Nat) : ∀ c ∈ List.replicate n (0 : Byte), is_pad c = true := by
  intro c hc
  rw [List.eq_of_mem_replicate hc]
  rfl

/-- A text copied into a zeroed 16-byte field is the field without its
padding. -/
theorem unpad_copy16 (a : List Byte) (h : a.length ≤ 16) (ha : text_ok a) :
    unpad (copy16 a) = a := by
  rw [copy16_eq a h]
  exact unpad_append a _ (is_pad_of_text_ok_last a ha) (mem_replicate_pad _)

theorem copy16_length (a : List Byte) : (copy16 a).length = 16 := by
  unfold copy16
  simp only [List.length_append, List.length_take, List.length_replicate]
  omega

/-- What `%s` prints for a version or product field. -/
theorem cstr_trim_trailing_zero (f : List Byte) (h : ∀ c ∈ unpad f, c ≠ 0) :
    cstr (trim_trailing_zero f) = unpad f := by
  have hl := unpad_length_le f
  have e : trim_trailing_zero f =
      unpad f ++ (0 : Byte) :: List.replicate (f.length - (unpad f).length) 0 := by
    show unpad f ++ List.replicate (f.length + 1 - (unpad f).length) 0 = _
    rw [show f.length + 1 - (unpad f).length = (f.length - (unpad f).length) + 1 by omega,
      List.replicate_succ]
  rw [e, cstr_append_nul _ _ h]

theorem cstr_append_of_mem (s more : List Byte) (h : (0 : Byte) ∈ s) :
    cstr (s ++ more) = cstr s ∧ (cstr s).length < s.length := by
  induction s with
  | nil => simp at h
  | cons x xs ih =>
    by_cases hx : x = 0
    · subst hx
      simp [cstr]
    · have hm : (0 : Byte) ∈ xs := by
        rcases List.mem_cons.mp h with h' | h'
        · exact absurd h'.symm hx
        · exact h'
      obtain ⟨h1, h2⟩ := ih hm
      have hx' : decide (x ≠ 0) = true := by simpa using hx
      unfold cstr at h1 h2 ⊢
      simp only [List.cons_append, List.takeWhile_cons, hx', if_true, h1]
      exact ⟨trivial, by simp only [List.length_cons]; omega⟩

/-- The C string of a NUL-terminated name: the name without padding, followed
by spaces. -/
theorem cstr_name (name : List Byte) (hnul : (0 : Byte) ∈ name)
    (h : ∀ c ∈ unpad name, c ≠ 0) :
    ∃ sp, cstr name = unpad name ++ sp ∧ (∀ c ∈ sp, c = ch ' ') ∧
      (unpad name ++ sp).length < name.length := by
  obtain ⟨pad, hd, hp⟩ := field_decomp name
  refine ⟨pad.takeWhile (fun c => c ≠ 0), ?_, ?_, ?_⟩
  · conv_lhs => rw [hd]
    unfold cstr
    rw [takeWhile_append_of_all _ _ _ (fun c hc => by simpa using h c hc)]
  · intro c hc
    have h1 := hp c ((List.takeWhile_sublist _).subset hc)
    have h2 := List.mem_takeWhile_imp hc
    simp only [ne_eq, decide_not, Bool.not_eq_true', decide_eq_false_iff_not] at h2
    have h3 : c.val ≠ 0 := fun e => h2 (Fin.ext e)
    simp only [is_pad, h3, decide_False, Bool.false_or, decide_eq_true_eq] at h1
    exact Fin.ext h1
  · have h1 : cstr name = unpad name ++ pad.takeWhile (fun c => c ≠ 0) := by
      conv_lhs => rw [hd]
      unfold cstr
      rw [takeWhile_append_of_all _ _ _ (fun c hc => by simpa using h c hc)]
    rw [← h1]
    have := (cstr_append_of_mem name [] hnul).2
    exact this

theorem parse_lines_cons_ok {st st1 : ParseState} {c : List Byte} (rest : List (List Byte))
    (h : parse_line st c = Except.ok st1) : parse_lines (c :: rest) st = parse_lines rest st1 := by
  rw [parse_lines, h]

theorem key_ok_no_nl (k : List Byte) (hk : key_ok k) : ∀ c ∈ k, c ≠ ch '\n' := by
  intro c hc e
  have := (hk.2.1 c hc).1
  rw [e] at this
  exact absurd this (by decide)

/-- One `key=value` line of the text, followed by spaces, is consumed by one
iteration of the loop of `parse_text`. -/
theorem parse_lines_kv (st st1 : ParseState) (k a w more : List Byte) (hk : key_ok k)
    (ha : text_ok a) (hw : ∀ c ∈ w, c = ch ' ')
    (hlen : k.length + a.length + w.length + 2 < MAX_LINE)
    (hst : parse_key_value st k a = Except.ok st1) :
    parse_lines (fgets_chunks MAX_LINE ((k ++ ch '=' :: (a ++ w)) ++ ch '\n' :: more)) st =
      parse_lines (fgets_chunks MAX_LINE more) st1 := by
  have hnl : ∀ c ∈ k ++ ch '=' :: (a ++ w), c ≠ ch '\n' := by
    intro c hc
    simp only [List.mem_append, List.mem_cons] at hc
    rcases hc with hc | hc | hc | hc
    · exact key_ok_no_nl k hk c hc
    · rw [hc]; decide
    · exact (ha.1 c hc).2
    · rw [hw c hc]; decide
  rw [fgets_chunks_line _ _ hnl (by simp only [List.length_append, List.length_cons]; omega)]
  apply parse_lines_cons_ok
  rw [show (k ++ ch '=' :: (a ++ w)) ++ [ch '\n'] = k ++ ch '=' :: (a ++ (w ++ [ch '\n'])) by simp,
    parse_line_key_value st k a (w ++ [ch '\n']) hk ha.2 (fun c hc => (ha.1 c hc).1) (by
      intro c hc
      simp only [List.mem_append, List.mem_singleton] at hc
      rcases hc with hc | hc
      · rw [hw c hc]; decide
      · rw [hc]; decide)]
  exact hst

theorem text_ok_hex (v : Nat) : text_ok (str "0x" ++ fmt_x v) ∧ (str "0x" ++ fmt_x v).length ≤ 10 := by
  obtain ⟨hhex, hne, hlen, _⟩ := fmt_x_props v
  refine ⟨⟨?_, ?_, ?_⟩, ?_⟩
  · intro c hc
    rw [show str "0x" = [ch '0', ch 'x'] from rfl] at hc
    simp only [List.cons_append, List.nil_append, List.mem_cons] at hc
    rcases hc with hc | hc | hc
    · rw [hc]; decide
    · rw [hc]; decide
    · obtain ⟨d, hd, e⟩ := hhex c hc
      rw [e]
      exact ⟨(hex_char_props d hd).2.2.1, (hex_char_props d hd).2.2.2⟩
  · intro c hc
    rw [show str "0x" = [ch '0', ch 'x'] from rfl] at hc
    simp only [List.cons_append, List.head?_cons, Option.some.injEq] at hc
    rw [← hc]; decide
  · intro c hc
    rw [List.getLast?_append_of_ne_nil _ hne] at hc
    obtain ⟨d, hd, e⟩ := hhex c (List.mem_of_mem_getLast? hc)
    rw [e]
    exact (hex_char_props d hd).2.1
  · rw [show str "0x" = [ch '0', ch 'x'] from rfl]
    simp only [List.cons_append, List.nil_append, List.length_cons]
    omega

theorem update_line_set (cur : Nat) (t : ptable_t) (P : List ptable_line)
    (x : ptable_line) (f : ptable_line → ptable_line) (h : cur < P.length) :
    update_line ⟨(cur : Int), { t with part := P.set cur x }⟩ f =
      ⟨(cur : Int), { t with part := P.set cur (f x) }⟩ := by
  unfold update_line
  simp only [Int.toNat_ofNat, List.set_set]
  rw [List.getD_eq_getElem?_getD, List.getElem?_set_eq_of_lt _ h]
  rfl

theorem key_ok_keys :
    key_ok (str "version") ∧ key_ok (str "product") ∧ key_ok (str "tail") ∧
    key_ok (str "name") ∧ key_ok (str "start") ∧ key_ok (str "length") ∧
    key_ok (str "lsize") ∧ key_ok (str "loadaddr") ∧ key_ok (str "entry") ∧
    key_ok (str "nproperty") ∧ key_ok (str "type") ∧ key_ok (str "count") := by
  unfold key_ok
  exact ⟨⟨by decide, by decide, by decide⟩, ⟨by decide, by decide, by decide⟩,
    ⟨by decide, by decide, by decide⟩, ⟨by decide, by decide, by decide⟩,
    ⟨by decide, by decide, by decide⟩, ⟨by decide, by decide, by decide⟩,
    ⟨by decide, by decide, by decide⟩, ⟨by decide, by decide, by decide⟩,
    ⟨by decide, by decide, by decide⟩, ⟨by decide, by decide, by decide⟩,
    ⟨by decide, by decide, by decide⟩, ⟨by decide, by decide, by decide⟩⟩

theorem parse_key_value_name (st : ParseState) (v : List Byte) (hc : 0 ≤ st.current)
    (hv : v.length < 16) :
    parse_key_value st (str "name") v =
      Except.ok (update_line st (fun l => { l with name := copy16 v })) := by
  unfold parse_key_value
  rw [if_neg (by decide), if_neg (by decide), if_neg (by decide), if_neg (by omega),
    if_pos rfl, if_neg (by omega)]

theorem parse_key_value_start (st : ParseState) (v : List Byte) (hc : 0 ≤ st.current) :
    parse_key_value st (str "start") v =
      Except.ok (update_line st (fun l => { l with start := strtoul v % 2 ^ 32 })) := by
  unfold parse_key_value
  rw [if_neg (by decide), if_neg (by decide), if_neg (by decide), if_neg (by omega),
    if_neg (by decide), if_pos rfl]

theorem parse_key_value_length (st : ParseState) (v : List Byte) (hc : 0 ≤ st.current) :
    parse_key_value st (str "length") v =
      Except.ok (update_line st (fun l => { l with length := strtoul v % 2 ^ 32 })) := by
  unfold parse_key_value
  rw [if_neg (by decide), if_neg (by decide), if_neg (by decide), if_neg (by omega),
    if_neg (by decide), if_neg (by decide), if_pos rfl]

theorem parse_key_value_lsize (st : ParseState) (v : List Byte) (hc : 0 ≤ st.current) :
    parse_key_value st (str "lsize") v =
      Except.ok (update_line st (fun l => { l with lsize := strtoul v % 2 ^ 32 })) := by
  unfold parse_key_value
  rw [if_neg (by decide), if_neg (by decide), if_neg (by decide), if_neg (by omega),
    if_neg (by decide), if_neg (by decide), if_neg (by decide), if_pos rfl]

theorem parse_key_value_loadaddr (st : ParseState) (v : List Byte) (hc : 0 ≤ st.current) :
    parse_key_value st (str "loadaddr") v =
      Except.ok (update_line st (fun l => { l with loadaddr := strtoul v % 2 ^ 32 })) := by
  unfold parse_key_value
  rw [if_neg (by decide), if_neg (by decide), if_neg (by decide), if_neg (by omega),
    if_neg (by decide), if_neg (by decide), if_neg (by decide), if_neg (by decide), if_pos rfl]

theorem parse_key_value_entry (st : ParseState) (v : List Byte) (hc : 0 ≤ st.current) :
    parse_key_value st (str "entry") v =
      Except.ok (update_line st (fun l => { l with entry := strtoul v % 2 ^ 32 })) := by
  unfold parse_key_value
  rw [if_neg (by decide), if_neg (by decide), if_neg (by decide), if_neg (by omega),
    if_neg (by decide), if_neg (by decide), if_neg (by decide), if_neg (by decide),
    if_neg (by decide), if_pos rfl]

theorem parse_key_value_nproperty (st : ParseState) (v : List Byte) (hc : 0 ≤ st.current) :
    parse_key_value st (str "nproperty") v =
      Except.ok (update_line st (fun l => { l with nproperty := strtoul v % 2 ^ 32 })) := by
  unfold parse_key_value
  rw [if_neg (by decide), if_neg (by decide), if_neg (by decide), if_neg (by omega),
    if_neg (by decide), if_neg (by decide), if_neg (by decide), if_neg (by decide),
    if_neg (by decide), if_neg (by decide), if_pos rfl]

theorem parse_key_value_type (st : ParseState) (v : List Byte) (hc : 0 ≤ st.current) :
    parse_key_value st (str "type") v =
      Except.ok (update_line st (fun l => { l with type := strtoul v % 2 ^ 32 })) := by
  unfold parse_key_value
  rw [if_neg (by decide), if_neg (by decide), if_neg (by decide), if_neg (by omega),
    if_neg (by decide), if_neg (by decide), if_neg (by decide), if_neg (by decide),
    if_neg (by decide), if_neg (by decide), if_neg (by decide), if_pos rfl]

theorem parse_key_value_count (st : ParseState) (v : List Byte) (hc : 0 ≤ st.current) :
    parse_key_value st (str "count") v =
      Except.ok (update_line st (fun l => { l with count := strtoul v % 2 ^ 32 })) := by
  unfold parse_key_value
  rw [if_neg (by decide), if_neg (by decide), if_neg (by decide), if_neg (by omega),
    if_neg (by decide), if_neg (by decide), if_neg (by decide), if_neg (by decide),
    if_neg (by decide), if_neg (by decide), if_neg (by decide), if_neg (by decide), if_pos rfl]

theorem parse_key_value_version (st : ParseState) (v : List Byte) :
    parse_key_value st (str "version") v =
      Except.ok { st with ptable := { st.ptable with version := copy16 v } } := by
  unfold parse_key_value
  rw [if_pos rfl]

theorem parse_key_value_product (st : ParseState) (v : List Byte) :
    parse_key_value st (str "product") v =
      Except.ok { st with ptable := { st.ptable with product := copy16 v } } := by
  unfold parse_key_value
  rw [if_neg (by decide), if_pos rfl]

theorem parse_key_value_tail (st : ParseState) (v tail : List Byte)
    (h : parse_tail v = some tail) :
    parse_key_value st (str "tail") v =
      Except.ok { st with ptable := { st.ptable with tail := tail } } := by
  unfold parse_key_value
  rw [if_neg (by decide), if_neg (by decide), if_pos rfl, h]

/-- The text `write_entry` prints, line by line. -/
theorem write_entry_lines (l : ptable_line) (name more : List Byte) :
    write_entry l name ++ more =
      str "[partition]" ++ ch '\n' ::
      ((str "name" ++ ch '=' :: name) ++ ch '\n' ::
      ((str "start" ++ ch '=' :: ((str "0x" ++ fmt_x l.start) ++ [])) ++ ch '\n' ::
      ((str "length" ++ ch '=' :: ((str "0x" ++ fmt_x l.length) ++ [])) ++ ch '\n' ::
      ((str "lsize" ++ ch '=' :: ((str "0x" ++ fmt_x l.lsize) ++ [])) ++ ch '\n' ::
      ((str "loadaddr" ++ ch '=' :: ((str "0x" ++ fmt_x l.loadaddr) ++ [])) ++ ch '\n' ::
      ((str "entry" ++ ch '=' :: ((str "0x" ++ fmt_x l.entry) ++ [])) ++ ch '\n' ::
      ((str "nproperty" ++ ch '=' :: ((str "0x" ++ fmt_x l.nproperty) ++ [])) ++ ch '\n' ::
      ((str "type" ++ ch '=' :: ((str "0x" ++ fmt_x l.type) ++ [])) ++ ch '\n' ::
      ((str "count" ++ ch '=' :: ((str "0x" ++ fmt_x l.count) ++ [])) ++ ch '\n' ::
      ([] ++ ch '\n' :: more)))))))))) := by
  have e0 : str "[partition]\n" = str "[partition]" ++ [ch '\n'] := rfl
  have e1 : str "name=" = str "name" ++ [ch '='] := rfl
  have e2 : str "start=0x" = str "start" ++ ch '=' :: str "0x" := rfl
  have e3 : str "length=0x" = str "length" ++ ch '=' :: str "0x" := rfl
  have e4 : str "lsize=0x" = str "lsize" ++ ch '=' :: str "0x" := rfl
  have e5 : str "loadaddr=0x" = str "loadaddr" ++ ch '=' :: str "0x" := rfl
  have e6 : str "entry=0x" = str "entry" ++ ch '=' :: str "0x" := rfl
  have e7 : str "nproperty=0x" = str "nproperty" ++ ch '=' :: str "0x" := rfl
  have e8 : str "type=0x" = str "type" ++ ch '=' :: str "0x" := rfl
  have e9 : str "count=0x" = str "count" ++ ch '=' :: str "0x" := rfl
  have e10 : str "\n" = [ch '\n'] := rfl
  have e11 : str "\n\n" = [ch '\n', ch '\n'] := rfl
  unfold write_entry
  rw [e0, e1, e2, e3, e4, e5, e6, e7, e8, e9, e10, e11]
  simp only [List.append_assoc, List.cons_append, List.nil_append, List.append_nil]

theorem update_line_with_part (cur : Nat) (t : ptable_t) (P : List ptable_line)
    (x : ptable_line) (f : ptable_line → ptable_line) (h : cur < P.length) :
    update_line ⟨(cur : Int), with_part t (P.set cur x)⟩ f =
      ⟨(cur : Int), with_part t (P.set cur (f x))⟩ := by
  unfold update_line with_part
  simp only [Int.toNat_ofNat, List.set_set]
  rw [List.getD_eq_getElem?_getD, List.getElem?_set_eq_of_lt _ h]
  rfl

theorem parse_lines_numeric (st st1 : ParseState) (k : List Byte) (v : Nat) (more : List Byte)
    (hk : key_ok k) (hlen : k.length ≤ 20)
    (hst : parse_key_value st k (str "0x" ++ fmt_x v) = Except.ok st1) :
    parse_lines (fgets_chunks MAX_LINE
      ((k ++ ch '=' :: ((str "0x" ++ fmt_x v) ++ [])) ++ ch '\n' :: more)) st =
      parse_lines (fgets_chunks MAX_LINE more) st1 := by
  obtain ⟨h1, h2⟩ := text_ok_hex v
  exact parse_lines_kv st st1 k _ [] more hk h1 (fun c hc => by simp at hc)
    (by simp only [List.length_nil]; unfold MAX_LINE; omega) hst

theorem parse_lines_blank (st : ParseState) (more : List Byte) :
    parse_lines (fgets_chunks MAX_LINE ([] ++ ch '\n' :: more)) st =
      parse_lines (fgets_chunks MAX_LINE more) st := by
  rw [fgets_chunks_line [] more (fun c hc => by simp at hc) (by decide)]
  exact parse_lines_cons_ok _ (parse_line_blank st)

/-- The lines written for one partition are parsed into entry `idx`. -/
theorem parse_block (t : ptable_t) (P : List ptable_line) (idx : Nat) (l : ptable_line)
    (sp more : List Byte) (hidx : idx < P.length) (h40 : idx ≤ 40) (hwf : l.wf)
    (hok : text_ok (unpad l.name)) (hsp : ∀ c ∈ sp, c = ch ' ')
    (hlen : (unpad l.name ++ sp).length < 16) :
    parse_lines (fgets_chunks MAX_LINE (write_entry l (unpad l.name ++ sp) ++ more))
        ⟨(idx : Int) - 1, with_part t P⟩ =
      parse_lines (fgets_chunks MAX_LINE more)
        ⟨(idx : Int), with_part t (P.set idx (parsed_line l))⟩ := by
  obtain ⟨-, -, -, kname, kstart, klength, klsize, kloadaddr, kentry, knproperty, ktype,
    kcount⟩ := key_ok_keys
  obtain ⟨hn, w1, w2, w3, w4, w5, w6, w7, w8⟩ := hwf
  have hcur : (0 : Int) ≤ (idx : Int) := by omega
  simp only [List.length_append] at hlen
  rw [write_entry_lines]
  -- [partition]
  rw [fgets_chunks_line (str "[partition]") _ (by decide) (by decide)]
  have hp := parse_line_partition ⟨(idx : Int) - 1, with_part t P⟩ (by simp only; omega)
  simp only [show (idx : Int) - 1 + 1 = (idx : Int) by omega, Int.toNat_ofNat] at hp
  have hp' : parse_line ⟨(idx : Int) - 1, with_part t P⟩ (str "[partition]" ++ [ch '\n']) =
      Except.ok ⟨(idx : Int), with_part t (P.set idx zero_line)⟩ := hp
  rw [parse_lines_cons_ok _ hp']
  -- name
  rw [parse_lines_kv _ _ (str "name") (unpad l.name) sp _ kname hok hsp
    (by unfold MAX_LINE; rw [show (str "name").length = 4 from rfl]; omega)
    (by rw [parse_key_value_name _ _ hcur (by omega), update_line_with_part _ _ _ _ _ hidx])]
  -- the eight numeric fields
  rw [parse_lines_numeric _ _ (str "start") l.start _ kstart (by decide)
    (by rw [parse_key_value_start _ _ hcur, update_line_with_part _ _ _ _ _ hidx])]
  rw [parse_lines_numeric _ _ (str "length") l.length _ klength (by decide)
    (by rw [parse_key_value_length _ _ hcur, update_line_with_part _ _ _ _ _ hidx])]
  rw [parse_lines_numeric _ _ (str "lsize") l.lsize _ klsize (by decide)
    (by rw [parse_key_value_lsize _ _ hcur, update_line_with_part _ _ _ _ _ hidx])]
  rw [parse_lines_numeric _ _ (str "loadaddr") l.loadaddr _ kloadaddr (by decide)
    (by rw [parse_key_value_loadaddr _ _ hcur, update_line_with_part _ _ _ _ _ hidx])]
  rw [parse_lines_numeric _ _ (str "entry") l.entry _ kentry (by decide)
    (by rw [parse_key_value_entry _ _ hcur, update_line_with_part _ _ _ _ _ hidx])]
  rw [parse_lines_numeric _ _ (str "nproperty") l.nproperty _ knproperty (by decide)
    (by rw [parse_key_value_nproperty _ _ hcur, update_line_with_part _ _ _ _ _ hidx])]
  rw [parse_lines_numeric _ _ (str "type") l.type _ ktype (by decide)
    (by rw [parse_key_value_type _ _ hcur, update_line_with_part _ _ _ _ _ hidx])]
  rw [parse_lines_numeric _ _ (str "count") l.count _ kcount (by decide)
    (by rw [parse_key_value_count _ _ hcur, update_line_with_part _ _ _ _ _ hidx])]
  rw [parse_lines_blank]
  -- the entry built is the entry written
  congr 3
  simp only [strtoul_fmt_x, Nat.mod_mod, Nat.mod_eq_of_lt w1, Nat.mod_eq_of_lt w2,
    Nat.mod_eq_of_lt w3, Nat.mod_eq_of_lt w4, Nat.mod_eq_of_lt w5, Nat.mod_eq_of_lt w6,
    Nat.mod_eq_of_lt w7, Nat.mod_eq_of_lt w8]
  rfl

theorem agrees_parsed_line (l : ptable_line) (hn : l.name.length = 16)
    (hok : text_ok (unpad l.name)) : agrees (parsed_line l) l := by
  have hl := unpad_length_le l.name
  exact ⟨unpad_copy16 _ (by omega) hok, rfl, rfl, rfl, rfl, rfl, rfl, rfl, rfl⟩

theorem agrees_zero_line (l : ptable_line) (h : blank l) : agrees zero_line l := by
  obtain ⟨h0, h1, h2, h3, h4, h5, h6, h7, h8⟩ := h
  have hz : unpad zero_line.name = [] := by decide
  exact ⟨by rw [hz, h0], h1.symm, h2.symm, h3.symm, h4.symm, h5.symm, h6.symm, h7.symm, h8.symm⟩

theorem c_string_of_name (l : ptable_line) (more : List Byte) (hnul : (0 : Byte) ∈ l.name) :
    c_string (encode_line l ++ more) = some (cstr l.name) := by
  have e : encode_line l ++ more = l.name ++ (le32 l.start ++ le32 l.lsize ++ le32 l.length ++
      le32 l.loadaddr ++ le32 l.entry ++ le32 l.type ++ le32 l.nproperty ++ le32 l.count ++
      more) := by
    simp only [encode_line, List.append_assoc]
  obtain ⟨h1, h2⟩ := cstr_append_of_mem l.name (le32 l.start ++ le32 l.lsize ++ le32 l.length ++
      le32 l.loadaddr ++ le32 l.entry ++ le32 l.type ++ le32 l.nproperty ++ le32 l.count ++
      more) hnul
  unfold c_string
  rw [e, h1, if_pos (by simp only [List.length_append]; omega)]

/-- The partition loop of `write_text` followed by the loop of `parse_text`:
the entries written are parsed into the same slots, the others are left as
they were. -/
theorem parse_parts (t : ptable_t) (tail : List Byte) :
    ∀ (ls : List ptable_line) (idx : Nat) (P : List ptable_line),
    P.length = 41 → idx + ls.length ≤ 41 →
    (∀ l ∈ ls, l.wf ∧ (0 : Byte) ∈ l.name ∧ text_ok (unpad l.name)) →
    blank_from_terminator ls →
    (∀ i, idx ≤ i → i < 41 → P[i]? = some zero_line) →
    ∃ (out : List Byte) (P' : List ptable_line) (cur : Int),
      write_parts tail idx ls = Outcome.ok out ∧
      parse_lines (fgets_chunks MAX_LINE out) ⟨(idx : Int) - 1, with_part t P⟩ =
        Except.ok ⟨cur, with_part t P'⟩ ∧
      P'.length = 41 ∧ (idx : Int) - 1 ≤ cur ∧ cur ≤ 40 ∧
      (∀ i, i < idx → P'[i]? = P[i]?) ∧
      (∀ i : Nat, cur < (i : Int) → P'[i]? = P[i]?) ∧
      (∀ (j : Nat) (l : ptable_line), ls[j]? = some l →
        ∃ p, P'[idx + j]? = some p ∧ agrees p l) := by
  intro ls
  induction ls with
  | nil =>
    intro idx P hP hlen _ _ _
    simp only [List.length_nil, Nat.add_zero] at hlen
    exact ⟨[], P, (idx : Int) - 1, rfl, rfl, hP, Int.le_refl _, by omega, fun _ _ => rfl,
      fun _ _ => rfl, fun j l h => by simp at h⟩
  | cons l rest ih =>
    intro idx P hP hlen hls hterm hzero
    simp only [List.length_cons] at hlen
    obtain ⟨hwf, hnul, hok⟩ := hls l (List.mem_cons_self _ _)
    have hrest : ∀ x ∈ rest, x.wf ∧ (0 : Byte) ∈ x.name ∧ text_ok (unpad x.name) :=
      fun x hx => hls x (List.mem_cons_of_mem _ hx)
    -- entries that are not written are blank in the table and zero in the parsed array
    have hblank : ∀ (bs : List ptable_line) (k : Nat), k + bs.length ≤ 41 → idx ≤ k →
        (∀ x ∈ bs, blank x) → ∀ (j : Nat) (x : ptable_line), bs[j]? = some x →
        ∃ p, P[k + j]? = some p ∧ agrees p x := by
      intro bs k hk hik hb j x hj
      have hj' : j < bs.length := (List.getElem?_eq_some_iff.mp hj).1
      exact ⟨zero_line, hzero (k + j) (by omega) (by omega),
        agrees_zero_line x (hb x (List.getElem?_mem hj))⟩
    unfold blank_from_terminator at hterm
    by_cases h0 : l.name[0]? = some 0
    · rw [if_pos h0] at hterm
      refine ⟨[], P, (idx : Int) - 1, ?_, rfl, hP, Int.le_refl _, by omega, fun _ _ => rfl,
        fun _ _ => rfl, ?_⟩
      · rw [write_parts, if_pos h0]
      · exact hblank (l :: rest) idx (by simp only [List.length_cons]; omega) (Nat.le_refl _) hterm
    · rw [if_neg h0] at hterm
      obtain ⟨sp, hcs, hsp, hsl⟩ := cstr_name l.name hnul (fun c hc => (hok.1 c hc).1)
      have hmem : c_string (((l :: rest).map encode_line).flatten ++ tail) =
          some (unpad l.name ++ sp) := by
        rw [List.map_cons, List.flatten_cons, List.append_assoc, c_string_of_name l _ hnul, hcs]
      have hblock := fun more => parse_block t P idx l sp more (by omega) (by omega) hwf hok hsp
        (by rw [hwf.1] at hsl; exact hsl)
      have hset : (P.set idx (parsed_line l)).length = 41 := by rw [List.length_set, hP]
      have hag := agrees_parsed_line l hwf.1 hok
      by_cases hT : unpad l.name ++ sp = str "T"
      · have hT' : cstr l.name = str "T" := by rw [hcs, hT]
        rw [if_pos hT'] at hterm
        refine ⟨write_entry l (unpad l.name ++ sp), P.set idx (parsed_line l), (idx : Int), ?_, ?_,
          hset, by omega, by omega, ?_, ?_, ?_⟩
        · rw [write_parts, if_neg h0, hmem]
          simp only [hT, if_true]
        · have := hblock []
          rw [List.append_nil] at this
          rw [this]
          rfl
        · intro i hi
          rw [List.getElem?_set_ne (by omega)]
        · intro i hi
          rw [List.getElem?_set_ne (by omega)]
        · intro j x hj
          cases j with
          | zero =>
            simp only [List.getElem?_cons_zero, Option.some.injEq] at hj
            subst hj
            exact ⟨parsed_line l, by
              rw [Nat.add_zero, List.getElem?_set_eq_of_lt _ (by omega)], hag⟩
          | succ j =>
            simp only [List.getElem?_cons_succ] at hj
            obtain ⟨p, hp, hpa⟩ := hblank rest (idx + 1) (by omega) (by omega) hterm j x hj
            refine ⟨p, ?_, hpa⟩
            rw [show idx + (j + 1) = idx + 1 + j by omega, List.getElem?_set_ne (by omega), hp]
      · have hT' : ¬ cstr l.name = str "T" := by rw [hcs]; exact hT
        rw [if_neg hT'] at hterm
        obtain ⟨out, P', cur, hw, hparse, hP', hc1, hc2, hlow, hhigh, hent⟩ :=
          ih (idx + 1) (P.set idx (parsed_line l)) hset (by omega) hrest hterm (by
            intro i hi1 hi2
            rw [List.getElem?_set_ne (by omega)]
            exact hzero i (by omega) hi2)
        have hcast : ((idx + 1 : Nat) : Int) - 1 = (idx : Int) := by omega
        rw [hcast] at hparse hc1
        refine ⟨write_entry l (unpad l.name ++ sp) ++ out, P', cur, ?_, ?_, hP', by omega, hc2,
          ?_, ?_, ?_⟩
        · rw [write_parts, if_neg h0, hmem]
          simp only [hT, if_false, hw]
        · rw [hblock out, hparse]
        · intro i hi
          rw [hlow i (by omega), List.getElem?_set_ne (by omega)]
        · intro i hi
          rw [hhigh i hi, List.getElem?_set_ne (by omega)]
        · intro j x hj
          cases j with
          | zero =>
            simp only [List.getElem?_cons_zero, Option.some.injEq] at hj
            subst hj
            exact ⟨parsed_line l, by
              rw [Nat.add_zero, hlow idx (by omega), List.getElem?_set_eq_of_lt _ (by omega)],
              hag⟩
          | succ j =>
            simp only [List.getElem?_cons_succ] at hj
            obtain ⟨p, hp, hpa⟩ := hent j x hj
            exact ⟨p, by rw [show idx + (j + 1) = idx + 1 + j by omega, hp], hpa⟩

theorem write_header_lines (t : ptable_t) (more : List Byte) :
    write_header t ++ more =
      (str "version" ++ ch '=' :: (cstr (trim_trailing_zero t.version) ++ [])) ++ ch '\n' ::
      ((str "product" ++ ch '=' :: (cstr (trim_trailing_zero t.product) ++ [])) ++ ch '\n' ::
      ((str "tail" ++ ch '=' :: (((t.tail.take 32).map fmt_02x).flatten ++ [])) ++ ch '\n' ::
      ([] ++ ch '\n' :: more))) := by
  have e1 : str "version=" = str "version" ++ [ch '='] := rfl
  have e2 : str "product=" = str "product" ++ [ch '='] := rfl
  have e3 : str "tail=" = str "tail" ++ [ch '='] := rfl
  have e10 : str "\n" = [ch '\n'] := rfl
  have e11 : str "\n\n" = [ch '\n', ch '\n'] := rfl
  unfold write_header
  rw [e1, e2, e3, e10, e11]
  simp only [List.append_assoc, List.cons_append, List.nil_append, List.append_nil]

theorem text_ok_tail_hex (bs : List Byte) : text_ok ((bs.map fmt_02x).flatten) := by
  have hhex := flatten_fmt_02x_hex bs
  refine ⟨?_, ?_, ?_⟩
  · intro c hc
    obtain ⟨d, hd, e⟩ := hhex c hc
    rw [e]
    exact ⟨(hex_char_props d hd).2.2.1, (hex_char_props d hd).2.2.2⟩
  · intro c hc
    obtain ⟨d, hd, e⟩ := hhex c (List.mem_of_mem_head? hc)
    rw [e]
    exact (hex_char_props d hd).2.1
  · intro c hc
    obtain ⟨d, hd, e⟩ := hhex c (List.mem_of_mem_getLast? hc)
    rw [e]
    exact (hex_char_props d hd).2.1

/-- The header lines of `write_text` are parsed into `version`, `product` and
`tail`. -/
theorem parse_header (headmagic : List Byte) (t : ptable_t) (more : List Byte) (hwf : t.wf)
    (hv : text_ok (unpad t.version)) (hp : text_ok (unpad t.product)) :
    parse_lines (fgets_chunks MAX_LINE (write_header t ++ more)) ⟨-1, clear_ptable headmagic⟩ =
      parse_lines (fgets_chunks MAX_LINE more)
        ⟨-1, ⟨headmagic, copy16 (unpad t.version), copy16 (unpad t.product),
          List.replicate 41 zero_line, t.tail⟩⟩ := by
  obtain ⟨kversion, kproduct, ktail, -⟩ := key_ok_keys
  obtain ⟨h1, h2, h3, h4, h5, h6⟩ := hwf
  have hlv := unpad_length_le t.version
  have hlp := unpad_length_le t.product
  rw [write_header_lines, cstr_trim_trailing_zero _ (fun c hc => (hv.1 c hc).1),
    cstr_trim_trailing_zero _ (fun c hc => (hp.1 c hc).1),
    show t.tail.take 32 = t.tail by rw [← h6, List.take_length]]
  rw [parse_lines_kv _ _ (str "version") (unpad t.version) [] _ kversion hv
    (fun c hc => by simp at hc)
    (by unfold MAX_LINE; rw [show (str "version").length = 7 from rfl]; simp only [List.length_nil]; omega)
    (parse_key_value_version _ _)]
  rw [parse_lines_kv _ _ (str "product") (unpad t.product) [] _ kproduct hp
    (fun c hc => by simp at hc)
    (by unfold MAX_LINE; rw [show (str "product").length = 7 from rfl]; simp only [List.length_nil]; omega)
    (parse_key_value_product _ _)]
  rw [parse_lines_kv _ _ (str "tail") _ [] _ ktail (text_ok_tail_hex t.tail)
    (fun c hc => by simp at hc)
    (by
      unfold MAX_LINE
      rw [show (str "tail").length = 4 from rfl, flatten_fmt_02x_length, h6]
      decide)
    (parse_key_value_tail _ _ t.tail (parse_tail_fmt t.tail h6))]
  rw [parse_lines_blank]
  rfl

theorem terminate_table_zero (cur : Int) (t : ptable_t) (P : List ptable_line)
    (hlen : P.length = 41)
    (hP : ∀ i : Nat, cur < (i : Int) → i < 41 → P[i]? = some zero_line) :
    terminate_table ⟨cur, with_part t P⟩ = with_part t P := by
  unfold terminate_table
  split
  · rename_i h
    simp only at h
    obtain ⟨k, hk⟩ : ∃ k : Nat, cur + 1 = (k : Int) := ⟨(cur + 1).toNat, by omega⟩
    have hk' : (cur + 1).toNat = k := by omega
    have hz := hP k (by omega) (by omega)
    simp only [hk', with_part]
    rw [List.getD_eq_getElem?_getD, hz]
    have e : ({ zero_line with name := zero_line.name.set 0 0 } : ptable_line) = zero_line := by
      decide
    simp only [Option.getD_some, e]
    congr 1
    apply List.ext_getElem?
    intro i
    by_cases hik : i = k
    · subst hik
      rw [List.getElem?_set_eq_of_lt _ (by omega), hz]
    · rw [List.getElem?_set_ne (by omega)]
  · rfl

theorem blank_from_terminator_of (ls : List ptable_line) (h : no_entries_after_terminator ls)
    (hb : ∀ l ∈ ls, l.name[0]? = some 0 → blank l) : blank_from_terminator ls := by
  induction ls with
  | nil => trivial
  | cons l rest ih =>
    unfold no_entries_after_terminator at h
    unfold blank_from_terminator
    by_cases h0 : l.name[0]? = some 0
    · rw [if_pos (Or.inl h0)] at h
      rw [if_pos h0]
      intro x hx
      rcases List.mem_cons.mp hx with e | e
      · rw [e]; exact hb l (List.mem_cons_self _ _) h0
      · exact h x e
    · rw [if_neg h0]
      by_cases hT : cstr l.name = str "T"
      · rw [if_pos (Or.inr hT)] at h
        rw [if_pos hT]
        exact h
      · rw [if_neg (by simp only [not_or]; exact ⟨h0, hT⟩)] at h
        rw [if_neg hT]
        exact ih h (fun x hx => hb x (List.mem_cons_of_mem _ hx))

/-- Every entry of a table made of one written entry followed by zero entries
has the property, when the written entry and the zero entry do. -/
theorem forall_mem_cons_replicate (p : ptable_line → Prop) (l : ptable_line) (n : Nat)
    (hl : p l) (hz : p zero_line) : ∀ x ∈ l :: List.replicate n zero_line, p x := by
  intro x hx
  rcases List.mem_cons.mp hx with h | h
  · rw [h]; exact hl
  · rw [List.eq_of_mem_replicate h]; exact hz

/-- A table with one written entry followed by 40 zero entries is a table of
the text round-trip law. -/
theorem one_entry_table_text (version product : List Byte) (e : ptable_line)
    (hv : version.length = 16) (hp : product.length = 16) (he : e.wf)
    (hnul : (0 : Byte) ∈ e.name) :
    text_table example_magic
      ⟨example_magic, version, product, e :: List.replicate 40 zero_line,
        List.replicate 32 0⟩ := by
  refine ⟨⟨rfl, hv, hp, by simp, ?_, rfl⟩, rfl, ?_, ?_⟩
  · exact forall_mem_cons_replicate _ _ _ he (by decide)
  · exact forall_mem_cons_replicate _ _ _ hnul (by decide)
  · show no_entries_after_terminator (e :: List.replicate 40 zero_line)
    have hz : ∀ (n : Nat), ∀ x ∈ List.replicate n zero_line, blank x :=
      fun n x hx => by rw [List.eq_of_mem_replicate hx]; decide
    unfold no_entries_after_terminator
    split
    · exact hz 40
    · show no_entries_after_terminator (zero_line :: List.replicate 39 zero_line)
      rw [no_entries_after_terminator, if_pos (Or.inl (by decide))]
      exact hz 39

theorem example_table_text : text_table example_magic example_table :=
  one_entry_table_text (copy16 (str "V1.0")) (copy16 (str "E3372"))
    ⟨copy16 (str "modem"), 0x100, 0, 0x200, 0, 0, 0, 0, 0⟩ rfl rfl (by decide) (by decide)

/-! ## Partition table: the claims -/

/-- C2, amended: for every table whose head is the magic, whose names hold a
NUL, which stores nothing after its logical terminator nor in an empty-named
entry, and whose version, product and names, without their trailing NUL/space
padding, hold no NUL and no line feed and neither begin nor end with white
space, `parse_text` accepts the text `write_text` prints and yields a table
equal to the original in head, tail and the numeric fields of the 41 entries,
and in version, product and names up to that padding. -/
theorem write_parse_text_round_trip (headmagic : List Byte) (t : ptable_t) (ht : text_table headmagic t)
    (hv : text_ok (unpad t.version)) (hp : text_ok (unpad t.product))
    (hn : ∀ l ∈ t.part, text_ok (unpad l.name))
    (hb : ∀ l ∈ t.part, l.name[0]? = some 0 → blank l) : text_round_trip headmagic t := by
  obtain ⟨hwf, hhead, hnul, hterm'⟩ := ht
  have hterm := blank_from_terminator_of t.part hterm' hb
  have hwf' := hwf
  obtain ⟨h1, h2, h3, h4, h5, h6⟩ := hwf'
  have hlv := unpad_length_le t.version
  have hlp := unpad_length_le t.product
  obtain ⟨out, P', cur, hw, hparse, hP', hc1, hc2, -, hhigh, hent⟩ :=
    parse_parts ⟨headmagic, copy16 (unpad t.version), copy16 (unpad t.product), [], t.tail⟩
      t.tail t.part 0 (List.replicate 41 zero_line) (List.length_replicate _ _) (by omega)
      (fun l hl => ⟨h5 l hl, hnul l hl, hn l hl⟩) hterm
      (fun i _ hi => List.getElem?_replicate_of_lt hi)
  have htake : t.part.take 41 = t.part := by rw [← h4, List.take_length]
  refine ⟨write_header t ++ out,
    with_part ⟨headmagic, copy16 (unpad t.version), copy16 (unpad t.product), [], t.tail⟩ P',
    ?_, ?_, hhead.symm, rfl, unpad_copy16 _ (by omega) hv, unpad_copy16 _ (by omega) hp,
    by rw [h4]; exact hP', ?_⟩
  · unfold write_text
    rw [htake, hw]
  · unfold parse_text
    rw [parse_header headmagic t out hwf hv hp]
    have hparse' : parse_lines (fgets_chunks MAX_LINE out)
        ⟨-1, ⟨headmagic, copy16 (unpad t.version), copy16 (unpad t.product),
          List.replicate 41 zero_line, t.tail⟩⟩ = Except.ok ⟨cur, with_part
            ⟨headmagic, copy16 (unpad t.version), copy16 (unpad t.product), [], t.tail⟩ P'⟩ :=
      hparse
    rw [hparse']
    simp only
    rw [terminate_table_zero cur _ P' hP' (fun i hi1 hi2 => by
      rw [hhigh i hi1]; exact List.getElem?_replicate_of_lt hi2)]
  · intro i p q hp' hq
    obtain ⟨p', hp'', hag⟩ := hent i q hq
    rw [Nat.zero_add] at hp''
    have : (with_part ⟨headmagic, copy16 (unpad t.version), copy16 (unpad t.product), [],
        t.tail⟩ P').part = P' := rfl
    rw [this, hp''] at hp'
    cases hp'
    exact hag

/-- C2, counterexample: four tables that meet the hypotheses of the claim and
do not survive the round trip.  A version `" V1.0"` is read back as `"V1.0"`;
a version `"V1\0x"` is read back as `"V1"`; a name `"a\nb"` is printed on two
lines and `parse_text` rejects the second; and the field `start = 1` of an
empty-named first entry, which `write_text` does not print, is read back
as 0. -/
theorem text_round_trip_counterexamples :
    (text_table example_magic spaced_table ∧ ¬ text_round_trip example_magic spaced_table) ∧
    (text_table example_magic nul_table ∧ ¬ text_round_trip example_magic nul_table) ∧
    (text_table example_magic newline_table ∧
      ¬ text_round_trip example_magic newline_table) ∧
    (text_table example_magic hidden_table ∧ ¬ text_round_trip example_magic hidden_table) := by
  refine ⟨⟨one_entry_table_text _ _ _ rfl rfl (by decide) (by decide), ?_⟩,
    ⟨one_entry_table_text _ _ _ rfl rfl (by decide) (by decide), ?_⟩,
    ⟨one_entry_table_text _ _ _ rfl rfl (by decide) (by decide), ?_⟩,
    ⟨one_entry_table_text _ _ _ rfl rfl (by decide) (by decide), ?_⟩⟩
  · rintro ⟨text, t', hw, hp, -, -, hv, -⟩
    have hw' : write_text spaced_table = Outcome.ok (str
        ("version= V1.0\nproduct=E3372\n" ++
         "tail=0000000000000000000000000000000000000000000000000000000000000000\n\n" ++
         "[partition]\nname=modem\nstart=0x100\nlength=0x200\nlsize=0x0\nloadaddr=0x0\n" ++
         "entry=0x0\nnproperty=0x0\ntype=0x0\ncount=0x0\n\n")) := by decide!
    rw [hw'] at hw
    cases hw
    have hp' : parse_text example_magic (str
        ("version= V1.0\nproduct=E3372\n" ++
         "tail=0000000000000000000000000000000000000000000000000000000000000000\n\n" ++
         "[partition]\nname=modem\nstart=0x100\nlength=0x200\nlsize=0x0\nloadaddr=0x0\n" ++
         "entry=0x0\nnproperty=0x0\ntype=0x0\ncount=0x0\n\n")) = Except.ok example_table := by
      decide!
    rw [hp'] at hp
    cases hp
    revert hv
    decide
  · rintro ⟨text, t', hw, hp, -, -, hv, -⟩
    have hw' : write_text nul_table = Outcome.ok (str
        ("version=V1\nproduct=E3372\n" ++
         "tail=0000000000000000000000000000000000000000000000000000000000000000\n\n" ++
         "[partition]\nname=modem\nstart=0x100\nlength=0x200\nlsize=0x0\nloadaddr=0x0\n" ++
         "entry=0x0\nnproperty=0x0\ntype=0x0\ncount=0x0\n\n")) := by decide!
    rw [hw'] at hw
    cases hw
    have hp' : parse_text example_magic (str
        ("version=V1\nproduct=E3372\n" ++
         "tail=0000000000000000000000000000000000000000000000000000000000000000\n\n" ++
         "[partition]\nname=modem\nstart=0x100\nlength=0x200\nlsize=0x0\nloadaddr=0x0\n" ++
         "entry=0x0\nnproperty=0x0\ntype=0x0\ncount=0x0\n\n")) =
        Except.ok { example_table with version := copy16 (str "V1") } := by
      decide!
    rw [hp'] at hp
    cases hp
    revert hv
    decide
  · rintro ⟨text, t', hw, hp, -⟩
    have hw' : write_text newline_table = Outcome.ok (str
        ("version=V1.0\nproduct=E3372\n" ++
         "tail=0000000000000000000000000000000000000000000000000000000000000000\n\n" ++
         "[partition]\nname=a\nb\nstart=0x100\nlength=0x200\nlsize=0x0\nloadaddr=0x0\n" ++
         "entry=0x0\nnproperty=0x0\ntype=0x0\ncount=0x0\n\n")) := by decide!
    rw [hw'] at hw
    cases hw
    have hp' : parse_text example_magic (str
        ("version=V1.0\nproduct=E3372\n" ++
         "tail=0000000000000000000000000000000000000000000000000000000000000000\n\n" ++
         "[partition]\nname=a\nb\nstart=0x100\nlength=0x200\nlsize=0x0\nloadaddr=0x0\n" ++
         "entry=0x0\nnproperty=0x0\ntype=0x0\ncount=0x0\n\n")) =
        Except.error ParseError.invalid_line := by
      decide!
    rw [hp'] at hp
    cases hp
  · rintro ⟨text, t', hw, hp, -, -, -, -, -, ha⟩
    have hw' : write_text hidden_table = Outcome.ok (str
        ("version=V1.0\nproduct=E3372\n" ++
         "tail=0000000000000000000000000000000000000000000000000000000000000000\n\n")) := by
      decide!
    rw [hw'] at hw
    cases hw
    have hp' : parse_text example_magic (str
        ("version=V1.0\nproduct=E3372\n" ++
         "tail=0000000000000000000000000000000000000000000000000000000000000000\n\n")) =
        Except.ok { example_table with part := List.replicate 41 zero_line } := by
      decide!
    rw [hp'] at hp
    cases hp
    have h := (ha 0 zero_line ⟨List.replicate 16 0, 1, 0, 0, 0, 0, 0, 0, 0⟩ rfl rfl).2.1
    revert h
    decide

/-- C2, witness: the table `example_table`. -/
theorem write_parse_text_round_trip_witness :
    text_table example_magic example_table ∧ text_ok (unpad example_table.version) ∧
    text_ok (unpad example_table.product) ∧
    (∀ l ∈ example_table.part, text_ok (unpad l.name)) ∧
    (∀ l ∈ example_table.part, l.name[0]? = some 0 → blank l) ∧
    text_round_trip example_magic example_table :=
  have ht : text_table example_magic example_table := example_table_text
  have hn : ∀ l ∈ example_table.part, text_ok (unpad l.name) :=
    forall_mem_cons_replicate _ _ _ (by decide) (by decide)
  have hb : ∀ l ∈ example_table.part, l.name[0]? = some 0 → blank l :=
    forall_mem_cons_replicate _ _ _ (by decide) (by decide)
  ⟨ht, by decide, by decide, hn, hb,
    write_parse_text_round_trip example_magic example_table ht (by decide) (by decide) hn hb⟩

/-- C3: reading back, as `dump_bin` does, the 2048 bytes that `build_bin`
writes for a table gives a table equal to it in every field. -/
theorem fread_fwrite_ptable (t : ptable_t) (h : t.wf) :
    (fwrite_ptable t).length = sizeof_ptable_t ∧ fread_ptable (fwrite_ptable t) = some t := by
  refine ⟨fwrite_ptable_length t h, ?_⟩
  have hlen := fwrite_ptable_length t h
  obtain ⟨h1, h2, h3, h4, h5, h6⟩ := h
  unfold fread_ptable
  rw [if_neg (by omega)]
  have e : fwrite_ptable t = t.head ++ (t.version ++ (t.product ++
      ((t.part.map encode_line).flatten ++ t.tail))) := by
    simp only [fwrite_ptable, List.append_assoc]
  have d16 : (fwrite_ptable t).drop 16 = t.version ++ (t.product ++
      ((t.part.map encode_line).flatten ++ t.tail)) := by
    rw [e, ← h1, List.drop_left]
  have d32 : (fwrite_ptable t).drop 32 = t.product ++
      ((t.part.map encode_line).flatten ++ t.tail) := by
    rw [show (32 : Nat) = 16 + 16 from rfl, ← List.drop_drop, d16]
    rw [← h2, List.drop_left]
  have d48 : (fwrite_ptable t).drop 48 = (t.part.map encode_line).flatten ++ t.tail := by
    rw [show (48 : Nat) = 32 + 16 from rfl, ← List.drop_drop, d32]
    rw [← h3, List.drop_left]
  have dtail : (fwrite_ptable t).drop (48 + 41 * sizeof_ptable_line) = t.tail := by
    rw [show 48 + 41 * sizeof_ptable_line = 48 + 41 * sizeof_ptable_line from rfl,
      ← List.drop_drop, d48, ← h4, ← join_encode_length t.part h5, List.drop_left]
  have hp : decode_lines 41 ((fwrite_ptable t).drop 48) = t.part := by
    rw [d48, ← h4, decode_lines_encode t.part h5]
  rw [d16, d32, hp, dtail]
  have t1 : (fwrite_ptable t).take 16 = t.head := by rw [e, ← h1, List.take_left]
  have t2 : (t.version ++ (t.product ++ ((t.part.map encode_line).flatten ++ t.tail))).take 16 =
      t.version := by rw [← h2, List.take_left]
  have t3 : (t.product ++ ((t.part.map encode_line).flatten ++ t.tail)).take 16 = t.product := by
    rw [← h3, List.take_left]
  have t4 : t.tail.take 32 = t.tail := by rw [← h6, List.take_length]
  rw [t1, t2, t3, t4]

/-- C3, witness: the table `example_table`. -/
theorem fread_fwrite_ptable_witness :
    example_table.wf ∧ (fwrite_ptable example_table).length = sizeof_ptable_t ∧
    fread_ptable (fwrite_ptable example_table) = some example_table :=
  ⟨example_table_text.1, fread_fwrite_ptable example_table example_table_text.1⟩

/-! ## The terminator rule of `write_text` (C12) -/

theorem spec_emitted_nil : spec_emitted [] = [] := rfl

theorem spec_emitted_cons (l : ptable_line) (rest : List ptable_line) :
    spec_emitted (l :: rest) =
      if cstr l.name = [] then []
      else if cstr l.name = str "T" then [l]
      else l :: spec_emitted rest := by
  unfold spec_emitted
  rw [List.findIdx?_cons]
  by_cases h0 : cstr l.name = []
  · have : is_terminator l = true := by simp [is_terminator, h0]
    rw [this, if_pos rfl, if_pos h0]
    have hT : ¬ (cstr l.name = str "T") := by rw [h0]; decide
    simp [hT]
  · by_cases hT : cstr l.name = str "T"
    · have : is_terminator l = true := by simp [is_terminator, hT]
      rw [this, if_pos rfl, if_neg h0, if_pos hT]
      simp [hT]
    · have : is_terminator l = false := by simp [is_terminator, h0, hT]
      rw [this, if_neg h0, if_neg hT]
      simp only [Bool.false_eq_true, if_false]
      rw [List.findIdx?_succ]
      cases hk : List.findIdx? is_terminator rest with
      | none => simp
      | some k => simp [List.getD_cons_succ]; split <;> rfl

theorem cstr_nil_iff (name : List Byte) (h : name ≠ []) :
    cstr name = [] ↔ name[0]? = some 0 := by
  cases name with
  | nil => exact absurd rfl h
  | cons c r =>
    unfold cstr
    by_cases hc : c = 0
    · simp [hc, List.takeWhile_cons]
    · simp [hc, List.takeWhile_cons]

theorem write_entry_eq_spec_block (l : ptable_line) (name : List Byte) :
    write_entry l name = spec_block l name := by
  unfold write_entry spec_block key_value_line
  simp only [List.append_assoc]
  rfl

theorem write_parts_emitted (tail : List Byte) :
    ∀ (part : List ptable_line) (idx : Nat),
    (∀ l ∈ part, l.name.length = 16) →
    (∀ l ∈ spec_emitted part, (0 : Byte) ∈ l.name) →
    write_parts tail idx part = Outcome.ok (spec_blocks_text (spec_emitted part)) := by
  intro part
  induction part with
  | nil => intro idx _ _; rfl
  | cons l rest ih =>
    intro idx hlen hnul
    have hl16 := hlen l (List.mem_cons_self _ _)
    have hne : l.name ≠ [] := by intro h; rw [h] at hl16; cases hl16
    rw [spec_emitted_cons] at hnul ⊢
    unfold write_parts
    by_cases h0 : cstr l.name = []
    · rw [if_pos ((cstr_nil_iff _ hne).mp h0), if_pos h0]; rfl
    · rw [if_neg (fun h => h0 ((cstr_nil_iff _ hne).mpr h)), if_neg h0]
      rw [if_neg h0] at hnul
      have hmem : (0 : Byte) ∈ l.name := by
        by_cases hT : cstr l.name = str "T"
        · rw [if_pos hT] at hnul; exact hnul l (List.mem_singleton_self _)
        · rw [if_neg hT] at hnul; exact hnul l (List.mem_cons_self _ _)
      have hmemory : ((l :: rest).map encode_line).flatten ++ tail =
          encode_line l ++ ((rest.map encode_line).flatten ++ tail) := by
        simp [List.append_assoc]
      rw [hmemory, c_string_of_name l _ hmem]
      simp only
      by_cases hT : cstr l.name = str "T"
      · rw [if_pos hT, if_pos hT, write_entry_eq_spec_block]
        simp [spec_blocks_text]
      · rw [if_neg hT, if_neg hT]
        rw [if_neg hT] at hnul
        rw [ih (idx + 1) (fun x hx => hlen x (List.mem_cons_of_mem _ hx))
          (fun x hx => hnul x (List.mem_cons_of_mem _ hx)), write_entry_eq_spec_block]
        simp [spec_blocks_text]

/-- The string printed for a name is `T` exactly when the C string of the name
field is. -/
theorem printed_name_sentinel (l : ptable_line) (more name : List Byte)
    (hlen : l.name.length = 16) (h : c_string (encode_line l ++ more) = some name) :
    name = str "T" ↔ cstr l.name = str "T" := by
  have e : encode_line l ++ more = l.name ++ (le32 l.start ++ le32 l.lsize ++ le32 l.length ++
      le32 l.loadaddr ++ le32 l.entry ++ le32 l.type ++ le32 l.nproperty ++ le32 l.count ++
      more) := by
    simp only [encode_line, List.append_assoc]
  by_cases hnul : (0 : Byte) ∈ l.name
  · rw [c_string_of_name l more hnul] at h
    cases h
    exact Iff.rfl
  · have hall : ∀ c ∈ l.name, c ≠ 0 := fun c hc e0 => hnul (e0 ▸ hc)
    have h1 : cstr l.name = l.name := cstr_of_no_nul l.name hall
    unfold c_string at h
    split at h
    · cases h
      rw [e, h1]
      unfold cstr
      rw [takeWhile_append_of_all _ _ _ (fun c hc => by simpa using hall c hc)]
      constructor
      · intro hT
        have := congrArg List.length hT
        rw [List.length_append, hlen] at this
        have h2 : (str "T").length = 1 := rfl
        omega
      · intro hT
        have := congrArg List.length hT
        rw [hlen] at this
        have h2 : (str "T").length = 1 := rfl
        omega
    · cases h

theorem printed_names_zero (tail : List Byte) (ls : List ptable_line) :
    printed_names tail ls 0 = some [] := by
  cases ls <;> rfl

theorem printed_names_succ (tail : List Byte) (l : ptable_line) (rest : List ptable_line)
    (m : Nat) :
    printed_names tail (l :: rest) (m + 1) =
      match c_string (((l :: rest).map encode_line).flatten ++ tail),
        printed_names tail rest m with
      | some name, some names => some (name :: names)
      | _, _ => none := rfl

/-- The partition loop of `write_text` on any entries: the blocks of the
entries the terminator rule emits, each with the string `%s` prints for its
name, or a read past the table when for one of them no NUL follows. -/
theorem write_parts_rule (tail : List Byte) :
    ∀ (part : List ptable_line) (idx : Nat),
    (∀ l ∈ part, l.name.length = 16) →
    (∀ names, printed_names tail part (spec_emitted part).length = some names →
      names.length = (spec_emitted part).length ∧
      write_parts tail idx part =
        Outcome.ok ((List.zipWith spec_block (spec_emitted part) names).flatten)) ∧
    (printed_names tail part (spec_emitted part).length = none →
      ∃ f, write_parts tail idx part = Outcome.fault f) := by
  intro part
  induction part with
  | nil =>
    intro idx _
    exact ⟨fun names h => (by cases h; exact ⟨rfl, rfl⟩), fun h => (by cases h)⟩
  | cons l rest ih =>
    intro idx hlen
    have hl16 := hlen l (List.mem_cons_self _ _)
    have hne : l.name ≠ [] := by intro h; rw [h] at hl16; cases hl16
    have hmemory : ((l :: rest).map encode_line).flatten ++ tail =
        encode_line l ++ ((rest.map encode_line).flatten ++ tail) := by
      simp [List.append_assoc]
    rw [spec_emitted_cons]
    unfold write_parts
    by_cases h0 : cstr l.name = []
    · rw [if_pos h0, if_pos ((cstr_nil_iff _ hne).mp h0)]
      refine ⟨fun names h => ?_, fun h => ?_⟩
      · rw [List.length_nil, printed_names_zero] at h
        cases h
        exact ⟨rfl, rfl⟩
      · rw [List.length_nil, printed_names_zero] at h
        cases h
    · rw [if_neg h0, if_neg (fun h => h0 ((cstr_nil_iff _ hne).mpr h))]
      by_cases hT : cstr l.name = str "T"
      · rw [if_pos hT, List.length_singleton]
        rw [show (1 : Nat) = 0 + 1 from rfl, printed_names_succ, printed_names_zero]
        cases hc : c_string (((l :: rest).map encode_line).flatten ++ tail) with
        | none =>
          exact ⟨fun names h => (by cases h), fun _ => ⟨_, rfl⟩⟩
        | some name =>
          have hname : name = str "T" :=
            (printed_name_sentinel l _ name hl16 (by rw [← hmemory]; exact hc)).mpr hT
          refine ⟨fun names h => ?_, fun h => (by cases h)⟩
          simp only [Option.some.injEq] at h
          subst h
          simp only
          rw [if_pos hname, write_entry_eq_spec_block]
          exact ⟨rfl, by simp⟩
      · rw [if_neg hT, List.length_cons]
        rw [printed_names_succ]
        obtain ⟨ih1, ih2⟩ := ih (idx + 1) (fun x hx => hlen x (List.mem_cons_of_mem _ hx))
        cases hc : c_string (((l :: rest).map encode_line).flatten ++ tail) with
        | none =>
          exact ⟨fun names h => (by cases h), fun _ => ⟨_, rfl⟩⟩
        | some name =>
          have hname : ¬ name = str "T" := fun e =>
            hT ((printed_name_sentinel l _ name hl16 (by rw [← hmemory]; exact hc)).mp e)
          simp only
          rw [if_neg hname]
          cases hr : printed_names tail rest (spec_emitted rest).length with
          | none =>
            obtain ⟨f, hf⟩ := ih2 hr
            rw [hf]
            exact ⟨fun names h => (by cases h), fun _ => ⟨f, rfl⟩⟩
          | some names1 =>
            obtain ⟨hl1, hw⟩ := ih1 names1 hr
            rw [hw]
            refine ⟨fun names h => ?_, fun h => (by cases h)⟩
            simp only [Option.some.injEq] at h
            subst h
            rw [write_entry_eq_spec_block]
            exact ⟨by rw [List.length_cons, hl1], by simp⟩

/-- C12: for every partition table, `write_text` prints, after the header
lines, one `[partition]` block for each of the entries `0..k` in stored order
and none for the entries after `k`, where `k` is the index of the first entry
named `T`; when an entry with an empty name comes first it prints only the
entries before that one; and when no entry is empty or named `T` it prints all
41 (`spec_emitted` is this rule).  The name in a block is the string `%s`
prints for the name field: the C string of the field when the field holds a
NUL, and otherwise the field followed by the bytes after it up to the next
NUL of the table.  When for an entry the rule emits no NUL follows in the
table, the run reads past the table. -/
theorem write_text_terminator_rule (t : ptable_t) (hwf : t.wf) :
    (∀ names, printed_names t.tail t.part (spec_emitted t.part).length = some names →
      names.length = (spec_emitted t.part).length ∧
      write_text t = Outcome.ok
        (write_header t ++ (List.zipWith spec_block (spec_emitted t.part) names).flatten)) ∧
    (printed_names t.tail t.part (spec_emitted t.part).length = none →
      ∃ f, write_text t = Outcome.fault f) ∧
    ((∀ l ∈ spec_emitted t.part, (0 : Byte) ∈ l.name) →
      write_text t =
        Outcome.ok (write_header t ++ spec_blocks_text (spec_emitted t.part))) := by
  obtain ⟨-, -, -, h4, h5, -⟩ := hwf
  have htake : t.part.take 41 = t.part := by rw [← h4, List.take_length]
  obtain ⟨r1, r2⟩ := write_parts_rule t.tail t.part 0 (fun l hl => (h5 l hl).1)
  refine ⟨fun names h => ?_, fun h => ?_, fun hn => ?_⟩
  · obtain ⟨hl, hw⟩ := r1 names h
    refine ⟨hl, ?_⟩
    unfold write_text
    rw [htake, hw]
  · obtain ⟨f, hf⟩ := r2 h
    refine ⟨f, ?_⟩
    unfold write_text
    rw [htake, hf]
  · unfold write_text
    rw [htake, write_parts_emitted t.tail t.part 0 (fun l hl => (h5 l hl).1) hn]

theorem replicate_table_wf (e : ptable_line) (he : e.wf) :
    ptable_t.wf { example_table with part := List.replicate 41 e } :=
  ⟨rfl, rfl, rfl, List.length_replicate _ _,
    fun l hl => by rw [List.eq_of_mem_replicate hl]; exact he, rfl⟩

/-- C12, witness: the table `example_table`, whose second entry has an empty
name, gives one block; the table `sentinel_table`, whose 41 entries are all
named `T`, gives the block of entry 0 alone; the table `full_table`, which has
neither, gives 41 blocks; the table `long_name_table`, whose entry 0 has a
name of 16 characters, gives one block, with the name followed by the four
bytes of the start; the table `unterminated_table`, without any NUL, makes
`write_text` read past the table. -/
theorem write_text_terminator_rule_witness :
    (example_table.wf ∧ (∀ l ∈ spec_emitted example_table.part, (0 : Byte) ∈ l.name) ∧
      spec_emitted example_table.part = example_table.part.take 1 ∧
      write_text example_table =
        Outcome.ok (write_header example_table ++ spec_blocks_text (example_table.part.take 1))) ∧
    (spec_emitted sentinel_table.part = sentinel_table.part.take 1 ∧
      write_text sentinel_table =
        Outcome.ok (write_header sentinel_table ++
          spec_blocks_text (sentinel_table.part.take 1))) ∧
    (spec_emitted full_table.part = full_table.part ∧
      write_text full_table =
        Outcome.ok (write_header full_table ++ spec_blocks_text full_table.part)) ∧
    (long_name_table.wf ∧
      spec_emitted long_name_table.part = long_name_table.part.take 1 ∧
      printed_names long_name_table.tail long_name_table.part 1 =
        some [str "ABCDEFGHIJKLMNOP4321"] ∧
      write_text long_name_table =
        Outcome.ok (write_header long_name_table ++
          spec_block ⟨str "ABCDEFGHIJKLMNOP", 0x31323334, 0, 0x200, 0, 0, 0, 0, 0⟩
            (str "ABCDEFGHIJKLMNOP4321"))) ∧
    (unterminated_table.wf ∧ spec_emitted unterminated_table.part = unterminated_table.part ∧
      printed_names unterminated_table.tail unterminated_table.part 41 = none ∧
      ∃ f, write_text unterminated_table = Outcome.fault f) := by
  have e1 : spec_emitted example_table.part = example_table.part.take 1 := by decide
  have e2 : spec_emitted sentinel_table.part = sentinel_table.part.take 1 := by decide
  have e3 : spec_emitted full_table.part = full_table.part := by decide
  have e4 : spec_emitted long_name_table.part = long_name_table.part.take 1 := by decide
  have e5 : spec_emitted unterminated_table.part = unterminated_table.part := by decide
  have n1 : ∀ l ∈ spec_emitted example_table.part, (0 : Byte) ∈ l.name := by
    rw [e1]; decide
  have n2 : ∀ l ∈ spec_emitted sentinel_table.part, (0 : Byte) ∈ l.name := by
    rw [e2]; decide
  have n3 : ∀ l ∈ spec_emitted full_table.part, (0 : Byte) ∈ l.name := by
    rw [e3]; intro l hl; rw [List.eq_of_mem_replicate hl]; decide
  have w4 : long_name_table.wf :=
    ⟨rfl, rfl, rfl, rfl, by decide, rfl⟩
  have w5 : unterminated_table.wf :=
    ⟨rfl, rfl, rfl, rfl,
      fun l hl => by rw [List.eq_of_mem_replicate hl]; decide, rfl⟩
  have p4 : printed_names long_name_table.tail long_name_table.part
      (spec_emitted long_name_table.part).length = some [str "ABCDEFGHIJKLMNOP4321"] := by
    decide!
  have p5 : printed_names unterminated_table.tail unterminated_table.part
      (spec_emitted unterminated_table.part).length = none := by
    decide!
  refine ⟨⟨example_table_text.1, n1, e1, ?_⟩, ⟨e2, ?_⟩, ⟨e3, ?_⟩, ⟨w4, e4, ?_, ?_⟩,
    ⟨w5, e5, ?_, ?_⟩⟩
  · have h := (write_text_terminator_rule example_table example_table_text.1).2.2 n1
    rw [e1] at h; exact h
  · have h := (write_text_terminator_rule sentinel_table
      (replicate_table_wf _ (by decide))).2.2 n2
    rw [e2] at h; exact h
  · have h := (write_text_terminator_rule full_table (replicate_table_wf _ (by decide))).2.2 n3
    rw [e3] at h; exact h
  · rw [e4] at p4; exact p4
  · have h := ((write_text_terminator_rule long_name_table w4).1 _ p4).2
    rw [e4] at h
    rw [h]
    simp [long_name_table, List.zipWith]
  · rw [e5] at p5; exact p5
  · exact (write_text_terminator_rule unterminated_table w5).2.1 p5

/-! ## Lines of a text and chunks of `fgets` -/

theorem text_lines_loop_first : ∀ (cs acc : List Byte), cs ≠ [] →
    ∃ l ∈ text_lines_loop cs acc, acc.length + 1 ≤ l.length := by
  intro cs
  induction cs with
  | nil => intro acc h; exact absurd rfl h
  | cons c cs ih =>
    intro acc _
    unfold text_lines_loop
    by_cases hc : c = ch '\n'
    · rw [if_pos hc]
      exact ⟨acc ++ [c], List.mem_cons_self _ _, by simp⟩
    · rw [if_neg hc]
      by_cases hcs : cs = []
      · subst hcs
        refine ⟨acc ++ [c], ?_, by simp⟩
        simp [text_lines_loop]
      · obtain ⟨l, hl, hlen⟩ := ih (acc ++ [c]) hcs
        exact ⟨l, hl, by simp at hlen; omega⟩

theorem fgets_loop_eq_text_lines (n : Nat) : ∀ (cs acc : List Byte),
    (∀ l ∈ text_lines_loop cs acc, l.length < n) →
    fgets_loop n cs acc = text_lines_loop cs acc := by
  intro cs
  induction cs with
  | nil => intro acc _; rfl
  | cons c cs ih =>
    intro acc h
    unfold fgets_loop text_lines_loop
    unfold text_lines_loop at h
    by_cases hc : c = ch '\n'
    · rw [if_pos (Or.inl hc), if_pos hc]
      rw [if_pos hc] at h
      rw [ih [] (fun l hl => h l (List.mem_cons_of_mem _ hl))]
    · rw [if_neg hc] at h ⊢
      by_cases hfull : acc.length + 2 ≥ n
      · rw [if_pos (Or.inr hfull)]
        by_cases hcs : cs = []
        · subst hcs
          simp [fgets_loop, text_lines_loop]
        · obtain ⟨l, hl, hlen⟩ := text_lines_loop_first cs (acc ++ [c]) hcs
          have := h l hl
          simp at hlen
          omega
      · rw [if_neg (by rintro (h1 | h1); exact hc h1; exact hfull h1)]
        exact ih (acc ++ [c]) h

/-- On a text whose lines fit the buffer, `fgets` delivers the lines. -/
theorem fgets_chunks_eq_text_lines (input : List Byte) (h : lines_fit input) :
    fgets_chunks MAX_LINE input = text_lines input :=
  fgets_loop_eq_text_lines MAX_LINE input [] h

/-- The loop body of `parse_text`, by what it takes the line for. -/
theorem parse_line_read (st : ParseState) (linebuf : List Byte) :
    parse_line st linebuf =
      match read_line linebuf with
      | .ignored => Except.ok st
      | .marker =>
        if st.current ≥ 40 then Except.error ParseError.too_many_partitions
        else Except.ok { current := st.current + 1,
                         ptable := { st.ptable with
                           part := st.ptable.part.set (st.current + 1).toNat zero_line } }
      | .key_value key value => parse_key_value st key value
      | .invalid => Except.error ParseError.invalid_line := by
  unfold parse_line read_line
  simp only
  by_cases h1 : (strip (cstr linebuf)).head? = none ∨
      (strip (cstr linebuf)).head? = some (ch '#')
  · rw [if_pos h1, if_pos h1]
  · rw [if_neg h1, if_neg h1]
    by_cases h2 : strip (cstr linebuf) = str "[partition]"
    · rw [if_pos h2, if_pos h2]
    · rw [if_neg h2, if_neg h2]
      cases List.dropWhile (fun c => decide (c ≠ ch '=')) (strip (cstr linebuf)) <;> rfl

theorem parse_text_lines (headmagic input : List Byte) (h : lines_fit input) :
    parse_text headmagic input =
      match parse_lines (text_lines input) ⟨-1, clear_ptable headmagic⟩ with
      | .error e => .error e
      | .ok st => .ok (terminate_table st) := by
  unfold parse_text
  rw [fgets_chunks_eq_text_lines input h]
/-! ## One step of the loop of `parse_text` -/

theorem entry_keys_mem (key : List Byte) :
    key ∈ entry_keys ↔ key = str "name" ∨ key = str "start" ∨ key = str "length" ∨
      key = str "lsize" ∨ key = str "loadaddr" ∨ key = str "entry" ∨
      key = str "nproperty" ∨ key = str "type" ∨ key = str "count" := by
  simp [entry_keys, NumField.all, NumField.key]

/-- The branch of `parse_text` for a `key=value` line, by kind of key. -/
theorem parse_key_value_eq (st : ParseState) (key value : List Byte) :
    parse_key_value st key value =
      if key = str "version" then
        Except.ok { st with ptable := { st.ptable with version := copy16 value } }
      else if key = str "product" then
        Except.ok { st with ptable := { st.ptable with product := copy16 value } }
      else if key = str "tail" then
        match parse_tail value with
        | none => Except.error ParseError.invalid_tail
        | some tail => Except.ok { st with ptable := { st.ptable with tail := tail } }
      else if st.current < 0 then Except.error ParseError.data_before_header
      else if key = str "name" ∧ value.length ≥ 16 then Except.error ParseError.name_too_long
      else if key ∈ entry_keys then
        Except.ok (update_line st (fun l => assign l key value))
      else Except.error ParseError.unknown_key := by
  unfold parse_key_value
  by_cases h1 : key = str "version"
  · rw [if_pos h1, if_pos h1]
  rw [if_neg h1, if_neg h1]
  by_cases h2 : key = str "product"
  · rw [if_pos h2, if_pos h2]
  rw [if_neg h2, if_neg h2]
  by_cases h3 : key = str "tail"
  · rw [if_pos h3, if_pos h3]
  rw [if_neg h3, if_neg h3]
  by_cases h4 : st.current < 0
  · rw [if_pos h4, if_pos h4]
  rw [if_neg h4, if_neg h4]
  by_cases h5 : key = str "name"
  · subst h5
    rw [if_pos rfl]
    by_cases h6 : value.length ≥ 16
    · rw [if_pos h6, if_pos ⟨rfl, h6⟩]
    · rw [if_neg h6, if_neg (fun h => h6 h.2), if_pos (by decide)]
      rfl
  rw [if_neg h5, if_neg (show ¬ (key = str "name" ∧ value.length ≥ 16) from fun h => h5 h.1)]
  by_cases k1 : key = str "start"
  · subst k1; rw [if_pos rfl, if_pos (by decide)]; rfl
  rw [if_neg k1]
  by_cases k2 : key = str "length"
  · subst k2; rw [if_pos rfl, if_pos (by decide)]; rfl
  rw [if_neg k2]
  by_cases k3 : key = str "lsize"
  · subst k3; rw [if_pos rfl, if_pos (by decide)]; rfl
  rw [if_neg k3]
  by_cases k4 : key = str "loadaddr"
  · subst k4; rw [if_pos rfl, if_pos (by decide)]; rfl
  rw [if_neg k4]
  by_cases k5 : key = str "entry"
  · subst k5; rw [if_pos rfl, if_pos (by decide)]; rfl
  rw [if_neg k5]
  by_cases k6 : key = str "nproperty"
  · subst k6; rw [if_pos rfl, if_pos (by decide)]; rfl
  rw [if_neg k6]
  by_cases k7 : key = str "type"
  · subst k7; rw [if_pos rfl, if_pos (by decide)]; rfl
  rw [if_neg k7]
  by_cases k8 : key = str "count"
  · subst k8; rw [if_pos rfl, if_pos (by decide)]; rfl
  rw [if_neg k8, if_neg]
  rw [entry_keys_mem]
  simp [h5, k1, k2, k3, k4, k5, k6, k7, k8]

theorem parse_line_ignored (st : ParseState) (l : List Byte) (h : read_line l = .ignored) :
    parse_line st l = Except.ok st := by
  rw [parse_line_read, h]

theorem parse_line_invalid (st : ParseState) (l : List Byte) (h : read_line l = .invalid) :
    parse_line st l = Except.error ParseError.invalid_line := by
  rw [parse_line_read, h]

theorem parse_line_kv (st : ParseState) (l key value : List Byte)
    (h : read_line l = .key_value key value) :
    parse_line st l = parse_key_value st key value := by
  rw [parse_line_read, h]

theorem set_zero_line_of_inv (st : ParseState) (hinv : st.inv) (h : st.current < 40) :
    st.ptable.part.set (st.current + 1).toNat zero_line = st.ptable.part := by
  obtain ⟨hlen, hlo, -, hz⟩ := hinv
  apply List.ext_getElem?
  intro i
  rw [List.getElem?_set]
  by_cases hi : (st.current + 1).toNat = i
  · rw [if_pos hi, if_pos (by omega)]
    exact (hz i (by omega) (by omega)).symm
  · rw [if_neg hi]

theorem parse_line_marker (st : ParseState) (l : List Byte) (hinv : st.inv)
    (h : read_line l = .marker) :
    parse_line st l =
      if st.current ≥ 40 then Except.error ParseError.too_many_partitions
      else Except.ok ⟨st.current + 1, st.ptable⟩ := by
  rw [parse_line_read, h]
  simp only
  by_cases h40 : st.current ≥ 40
  · rw [if_pos h40, if_pos h40]
  · rw [if_neg h40, if_neg h40, set_zero_line_of_inv st hinv (by omega)]

theorem header_keys_mem (key : List Byte) :
    key ∈ header_keys ↔ key = str "version" ∨ key = str "product" ∨ key = str "tail" := by
  simp [header_keys]

theorem assign_header (l : ptable_line) (key value : List Byte) (h : key ∈ header_keys) :
    assign l key value = l := by
  rw [header_keys_mem] at h
  rcases h with h | h | h <;> subst h <;> rfl

/-- What a `key=value` line that `parse_text` takes does to the state. -/
theorem parse_key_value_ok (st st1 : ParseState) (key value : List Byte)
    (h : parse_key_value st key value = Except.ok st1) :
    st1.current = st.current ∧ st1.ptable.head = st.ptable.head ∧
    (key ≠ str "version" → st1.ptable.version = st.ptable.version) ∧
    (key ≠ str "product" → st1.ptable.product = st.ptable.product) ∧
    (key ≠ str "tail" → st1.ptable.tail = st.ptable.tail) ∧
    ((key ∈ header_keys ∧ (key = str "tail" → (parse_tail value).isSome) ∧
        st1.ptable.part = st.ptable.part) ∨
     (key ∉ header_keys ∧ key ∈ entry_keys ∧ 0 ≤ st.current ∧
        (key = str "name" → value.length < 16) ∧
        st1.ptable.tail = st.ptable.tail ∧
        st1.ptable.part = st.ptable.part.set st.current.toNat
          (assign (st.ptable.part.getD st.current.toNat zero_line) key value))) := by
  rw [parse_key_value_eq] at h
  by_cases h1 : key = str "version"
  · rw [if_pos h1] at h
    cases h
    subst h1
    refine ⟨rfl, rfl, fun h => absurd rfl h, fun _ => rfl, fun _ => rfl,
      Or.inl ⟨by decide, fun h => absurd h (by decide), rfl⟩⟩
  rw [if_neg h1] at h
  by_cases h2 : key = str "product"
  · rw [if_pos h2] at h
    cases h
    subst h2
    refine ⟨rfl, rfl, fun _ => rfl, fun h => absurd rfl h, fun _ => rfl,
      Or.inl ⟨by decide, fun h => absurd h (by decide), rfl⟩⟩
  rw [if_neg h2] at h
  by_cases h3 : key = str "tail"
  · rw [if_pos h3] at h
    cases ht : parse_tail value with
    | none => rw [ht] at h; cases h
    | some tl =>
      rw [ht] at h
      cases h
      subst h3
      refine ⟨rfl, rfl, fun _ => rfl, fun _ => rfl, fun h => absurd rfl h,
        Or.inl ⟨by decide, fun _ => rfl, rfl⟩⟩
  rw [if_neg h3] at h
  by_cases h4 : st.current < 0
  · rw [if_pos h4] at h; cases h
  rw [if_neg h4] at h
  by_cases h5 : key = str "name" ∧ value.length ≥ 16
  · rw [if_pos h5] at h; cases h
  rw [if_neg h5] at h
  by_cases h6 : key ∈ entry_keys
  · rw [if_pos h6] at h
    cases h
    refine ⟨rfl, rfl, fun _ => rfl, fun _ => rfl, fun _ => rfl, Or.inr ⟨?_, h6, by omega, ?_, rfl, rfl⟩⟩
    · rw [header_keys_mem]; simp [h1, h2, h3]
    · intro hn
      by_contra hlen
      exact h5 ⟨hn, by omega⟩
  · rw [if_neg h6] at h; cases h
/-! ## The loop of `parse_text` over a list of lines -/

theorem opened_cons (l : List Byte) (rest : List (List Byte)) :
    opened (l :: rest) = opened rest + if read_line l = .marker then 1 else 0 := by
  unfold opened
  rw [List.countP_cons]
  by_cases h : read_line l = .marker <;> simp [h]

theorem group_cons_marker (l : List Byte) (rest : List (List Byte))
    (h : read_line l = .marker) :
    group (l :: rest) 0 = [] ∧ ∀ k, group (l :: rest) (k + 1) = group rest k := by
  constructor
  · simp [group, h]
  · intro k; simp [group, h]

theorem group_cons_other (l : List Byte) (rest : List (List Byte))
    (h : read_line l ≠ .marker) :
    group (l :: rest) 0 = l :: group rest 0 ∧
    ∀ k, group (l :: rest) (k + 1) = group rest (k + 1) := by
  constructor
  · simp [group, h]
  · intro k; simp [group, h]

theorem fill_of_kv (x : ptable_line) (l key value : List Byte)
    (h : read_line l = .key_value key value) : fill x l = assign x key value := by
  unfold fill; rw [h]

theorem fill_of_ignored (x : ptable_line) (l : List Byte) (h : read_line l = .ignored) :
    fill x l = x := by
  unfold fill; rw [h]

theorem run_entry_nil (st : ParseState) (hinv : st.inv) (i : Nat) (hi : i < 41) :
    st.ptable.part[i]? = some (run_entry st [] i) := by
  obtain ⟨hlen, hlo, hhi, hz⟩ := hinv
  unfold run_entry
  have hget : st.ptable.part[i]? = some (st.ptable.part.getD i zero_line) := by
    rw [List.getD_eq_getElem?_getD, List.getElem?_eq_getElem (by omega)]; rfl
  by_cases h1 : (i : Int) < st.current
  · rw [if_pos h1]; exact hget
  · rw [if_neg h1]
    by_cases h2 : (i : Int) = st.current
    · rw [if_pos h2]; exact hget
    · rw [if_neg h2]
      rw [hz i (by omega) hi]
      cases (i - st.current).toNat <;> rfl

theorem run_entry_same (st : ParseState) (l : List Byte) (rest : List (List Byte))
    (i : Nat) (hm : read_line l ≠ .marker) (hf : ∀ x, fill x l = x) :
    run_entry st rest i = run_entry st (l :: rest) i := by
  obtain ⟨g0, gk⟩ := group_cons_other l rest hm
  unfold run_entry
  by_cases h1 : (i : Int) < st.current
  · rw [if_pos h1, if_pos h1]
  · rw [if_neg h1, if_neg h1]
    by_cases h2 : (i : Int) = st.current
    · rw [if_pos h2, if_pos h2, g0, List.foldl_cons, hf]
    · rw [if_neg h2, if_neg h2]
      obtain ⟨k, hk⟩ : ∃ k, (i - st.current).toNat = k + 1 := ⟨(i - st.current).toNat - 1, by omega⟩
      rw [hk, gk]

theorem run_entry_marker (st : ParseState) (l : List Byte) (rest : List (List Byte))
    (i : Nat) (hi : i < 41) (hinv : st.inv) (hm : read_line l = .marker) :
    run_entry ⟨st.current + 1, st.ptable⟩ rest i = run_entry st (l :: rest) i := by
  obtain ⟨g0, gk⟩ := group_cons_marker l rest hm
  obtain ⟨hlen, hlo, hhi, hz⟩ := hinv
  unfold run_entry
  simp only
  by_cases h1 : (i : Int) < st.current
  · rw [if_pos h1, if_pos (by omega)]
  · rw [if_neg h1]
    by_cases h2 : (i : Int) = st.current
    · rw [if_pos h2, if_pos (by omega), g0]; rfl
    · rw [if_neg h2, if_neg (by omega)]
      by_cases h3 : (i : Int) = st.current + 1
      · rw [if_pos h3]
        have hk : (i - st.current).toNat = 0 + 1 := by omega
        rw [hk, gk, List.getD_eq_getElem?_getD, hz i (by omega) hi]
        rfl
      · rw [if_neg h3]
        obtain ⟨k, hk⟩ : ∃ k, (i - (st.current + 1)).toNat = k := ⟨_, rfl⟩
        have hk' : (i - st.current).toNat = k + 1 := by omega
        rw [hk, hk', gk]

theorem run_entry_assign (st st1 : ParseState) (l key value : List Byte)
    (rest : List (List Byte)) (i : Nat) (hi : i < 41) (hinv : st.inv)
    (hr : read_line l = .key_value key value) (hc : st1.current = st.current)
    (h0 : 0 ≤ st.current)
    (hp : st1.ptable.part = st.ptable.part.set st.current.toNat
      (assign (st.ptable.part.getD st.current.toNat zero_line) key value)) :
    run_entry st1 rest i = run_entry st (l :: rest) i := by
  obtain ⟨g0, gk⟩ := group_cons_other l rest (by rw [hr]; exact fun h => LineKind.noConfusion h)
  obtain ⟨hlen, hlo, hhi, hz⟩ := hinv
  unfold run_entry
  rw [hc]
  by_cases h1 : (i : Int) < st.current
  · rw [if_pos h1, if_pos h1, hp]
    simp only [List.getD_eq_getElem?_getD]
    rw [List.getElem?_set_ne (by omega)]
  · rw [if_neg h1, if_neg h1]
    by_cases h2 : (i : Int) = st.current
    · rw [if_pos h2, if_pos h2, g0, List.foldl_cons, fill_of_kv _ _ _ _ hr, hp]
      have hi' : st.current.toNat = i := by omega
      rw [hi', List.getD_eq_getElem?_getD (st.ptable.part.set i _),
        List.getElem?_set_self (by omega)]
      rfl
    · rw [if_neg h2, if_neg h2]
      obtain ⟨k, hk⟩ : ∃ k, (i - st.current).toNat = k + 1 := ⟨(i - st.current).toNat - 1, by omega⟩
      rw [hk, gk]

/-- The loop of `parse_text`, when it ends without an error: `current` has
advanced by the number of markers, and entry `i` is `run_entry st ls i`. -/
theorem parse_lines_run : ∀ (ls : List (List Byte)) (st st' : ParseState), st.inv →
    parse_lines ls st = Except.ok st' →
    st'.inv ∧ st'.current = st.current + opened ls ∧
    ∀ i, i < 41 → st'.ptable.part[i]? = some (run_entry st ls i) := by
  intro ls
  induction ls with
  | nil =>
    intro st st' hinv h
    cases h
    exact ⟨hinv, by simp [opened], fun i hi => run_entry_nil st hinv i hi⟩
  | cons l rest ih =>
    intro st st' hinv h
    unfold parse_lines at h
    cases hp : parse_line st l with
    | error e => rw [hp] at h; cases h
    | ok st1 =>
      rw [hp] at h
      simp only at h
      rw [opened_cons]
      cases hr : read_line l with
      | ignored =>
        rw [parse_line_ignored st l hr] at hp
        cases hp
        obtain ⟨a, b, c⟩ := ih st st' hinv h
        refine ⟨a, by rw [b]; simp, fun i hi => ?_⟩
        rw [c i hi, run_entry_same st l rest i (by rw [hr]; exact fun h => LineKind.noConfusion h)
          (fun x => fill_of_ignored x l hr)]
      | invalid =>
        rw [parse_line_invalid st l hr] at hp; cases hp
      | marker =>
        rw [parse_line_marker st l hinv hr] at hp
        by_cases h40 : st.current ≥ 40
        · rw [if_pos h40] at hp; cases hp
        · rw [if_neg h40] at hp
          cases hp
          have hinv1 : ParseState.inv ⟨st.current + 1, st.ptable⟩ := by
            obtain ⟨hlen, hlo, hhi, hz⟩ := hinv
            exact ⟨hlen, by simp only; omega, by simp only; omega,
              fun i h1 h2 => hz i (by simp only at h1; omega) h2⟩
          obtain ⟨a, b, c⟩ := ih _ st' hinv1 h
          refine ⟨a, by rw [b]; simp; omega, fun i hi => ?_⟩
          rw [c i hi, run_entry_marker st l rest i hi hinv hr]
      | key_value key value =>
        rw [parse_line_kv st l key value hr] at hp
        obtain ⟨hc, -, -, -, -, hcase⟩ := parse_key_value_ok st st1 key value hp
        have hnm : read_line l ≠ .marker := by rw [hr]; exact fun h => LineKind.noConfusion h
        rcases hcase with ⟨hk, -, hpart⟩ | ⟨-, -, h0, -, -, hpart⟩
        · have hinv1 : st1.inv := by
            obtain ⟨hlen, hlo, hhi, hz⟩ := hinv
            exact ⟨by rw [hpart]; exact hlen, by rw [hc]; exact hlo, by rw [hc]; exact hhi,
              fun i h1 h2 => by rw [hpart]; exact hz i (by rw [hc] at h1; exact h1) h2⟩
          obtain ⟨a, b, c⟩ := ih st1 st' hinv1 h
          refine ⟨a, by rw [b, hc]; simp, fun i hi => ?_⟩
          rw [c i hi, ← run_entry_same st l rest i hnm
            (fun x => by rw [fill_of_kv x l key value hr, assign_header x key value hk])]
          unfold run_entry
          rw [hc, hpart]
        · have hinv1 : st1.inv := by
            obtain ⟨hlen, hlo, hhi, hz⟩ := hinv
            refine ⟨by rw [hpart, List.length_set]; exact hlen, by rw [hc]; exact hlo,
              by rw [hc]; exact hhi, fun i h1 h2 => ?_⟩
            rw [hc] at h1
            rw [hpart, List.getElem?_set_ne (by omega)]
            exact hz i h1 h2
          obtain ⟨a, b, c⟩ := ih st1 st' hinv1 h
          refine ⟨a, by rw [b, hc]; simp, fun i hi => ?_⟩
          rw [c i hi, run_entry_assign st st1 l key value rest i hi hinv hr hc h0 hpart]

theorem keys_of_cons (l : List Byte) (rest : List (List Byte)) :
    keys_of (l :: rest) =
      match line_key l with
      | none => keys_of rest
      | some k => k :: keys_of rest := by
  unfold keys_of
  rw [List.filterMap_cons]
  cases line_key l <;> rfl

theorem line_key_of_kv (l key value : List Byte) (h : read_line l = .key_value key value) :
    line_key l = some key := by
  unfold line_key; rw [h]

/-- The header of the table after the loop: the head is never written, and a
field whose key the lines do not have is as before. -/
theorem parse_lines_header : ∀ (ls : List (List Byte)) (st st' : ParseState), st.inv →
    parse_lines ls st = Except.ok st' →
    st'.ptable.head = st.ptable.head ∧
    (str "version" ∉ keys_of ls → st'.ptable.version = st.ptable.version) ∧
    (str "product" ∉ keys_of ls → st'.ptable.product = st.ptable.product) ∧
    (str "tail" ∉ keys_of ls → st'.ptable.tail = st.ptable.tail) := by
  intro ls
  induction ls with
  | nil =>
    intro st st' _ h
    cases h
    exact ⟨rfl, fun _ => rfl, fun _ => rfl, fun _ => rfl⟩
  | cons l rest ih =>
    intro st st' hinv h
    have hrun := h
    unfold parse_lines at h
    cases hp : parse_line st l with
    | error e => rw [hp] at h; cases h
    | ok st1 =>
      rw [hp] at h
      simp only at h
      have hinv1 : st1.inv := (parse_lines_run [l] st st1 hinv (by
        unfold parse_lines; rw [hp]; rfl)).1
      obtain ⟨a, b, c, d⟩ := ih st1 st' hinv1 h
      cases hr : read_line l with
      | ignored =>
        rw [parse_line_ignored st l hr] at hp
        cases hp
        have hk : keys_of (l :: rest) = keys_of rest := by
          rw [keys_of_cons]; unfold line_key; rw [hr]
        rw [hk]
        exact ⟨a, b, c, d⟩
      | invalid => rw [parse_line_invalid st l hr] at hp; cases hp
      | marker =>
        rw [parse_line_marker st l hinv hr] at hp
        by_cases h40 : st.current ≥ 40
        · rw [if_pos h40] at hp; cases hp
        · rw [if_neg h40] at hp
          cases hp
          have hk : keys_of (l :: rest) = keys_of rest := by
            rw [keys_of_cons]; unfold line_key; rw [hr]
          rw [hk]
          exact ⟨a, b, c, d⟩
      | key_value key value =>
        rw [parse_line_kv st l key value hr] at hp
        obtain ⟨-, e1, e2, e3, e4, -⟩ := parse_key_value_ok st st1 key value hp
        have hk : keys_of (l :: rest) = key :: keys_of rest := by
          rw [keys_of_cons, line_key_of_kv l key value hr]
        rw [hk]
        refine ⟨a.trans e1, fun hn => ?_, fun hn => ?_, fun hn => ?_⟩
        · rw [List.mem_cons, not_or] at hn
          rw [b hn.2, e2 (fun h => hn.1 h.symm)]
        · rw [List.mem_cons, not_or] at hn
          rw [c hn.2, e3 (fun h => hn.1 h.symm)]
        · rw [List.mem_cons, not_or] at hn
          rw [d hn.2, e4 (fun h => hn.1 h.symm)]

theorem clear_ptable_inv (headmagic : List Byte) :
    ParseState.inv ⟨-1, clear_ptable headmagic⟩ :=
  ⟨List.length_replicate _ _, by simp only; omega, by simp only; omega,
    fun _ _ hi => List.getElem?_replicate_of_lt hi⟩

theorem terminate_table_of_inv (st : ParseState) (hinv : st.inv) :
    terminate_table st = st.ptable := by
  obtain ⟨hlen, hlo, hhi, hz⟩ := hinv
  unfold terminate_table
  by_cases h : 0 ≤ st.current ∧ st.current < 40
  · rw [if_pos h]
    have hz' := hz (st.current + 1).toNat (by omega) (by omega)
    have hset : st.ptable.part.set (st.current + 1).toNat
        (let l := st.ptable.part.getD (st.current + 1).toNat zero_line
         { l with name := l.name.set 0 0 }) = st.ptable.part := by
      apply List.ext_getElem?
      intro i
      rw [List.getElem?_set]
      by_cases hi : (st.current + 1).toNat = i
      · rw [if_pos hi, if_pos (by omega), List.getD_eq_getElem?_getD, hz', ← hi, hz']
        rfl
      · rw [if_neg hi]
    rw [hset]
  · rw [if_neg h]

theorem run_entry_init (headmagic : List Byte) (ls : List (List Byte)) (i : Nat) :
    run_entry ⟨-1, clear_ptable headmagic⟩ ls i = entry_of (group ls (i + 1)) := by
  unfold run_entry
  simp only
  rw [if_neg (by omega), if_neg (by omega)]
  have : ((i : Int) - -1).toNat = i + 1 := by omega
  rw [this]

/-- The table `parse_text` returns for any text, in terms of the pieces `fgets`
delivers: the lines of the text, with a line of more than 255 bytes cut into
pieces of 255 bytes. -/
theorem parse_text_pieces (headmagic input : List Byte) (t : ptable_t)
    (h : parse_text headmagic input = Except.ok t) :
    t.head = headmagic ∧
    (str "version" ∉ keys_of (fgets_chunks MAX_LINE input) →
      t.version = List.replicate 16 0) ∧
    (str "product" ∉ keys_of (fgets_chunks MAX_LINE input) →
      t.product = List.replicate 16 0) ∧
    (str "tail" ∉ keys_of (fgets_chunks MAX_LINE input) → t.tail = List.replicate 32 0) ∧
    t.part.length = 41 ∧ (opened (fgets_chunks MAX_LINE input) ≤ 41) ∧
    ∀ i, i < 41 →
      t.part[i]? = some (entry_of (group (fgets_chunks MAX_LINE input) (i + 1))) := by
  unfold parse_text at h
  cases hp : parse_lines (fgets_chunks MAX_LINE input) ⟨-1, clear_ptable headmagic⟩ with
  | error e => rw [hp] at h; cases h
  | ok st =>
    rw [hp] at h
    simp only at h
    obtain ⟨hinv, hcur, hent⟩ := parse_lines_run _ _ _ (clear_ptable_inv headmagic) hp
    obtain ⟨h1, h2, h3, h4⟩ := parse_lines_header _ _ _ (clear_ptable_inv headmagic) hp
    rw [terminate_table_of_inv st hinv] at h
    cases h
    refine ⟨h1, h2, h3, h4, hinv.1, ?_, fun i hi => ?_⟩
    · have := hinv.2.2.1
      simp only at hcur
      omega
    · rw [hent i hi, run_entry_init]

/-- The table `parse_text` returns for a text whose lines fit the buffer. -/
theorem parse_text_ok (headmagic input : List Byte) (t : ptable_t) (hfit : lines_fit input)
    (h : parse_text headmagic input = Except.ok t) :
    t.head = headmagic ∧
    (str "version" ∉ keys_of (text_lines input) → t.version = List.replicate 16 0) ∧
    (str "product" ∉ keys_of (text_lines input) → t.product = List.replicate 16 0) ∧
    (str "tail" ∉ keys_of (text_lines input) → t.tail = List.replicate 32 0) ∧
    t.part.length = 41 ∧ (opened (text_lines input) ≤ 41) ∧
    ∀ i, i < 41 → t.part[i]? = some (entry_of (entry_lines input i)) := by
  have hp := parse_text_pieces headmagic input t h
  rw [fgets_chunks_eq_text_lines input hfit] at hp
  exact hp

/-! ## Defaults of `parse_text` (C13) -/

theorem assign_cases (x : ptable_line) (key value : List Byte) :
    (key = str "name" ∧ assign x key value = { x with name := copy16 value }) ∨
    (key = str "start" ∧ assign x key value = { x with start := strtoul value % 2 ^ 32 }) ∨
    (key = str "length" ∧ assign x key value = { x with length := strtoul value % 2 ^ 32 }) ∨
    (key = str "lsize" ∧ assign x key value = { x with lsize := strtoul value % 2 ^ 32 }) ∨
    (key = str "loadaddr" ∧
      assign x key value = { x with loadaddr := strtoul value % 2 ^ 32 }) ∨
    (key = str "entry" ∧ assign x key value = { x with entry := strtoul value % 2 ^ 32 }) ∨
    (key = str "nproperty" ∧
      assign x key value = { x with nproperty := strtoul value % 2 ^ 32 }) ∨
    (key = str "type" ∧ assign x key value = { x with type := strtoul value % 2 ^ 32 }) ∨
    (key = str "count" ∧ assign x key value = { x with count := strtoul value % 2 ^ 32 }) ∨
    (key ∉ entry_keys ∧ assign x key value = x) := by
  by_cases k0 : key = str "name"
  · subst k0; exact Or.inl ⟨rfl, rfl⟩
  by_cases k1 : key = str "start"
  · subst k1; exact Or.inr (Or.inl ⟨rfl, rfl⟩)
  by_cases k2 : key = str "length"
  · subst k2; exact Or.inr (Or.inr (Or.inl ⟨rfl, rfl⟩))
  by_cases k3 : key = str "lsize"
  · subst k3; exact Or.inr (Or.inr (Or.inr (Or.inl ⟨rfl, rfl⟩)))
  by_cases k4 : key = str "loadaddr"
  · subst k4; exact Or.inr (Or.inr (Or.inr (Or.inr (Or.inl ⟨rfl, rfl⟩))))
  by_cases k5 : key = str "entry"
  · subst k5; exact Or.inr (Or.inr (Or.inr (Or.inr (Or.inr (Or.inl ⟨rfl, rfl⟩)))))
  by_cases k6 : key = str "nproperty"
  · subst k6; exact Or.inr (Or.inr (Or.inr (Or.inr (Or.inr (Or.inr (Or.inl ⟨rfl, rfl⟩))))))
  by_cases k7 : key = str "type"
  · subst k7
    exact Or.inr (Or.inr (Or.inr (Or.inr (Or.inr (Or.inr (Or.inr (Or.inl ⟨rfl, rfl⟩)))))))
  by_cases k8 : key = str "count"
  · subst k8
    exact Or.inr (Or.inr (Or.inr (Or.inr (Or.inr (Or.inr (Or.inr (Or.inr
      (Or.inl ⟨rfl, rfl⟩))))))))
  refine Or.inr (Or.inr (Or.inr (Or.inr (Or.inr (Or.inr (Or.inr (Or.inr (Or.inr ⟨?_, ?_⟩))))))))
  · rw [entry_keys_mem]; simp [k0, k1, k2, k3, k4, k5, k6, k7, k8]
  · unfold assign
    rw [if_neg k0, if_neg k1, if_neg k2, if_neg k3, if_neg k4, if_neg k5, if_neg k6, if_neg k7,
      if_neg k8]

theorem assign_get (f : NumField) (x : ptable_line) (key value : List Byte)
    (h : key ≠ f.key) : f.get (assign x key value) = f.get x := by
  rcases assign_cases x key value with ⟨hk, e⟩ | ⟨hk, e⟩ | ⟨hk, e⟩ | ⟨hk, e⟩ | ⟨hk, e⟩ |
    ⟨hk, e⟩ | ⟨hk, e⟩ | ⟨hk, e⟩ | ⟨hk, e⟩ | ⟨hk, e⟩ <;> rw [e] <;> cases f <;>
    first | rfl | exact absurd hk h

theorem assign_name (x : ptable_line) (key value : List Byte) (h : key ≠ str "name") :
    (assign x key value).name = x.name := by
  rcases assign_cases x key value with ⟨hk, e⟩ | ⟨hk, e⟩ | ⟨hk, e⟩ | ⟨hk, e⟩ | ⟨hk, e⟩ |
    ⟨hk, e⟩ | ⟨hk, e⟩ | ⟨hk, e⟩ | ⟨hk, e⟩ | ⟨hk, e⟩ <;>
    first | exact absurd hk h | rw [e]

theorem foldl_fill_get (f : NumField) : ∀ (ls : List (List Byte)) (x : ptable_line),
    f.key ∉ keys_of ls → f.get (ls.foldl fill x) = f.get x := by
  intro ls
  induction ls with
  | nil => intro x _; rfl
  | cons l rest ih =>
    intro x h
    rw [keys_of_cons] at h
    rw [List.foldl_cons]
    cases hr : read_line l with
    | key_value key value =>
      rw [line_key_of_kv l key value hr] at h
      simp only [List.mem_cons, not_or] at h
      rw [ih _ h.2, fill_of_kv x l key value hr, assign_get f x key value (fun e => h.1 e.symm)]
    | ignored =>
      have hk : line_key l = none := by unfold line_key; rw [hr]
      rw [hk] at h
      rw [ih _ h]; unfold fill; rw [hr]
    | marker =>
      have hk : line_key l = none := by unfold line_key; rw [hr]
      rw [hk] at h
      rw [ih _ h]; unfold fill; rw [hr]
    | invalid =>
      have hk : line_key l = none := by unfold line_key; rw [hr]
      rw [hk] at h
      rw [ih _ h]; unfold fill; rw [hr]

theorem foldl_fill_name : ∀ (ls : List (List Byte)) (x : ptable_line),
    str "name" ∉ keys_of ls → (ls.foldl fill x).name = x.name := by
  intro ls
  induction ls with
  | nil => intro x _; rfl
  | cons l rest ih =>
    intro x h
    rw [keys_of_cons] at h
    rw [List.foldl_cons]
    cases hr : read_line l with
    | key_value key value =>
      rw [line_key_of_kv l key value hr] at h
      simp only [List.mem_cons, not_or] at h
      rw [ih _ h.2, fill_of_kv x l key value hr, assign_name x key value (fun e => h.1 e.symm)]
    | ignored =>
      have hk : line_key l = none := by unfold line_key; rw [hr]
      rw [hk] at h
      rw [ih _ h]; unfold fill; rw [hr]
    | marker =>
      have hk : line_key l = none := by unfold line_key; rw [hr]
      rw [hk] at h
      rw [ih _ h]; unfold fill; rw [hr]
    | invalid =>
      have hk : line_key l = none := by unfold line_key; rw [hr]
      rw [hk] at h
      rw [ih _ h]; unfold fill; rw [hr]

/-- The scenario of the specification, for any head magic: the text
`modem_text` gives entry 0 with name `modem`, start `0x100` and length
`0x200`, and everything else zero. -/
theorem parse_text_modem_text (headmagic : List Byte) :
    parse_text headmagic modem_text = Except.ok (modem_table headmagic) := by
  rfl

theorem parse_key_value_valid (st : ParseState) (l key value : List Byte)
    (hr : read_line l = .key_value key value)
    (hv : valid_line (decide (0 ≤ st.current)) l = true) :
    ∃ st1, parse_key_value st key value = Except.ok st1 := by
  unfold valid_line at hv
  rw [hr] at hv
  simp only [Bool.or_eq_true, Bool.and_eq_true, decide_eq_true_eq] at hv
  rw [parse_key_value_eq]
  by_cases h1 : key = str "version"
  · rw [if_pos h1]; exact ⟨_, rfl⟩
  rw [if_neg h1]
  by_cases h2 : key = str "product"
  · rw [if_pos h2]; exact ⟨_, rfl⟩
  rw [if_neg h2]
  by_cases h3 : key = str "tail"
  · rw [if_pos h3]
    rcases hv with (((hv | hv) | hv) | hv) | hv
    · exact absurd hv h1
    · exact absurd hv h2
    · obtain ⟨tl, htl⟩ := Option.isSome_iff_exists.mp hv.2
      rw [htl]; exact ⟨_, rfl⟩
    · subst h3; exact absurd hv.1.2 (by decide)
    · subst h3; exact absurd hv.2 (by decide)
  rw [if_neg h3]
  rcases hv with (((hv | hv) | hv) | hv) | hv
  · exact absurd hv h1
  · exact absurd hv h2
  · exact absurd hv.1 h3
  · rw [if_neg (by omega), if_neg (fun h => by omega), if_pos (by rw [hv.1.2]; decide)]
    exact ⟨_, rfl⟩
  · rw [if_neg (by omega)]
    have hk : key ∈ entry_keys := List.mem_cons_of_mem _ hv.2
    have hn : key ≠ str "name" := by
      intro h; subst h; exact absurd hv.2 (by decide)
    rw [if_neg (fun h => hn h.1), if_pos hk]
    exact ⟨_, rfl⟩

/-- The loop of `parse_text` over valid lines: it ends without an error when
the markers do not take `current` past 40, and with the error of too many
partitions when they do. -/
theorem parse_lines_valid : ∀ (ls : List (List Byte)) (st : ParseState), st.inv →
    valid_lines (decide (0 ≤ st.current)) ls = true →
    (st.current + opened ls ≤ 40 → ∃ st', parse_lines ls st = Except.ok st') ∧
    (40 < st.current + opened ls →
      parse_lines ls st = Except.error ParseError.too_many_partitions) := by
  intro ls
  induction ls with
  | nil =>
    intro st hinv _
    refine ⟨fun _ => ⟨st, rfl⟩, fun h => ?_⟩
    have := hinv.2.2.1
    simp [opened] at h
    omega
  | cons l rest ih =>
    intro st hinv hv
    unfold valid_lines at hv
    rw [Bool.and_eq_true] at hv
    obtain ⟨hv1, hv2⟩ := hv
    rw [opened_cons]
    unfold parse_lines
    cases hr : read_line l with
    | ignored =>
      rw [parse_line_ignored st l hr]
      rw [hr] at hv2
      simp only [reduceCtorEq, decide_False, Bool.or_false] at hv2
      simpa using ih st hinv hv2
    | invalid =>
      unfold valid_line at hv1
      rw [hr] at hv1
      cases hv1
    | marker =>
      rw [parse_line_marker st l hinv hr]
      by_cases h40 : st.current ≥ 40
      · rw [if_pos h40]
        refine ⟨fun h => ?_, fun _ => rfl⟩
        simp at h
        omega
      · rw [if_neg h40]
        have hinv1 : ParseState.inv ⟨st.current + 1, st.ptable⟩ := by
          obtain ⟨hlen, hlo, hhi, hz⟩ := hinv
          exact ⟨hlen, by simp only; omega, by simp only; omega,
            fun i h1 h2 => hz i (by simp only at h1; omega) h2⟩
        rw [hr] at hv2
        simp only [decide_True, Bool.or_true] at hv2
        have hb : decide (0 ≤ (⟨st.current + 1, st.ptable⟩ : ParseState).current) = true := by
          have := hinv.2.1
          simp only [decide_eq_true_eq]; omega
        obtain ⟨a, b⟩ := ih ⟨st.current + 1, st.ptable⟩ hinv1 (by rw [hb]; exact hv2)
        simp only at a b
        simp only [if_true]
        exact ⟨fun h => a (by omega), fun h => b (by omega)⟩
    | key_value key value =>
      rw [parse_line_kv st l key value hr]
      obtain ⟨st1, hst1⟩ := parse_key_value_valid st l key value hr hv1
      rw [hst1]
      simp only
      have hc := (parse_key_value_ok st st1 key value hst1).1
      have hinv1 : st1.inv := (parse_lines_run [l] st st1 hinv (by
        unfold parse_lines; rw [parse_line_kv st l key value hr, hst1]; rfl)).1
      rw [hr] at hv2
      simp only [reduceCtorEq, decide_False, Bool.or_false] at hv2
      rw [← hc] at hv2
      obtain ⟨a, b⟩ := ih st1 hinv1 hv2
      rw [hc] at a b
      simpa using And.intro a b

theorem group_beyond : ∀ (ls : List (List Byte)) (k : Nat), opened ls < k → group ls k = [] := by
  intro ls
  induction ls with
  | nil => intro k _; cases k <;> rfl
  | cons l rest ih =>
    intro k hk
    rw [opened_cons] at hk
    cases k with
    | zero => omega
    | succ k =>
      by_cases hm : read_line l = .marker
      · rw [(group_cons_marker l rest hm).2]
        rw [if_pos hm] at hk
        exact ih k (by omega)
      · rw [(group_cons_other l rest hm).2]
        rw [if_neg hm] at hk
        exact ih (k + 1) (by omega)

/-- For every text, after any number of turns of the loop of `parse_text`,
`current` is between -1 and 40 and the table has its 41 entries. -/
theorem parse_lines_current_bounds (headmagic input : List Byte) (n : Nat) (st : ParseState)
    (h : parse_lines ((fgets_chunks MAX_LINE input).take n) ⟨-1, clear_ptable headmagic⟩ =
      Except.ok st) :
    -1 ≤ st.current ∧ st.current ≤ 40 ∧ st.ptable.part.length = 41 :=
  have hinv := (parse_lines_run _ _ st (clear_ptable_inv headmagic) h).1
  ⟨hinv.2.1, hinv.2.2.1, hinv.1⟩

theorem parse_key_value_writes_eq (st : ParseState) (key value : List Byte) :
    parse_key_value_writes st key value =
      if key = str "version" ∨ key = str "product" ∨ key = str "tail" then []
      else if st.current < 0 then []
      else if key = str "name" ∧ value.length ≥ 16 then []
      else if key ∈ entry_keys then [st.current]
      else [] := by
  unfold parse_key_value_writes
  by_cases h1 : key = str "version"
  · rw [if_pos h1, if_pos (Or.inl h1)]
  by_cases h2 : key = str "product"
  · rw [if_neg h1, if_pos h2, if_pos (Or.inr (Or.inl h2))]
  by_cases h3 : key = str "tail"
  · rw [if_neg h1, if_neg h2, if_pos h3, if_pos (Or.inr (Or.inr h3))]
  have h123 : ¬ (key = str "version" ∨ key = str "product" ∨ key = str "tail") := by
    rintro (h | h | h)
    · exact h1 h
    · exact h2 h
    · exact h3 h
  rw [if_neg h1, if_neg h2, if_neg h3, if_neg h123]
  by_cases h4 : st.current < 0
  · rw [if_pos h4, if_pos h4]
  rw [if_neg h4, if_neg h4]
  by_cases h5 : key = str "name"
  · subst h5
    rw [if_pos rfl]
    by_cases h6 : value.length ≥ 16
    · rw [if_pos h6, if_pos ⟨rfl, h6⟩]
    · rw [if_neg h6, if_neg (fun h => h6 h.2), if_pos (by decide)]
  rw [if_neg h5, if_neg (show ¬ (key = str "name" ∧ value.length ≥ 16) from fun h => h5 h.1)]
  by_cases k1 : key = str "start"
  · subst k1; rw [if_pos rfl, if_pos (by decide)]
  rw [if_neg k1]
  by_cases k2 : key = str "length"
  · subst k2; rw [if_pos rfl, if_pos (by decide)]
  rw [if_neg k2]
  by_cases k3 : key = str "lsize"
  · subst k3; rw [if_pos rfl, if_pos (by decide)]
  rw [if_neg k3]
  by_cases k4 : key = str "loadaddr"
  · subst k4; rw [if_pos rfl, if_pos (by decide)]
  rw [if_neg k4]
  by_cases k5 : key = str "entry"
  · subst k5; rw [if_pos rfl, if_pos (by decide)]
  rw [if_neg k5]
  by_cases k6 : key = str "nproperty"
  · subst k6; rw [if_pos rfl, if_pos (by decide)]
  rw [if_neg k6]
  by_cases k7 : key = str "type"
  · subst k7; rw [if_pos rfl, if_pos (by decide)]
  rw [if_neg k7]
  by_cases k8 : key = str "count"
  · subst k8; rw [if_pos rfl, if_pos (by decide)]
  rw [if_neg k8, if_neg]
  rw [entry_keys_mem]
  simp [h5, k1, k2, k3, k4, k5, k6, k7, k8]

theorem parse_line_writes_read (st : ParseState) (linebuf : List Byte) :
    parse_line_writes st linebuf =
      match read_line linebuf with
      | .ignored => []
      | .marker => if st.current ≥ 40 then [] else [st.current + 1]
      | .key_value key value => parse_key_value_writes st key value
      | .invalid => [] := by
  unfold parse_line_writes read_line
  simp only
  by_cases h1 : (strip (cstr linebuf)).head? = none ∨
      (strip (cstr linebuf)).head? = some (ch '#')
  · rw [if_pos h1, if_pos h1]
  · rw [if_neg h1, if_neg h1]
    by_cases h2 : strip (cstr linebuf) = str "[partition]"
    · rw [if_pos h2, if_pos h2]
    · rw [if_neg h2, if_neg h2]
      cases List.dropWhile (fun c => decide (c ≠ ch '=')) (strip (cstr linebuf)) <;> rfl

/-- The entries one turn of the loop writes lie within `0..40`, when `current`
is between -1 and 40. -/
theorem parse_line_writes_bounds (st : ParseState) (linebuf : List Byte)
    (h1 : -1 ≤ st.current) (h2 : st.current ≤ 40) :
    ∀ i ∈ parse_line_writes st linebuf, 0 ≤ i ∧ i ≤ 40 := by
  intro i hi
  rw [parse_line_writes_read] at hi
  cases hr : read_line linebuf with
  | ignored => rw [hr] at hi; cases hi
  | invalid => rw [hr] at hi; cases hi
  | marker =>
    rw [hr] at hi
    simp only at hi
    by_cases h40 : st.current ≥ 40
    · rw [if_pos h40] at hi; cases hi
    · rw [if_neg h40, List.mem_singleton] at hi
      omega
  | key_value key value =>
    rw [hr] at hi
    simp only at hi
    rw [parse_key_value_writes_eq] at hi
    split at hi
    · cases hi
    · split at hi
      · cases hi
      · split at hi
        · cases hi
        · split at hi
          · rw [List.mem_singleton] at hi
            omega
          · cases hi

theorem terminate_writes_bounds (st : ParseState) :
    ∀ i ∈ terminate_writes st, 0 ≤ i ∧ i ≤ 40 := by
  intro i hi
  unfold terminate_writes at hi
  split at hi
  · rw [List.mem_singleton] at hi
    omega
  · cases hi

/-- For every text, every entry `parse_text` writes has an index within
`0..40`. -/
theorem parse_lines_writes_bounds : ∀ (ls : List (List Byte)) (st : ParseState), st.inv →
    ∀ i ∈ parse_lines_writes ls st, 0 ≤ i ∧ i ≤ 40 := by
  intro ls
  induction ls with
  | nil =>
    intro st _ i hi
    exact terminate_writes_bounds st i hi
  | cons l rest ih =>
    intro st hinv i hi
    unfold parse_lines_writes at hi
    rcases List.mem_append.mp hi with hi | hi
    · exact parse_line_writes_bounds st l hinv.2.1 hinv.2.2.1 i hi
    · cases hp : parse_line st l with
      | error e => rw [hp] at hi; cases hi
      | ok st1 =>
        rw [hp] at hi
        simp only at hi
        have h1 : parse_lines [l] st = Except.ok st1 := by
          rw [parse_lines_cons_ok [] hp]
          rfl
        exact ih st1 (parse_lines_run [l] st st1 hinv h1).1 i hi

/-- One turn of the loop leaves the entries it does not write as they are. -/
theorem parse_line_frame (st st1 : ParseState) (linebuf : List Byte) (hc : -1 ≤ st.current)
    (h : parse_line st linebuf = Except.ok st1) :
    ∀ j : Nat, (j : Int) ∉ parse_line_writes st linebuf →
      st1.ptable.part[j]? = st.ptable.part[j]? := by
  intro j hj
  rw [parse_line_read] at h
  rw [parse_line_writes_read] at hj
  cases hr : read_line linebuf with
  | ignored => rw [hr] at h; cases h; rfl
  | invalid => rw [hr] at h; cases h
  | marker =>
    rw [hr] at h hj
    simp only at h hj
    by_cases h40 : st.current ≥ 40
    · rw [if_pos h40] at h; cases h
    · rw [if_neg h40] at h hj
      cases h
      simp only
      rw [List.mem_singleton] at hj
      rw [List.getElem?_set_ne (by omega)]
  | key_value key value =>
    rw [hr] at h hj
    simp only at h hj
    rw [parse_key_value_eq] at h
    rw [parse_key_value_writes_eq] at hj
    by_cases k1 : key = str "version"
    · rw [if_pos k1] at h; cases h; rfl
    rw [if_neg k1] at h
    by_cases k2 : key = str "product"
    · rw [if_pos k2] at h; cases h; rfl
    rw [if_neg k2] at h
    by_cases k3 : key = str "tail"
    · rw [if_pos k3] at h
      cases ht : parse_tail value with
      | none => rw [ht] at h; cases h
      | some tl => rw [ht] at h; cases h; rfl
    rw [if_neg k3] at h
    rw [if_neg (by
      rintro (e | e | e)
      · exact k1 e
      · exact k2 e
      · exact k3 e)] at hj
    by_cases k4 : st.current < 0
    · rw [if_pos k4] at h; cases h
    rw [if_neg k4] at h hj
    by_cases k5 : key = str "name" ∧ value.length ≥ 16
    · rw [if_pos k5] at h; cases h
    rw [if_neg k5] at h hj
    by_cases k6 : key ∈ entry_keys
    · rw [if_pos k6] at h hj
      cases h
      rw [List.mem_singleton] at hj
      unfold update_line
      simp only
      rw [List.getElem?_set_ne (by omega)]
    · rw [if_neg k6] at h; cases h

/-- The statement after the loop leaves the entries it does not write as they
are, whatever the state. -/
theorem terminate_table_frame (st : ParseState) :
    ∀ j : Nat, (j : Int) ∉ terminate_writes st →
      (terminate_table st).part[j]? = st.ptable.part[j]? := by
  intro j hj
  unfold terminate_table
  unfold terminate_writes at hj
  by_cases h : 0 ≤ st.current ∧ st.current < 40
  · rw [if_pos h] at hj ⊢
    rw [List.mem_singleton] at hj
    simp only
    rw [List.getElem?_set_ne (by omega)]
  · rw [if_neg h]

theorem parse_line_current (st st1 : ParseState) (linebuf : List Byte)
    (h : parse_line st linebuf = Except.ok st1) : st.current ≤ st1.current := by
  rw [parse_line_read] at h
  cases hr : read_line linebuf with
  | ignored => rw [hr] at h; cases h; exact le_refl _
  | invalid => rw [hr] at h; cases h
  | marker =>
    rw [hr] at h
    simp only at h
    by_cases h40 : st.current ≥ 40
    · rw [if_pos h40] at h; cases h
    · rw [if_neg h40] at h
      cases h
      simp only
      omega
  | key_value key value =>
    rw [hr] at h
    simp only at h
    rw [(parse_key_value_ok st st1 key value h).1]

/-- The loop and the statement after it leave the entries they do not write
as they are, from every state with `current ≥ -1` and for every length of
the array. -/
theorem parse_lines_frame : ∀ (ls : List (List Byte)) (st st' : ParseState),
    -1 ≤ st.current → parse_lines ls st = Except.ok st' →
    ∀ j : Nat, (j : Int) ∉ parse_lines_writes ls st →
      (terminate_table st').part[j]? = st.ptable.part[j]? := by
  intro ls
  induction ls with
  | nil =>
    intro st st' _ h j hj
    cases h
    exact terminate_table_frame st j hj
  | cons l rest ih =>
    intro st st' hc h j hj
    cases hp : parse_line st l with
    | error e =>
      rw [parse_lines, hp] at h
      cases h
    | ok st1 =>
      rw [parse_lines_cons_ok rest hp] at h
      unfold parse_lines_writes at hj
      rw [hp] at hj
      simp only [List.mem_append, not_or] at hj
      rw [ih st1 st' (le_trans hc (parse_line_current st st1 l hp)) h j hj.2]
      exact parse_line_frame st st1 l hc hp j hj.1

/-- C14, amended: for every text whose lines fit the line buffer and are
otherwise valid, `parse_text` fails, with the error of too many partitions,
when the text has more than 41 markers; when it has `n ≤ 41` markers it
succeeds, entry `i < n` is what the lines of the `i`-th opened entry ask for,
in order of appearance, and the entries from `n` on are all-zero.  For every
text at all: at every turn of the loop `current` is between -1 and 40 and the
table has its 41 entries; every index in the list of the entries that
`parse_text` writes (the `memset` of a marker, the assignment of a
`key=value` line, the statement after the loop) is within `0..40`; an entry
whose index is not in that list is, in the table returned, as `clear_ptable`
left it; and the list is complete for the loop and the statement after it
run from any state with `current ≥ -1` on an array of any length, so that
no write is hidden by the length of the array. -/
theorem parse_text_entry_limit (headmagic input : List Byte) :
    (lines_fit input → valid_lines false (text_lines input) = true →
      (41 < opened (text_lines input) →
        parse_text headmagic input = Except.error ParseError.too_many_partitions) ∧
      (opened (text_lines input) ≤ 41 →
        ∃ t, parse_text headmagic input = Except.ok t ∧ t.part.length = 41 ∧
          ∀ i, i < 41 → t.part[i]? = some
            (if i < opened (text_lines input) then entry_of (entry_lines input i)
             else zero_line))) ∧
    (∀ (n : Nat) (st : ParseState),
      parse_lines ((fgets_chunks MAX_LINE input).take n) ⟨-1, clear_ptable headmagic⟩ =
        Except.ok st →
      -1 ≤ st.current ∧ st.current ≤ 40 ∧ st.ptable.part.length = 41) ∧
    (∀ i ∈ parse_text_writes headmagic input, 0 ≤ i ∧ i ≤ 40) ∧
    (∀ t, parse_text headmagic input = Except.ok t →
      ∀ j : Nat, (j : Int) ∉ parse_text_writes headmagic input →
        t.part[j]? = (clear_ptable headmagic).part[j]?) ∧
    (∀ (ls : List (List Byte)) (st st' : ParseState), -1 ≤ st.current →
      parse_lines ls st = Except.ok st' →
      ∀ j : Nat, (j : Int) ∉ parse_lines_writes ls st →
        (terminate_table st').part[j]? = st.ptable.part[j]?) := by
  refine ⟨fun hfit hv => ?_, fun n st h => parse_lines_current_bounds headmagic input n st h,
    parse_lines_writes_bounds _ _ (clear_ptable_inv headmagic), fun t ht j hj => ?_,
    parse_lines_frame⟩
  · obtain ⟨a, b⟩ := parse_lines_valid (text_lines input) ⟨-1, clear_ptable headmagic⟩
      (clear_ptable_inv headmagic) hv
    simp only at a b
    refine ⟨fun h => ?_, fun h => ?_⟩
    · rw [parse_text_lines headmagic input hfit, b (by omega)]
    · obtain ⟨st', hst'⟩ := a (by omega)
      have hp : parse_text headmagic input = Except.ok (terminate_table st') := by
        rw [parse_text_lines headmagic input hfit, hst']
      obtain ⟨-, -, -, -, h5, -, h6⟩ := parse_text_ok headmagic input _ hfit hp
      refine ⟨_, hp, h5, fun i hi => ?_⟩
      rw [h6 i hi]
      by_cases hlt : i < opened (text_lines input)
      · rw [if_pos hlt]
      · rw [if_neg hlt]
        unfold entry_lines
        rw [group_beyond _ _ (by omega)]
        rfl
  · unfold parse_text at ht
    cases hp : parse_lines (fgets_chunks MAX_LINE input) ⟨-1, clear_ptable headmagic⟩ with
    | error e => rw [hp] at ht; cases ht
    | ok st' =>
      rw [hp] at ht
      cases ht
      exact parse_lines_frame _ _ st' (le_refl _) hp j hj

/-- C14, counterexample: a text of three lines that are otherwise valid, a
comment of 267 bytes that ends in `[partition]`, a marker and `name=a`.  The
text opens one entry, whose lines ask for the name `a`; `parse_text`, which
reads the comment in two pieces, leaves entry 0 all-zero and puts the name in
entry 1. -/
theorem long_comment_opens_entry :
    valid_lines false (text_lines long_comment_marker) = true ∧
    opened (text_lines long_comment_marker) = 1 ∧
    entry_of (entry_lines long_comment_marker 0) =
      ⟨copy16 (str "a"), 0, 0, 0, 0, 0, 0, 0, 0⟩ ∧
    parse_text example_magic long_comment_marker =
      Except.ok { clear_ptable example_magic with
        part := zero_line :: ⟨copy16 (str "a"), 0, 0, 0, 0, 0, 0, 0, 0⟩ ::
          List.replicate 39 zero_line } := by
  refine ⟨by decide!, by decide!, by decide!, by decide!⟩

/-- C14, witness: a text that opens two entries gives the names `a` and `b` in
entries 0 and 1, and `parse_text` writes the entries 0, 0, 1, 1 and 2 on it;
a text of 42 markers is refused, after the writes of the entries 0 to 40. -/
theorem parse_text_entry_limit_witness :
    (lines_fit two_entries_text ∧ valid_lines false (text_lines two_entries_text) = true ∧
      opened (text_lines two_entries_text) = 2 ∧
      entry_of (entry_lines two_entries_text 0) = ⟨copy16 (str "a"), 0, 0, 0, 0, 0, 0, 0, 0⟩ ∧
      entry_of (entry_lines two_entries_text 1) = ⟨copy16 (str "b"), 0, 0, 0, 0, 0, 0, 0, 0⟩ ∧
      parse_text_writes example_magic two_entries_text = [0, 0, 1, 1, 2] ∧
      ∃ t, parse_text example_magic two_entries_text = Except.ok t ∧ t.part.length = 41 ∧
        ∀ i, i < 41 → t.part[i]? = some
          (if i < opened (text_lines two_entries_text) then
            entry_of (entry_lines two_entries_text i)
           else zero_line)) ∧
    (lines_fit markers_text ∧ valid_lines false (text_lines markers_text) = true ∧
      opened (text_lines markers_text) = 42 ∧
      parse_text_writes example_magic markers_text =
        (List.range 41).map (fun i => (i : Int)) ∧
      (∀ i ∈ parse_text_writes example_magic markers_text, 0 ≤ i ∧ i ≤ 40) ∧
      parse_text example_magic markers_text =
        Except.error ParseError.too_many_partitions) := by
  have f1 : lines_fit two_entries_text := by decide
  have v1 : valid_lines false (text_lines two_entries_text) = true := by decide
  have o1 : opened (text_lines two_entries_text) = 2 := by decide
  have f2 : lines_fit markers_text := by decide!
  have v2 : valid_lines false (text_lines markers_text) = true := by decide!
  have o2 : opened (text_lines markers_text) = 42 := by decide!
  exact ⟨⟨f1, v1, o1, by decide, by decide, by decide!,
      ((parse_text_entry_limit example_magic two_entries_text).1 f1 v1).2 (by rw [o1]; decide)⟩,
    ⟨f2, v2, o2, by decide!, (parse_text_entry_limit example_magic markers_text).2.2.1,
      ((parse_text_entry_limit example_magic markers_text).1 f2 v2).1 (by rw [o2]; decide)⟩⟩

/-! ## The errors of `parse_text` (C15) -/

theorem valid_line_of_ok (st st1 : ParseState) (l : List Byte)
    (h : parse_line st l = Except.ok st1) :
    valid_line (decide (0 ≤ st.current)) l = true := by
  unfold valid_line
  cases hr : read_line l with
  | ignored => rfl
  | marker => rfl
  | invalid => rw [parse_line_invalid st l hr] at h; cases h
  | key_value key value =>
    rw [parse_line_kv st l key value hr] at h
    obtain ⟨-, -, -, -, -, hcase⟩ := parse_key_value_ok st st1 key value h
    simp only [Bool.or_eq_true, Bool.and_eq_true, decide_eq_true_eq]
    rcases hcase with ⟨hk, ht, -⟩ | ⟨-, hk, h0, hn, -⟩
    · rw [header_keys_mem] at hk
      rcases hk with hk | hk | hk
      · exact Or.inl (Or.inl (Or.inl (Or.inl hk)))
      · exact Or.inl (Or.inl (Or.inl (Or.inr hk)))
      · exact Or.inl (Or.inl (Or.inr ⟨hk, ht hk⟩))
    · rcases List.mem_cons.mp hk with hk | hk
      · exact Or.inl (Or.inr ⟨⟨h0, hk⟩, hn hk⟩)
      · exact Or.inr ⟨h0, hk⟩

/-- The lines the loop of `parse_text` gets through are valid where they
stand. -/
theorem parse_lines_ok_valid : ∀ (ls : List (List Byte)) (st st' : ParseState), st.inv →
    parse_lines ls st = Except.ok st' → valid_lines (decide (0 ≤ st.current)) ls = true := by
  intro ls
  induction ls with
  | nil => intro _ _ _ _; rfl
  | cons l rest ih =>
    intro st st' hinv h
    unfold parse_lines at h
    cases hp : parse_line st l with
    | error e => rw [hp] at h; cases h
    | ok st1 =>
      rw [hp] at h
      simp only at h
      obtain ⟨hinv1, hc, -⟩ := parse_lines_run [l] st st1 hinv (by
        unfold parse_lines; rw [hp]; rfl)
      unfold valid_lines
      rw [Bool.and_eq_true]
      refine ⟨valid_line_of_ok st st1 l hp, ?_⟩
      have hb : (decide (0 ≤ st.current) || decide (read_line l = .marker)) =
          decide (0 ≤ st1.current) := by
        rw [hc, opened_cons]
        have := hinv.2.1
        by_cases hm : read_line l = .marker
        · simp [hm, opened]; omega
        · simp [hm, opened]
      rw [hb]
      exact ih st1 st' hinv1 h

theorem valid_lines_mem : ∀ (ls : List (List Byte)) (b : Bool), valid_lines b ls = true →
    ∀ l ∈ ls, ∃ b', valid_line b' l = true := by
  intro ls
  induction ls with
  | nil => intro _ _ l hl; cases hl
  | cons x rest ih =>
    intro b h l hl
    unfold valid_lines at h
    rw [Bool.and_eq_true] at h
    rcases List.mem_cons.mp hl with e | hl'
    · subst e; exact ⟨b, h.1⟩
    · exact ih _ h.2 l hl'

theorem valid_lines_group_zero : ∀ (ls : List (List Byte)), valid_lines false ls = true →
    ∀ l ∈ group ls 0, valid_line false l = true := by
  intro ls
  induction ls with
  | nil => intro _ l hl; cases hl
  | cons x rest ih =>
    intro h l hl
    unfold valid_lines at h
    rw [Bool.and_eq_true] at h
    by_cases hm : read_line x = .marker
    · rw [(group_cons_marker x rest hm).1] at hl; cases hl
    · rw [(group_cons_other x rest hm).1] at hl
      rcases List.mem_cons.mp hl with e | hl'
      · subst e; exact h.1
      · have h2 := h.2
        simp only [hm, decide_False, Bool.or_false] at h2
        exact ih h2 l hl'

theorem valid_line_known (b : Bool) (l : List Byte) (h : valid_line b l = true) :
    read_line l ≠ .invalid ∧ ∀ k, line_key l = some k → k ∈ known_keys := by
  unfold valid_line at h
  unfold line_key
  cases hr : read_line l with
  | ignored => exact ⟨fun h => LineKind.noConfusion h, fun k hk => by cases hk⟩
  | marker => exact ⟨fun h => LineKind.noConfusion h, fun k hk => by cases hk⟩
  | invalid => rw [hr] at h; cases h
  | key_value key value =>
    rw [hr] at h
    simp only [Bool.or_eq_true, Bool.and_eq_true, decide_eq_true_eq] at h
    refine ⟨fun h => LineKind.noConfusion h, fun k hk => ?_⟩
    cases hk
    unfold known_keys
    rw [List.mem_append, header_keys_mem]
    rcases h with (((h | h) | h) | h) | h
    · exact Or.inl (Or.inl h)
    · exact Or.inl (Or.inr (Or.inl h))
    · exact Or.inl (Or.inr (Or.inr h.1))
    · exact Or.inr (by rw [h.1.2]; exact List.mem_cons_self _ _)
    · exact Or.inr (List.mem_cons_of_mem _ h.2)

theorem valid_line_header (l : List Byte) (h : valid_line false l = true) :
    ∀ k, line_key l = some k → k ∈ header_keys := by
  unfold valid_line at h
  unfold line_key
  cases hr : read_line l with
  | ignored => exact fun k hk => by cases hk
  | marker => exact fun k hk => by cases hk
  | invalid => rw [hr] at h; cases h
  | key_value key value =>
    rw [hr] at h
    simp only [Bool.or_eq_true, Bool.and_eq_true, decide_eq_true_eq, Bool.false_eq_true,
      false_and, or_false] at h
    intro k hk
    cases hk
    rw [header_keys_mem]
    rcases h with (h | h) | h
    · exact Or.inl h
    · exact Or.inr (Or.inl h)
    · exact Or.inr (Or.inr h.1)

/-- The pieces `fgets` delivers of a text that `parse_text` accepts are valid
where they stand. -/
theorem parse_text_pieces_valid (headmagic input : List Byte) (t : ptable_t)
    (h : parse_text headmagic input = Except.ok t) :
    valid_lines false (fgets_chunks MAX_LINE input) = true := by
  unfold parse_text at h
  cases hp : parse_lines (fgets_chunks MAX_LINE input) ⟨-1, clear_ptable headmagic⟩ with
  | error e => rw [hp] at h; cases h
  | ok st => exact parse_lines_ok_valid _ _ _ (clear_ptable_inv headmagic) hp

theorem parse_text_valid (headmagic input : List Byte) (t : ptable_t) (hfit : lines_fit input)
    (h : parse_text headmagic input = Except.ok t) :
    valid_lines false (text_lines input) = true := by
  have hp := parse_text_pieces_valid headmagic input t h
  rw [fgets_chunks_eq_text_lines input hfit] at hp
  exact hp

theorem error_of_not_ok (r : Except ParseError ptable_t) (h : ∀ t, r ≠ Except.ok t) :
    ∃ e, r = Except.error e := by
  cases r with
  | error e => exact ⟨e, rfl⟩
  | ok t => exact absurd rfl (h t)

theorem fgets_loop_cons (n : Nat) (c : Byte) (cs acc : List Byte) :
    fgets_loop n (c :: cs) acc =
      if c = ch '\n' ∨ acc.length + 2 ≥ n then (acc ++ [c]) :: fgets_loop n cs []
      else fgets_loop n cs (acc ++ [c]) := by
  rw [fgets_loop]

theorem parse_lines_cons (l : List Byte) (rest : List (List Byte)) (st : ParseState) :
    parse_lines (l :: rest) st =
      match parse_line st l with
      | .error e => .error e
      | .ok st1 => parse_lines rest st1 := by
  rw [parse_lines]

theorem fgets_loop_append (n : Nat) (rest : List Byte) : ∀ (pre acc : List Byte),
    pre.getLast? = some (ch '\n') →
    fgets_loop n (pre ++ rest) acc = fgets_loop n pre acc ++ fgets_loop n rest [] := by
  intro pre
  induction pre with
  | nil => intro acc h; cases h
  | cons c cs ih =>
    intro acc h
    cases cs with
    | nil =>
      have hc : c = ch '\n' := by simpa using h
      simp [fgets_loop, hc]
    | cons d ds =>
      rw [List.getLast?_cons_cons] at h
      rw [List.cons_append, fgets_loop_cons n c (d :: ds ++ rest) acc,
        fgets_loop_cons n c (d :: ds) acc]
      by_cases hc : c = ch '\n' ∨ acc.length + 2 ≥ n
      · rw [if_pos hc, if_pos hc, ih [] h, List.cons_append]
      · rw [if_neg hc, if_neg hc, ih _ h]

theorem fgets_chunks_append (pre rest : List Byte) (h : at_line_boundary pre) :
    fgets_chunks MAX_LINE (pre ++ rest) =
      fgets_chunks MAX_LINE pre ++ fgets_chunks MAX_LINE rest := by
  rcases h with h | h
  · subst h; rfl
  · exact fgets_loop_append MAX_LINE rest pre [] h

theorem parse_lines_append : ∀ (a b : List (List Byte)) (st : ParseState),
    parse_lines (a ++ b) st =
      match parse_lines a st with
      | .error e => .error e
      | .ok st1 => parse_lines b st1 := by
  intro a
  induction a with
  | nil => intro b st; rfl
  | cons l rest ih =>
    intro b st
    rw [List.cons_append, parse_lines_cons, parse_lines_cons]
    cases parse_line st l with
    | error e => rfl
    | ok st1 => exact ih b st1

theorem parse_lines_ignored : ∀ (ls : List (List Byte)) (st : ParseState),
    (∀ l ∈ ls, read_line l = .ignored) → parse_lines ls st = Except.ok st := by
  intro ls
  induction ls with
  | nil => intro st _; rfl
  | cons l rest ih =>
    intro st h
    unfold parse_lines
    rw [parse_line_ignored st l (h l (List.mem_cons_self _ _))]
    exact ih st (fun x hx => h x (List.mem_cons_of_mem _ hx))

theorem fgets_loop_mem (n : Nat) : ∀ (cs acc : List Byte),
    ∀ chunk ∈ fgets_loop n cs acc, ∀ c ∈ chunk, c ∈ acc ++ cs := by
  intro cs
  induction cs with
  | nil =>
    intro acc chunk hchunk c hc
    unfold fgets_loop at hchunk
    by_cases ha : acc = []
    · rw [if_pos ha] at hchunk; cases hchunk
    · rw [if_neg ha] at hchunk
      rw [List.mem_singleton] at hchunk
      subst hchunk
      simpa using hc
  | cons x xs ih =>
    intro acc chunk hchunk c hc
    unfold fgets_loop at hchunk
    by_cases hx : x = ch '\n' ∨ acc.length + 2 ≥ n
    · rw [if_pos hx] at hchunk
      rcases List.mem_cons.mp hchunk with e | hrest
      · subst e
        rw [List.mem_append] at hc ⊢
        rcases hc with hc | hc
        · exact Or.inl hc
        · exact Or.inr (by rw [List.mem_singleton] at hc; rw [hc]; exact List.mem_cons_self _ _)
      · have := ih [] chunk hrest c hc
        rw [List.nil_append] at this
        exact List.mem_append_right _ (List.mem_cons_of_mem _ this)
    · rw [if_neg hx] at hchunk
      have := ih (acc ++ [x]) chunk hchunk c hc
      simpa using this

theorem read_line_blank (l : List Byte) (h : ∀ c ∈ l, isspace c = true) :
    read_line l = .ignored := by
  have hs : strip (cstr l) = [] := by
    unfold strip
    have hd : (cstr l).dropWhile isspace = [] := by
      rw [List.dropWhile_eq_nil_iff]
      intro c hc
      exact h c ((List.takeWhile_sublist _).subset hc)
    rw [hd]; rfl
  unfold read_line
  simp only [hs]
  rfl

theorem dropWhile_append_last {α : Type} (p : α → Bool) (c : α) (hc : p c = false) :
    ∀ xs : List α, (xs ++ [c]).dropWhile p = xs.dropWhile p ++ [c] := by
  intro xs
  induction xs with
  | nil => simp [List.dropWhile, hc]
  | cons x xs ih =>
    rw [List.cons_append, List.dropWhile_cons, List.dropWhile_cons]
    by_cases hx : p x = true
    · rw [if_pos hx, if_pos hx, ih]
    · rw [if_neg hx, if_neg hx]; rfl

theorem strip_head (s : List Byte) (c : Byte) (h : s.head? = some c) (hc : isspace c = false) :
    (strip s).head? = some c := by
  cases s with
  | nil => cases h
  | cons x r =>
    have hx : x = c := by simpa using h
    subst hx
    unfold strip
    rw [List.dropWhile_cons, if_neg (by rw [hc]; exact Bool.false_ne_true), List.reverse_cons,
      dropWhile_append_last isspace x hc, List.reverse_append]
    rfl

theorem read_line_comment (l : List Byte) (h : l.head? = some (ch '#')) :
    read_line l = .ignored := by
  have hc : (cstr l).head? = some (ch '#') := by
    cases l with
    | nil => cases h
    | cons x r =>
      have hx : x = ch '#' := by simpa using h
      subst hx
      rfl
  have hs := strip_head _ _ hc (by decide)
  unfold read_line
  simp only
  rw [if_pos (Or.inr hs)]

/-- C16, amended: for every text, every position of it between two lines (its
start, or after a line feed) and every line that is blank, or begins with `#`
and has at most 255 bytes with its line feed, `parse_text` gives the same
outcome with the line inserted at that position as without it: the same
error, or the same table. -/
theorem parse_text_ignores_line (headmagic pre post body : List Byte)
    (hpre : at_line_boundary pre) (hbody : ∀ c ∈ body, c ≠ ch '\n')
    (hline : blank_line body ∨ (comment_line body ∧ body.length + 1 < MAX_LINE)) :
    parse_text headmagic (pre ++ (body ++ [ch '\n']) ++ post) =
      parse_text headmagic (pre ++ post) := by
  have hlast : (body ++ [ch '\n']).getLast? = some (ch '\n') := by simp
  have hchunks : ∀ l ∈ fgets_chunks MAX_LINE (body ++ [ch '\n']), read_line l = .ignored := by
    rcases hline with hb | ⟨hc, hlen⟩
    · intro l hl
      apply read_line_blank
      intro c hc
      have := fgets_loop_mem MAX_LINE _ [] l hl c hc
      rw [List.nil_append, List.mem_append] at this
      rcases this with h | h
      · exact hb c h
      · rw [List.mem_singleton] at h; rw [h]; decide
    · intro l hl
      have e : fgets_chunks MAX_LINE (body ++ [ch '\n']) = [body ++ [ch '\n']] := by
        have := fgets_chunks_line body [] hbody hlen
        rw [fgets_chunks_nil] at this
        exact this
      rw [e, List.mem_singleton] at hl
      subst hl
      apply read_line_comment
      unfold comment_line at hc
      cases body with
      | nil => cases hc
      | cons x r => exact hc
  unfold parse_text
  rw [List.append_assoc, fgets_chunks_append pre _ hpre,
    fgets_chunks_append (body ++ [ch '\n']) post (Or.inr hlast),
    fgets_chunks_append pre post hpre, parse_lines_append, parse_lines_append]
  cases parse_lines (fgets_chunks MAX_LINE pre) ⟨-1, clear_ptable headmagic⟩ with
  | error e => rfl
  | ok st1 =>
    simp only
    rw [parse_lines_append, parse_lines_ignored _ st1 hchunks]

/-- C16, counterexample: the line `long_comment_line` begins with `#` and has
257 bytes with its line feed.  `parse_text` accepts the text of the scenario
and refuses it with that line put in front, because it reads the line in two
pieces and the second, `y`, has no `=`. -/
theorem long_comment_changes_outcome :
    comment_line long_comment_line ∧ (∀ c ∈ long_comment_line, c ≠ ch '\n') ∧
    parse_text example_magic modem_text = Except.ok (modem_table example_magic) ∧
    parse_text example_magic ([] ++ (long_comment_line ++ [ch '\n']) ++ modem_text) =
      Except.error ParseError.invalid_line := by
  refine ⟨by decide, by decide!, by decide!, by decide!⟩

/-- C16, witness: a comment after the first line of the text of the scenario,
and a line of three spaces at its start, leave the outcome as it is. -/
theorem parse_text_ignores_line_witness :
    (at_line_boundary (str "[partition]\n") ∧ comment_line (str "# the modem") ∧
      parse_text example_magic (str "[partition]\n" ++ (str "# the modem" ++ [ch '\n']) ++
          str "name=modem\nstart=0x100\nlength=0x200\n") =
        parse_text example_magic
          (str "[partition]\n" ++ str "name=modem\nstart=0x100\nlength=0x200\n")) ∧
    (at_line_boundary [] ∧ blank_line (str "   ") ∧
      parse_text example_magic ([] ++ (str "   " ++ [ch '\n']) ++ modem_text) =
        parse_text example_magic ([] ++ modem_text)) :=
  ⟨⟨by decide, by decide,
      parse_text_ignores_line example_magic (str "[partition]\n") _ (str "# the modem")
        (by decide) (by decide) (Or.inr ⟨by decide, by decide⟩)⟩,
    ⟨by decide, by decide,
      parse_text_ignores_line example_magic [] modem_text (str "   ") (by decide) (by decide)
        (Or.inl (by decide))⟩⟩

/-! ## Numbers in the text form (C17) -/

theorem digit_char_props : ∀ c : Byte, digit_val c < 36 →
    isspace c = false ∧ c ≠ 0 ∧ c ≠ ch '\n' ∧ c ≠ ch '-' ∧ c ≠ ch '+' := by
  decide

theorem text_ok_of_digits (value : List Byte) (h : ∀ c ∈ value, digit_val c < 36) :
    text_ok value := by
  refine ⟨fun c hc => ⟨(digit_char_props c (h c hc)).2.1, (digit_char_props c (h c hc)).2.2.1⟩,
    fun c hc => ?_, fun c hc => ?_⟩
  · exact (digit_char_props c (h c (List.mem_of_mem_head? hc))).1
  · exact (digit_char_props c (h c (List.mem_of_mem_getLast? hc))).1

theorem parse_digits_of_denotes (base : Nat) (ds : List Byte) (n : Nat)
    (h : denotes base ds n) : parse_digits base ds = n := by
  obtain ⟨-, hall, hval⟩ := h
  unfold parse_digits
  rw [List.takeWhile_eq_self_iff.mpr (fun c hc => by
    simp only [decide_eq_true_eq]; exact hall c hc)]
  exact hval

theorem strtoul_of_magnitude (s : List Byte) (n : Nat) (c : Byte) (r : List Byte)
    (hs : s = c :: r) (hc : digit_val c < 36) (hm : strtoul_magnitude s = n)
    (hn : n < 2 ^ 32) : strtoul s % 2 ^ 32 = n := by
  obtain ⟨h1, -, -, h4, h5⟩ := digit_char_props c hc
  subst hs
  have hdw : (c :: r).dropWhile isspace = c :: r := by
    rw [List.dropWhile_cons, if_neg (by rw [h1]; exact Bool.false_ne_true)]
  have hsign : strtoul_sign (c :: r) = (false, c :: r) := by
    unfold strtoul_sign
    simp only
    rw [if_neg h4, if_neg h5]
  unfold strtoul
  rw [hdw, hsign]
  simp only [hm]
  rw [if_neg (by unfold ULONG_MAX; omega)]
  exact Nat.mod_eq_of_lt hn

/-- A decimal string without a leading zero is read in base 10. -/
theorem strtoul_decimal (ds : List Byte) (n : Nat) (h : denotes 10 ds n)
    (hz : no_leading_zero ds) (hn : n < 2 ^ 32) : strtoul ds % 2 ^ 32 = n := by
  have hpd := parse_digits_of_denotes 10 ds n h
  obtain ⟨hne, hall, hval⟩ := h
  cases ds with
  | nil => exact absurd rfl hne
  | cons c r =>
    have hc : digit_val c < 36 := by
      have := hall c (List.mem_cons_self _ _); omega
    refine strtoul_of_magnitude _ n c r rfl hc ?_ hn
    by_cases h0 : c = ch '0'
    · rcases hz with hz | hz
      · exact absurd (by rw [h0]; rfl) hz
      · cases hz
        rw [← hval]; rfl
    · cases r with
      | nil =>
        unfold strtoul_magnitude
        simp only
        rw [if_neg h0]; exact hpd
      | cons c1 r1 =>
        cases r1 with
        | nil =>
          unfold strtoul_magnitude
          simp only
          rw [if_neg h0]; exact hpd
        | cons c2 r2 =>
          unfold strtoul_magnitude
          simp only
          rw [if_neg (fun h => h0 h.1), if_neg h0]; exact hpd

/-- A string of hexadecimal digits after `0x` is read in base 16. -/
theorem strtoul_hexadecimal (ds : List Byte) (n : Nat) (h : denotes 16 ds n)
    (hn : n < 2 ^ 32) : strtoul (str "0x" ++ ds) % 2 ^ 32 = n := by
  have hpd := parse_digits_of_denotes 16 ds n h
  obtain ⟨hne, hall, hval⟩ := h
  cases ds with
  | nil => exact absurd rfl hne
  | cons c r =>
    refine strtoul_of_magnitude _ n (ch '0') (ch 'x' :: c :: r) rfl (by decide) ?_ hn
    show strtoul_magnitude (ch '0' :: ch 'x' :: c :: r) = n
    unfold strtoul_magnitude
    simp only
    rw [if_pos ⟨trivial, Or.inl trivial, hall c (List.mem_cons_self _ _)⟩]
    exact hpd

theorem parse_key_value_num (st : ParseState) (f : NumField) (v : List Byte)
    (hc : 0 ≤ st.current) :
    parse_key_value st f.key v =
      Except.ok (update_line st (fun l => f.set l (strtoul v % 2 ^ 32))) := by
  cases f
  · exact parse_key_value_start st v hc
  · exact parse_key_value_length st v hc
  · exact parse_key_value_lsize st v hc
  · exact parse_key_value_loadaddr st v hc
  · exact parse_key_value_entry st v hc
  · exact parse_key_value_nproperty st v hc
  · exact parse_key_value_type st v hc
  · exact parse_key_value_count st v hc

theorem key_ok_num (f : NumField) : key_ok f.key ∧ f.key.length ≤ 9 := by
  obtain ⟨-, -, -, -, h1, h2, h3, h4, h5, h6, h7, h8⟩ := key_ok_keys
  cases f
  · exact ⟨h1, by decide⟩
  · exact ⟨h2, by decide⟩
  · exact ⟨h3, by decide⟩
  · exact ⟨h4, by decide⟩
  · exact ⟨h5, by decide⟩
  · exact ⟨h6, by decide⟩
  · exact ⟨h7, by decide⟩
  · exact ⟨h8, by decide⟩

/-- C17, amended: after a text that is empty or ends in a line feed, that
`parse_text` accepts and in which it has read a `[partition]` marker, a line
`key=value` of at most 255 bytes with its line feed, where the key is one of
the eight numeric keys and the value denotes `n < 2 ^ 32` as a string of
decimal digits without a leading zero, or as `0x` followed by a string of
hexadecimal digits, makes `parse_text` store `n` in that field of the open
entry, the one of the last marker it has read, and change nothing else.  The
markers it has read are those among the pieces `fgets` cuts the text into,
which are the lines of the text when these fit the line buffer. -/
theorem parse_text_numeric (headmagic pre value : List Byte) (f : NumField) (n : Nat)
    (t0 : ptable_t) (hpre : at_line_boundary pre)
    (h0 : parse_text headmagic pre = Except.ok t0)
    (hopen : 1 ≤ opened (fgets_chunks MAX_LINE pre))
    (hn : n < 2 ^ 32)
    (hval : (denotes 10 value n ∧ no_leading_zero value) ∨
      (∃ ds, value = str "0x" ++ ds ∧ denotes 16 ds n))
    (hlen : (key_value_line f.key value).length < MAX_LINE) :
    parse_text headmagic (pre ++ key_value_line f.key value) =
      Except.ok { t0 with
        part := t0.part.set (opened (fgets_chunks MAX_LINE pre) - 1)
          (f.set (t0.part.getD (opened (fgets_chunks MAX_LINE pre) - 1) zero_line) n) } ∧
    (lines_fit pre → fgets_chunks MAX_LINE pre = text_lines pre) := by
  refine ⟨?_, fgets_chunks_eq_text_lines pre⟩
  have hstr : strtoul value % 2 ^ 32 = n := by
    rcases hval with ⟨hd, hz⟩ | ⟨ds, hv, hd⟩
    · exact strtoul_decimal value n hd hz hn
    · rw [hv]; exact strtoul_hexadecimal ds n hd hn
  have hdig : ∀ c ∈ value, digit_val c < 36 := by
    rcases hval with ⟨hd, -⟩ | ⟨ds, hv, hd⟩
    · intro c hc; have := hd.2.1 c hc; omega
    · intro c hc
      rw [hv, show str "0x" = [ch '0', ch 'x'] from rfl] at hc
      simp only [List.cons_append, List.nil_append, List.mem_cons] at hc
      rcases hc with hc | hc | hc
      · rw [hc]; decide
      · rw [hc]; decide
      · have := hd.2.1 c hc; omega
  unfold parse_text at h0
  cases hp : parse_lines (fgets_chunks MAX_LINE pre) ⟨-1, clear_ptable headmagic⟩ with
  | error e => rw [hp] at h0; cases h0
  | ok st =>
    rw [hp] at h0
    simp only at h0
    obtain ⟨hinv, hcur, -⟩ := parse_lines_run _ _ _ (clear_ptable_inv headmagic) hp
    rw [terminate_table_of_inv st hinv] at h0
    cases h0
    simp only at hcur
    have hc0 : 0 ≤ st.current := by omega
    have hidx : st.current.toNat = opened (fgets_chunks MAX_LINE pre) - 1 := by omega
    have hkv := parse_key_value_num st f value hc0
    have hstep : parse_lines (fgets_chunks MAX_LINE (key_value_line f.key value)) st =
        Except.ok (update_line st (fun l => f.set l (strtoul value % 2 ^ 32))) := by
      have := parse_lines_kv st _ f.key value [] [] (key_ok_num f).1 (text_ok_of_digits value hdig)
        (fun c hc => by cases hc) (by
          unfold key_value_line at hlen
          simp only [List.length_append, List.length_cons, List.length_nil] at hlen ⊢
          omega) hkv
      rw [fgets_chunks_nil] at this
      unfold key_value_line
      rw [List.append_nil] at this
      exact this
    have hinv1 : (update_line st (fun l => f.set l (strtoul value % 2 ^ 32))).inv :=
      (parse_lines_run _ st _ hinv hstep).1
    unfold parse_text
    rw [fgets_chunks_append pre _ hpre, parse_lines_append, hp]
    simp only
    rw [hstep]
    simp only
    rw [terminate_table_of_inv _ hinv1]
    unfold update_line
    rw [hstr, hidx]

/-- C17, counterexample: the start `010` denotes 10 in base 10 and
`parse_text` stores 8, reading it in base 8; the start `0x`, 300 zeros and `1`
denotes 1 in base 16 and `parse_text` refuses the text, reading the line in two
pieces. -/
theorem numeric_notation_counterexamples :
    (denotes 10 (str "010") 10 ∧
      parse_text example_magic leading_zero_text =
        Except.ok { clear_ptable example_magic with
          part := ⟨List.replicate 16 0, 8, 0, 0, 0, 0, 0, 0, 0⟩ ::
            List.replicate 40 zero_line }) ∧
    (denotes 16 (List.replicate 300 (ch '0') ++ str "1") 1 ∧
      parse_text example_magic long_hex_text = Except.error ParseError.invalid_line) := by
  refine ⟨⟨by decide, by decide!⟩, ⟨by decide!, by decide!⟩⟩

/-- C17, witness: after the lines `[partition]` and `name=modem`, the line
`length=512` and the line `length=0x200` both store 512 in the length of
entry 0; after a text whose comment of 267 bytes ends in `[partition]`, read
as a second marker, the line `start=5` stores 5 in the start of entry 1. -/
theorem parse_text_numeric_witness :
    (at_line_boundary (str "[partition]\nname=modem\n") ∧
    opened (fgets_chunks MAX_LINE (str "[partition]\nname=modem\n")) = 1 ∧
    parse_text example_magic (str "[partition]\nname=modem\n") =
      Except.ok { clear_ptable example_magic with
        part := ⟨copy16 (str "modem"), 0, 0, 0, 0, 0, 0, 0, 0⟩ ::
          List.replicate 40 zero_line } ∧
    denotes 10 (str "512") 512 ∧ no_leading_zero (str "512") ∧
    denotes 16 (str "200") 512 ∧
    parse_text example_magic (str "[partition]\nname=modem\n" ++
        key_value_line (str "length") (str "512")) =
      Except.ok { clear_ptable example_magic with
        part := ⟨copy16 (str "modem"), 0, 0, 512, 0, 0, 0, 0, 0⟩ ::
          List.replicate 40 zero_line } ∧
    parse_text example_magic (str "[partition]\nname=modem\n" ++
        key_value_line (str "length") (str "0x200")) =
      Except.ok { clear_ptable example_magic with
        part := ⟨copy16 (str "modem"), 0, 0, 512, 0, 0, 0, 0, 0⟩ ::
          List.replicate 40 zero_line }) ∧
    (at_line_boundary long_comment_marker ∧ ¬ lines_fit long_comment_marker ∧
    opened (fgets_chunks MAX_LINE long_comment_marker) = 2 ∧
    parse_text example_magic (long_comment_marker ++ key_value_line (str "start") (str "5")) =
      Except.ok { clear_ptable example_magic with
        part := zero_line :: ⟨copy16 (str "a"), 5, 0, 0, 0, 0, 0, 0, 0⟩ ::
          List.replicate 39 zero_line }) := by
  have hb : at_line_boundary (str "[partition]\nname=modem\n") := by decide
  have ho : opened (fgets_chunks MAX_LINE (str "[partition]\nname=modem\n")) = 1 := by decide
  have hp : parse_text example_magic (str "[partition]\nname=modem\n") =
      Except.ok { clear_ptable example_magic with
        part := ⟨copy16 (str "modem"), 0, 0, 0, 0, 0, 0, 0, 0⟩ ::
          List.replicate 40 zero_line } := by decide!
  have h1 := (parse_text_numeric example_magic (str "[partition]\nname=modem\n") (str "512")
    NumField.length 512 _ hb hp (by rw [ho]) (by decide)
    (Or.inl ⟨by decide, by decide⟩) (by decide)).1
  have h2 := (parse_text_numeric example_magic (str "[partition]\nname=modem\n") (str "0x200")
    NumField.length 512 _ hb hp (by rw [ho]) (by decide)
    (Or.inr ⟨str "200", rfl, by decide⟩) (by decide)).1
  rw [ho] at h1 h2
  have hb3 : at_line_boundary long_comment_marker := by decide!
  have ho3 : opened (fgets_chunks MAX_LINE long_comment_marker) = 2 := by decide!
  have hp3 : parse_text example_magic long_comment_marker =
      Except.ok { clear_ptable example_magic with
        part := zero_line :: ⟨copy16 (str "a"), 0, 0, 0, 0, 0, 0, 0, 0⟩ ::
          List.replicate 39 zero_line } := by decide!
  have h3 := (parse_text_numeric example_magic long_comment_marker (str "5")
    NumField.start 5 _ hb3 hp3 (by rw [ho3]; decide) (by decide)
    (Or.inl ⟨by decide, by decide⟩) (by decide)).1
  rw [ho3] at h3
  exact ⟨⟨hb, ho, hp, by decide, by decide, by decide, h1, h2⟩, ⟨hb3, by decide!, ho3, h3⟩⟩

/-! ## `dump_bin`: the size check and the names (C18) -/

/-- A file shorter than the record is refused before anything is written. -/
theorem dump_bin_short (input : List Byte) (h : input.length < sizeof_ptable_t) :
    dump_bin input = Outcome.fail := by
  unfold dump_bin fread_ptable
  rw [if_pos h]

theorem decode_lines_length : ∀ (n : Nat) (bs : List Byte), (decode_lines n bs).length = n := by
  intro n
  induction n with
  | zero => intro bs; rfl
  | succ n ih => intro bs; simp [decode_lines, ih]

theorem decode_lines_name : ∀ (n : Nat) (bs : List Byte), n * sizeof_ptable_line ≤ bs.length →
    ∀ l ∈ decode_lines n bs, l.name.length = 16 := by
  intro n
  induction n with
  | zero => intro bs _ l hl; cases hl
  | succ n ih =>
    intro bs h l hl
    have hs : sizeof_ptable_line = 48 := rfl
    rw [hs] at h
    unfold decode_lines at hl
    rcases List.mem_cons.mp hl with e | hl'
    · subst e
      simp only [decode_line, List.length_take]
      omega
    · exact ih _ (by rw [List.length_drop, hs]; omega) l hl'

/-- A file of at least 2048 bytes in which the name of every emitted entry has
a NUL among its 16 bytes: `dump_bin` prints the text of the decoded table,
whatever its head. -/
theorem dump_bin_terminated (input : List Byte) (t : ptable_t)
    (ht : fread_ptable input = some t)
    (hn : ∀ l ∈ spec_emitted t.part, (0 : Byte) ∈ l.name) :
    dump_bin input = Outcome.ok (write_header t ++ spec_blocks_text (spec_emitted t.part)) := by
  unfold dump_bin
  rw [ht]
  simp only
  unfold fread_ptable at ht
  by_cases hlen : input.length < sizeof_ptable_t
  · rw [if_pos hlen] at ht; cases ht
  · rw [if_neg hlen] at ht
    cases ht
    have hs : sizeof_ptable_t = 2048 := rfl
    have hs' : sizeof_ptable_line = 48 := rfl
    simp only at hn ⊢
    unfold write_text
    simp only
    have htake : (decode_lines 41 (input.drop 48)).take 41 = decode_lines 41 (input.drop 48) :=
      List.take_of_length_le (by rw [decode_lines_length])
    rw [htake, write_parts_emitted _ _ 0 (decode_lines_name 41 _ (by
        rw [List.length_drop, hs']; omega)) hn]

/-- C18, the defect: `write_text` prints a name with `%s`, which reads up to
the next NUL.  For the file of 2048 bytes `A`, which `fread` accepts, the read
that starts at the name of entry 0 leaves the table. -/
theorem dump_bin_reads_past_table :
    unterminated_file.length = sizeof_ptable_t ∧
    (fread_ptable unterminated_file).isSome = true ∧
    dump_bin unterminated_file = Outcome.fault (Fault.read 48 2001) := by
  refine ⟨by decide!, by decide!, by decide!⟩

/-! ## The binary layout of the partition table (C19) -/

theorem flatten_encode_getElem : ∀ (part : List ptable_line) (i k : Nat) (l : ptable_line),
    (∀ x ∈ part, x.name.length = 16) → part[i]? = some l → k < sizeof_ptable_line →
    ((part.map encode_line).flatten)[sizeof_ptable_line * i + k]? = (encode_line l)[k]? := by
  intro part
  induction part with
  | nil => intro i k l _ h; cases h
  | cons x rest ih =>
    intro i k l hn h hk
    have hx := encode_line_length x (hn x (List.mem_cons_self _ _))
    rw [List.map_cons, List.flatten_cons]
    cases i with
    | zero =>
      rw [List.getElem?_cons_zero] at h
      cases h
      rw [Nat.mul_zero, Nat.zero_add, List.getElem?_append_left (by rw [hx]; exact hk)]
    | succ i =>
      rw [List.getElem?_cons_succ] at h
      rw [List.getElem?_append_right (by rw [hx]; unfold sizeof_ptable_line; omega), hx]
      have e : sizeof_ptable_line * (i + 1) + k - sizeof_ptable_line =
          sizeof_ptable_line * i + k := by
        unfold sizeof_ptable_line; omega
      rw [e]
      exact ih i k l (fun y hy => hn y (List.mem_cons_of_mem _ hy)) h hk

theorem fwrite_ptable_getElem (t : ptable_t) (h : t.wf) (i k : Nat) (l : ptable_line)
    (hl : t.part[i]? = some l) (hk : k < sizeof_ptable_line) :
    (fwrite_ptable t)[48 + sizeof_ptable_line * i + k]? = (encode_line l)[k]? := by
  obtain ⟨h1, h2, h3, h4, h5, h6⟩ := h
  have hi : i < 41 := by rw [← h4]; exact (List.getElem?_eq_some_iff.mp hl).1
  have hflat := join_encode_length t.part h5
  have e : fwrite_ptable t = (t.head ++ t.version ++ t.product) ++
      ((t.part.map encode_line).flatten ++ t.tail) := by
    simp only [fwrite_ptable, List.append_assoc]
  have hpre : (t.head ++ t.version ++ t.product).length = 48 := by
    simp only [List.length_append, h1, h2, h3]
  rw [e, List.getElem?_append_right (by rw [hpre]; omega), hpre,
    show 48 + sizeof_ptable_line * i + k - 48 = sizeof_ptable_line * i + k by omega,
    List.getElem?_append_left (by
      rw [hflat, h4]; unfold sizeof_ptable_line at hk ⊢; omega)]
  exact flatten_encode_getElem t.part i k l (fun x hx => (h5 x hx).1) hl hk

theorem encode_line_name (l : ptable_line) (k : Nat) (hk : k < l.name.length) :
    (encode_line l)[k]? = l.name[k]? := by
  unfold encode_line
  simp only [List.append_assoc]
  rw [List.getElem?_append_left hk]

theorem encode_line_fields (l : ptable_line) (h : l.name.length = 16) (k : Nat) (hk : k < 4) :
    (encode_line l)[16 + k]? = (le32 l.start)[k]? ∧
    (encode_line l)[20 + k]? = (le32 l.lsize)[k]? ∧
    (encode_line l)[24 + k]? = (le32 l.length)[k]? ∧
    (encode_line l)[28 + k]? = (le32 l.loadaddr)[k]? ∧
    (encode_line l)[32 + k]? = (le32 l.entry)[k]? ∧
    (encode_line l)[36 + k]? = (le32 l.type)[k]? ∧
    (encode_line l)[40 + k]? = (le32 l.nproperty)[k]? ∧
    (encode_line l)[44 + k]? = (le32 l.count)[k]? := by
  have e : ∀ j, (encode_line l)[16 + j]? =
      (le32 l.start ++ le32 l.lsize ++ le32 l.length ++ le32 l.loadaddr ++ le32 l.entry ++
        le32 l.type ++ le32 l.nproperty ++ le32 l.count)[j]? := by
    intro j
    unfold encode_line
    simp only [List.append_assoc]
    rw [List.getElem?_append_right (by omega), h, Nat.add_sub_cancel_left]
  rw [show 20 + k = 16 + (4 + k) by omega, show 24 + k = 16 + (8 + k) by omega,
    show 28 + k = 16 + (12 + k) by omega, show 32 + k = 16 + (16 + k) by omega,
    show 36 + k = 16 + (20 + k) by omega, show 40 + k = 16 + (24 + k) by omega,
    show 44 + k = 16 + (28 + k) by omega]
  simp only [e]
  interval_cases k <;> simp [le32]

theorem fwrite_ptable_field (t : ptable_t) (h : t.wf) (i o v : Nat) (l : ptable_line)
    (hl : t.part[i]? = some l) (ho : o + 4 ≤ sizeof_ptable_line) (hv : v < 2 ^ 32)
    (hf : ∀ k, k < 4 → (encode_line l)[o + k]? = (le32 v)[k]?) :
    readU32 (fwrite_ptable t) (48 + sizeof_ptable_line * i + o) = some v := by
  have := @readU32_le32 (fwrite_ptable t) (48 + sizeof_ptable_line * i + o) v (fun k hk => by
    rw [Nat.add_assoc, fwrite_ptable_getElem t h i (o + k) l hl (by omega)]
    exact hf k hk)
  rw [this, Nat.mod_eq_of_lt hv]

/-- C19: for every table, the record `build_bin` writes is 2048 bytes long;
`head` is at byte 0, `version` at 16, `product` at 32 and `tail` at 2016; and
entry `i` is at byte `48 + 48 * i`: the 16 bytes of its name, then `start`,
`lsize`, `length`, `loadaddr`, `entry`, `type`, `nproperty` and `count`, four
bytes each. -/
theorem fwrite_ptable_layout (t : ptable_t) (h : t.wf) :
    (fwrite_ptable t).length = 16 + 16 + 16 + 41 * 48 + 32 ∧
    (fwrite_ptable t).length = 2048 ∧
    slice (fwrite_ptable t) 0 16 = some t.head ∧
    slice (fwrite_ptable t) 16 16 = some t.version ∧
    slice (fwrite_ptable t) 32 16 = some t.product ∧
    slice (fwrite_ptable t) 2016 32 = some t.tail ∧
    ∀ (i : Nat) (l : ptable_line), t.part[i]? = some l →
      slice (fwrite_ptable t) (48 + 48 * i) 16 = some l.name ∧
      readU32 (fwrite_ptable t) (48 + 48 * i + 16) = some l.start ∧
      readU32 (fwrite_ptable t) (48 + 48 * i + 20) = some l.lsize ∧
      readU32 (fwrite_ptable t) (48 + 48 * i + 24) = some l.length ∧
      readU32 (fwrite_ptable t) (48 + 48 * i + 28) = some l.loadaddr ∧
      readU32 (fwrite_ptable t) (48 + 48 * i + 32) = some l.entry ∧
      readU32 (fwrite_ptable t) (48 + 48 * i + 36) = some l.type ∧
      readU32 (fwrite_ptable t) (48 + 48 * i + 40) = some l.nproperty ∧
      readU32 (fwrite_ptable t) (48 + 48 * i + 44) = some l.count := by
  have hlen : (fwrite_ptable t).length = 2048 := fwrite_ptable_length t h
  have hwf := h
  obtain ⟨h1, h2, h3, h4, h5, h6⟩ := hwf
  have hflat := join_encode_length t.part h5
  have e : fwrite_ptable t = t.head ++ (t.version ++ (t.product ++
      ((t.part.map encode_line).flatten ++ t.tail))) := by
    simp only [fwrite_ptable, List.append_assoc]
  refine ⟨hlen, hlen, ?_, ?_, ?_, ?_, fun i l hl => ?_⟩
  · rw [slice_eq_some (by omega), e, List.drop_zero, List.take_left' h1]
  · rw [slice_eq_some (by omega), e, List.drop_left' h1, List.take_left' h2]
  · rw [slice_eq_some (by omega)]
    have e3 : fwrite_ptable t = (t.head ++ t.version) ++ (t.product ++
        ((t.part.map encode_line).flatten ++ t.tail)) := by
      simp only [fwrite_ptable, List.append_assoc]
    rw [e3, List.drop_left' (by rw [List.length_append, h1, h2]), List.take_left' h3]
  · rw [slice_eq_some (by omega)]
    have e2 : fwrite_ptable t = (t.head ++ t.version ++ t.product ++
        (t.part.map encode_line).flatten) ++ t.tail := by
      simp only [fwrite_ptable]
    have hl2 : (t.head ++ t.version ++ t.product ++ (t.part.map encode_line).flatten).length =
        2016 := by
      simp only [List.length_append, h1, h2, h3, hflat, h4]
      rfl
    rw [e2, List.drop_left' hl2, ← h6, List.take_length]
  · have hi : i < 41 := by rw [← h4]; exact (List.getElem?_eq_some_iff.mp hl).1
    obtain ⟨n0, n1, n2, n3, n4, n5, n6, n7, n8⟩ := h5 l (List.getElem?_mem hl)
    have hs : sizeof_ptable_line = 48 := rfl
    have key : 48 + 48 * i = 48 + sizeof_ptable_line * i := rfl
    rw [key]
    have hf := fun k hk => encode_line_fields l n0 k hk
    refine ⟨?_, ?_, ?_, ?_, ?_, ?_, ?_, ?_, ?_⟩
    · rw [slice_eq_some (by omega), ← n0]
      congr 1
      apply slice_of_bytes
      intro k hk
      rw [fwrite_ptable_getElem t h i k l hl (by rw [hs]; omega), encode_line_name l k hk]
    · exact fwrite_ptable_field t h i 16 _ l hl (by decide) n1 (fun k hk => (hf k hk).1)
    · exact fwrite_ptable_field t h i 20 _ l hl (by decide) n2 (fun k hk => (hf k hk).2.1)
    · exact fwrite_ptable_field t h i 24 _ l hl (by decide) n3 (fun k hk => (hf k hk).2.2.1)
    · exact fwrite_ptable_field t h i 28 _ l hl (by decide) n4
        (fun k hk => (hf k hk).2.2.2.1)
    · exact fwrite_ptable_field t h i 32 _ l hl (by decide) n5
        (fun k hk => (hf k hk).2.2.2.2.1)
    · exact fwrite_ptable_field t h i 36 _ l hl (by decide) n6
        (fun k hk => (hf k hk).2.2.2.2.2.1)
    · exact fwrite_ptable_field t h i 40 _ l hl (by decide) n7
        (fun k hk => (hf k hk).2.2.2.2.2.2.1)
    · exact fwrite_ptable_field t h i 44 _ l hl (by decide) n8
        (fun k hk => (hf k hk).2.2.2.2.2.2.2)

/-- C19, witness: in the record of `example_table`, entry 0 has its name at
byte 48, its start `0x100` at byte 64 and its length `0x200` at byte 72. -/
theorem fwrite_ptable_layout_witness :
    example_table.wf ∧ (fwrite_ptable example_table).length = 2048 ∧
    slice (fwrite_ptable example_table) 0 16 = some example_magic ∧
    slice (fwrite_ptable example_table) (48 + 48 * 0) 16 = some (copy16 (str "modem")) ∧
    readU32 (fwrite_ptable example_table) (48 + 48 * 0 + 16) = some 0x100 ∧
    readU32 (fwrite_ptable example_table) (48 + 48 * 0 + 24) = some 0x200 ∧
    slice (fwrite_ptable example_table) 2016 32 = some (List.replicate 32 0) :=
  have h := fwrite_ptable_layout example_table example_table_text.1
  have h0 := h.2.2.2.2.2.2 0 _ rfl
  ⟨example_table_text.1, h.2.1, h.2.2.1, h0.1, h0.2.1, h0.2.2.2.1, h.2.2.2.2.2.1⟩
/-! ## The record `build_bin` writes -/

theorem parse_tail_loop_length : ∀ (n : Nat) (hex bytes : List Byte), hex.length ≤ n →
    parse_tail_loop hex = some bytes → bytes.length = hex.length / 2 := by
  intro n
  induction n with
  | zero =>
    intro hex bytes hn h
    have : hex = [] := List.length_eq_zero.mp (by omega)
    subst this
    cases h
    rfl
  | succ n ih =>
    intro hex bytes hn h
    match hex, h with
    | [], h => cases h; rfl
    | [_], h => cases h; simp
    | c0 :: c1 :: rest, h =>
      unfold parse_tail_loop at h
      cases hs : scan_02x c0 c1 with
      | none => rw [hs] at h; cases h
      | some v =>
        rw [hs] at h
        simp only at h
        cases hr : parse_tail_loop rest with
        | none => rw [hr] at h; cases h
        | some bs =>
          rw [hr] at h
          cases h
          have := ih rest bs (by simp only [List.length_cons] at hn; omega) hr
          simp only [List.length_cons, this]
          omega

theorem parse_tail_length (hex tail : List Byte) (h : parse_tail hex = some tail) :
    tail.length = 32 := by
  unfold parse_tail at h
  by_cases hl : hex.length ≠ 64
  · rw [if_pos hl] at h; cases h
  · rw [if_neg hl] at h
    have := parse_tail_loop_length hex.length hex tail (Nat.le_refl _) h
    omega

theorem zero_line_wf : zero_line.wf := by decide

theorem assign_wf (x : ptable_line) (key value : List Byte) (hx : x.wf) :
    (assign x key value).wf := by
  have hlt : strtoul value % 2 ^ 32 < 2 ^ 32 := Nat.mod_lt _ (by decide)
  obtain ⟨n0, n1, n2, n3, n4, n5, n6, n7, n8⟩ := hx
  rcases assign_cases x key value with ⟨-, e⟩ | ⟨-, e⟩ | ⟨-, e⟩ | ⟨-, e⟩ | ⟨-, e⟩ |
    ⟨-, e⟩ | ⟨-, e⟩ | ⟨-, e⟩ | ⟨-, e⟩ | ⟨-, e⟩ <;> rw [e]
  · exact ⟨copy16_length value, n1, n2, n3, n4, n5, n6, n7, n8⟩
  · exact ⟨n0, hlt, n2, n3, n4, n5, n6, n7, n8⟩
  · exact ⟨n0, n1, n2, hlt, n4, n5, n6, n7, n8⟩
  · exact ⟨n0, n1, hlt, n3, n4, n5, n6, n7, n8⟩
  · exact ⟨n0, n1, n2, n3, hlt, n5, n6, n7, n8⟩
  · exact ⟨n0, n1, n2, n3, n4, hlt, n6, n7, n8⟩
  · exact ⟨n0, n1, n2, n3, n4, n5, n6, hlt, n8⟩
  · exact ⟨n0, n1, n2, n3, n4, n5, hlt, n7, n8⟩
  · exact ⟨n0, n1, n2, n3, n4, n5, n6, n7, hlt⟩
  · exact ⟨n0, n1, n2, n3, n4, n5, n6, n7, n8⟩

theorem parse_key_value_wf (st st1 : ParseState) (key value : List Byte) (hwf : st.ptable.wf)
    (h : parse_key_value st key value = Except.ok st1) : st1.ptable.wf := by
  obtain ⟨h1, h2, h3, h4, h5, h6⟩ := hwf
  rw [parse_key_value_eq] at h
  by_cases k1 : key = str "version"
  · rw [if_pos k1] at h; cases h
    exact ⟨h1, copy16_length value, h3, h4, h5, h6⟩
  rw [if_neg k1] at h
  by_cases k2 : key = str "product"
  · rw [if_pos k2] at h; cases h
    exact ⟨h1, h2, copy16_length value, h4, h5, h6⟩
  rw [if_neg k2] at h
  by_cases k3 : key = str "tail"
  · rw [if_pos k3] at h
    cases ht : parse_tail value with
    | none => rw [ht] at h; cases h
    | some tl =>
      rw [ht] at h; cases h
      exact ⟨h1, h2, h3, h4, h5, parse_tail_length value tl ht⟩
  rw [if_neg k3] at h
  by_cases k4 : st.current < 0
  · rw [if_pos k4] at h; cases h
  rw [if_neg k4] at h
  by_cases k5 : key = str "name" ∧ value.length ≥ 16
  · rw [if_pos k5] at h; cases h
  rw [if_neg k5] at h
  by_cases k6 : key ∈ entry_keys
  · rw [if_pos k6] at h; cases h
    refine ⟨h1, h2, h3, by simp only [update_line, List.length_set]; exact h4, ?_, h6⟩
    intro l hl
    simp only [update_line] at hl
    rcases List.mem_or_eq_of_mem_set hl with hl | hl
    · exact h5 l hl
    · rw [hl]
      apply assign_wf
      rw [List.getD_eq_getElem?_getD]
      cases hg : st.ptable.part[st.current.toNat]? with
      | none => exact zero_line_wf
      | some x => exact h5 x (List.getElem?_mem hg)
  · rw [if_neg k6] at h; cases h

theorem parse_lines_wf : ∀ (ls : List (List Byte)) (st st' : ParseState), st.ptable.wf →
    parse_lines ls st = Except.ok st' → st'.ptable.wf := by
  intro ls
  induction ls with
  | nil => intro st st' hwf h; cases h; exact hwf
  | cons l rest ih =>
    intro st st' hwf h
    rw [parse_lines_cons] at h
    cases hp : parse_line st l with
    | error e => rw [hp] at h; cases h
    | ok st1 =>
      rw [hp] at h
      simp only at h
      refine ih st1 st' ?_ h
      rw [parse_line_read] at hp
      cases hr : read_line l with
      | ignored => rw [hr] at hp; cases hp; exact hwf
      | invalid => rw [hr] at hp; cases hp
      | key_value key value =>
        rw [hr] at hp
        exact parse_key_value_wf st st1 key value hwf hp
      | marker =>
        rw [hr] at hp
        simp only at hp
        by_cases h40 : st.current ≥ 40
        · rw [if_pos h40] at hp; cases hp
        · rw [if_neg h40] at hp
          cases hp
          obtain ⟨h1, h2, h3, h4, h5, h6⟩ := hwf
          refine ⟨h1, h2, h3, by simp only [List.length_set]; exact h4, ?_, h6⟩
          intro x hx
          rcases List.mem_or_eq_of_mem_set hx with hx | hx
          · exact h5 x hx
          · rw [hx]; exact zero_line_wf

/-- The table `parse_text` returns is a value of `struct ptable_t`, when the
head magic has its 16 bytes. -/
theorem parse_text_wf (headmagic input : List Byte) (t : ptable_t)
    (hm : headmagic.length = 16) (h : parse_text headmagic input = Except.ok t) : t.wf := by
  unfold parse_text at h
  cases hp : parse_lines (fgets_chunks MAX_LINE input) ⟨-1, clear_ptable headmagic⟩ with
  | error e => rw [hp] at h; cases h
  | ok st =>
    rw [hp] at h
    simp only at h
    have hinv := (parse_lines_run _ _ st (clear_ptable_inv headmagic) hp).1
    rw [terminate_table_of_inv st hinv] at h
    cases h
    refine parse_lines_wf _ _ st ?_ hp
    exact ⟨hm, List.length_replicate _ _, List.length_replicate _ _, List.length_replicate _ _,
      fun l hl => by rw [List.eq_of_mem_replicate hl]; exact zero_line_wf,
      List.length_replicate _ _⟩

/-- Whatever the text, the file `build_bin` writes has 2048 bytes. -/
theorem build_bin_length (headmagic input bytes : List Byte) (hm : headmagic.length = 16)
    (h : build_bin headmagic input = Except.ok bytes) : bytes.length = 2048 := by
  unfold build_bin at h
  cases hp : parse_text headmagic input with
  | error e => rw [hp] at h; cases h
  | ok t =>
    rw [hp] at h
    cases h
    exact fwrite_ptable_length t (parse_text_wf headmagic input t hm hp)

/-! ## The tail in the text form (C23) -/

theorem parse_tail_of_length (hex : List Byte) (h : hex.length ≠ 64) : parse_tail hex = none := by
  unfold parse_tail
  rw [if_pos h]

theorem hex_digit_props : ∀ c : Byte, hex_digit c →
    isspace c = false ∧ c ≠ ch '-' ∧ c ≠ ch '+' := by decide

theorem scan_02x_hex (c0 c1 : Byte) (h0 : hex_digit c0) (h1 : hex_digit c1) :
    scan_02x c0 c1 = some (16 * digit_val c0 + digit_val c1) := by
  obtain ⟨hs, hm, hp⟩ := hex_digit_props c0 h0
  unfold scan_02x
  rw [List.dropWhile_cons_of_neg (by rw [hs]; decide)]
  simp only
  rw [if_neg hm, if_neg hp, if_pos (show digit_val c0 < 16 from h0),
    if_pos (show digit_val c1 < 16 from h1)]

/-- On a string of hexadecimal digits of even length the loop of `parse_tail`
stores one byte for each pair of characters. -/
theorem parse_tail_loop_hex : ∀ (n : Nat) (hex : List Byte), hex.length = 2 * n →
    (∀ c ∈ hex, hex_digit c) →
    ∃ bytes, parse_tail_loop hex = some bytes ∧ bytes.length = n ∧
      ∀ i, i < n → bytes[i]? = some (hex_pair (hex.getD (2 * i) 0) (hex.getD (2 * i + 1) 0)) := by
  intro n
  induction n with
  | zero =>
    intro hex hl _
    have : hex = [] := List.length_eq_zero.mp (by omega)
    subst this
    exact ⟨[], rfl, rfl, fun i hi => absurd hi (by omega)⟩
  | succ n ih =>
    intro hex hl hd
    match hex, hl, hd with
    | c0 :: c1 :: rest, hl, hd =>
      have hr : rest.length = 2 * n := by simp only [List.length_cons] at hl; omega
      obtain ⟨bytes, hb, hlen, hget⟩ := ih rest hr (fun c hc => hd c (by simp [hc]))
      refine ⟨hex_pair c0 c1 :: bytes, ?_, by simp [hlen], ?_⟩
      · unfold parse_tail_loop
        rw [scan_02x_hex c0 c1 (hd c0 (by simp)) (hd c1 (by simp)), hb]
        rfl
      · intro i hi
        cases i with
        | zero => simp
        | succ i =>
          rw [List.getElem?_cons_succ, hget i (by omega)]
          have e1 : 2 * (i + 1) = (2 * i) + 1 + 1 := by ring
          rw [e1]
          rfl

/-- The accepted values: a string of 64 hexadecimal digits is decoded, byte
`i` of the tail being the value of the characters `2 i` and `2 i + 1`. -/
theorem parse_tail_hex (hex : List Byte) (hl : hex.length = 64) (hd : ∀ c ∈ hex, hex_digit c) :
    ∃ tail, parse_tail hex = some tail ∧ tail.length = 32 ∧
      ∀ i, i < 32 → tail[i]? = some (hex_pair (hex.getD (2 * i) 0) (hex.getD (2 * i + 1) 0)) := by
  unfold parse_tail
  rw [if_neg (by rw [hl]; decide)]
  exact parse_tail_loop_hex 32 hex (by rw [hl]) hd

/-- C23: `parse_text` accepts the tail value `1g` followed by 62 zeros, a
string of 64 characters whose second character is no hexadecimal digit, and
stores the tail `01 00 ... 00`; it accepts the value `00 1` followed by 60
zeros as well, the space being skipped as white space in front of the number,
and stores `00 01 00 ... 00`. -/
theorem parse_text_accepts_non_hex_tail :
    non_hex_tail.length = 64 ∧ ¬ (∀ c ∈ non_hex_tail, hex_digit c) ∧
    parse_tail non_hex_tail = some (1 :: List.replicate 31 0) ∧
    parse_text example_magic (key_value_line (str "tail") non_hex_tail) =
      Except.ok { clear_ptable example_magic with tail := 1 :: List.replicate 31 0 } ∧
    spaced_tail.length = 64 ∧ ¬ (∀ c ∈ spaced_tail, hex_digit c) ∧
    parse_text example_magic (key_value_line (str "tail") spaced_tail) =
      Except.ok { clear_ptable example_magic with tail := 0 :: 1 :: List.replicate 30 0 } := by
  refine ⟨by decide, by decide, by decide, by decide!, by decide, by decide, by decide!⟩

/-! ## Partition table: the names of a parsed table (C26) -/

theorem mem_of_mem_strip (s : List Byte) (c : Byte) (h : c ∈ strip s) : c ∈ s := by
  unfold strip at h
  rw [List.mem_reverse] at h
  have h1 := (List.dropWhile_suffix isspace).subset h
  rw [List.mem_reverse] at h1
  exact (List.dropWhile_suffix isspace).subset h1

theorem mem_cstr_ne_zero (buf : List Byte) (c : Byte) (h : c ∈ cstr buf) : c ≠ 0 := by
  unfold cstr at h
  simpa using List.mem_takeWhile_imp h

/-- The value of a `key=value` line holds no NUL: it is part of the C string
in the line buffer. -/
theorem read_line_value_no_nul (l key value : List Byte)
    (h : read_line l = LineKind.key_value key value) : ∀ c ∈ value, c ≠ 0 := by
  unfold read_line at h
  simp only at h
  by_cases h1 : (strip (cstr l)).head? = none ∨ (strip (cstr l)).head? = some (ch '#')
  · rw [if_pos h1] at h; cases h
  rw [if_neg h1] at h
  by_cases h2 : strip (cstr l) = str "[partition]"
  · rw [if_pos h2] at h; cases h
  rw [if_neg h2] at h
  cases hd : List.dropWhile (fun c => decide (c ≠ ch '=')) (strip (cstr l)) with
  | nil => rw [hd] at h; cases h
  | cons e after =>
    rw [hd] at h
    simp only [LineKind.key_value.injEq] at h
    intro c hc
    rw [← h.2] at hc
    have h3 : c ∈ after := mem_of_mem_strip _ _ hc
    have h4 : c ∈ List.dropWhile (fun c => decide (c ≠ ch '=')) (strip (cstr l)) := by
      rw [hd]; exact List.mem_cons_of_mem _ h3
    have h5 := (List.dropWhile_suffix _).subset h4
    exact mem_cstr_ne_zero l c (mem_of_mem_strip _ _ h5)

theorem name_ok_copy16 (value : List Byte) (hl : value.length < 16) (h0 : ∀ c ∈ value, c ≠ 0) :
    name_ok (copy16 value) := by
  have hc : cstr (copy16 value) = value := by
    rw [copy16_eq value (by omega)]
    have : List.replicate (16 - value.length) (0 : Byte) =
        0 :: List.replicate (16 - value.length - 1) 0 := by
      rw [← List.replicate_succ]; congr 1; omega
    rw [this]
    exact cstr_append_nul value _ h0
  refine ⟨copy16_length value, ?_, ?_⟩
  · rw [hc]; omega
  · rw [hc]; exact copy16_eq value (by omega)

theorem name_ok_zero_line : name_ok zero_line.name := by decide

theorem assign_name_ok (x : ptable_line) (key value : List Byte) (hx : name_ok x.name)
    (h0 : ∀ c ∈ value, c ≠ 0) (hl : ¬ (key = str "name" ∧ value.length ≥ 16)) :
    name_ok (assign x key value).name := by
  by_cases hk : key = str "name"
  · have e : assign x key value = { x with name := copy16 value } := by
      unfold assign; rw [if_pos hk]
    rw [e]
    exact name_ok_copy16 value (by by_contra hc; exact hl ⟨hk, by omega⟩) h0
  · rw [assign_name x key value hk]; exact hx

theorem parse_key_value_names (st st1 : ParseState) (key value : List Byte)
    (hn : ∀ l ∈ st.ptable.part, name_ok l.name) (h0 : ∀ c ∈ value, c ≠ 0)
    (h : parse_key_value st key value = Except.ok st1) :
    ∀ l ∈ st1.ptable.part, name_ok l.name := by
  rw [parse_key_value_eq] at h
  by_cases k1 : key = str "version"
  · rw [if_pos k1] at h; cases h; exact hn
  rw [if_neg k1] at h
  by_cases k2 : key = str "product"
  · rw [if_pos k2] at h; cases h; exact hn
  rw [if_neg k2] at h
  by_cases k3 : key = str "tail"
  · rw [if_pos k3] at h
    cases ht : parse_tail value with
    | none => rw [ht] at h; cases h
    | some tl => rw [ht] at h; cases h; exact hn
  rw [if_neg k3] at h
  by_cases k4 : st.current < 0
  · rw [if_pos k4] at h; cases h
  rw [if_neg k4] at h
  by_cases k5 : key = str "name" ∧ value.length ≥ 16
  · rw [if_pos k5] at h; cases h
  rw [if_neg k5] at h
  by_cases k6 : key ∈ entry_keys
  · rw [if_pos k6] at h; cases h
    intro l hl
    simp only [update_line] at hl
    rcases List.mem_or_eq_of_mem_set hl with hl | hl
    · exact hn l hl
    · rw [hl]
      apply assign_name_ok _ _ _ _ h0 k5
      rw [List.getD_eq_getElem?_getD]
      cases hg : st.ptable.part[st.current.toNat]? with
      | none => exact name_ok_zero_line
      | some x => exact hn x (List.getElem?_mem hg)
  · rw [if_neg k6] at h; cases h

theorem parse_lines_names : ∀ (ls : List (List Byte)) (st st' : ParseState),
    (∀ l ∈ st.ptable.part, name_ok l.name) →
    parse_lines ls st = Except.ok st' → ∀ l ∈ st'.ptable.part, name_ok l.name := by
  intro ls
  induction ls with
  | nil => intro st st' hn h; cases h; exact hn
  | cons l rest ih =>
    intro st st' hn h
    rw [parse_lines_cons] at h
    cases hp : parse_line st l with
    | error e => rw [hp] at h; cases h
    | ok st1 =>
      rw [hp] at h
      simp only at h
      refine ih st1 st' ?_ h
      rw [parse_line_read] at hp
      cases hr : read_line l with
      | ignored => rw [hr] at hp; cases hp; exact hn
      | invalid => rw [hr] at hp; cases hp
      | key_value key value =>
        rw [hr] at hp
        exact parse_key_value_names st st1 key value hn (read_line_value_no_nul l key value hr) hp
      | marker =>
        rw [hr] at hp
        simp only at hp
        by_cases h40 : st.current ≥ 40
        · rw [if_pos h40] at hp; cases hp
        · rw [if_neg h40] at hp
          cases hp
          intro x hx
          rcases List.mem_or_eq_of_mem_set hx with hx | hx
          · exact hn x hx
          · rw [hx]; exact name_ok_zero_line

theorem valid_line_name (b : Bool) (l value : List Byte) (h : valid_line b l = true)
    (hr : read_line l = LineKind.key_value (str "name") value) : value.length < 16 := by
  unfold valid_line at h
  rw [hr] at h
  simp only at h
  have e1 : decide (str "name" = str "version") = false := by decide
  have e2 : decide (str "name" = str "product") = false := by decide
  have e3 : decide (str "name" = str "tail") = false := by decide
  have e4 : decide (str "name" ∈ NumField.all.map NumField.key) = false := by decide
  rw [e1, e2, e3, e4] at h
  simp only [Bool.false_or, Bool.false_and, Bool.and_false, Bool.or_false, Bool.and_eq_true,
    decide_eq_true_eq] at h
  exact h.2

theorem name_ok_mem_zero (name : List Byte) (h : name_ok name) : (0 : Byte) ∈ name := by
  obtain ⟨-, h2, h3⟩ := h
  rw [h3]
  apply List.mem_append_right
  have : List.replicate (16 - (cstr name).length) (0 : Byte) =
      0 :: List.replicate (16 - (cstr name).length - 1) 0 := by
    rw [← List.replicate_succ]; congr 1; omega
  rw [this]
  exact List.mem_cons_self _ _

theorem longest_from_some {α : Type} (f : List Byte → Option α) (s : List Byte) (v : α)
    (k0 : Nat) (hk : f (s.take k0) = some v) : ∀ k, k0 ≤ k →
    (∀ j, k0 < j → j ≤ k → f (s.take j) = none) → longest_from f s k = some v := by
  intro k
  induction k with
  | zero =>
    intro h0 _
    have : k0 = 0 := by omega
    subst this
    exact hk
  | succ k ih =>
    intro h0 hnone
    by_cases he : k0 = k + 1
    · subst he
      unfold longest_from
      rw [hk]
    · unfold longest_from
      rw [hnone (k + 1) (by omega) (Nat.le_refl _)]
      exact ih (by omega) (fun j h1 h2 => hnone j h1 (by omega))

theorem longest_from_none {α : Type} (f : List Byte → Option α) (s : List Byte) : ∀ k,
    (∀ j, j ≤ k → f (s.take j) = none) → longest_from f s k = none := by
  intro k
  induction k with
  | zero => intro h; exact h 0 (Nat.le_refl _)
  | succ k ih =>
    intro h
    unfold longest_from
    rw [h (k + 1) (Nat.le_refl _)]
    exact ih (fun j hj => h j (by omega))

theorem take_takeWhile_length {α : Type} (p : α → Bool) : ∀ s : List α,
    s.take (s.takeWhile p).length = s.takeWhile p := by
  intro s
  induction s with
  | nil => rfl
  | cons c r ih =>
    by_cases hc : p c = true
    · rw [List.takeWhile_cons_of_pos hc, List.length_cons, List.take_succ_cons, ih]
    · rw [List.takeWhile_cons_of_neg hc]; rfl

theorem all_take_false {α : Type} (p : α → Bool) : ∀ (s : List α) (k : Nat),
    (s.takeWhile p).length < k → k ≤ s.length → (s.take k).all p = false := by
  intro s
  induction s with
  | nil => intro k h1 h2; simp only [List.length_nil] at h2; simp at h1; omega
  | cons c r ih =>
    intro k h1 h2
    cases k with
    | zero => omega
    | succ k =>
      rw [List.take_succ_cons, List.all_cons]
      by_cases hc : p c = true
      · rw [List.takeWhile_cons_of_pos hc, List.length_cons] at h1
        rw [hc, Bool.true_and]
        exact ih k (by omega) (by simp only [List.length_cons] at h2; omega)
      · rw [Bool.not_eq_true] at hc
        rw [hc, Bool.false_and]

theorem all_takeWhile {α : Type} (p : α → Bool) (s : List α) : (s.takeWhile p).all p = true := by
  rw [List.all_eq_true]
  intro c hc
  exact List.mem_takeWhile_imp hc

theorem parse_digits_eq (base : Nat) (s : List Byte) :
    parse_digits base s =
      digits_value base (s.takeWhile (fun c => decide (digit_val c < base))) := rfl

theorem strtoul_magnitude_decimal (c0 : Byte) (r : List Byte) (h0 : c0 ≠ ch '0') :
    strtoul_magnitude (c0 :: r) = parse_digits 10 (c0 :: r) := by
  cases r with
  | nil => unfold strtoul_magnitude; simp only; rw [if_neg h0]
  | cons c1 r1 =>
    cases r1 with
    | nil => unfold strtoul_magnitude; simp only; rw [if_neg h0]
    | cons c2 r2 =>
      unfold strtoul_magnitude
      simp only
      rw [if_neg (fun h => h0 h.1), if_neg h0]

theorem strtoul_magnitude_octal (r : List Byte)
    (h : ∀ c1 c2 r2, r = c1 :: c2 :: r2 → ¬ ((c1 = ch 'x' ∨ c1 = ch 'X') ∧ digit_val c2 < 16)) :
    strtoul_magnitude (ch '0' :: r) = parse_digits 8 (ch '0' :: r) := by
  cases r with
  | nil => rfl
  | cons c1 r1 =>
    cases r1 with
    | nil => rfl
    | cons c2 r2 =>
      unfold strtoul_magnitude
      simp only
      rw [if_neg (fun hh => h c1 c2 r2 rfl hh.2), if_pos trivial]

/-- In base 10: the digits `strtoul` reads are the longest leading numeral. -/
theorem longest_numeral_decimal (c0 : Byte) (r : List Byte) (h0 : c0 ≠ ch '0') :
    (longest_from spec_numeral (c0 :: r) (c0 :: r).length).getD 0 = parse_digits 10 (c0 :: r) := by
  rw [parse_digits_eq]
  have hnum : ∀ j, spec_numeral ((c0 :: r).take (j + 1)) =
      if all_digits 10 ((c0 :: r).take (j + 1)) = true
      then some (digits_value 10 ((c0 :: r).take (j + 1))) else none := by
    intro j
    rw [List.take_succ_cons]
    unfold spec_numeral
    simp only
    rw [if_neg h0]
  by_cases hd : digit_val c0 < 10
  · have htw : ((c0 :: r).takeWhile (fun c => decide (digit_val c < 10))).length =
        (r.takeWhile (fun c => decide (digit_val c < 10))).length + 1 := by
      rw [List.takeWhile_cons_of_pos (by simpa using hd), List.length_cons]
    have hle : (r.takeWhile (fun c => decide (digit_val c < 10))).length ≤ r.length :=
      (List.takeWhile_sublist _).length_le
    rw [longest_from_some spec_numeral (c0 :: r)
      (digits_value 10 ((c0 :: r).takeWhile (fun c => decide (digit_val c < 10))))
      ((c0 :: r).takeWhile (fun c => decide (digit_val c < 10))).length]
    · rfl
    · rw [htw, hnum, ← htw, take_takeWhile_length]
      unfold all_digits
      rw [all_takeWhile, if_pos rfl]
    · rw [htw, List.length_cons]; omega
    · intro j h1 h2
      cases j with
      | zero => omega
      | succ j =>
        rw [hnum]
        unfold all_digits
        rw [all_take_false _ _ _ h1 h2]
        rfl
  · have htw : (c0 :: r).takeWhile (fun c => decide (digit_val c < 10)) = [] := by
      rw [List.takeWhile_cons_of_neg (by simpa using hd)]
    rw [htw, longest_from_none spec_numeral (c0 :: r)]
    · rfl
    · intro j hj
      cases j with
      | zero => rfl
      | succ j =>
        rw [hnum]
        unfold all_digits
        rw [all_take_false _ _ _ (by rw [htw]; exact Nat.succ_pos _) hj]
        rfl

theorem numeral_zero_nil : spec_numeral [ch '0'] = some 0 := rfl

theorem numeral_zero_hex (c1 : Byte) (ds : List Byte) (h : c1 = ch 'x' ∨ c1 = ch 'X') :
    spec_numeral (ch '0' :: c1 :: ds) =
      if ds ≠ [] ∧ all_digits 16 ds = true then some (digits_value 16 ds) else none := by
  unfold spec_numeral
  simp only
  rw [if_pos trivial, if_pos h]

theorem numeral_zero_octal (c1 : Byte) (ds : List Byte) (h : ¬ (c1 = ch 'x' ∨ c1 = ch 'X')) :
    spec_numeral (ch '0' :: c1 :: ds) =
      if all_digits 8 (c1 :: ds) = true then some (digits_value 8 (c1 :: ds)) else none := by
  unfold spec_numeral
  simp only
  rw [if_pos trivial, if_neg h]

/-- In base 16: after `0x` and a hexadecimal digit, the digits `strtoul` reads
end the longest leading numeral. -/
theorem longest_numeral_hex (c1 c2 : Byte) (r2 : List Byte) (h1 : c1 = ch 'x' ∨ c1 = ch 'X')
    (h2 : digit_val c2 < 16) :
    (longest_from spec_numeral (ch '0' :: c1 :: c2 :: r2) (ch '0' :: c1 :: c2 :: r2).length).getD 0 =
      parse_digits 16 (c2 :: r2) := by
  rw [parse_digits_eq]
  have hnum : ∀ j, spec_numeral ((ch '0' :: c1 :: c2 :: r2).take (j + 1 + 2)) =
      if all_digits 16 ((c2 :: r2).take (j + 1)) = true
      then some (digits_value 16 ((c2 :: r2).take (j + 1))) else none := by
    intro j
    rw [List.take_succ_cons, List.take_succ_cons, numeral_zero_hex _ _ h1]
    by_cases ha : all_digits 16 ((c2 :: r2).take (j + 1)) = true
    · rw [if_pos ⟨by rw [List.take_succ_cons]; exact List.cons_ne_nil _ _, ha⟩, if_pos ha]
    · rw [if_neg (fun hh => ha hh.2), if_neg ha]
  have htw : ((c2 :: r2).takeWhile (fun c => decide (digit_val c < 16))).length =
      (r2.takeWhile (fun c => decide (digit_val c < 16))).length + 1 := by
    rw [List.takeWhile_cons_of_pos (by simpa using h2), List.length_cons]
  have hle : (r2.takeWhile (fun c => decide (digit_val c < 16))).length ≤ r2.length :=
    (List.takeWhile_sublist _).length_le
  rw [longest_from_some spec_numeral (ch '0' :: c1 :: c2 :: r2)
    (digits_value 16 ((c2 :: r2).takeWhile (fun c => decide (digit_val c < 16))))
    (((c2 :: r2).takeWhile (fun c => decide (digit_val c < 16))).length + 2)]
  · rfl
  · rw [htw, hnum, ← htw, take_takeWhile_length]
    unfold all_digits
    rw [all_takeWhile, if_pos rfl]
  · rw [htw]; simp only [List.length_cons]; omega
  · intro j h3 h4
    obtain ⟨i, rfl⟩ : ∃ i, j = i + 1 + 2 := ⟨j - 3, by omega⟩
    rw [hnum]
    unfold all_digits
    rw [all_take_false _ _ _ (by omega) (by simp only [List.length_cons] at h4 ⊢; omega)]
    rfl

theorem digits_value_zero_cons (base : Nat) (ds : List Byte) :
    digits_value base (ch '0' :: ds) = digits_value base ds := by
  unfold digits_value
  rw [List.map_cons, List.foldl_cons]
  have : 0 * base + digit_val (ch '0') = 0 := by
    rw [Nat.zero_mul, Nat.zero_add]; rfl
  rw [this]

theorem octal_not_x : ∀ c : Byte, digit_val c < 8 → ¬ (c = ch 'x' ∨ c = ch 'X') := by decide

/-- In base 8: after a `0` that starts no hexadecimal numeral, the digits
`strtoul` reads are the longest leading numeral. -/
theorem longest_numeral_octal (r : List Byte)
    (h : ∀ c1 c2 r2, r = c1 :: c2 :: r2 → ¬ ((c1 = ch 'x' ∨ c1 = ch 'X') ∧ digit_val c2 < 16)) :
    (longest_from spec_numeral (ch '0' :: r) (ch '0' :: r).length).getD 0 =
      parse_digits 8 (ch '0' :: r) := by
  rw [parse_digits_eq, List.takeWhile_cons_of_pos (by decide), digits_value_zero_cons]
  have hle : (r.takeWhile (fun c => decide (digit_val c < 8))).length ≤ r.length :=
    (List.takeWhile_sublist _).length_le
  rw [longest_from_some spec_numeral (ch '0' :: r)
    (digits_value 8 (r.takeWhile (fun c => decide (digit_val c < 8))))
    ((r.takeWhile (fun c => decide (digit_val c < 8))).length + 1)]
  · rfl
  · rw [List.take_succ_cons, take_takeWhile_length]
    cases htw : r.takeWhile (fun c => decide (digit_val c < 8)) with
    | nil => rfl
    | cons c1 ds =>
      have hall := all_takeWhile (fun c => decide (digit_val c < 8)) r
      rw [htw] at hall
      have hc1 : digit_val c1 < 8 := by
        rw [List.all_cons, Bool.and_eq_true] at hall
        simpa using hall.1
      rw [numeral_zero_octal c1 ds (octal_not_x c1 hc1)]
      unfold all_digits
      rw [hall, if_pos rfl]
  · simp only [List.length_cons]; omega
  · intro j h3 h4
    obtain ⟨i, rfl⟩ : ∃ i, j = i + 1 := ⟨j - 1, by omega⟩
    simp only [List.length_cons] at h4
    rw [List.take_succ_cons]
    cases r with
    | nil => simp only [List.length_nil] at h4; omega
    | cons c1 r1 =>
      obtain ⟨i, rfl⟩ : ∃ i', i = i' + 1 := ⟨i - 1, by omega⟩
      rw [List.take_succ_cons]
      by_cases hx : c1 = ch 'x' ∨ c1 = ch 'X'
      · rw [numeral_zero_hex c1 _ hx]
        apply if_neg
        rintro ⟨hne, hall⟩
        cases r1 with
        | nil => exact hne (by simp)
        | cons c2 r2 =>
          cases i with
          | zero => exact hne rfl
          | succ i =>
            rw [List.take_succ_cons] at hall
            unfold all_digits at hall
            rw [List.all_cons, Bool.and_eq_true] at hall
            exact h c1 c2 r2 rfl ⟨hx, by simpa using hall.1⟩
      · rw [numeral_zero_octal c1 _ hx]
        apply if_neg
        intro hall
        have hf := all_take_false (fun c => decide (digit_val c < 8)) (c1 :: r1) (i + 1)
          (by omega) (by simp only [List.length_cons] at h4 ⊢; omega)
        rw [List.take_succ_cons] at hf
        unfold all_digits at hall
        rw [hf] at hall
        cases hall

/-- The magnitude `strtoul` reads is the number the longest leading numeral
denotes, 0 when there is none. -/
theorem strtoul_magnitude_eq (s : List Byte) :
    strtoul_magnitude s = (longest_from spec_numeral s s.length).getD 0 := by
  cases s with
  | nil => rfl
  | cons c0 r =>
    by_cases h0 : c0 = ch '0'
    · subst h0
      by_cases hx : ∃ c1 c2 r2, r = c1 :: c2 :: r2 ∧ (c1 = ch 'x' ∨ c1 = ch 'X') ∧
          digit_val c2 < 16
      · obtain ⟨c1, c2, r2, rfl, h1, h2⟩ := hx
        rw [longest_numeral_hex c1 c2 r2 h1 h2]
        unfold strtoul_magnitude
        simp only
        rw [if_pos ⟨trivial, h1, h2⟩]
      · have hx2 : ∀ c1 c2 r2, r = c1 :: c2 :: r2 →
            ¬ ((c1 = ch 'x' ∨ c1 = ch 'X') ∧ digit_val c2 < 16) :=
          fun c1 c2 r2 e hh => hx ⟨c1, c2, r2, e, hh⟩
        rw [longest_numeral_octal r hx2, strtoul_magnitude_octal r hx2]
    · rw [longest_numeral_decimal c0 r h0, strtoul_magnitude_decimal c0 r h0]

theorem longest_from_minus (r : List Byte) : ∀ k,
    longest_from spec_signed_numeral (ch '-' :: r) (k + 1) =
      (longest_from spec_numeral r k).map (fun n => - (n : Int)) := by
  intro k
  induction k with
  | zero => rfl
  | succ k ih =>
    unfold longest_from
    rw [List.take_succ_cons]
    have : spec_signed_numeral (ch '-' :: r.take (k + 1)) =
        (spec_numeral (r.take (k + 1))).map (fun n => - (n : Int)) := rfl
    rw [this]
    cases hn : spec_numeral (r.take (k + 1)) with
    | some v => rfl
    | none => exact ih

theorem longest_from_plus (r : List Byte) : ∀ k,
    longest_from spec_signed_numeral (ch '+' :: r) (k + 1) =
      (longest_from spec_numeral r k).map (fun n => (n : Int)) := by
  intro k
  induction k with
  | zero => rfl
  | succ k ih =>
    unfold longest_from
    rw [List.take_succ_cons]
    have : spec_signed_numeral (ch '+' :: r.take (k + 1)) =
        (spec_numeral (r.take (k + 1))).map (fun n => (n : Int)) := rfl
    rw [this]
    cases hn : spec_numeral (r.take (k + 1)) with
    | some v => rfl
    | none => exact ih

theorem longest_from_unsigned (c : Byte) (r : List Byte) (hm : c ≠ ch '-') (hp : c ≠ ch '+') :
    ∀ k, longest_from spec_signed_numeral (c :: r) k =
      (longest_from spec_numeral (c :: r) k).map (fun n => (n : Int)) := by
  intro k
  induction k with
  | zero => rfl
  | succ k ih =>
    unfold longest_from
    rw [List.take_succ_cons]
    have : spec_signed_numeral (c :: r.take k) =
        (spec_numeral (c :: r.take k)).map (fun n => (n : Int)) := by
      unfold spec_signed_numeral
      simp only
      rw [if_neg hm, if_neg hp]
    rw [this]
    cases hn : spec_numeral (c :: r.take k) with
    | some v => rfl
    | none => exact ih

/-- The number the longest leading numeral of a value denotes, by the sign and
the magnitude `strtoul` reads. -/
theorem leading_numeral_eq (value : List Byte) :
    spec_leading_numeral value =
      if (strtoul_sign value).1 then - (strtoul_magnitude (strtoul_sign value).2 : Int)
      else (strtoul_magnitude (strtoul_sign value).2 : Int) := by
  unfold spec_leading_numeral
  cases value with
  | nil => rfl
  | cons c r =>
    by_cases hm : c = ch '-'
    · subst hm
      have hs : strtoul_sign (ch '-' :: r) = (true, r) := rfl
      rw [hs, List.length_cons, longest_from_minus, strtoul_magnitude_eq r]
      simp only [if_true]
      cases longest_from spec_numeral r r.length <;> rfl
    · by_cases hp : c = ch '+'
      · subst hp
        have hs : strtoul_sign (ch '+' :: r) = (false, r) := rfl
        rw [hs, List.length_cons, longest_from_plus, strtoul_magnitude_eq r]
        simp only [Bool.false_eq_true, if_false]
        cases longest_from spec_numeral r r.length <;> rfl
      · have hs : strtoul_sign (c :: r) = (false, c :: r) := by
          unfold strtoul_sign
          simp only
          rw [if_neg hm, if_neg hp]
        rw [hs, longest_from_unsigned c r hm hp, strtoul_magnitude_eq (c :: r)]
        simp only [Bool.false_eq_true, if_false]
        cases longest_from spec_numeral (c :: r) (c :: r).length <;> rfl

/-- What `strtoul` returns for a value without leading white space, cut to 32
bits: the number of the longest leading numeral modulo `2 ^ 32` when its
magnitude is at most `ULONG_MAX`, and `0xFFFFFFFF` when it is larger. -/
theorem strtoul_leading_numeral (value : List Byte)
    (hws : ∀ c, value.head? = some c → isspace c = false) :
    ((spec_leading_numeral value).natAbs ≤ ULONG_MAX →
      ((strtoul value % 2 ^ 32 : Nat) : Int) = spec_leading_numeral value % 2 ^ 32) ∧
    (ULONG_MAX < (spec_leading_numeral value).natAbs → strtoul value % 2 ^ 32 = 2 ^ 32 - 1) := by
  have hdw : value.dropWhile isspace = value := by
    cases value with
    | nil => rfl
    | cons c r =>
      rw [List.dropWhile_cons_of_neg]
      rw [hws c rfl]; decide
  rw [leading_numeral_eq]
  unfold strtoul
  simp only [hdw]
  generalize strtoul_magnitude (strtoul_sign value).2 = m
  unfold ULONG_MAX
  cases (strtoul_sign value).1
  · simp only [Bool.false_eq_true, if_false, Int.natAbs_ofNat]
    constructor
    · intro h
      rw [if_neg (by omega)]
      omega
    · intro h
      rw [if_pos (by omega)]
      norm_num
  · simp only [if_true, Int.natAbs_neg, Int.natAbs_ofNat]
    constructor
    · intro h
      rw [if_neg (by omega)]
      omega
    · intro h
      rw [if_pos (by omega)]
      norm_num

/-- C27, amended: after a text that is empty or ends in a line feed, that
`parse_text` accepts and in which it has read a `[partition]` marker, a line
`key=value` of at most 255 bytes with its line feed, where the key is one of
the eight numeric keys and the value any string without NUL, line feed or
white space at its ends (the empty string, `abc`, ...), is accepted:
`parse_text` stores a number in that field of the open entry, the one of the
last marker it has read, and changes nothing else.  The number is the one
denoted by the longest leading part of the value that is a numeral (0 when
there is none), modulo `2 ^ 32`, when its magnitude is at most `ULONG_MAX`,
and `0xFFFFFFFF` when the magnitude is larger.  The markers it has read are
those among the pieces `fgets` cuts the text into, which are the lines of the
text when these fit the line buffer. -/
theorem parse_text_any_value (headmagic pre value : List Byte) (f : NumField)
    (t0 : ptable_t) (hpre : at_line_boundary pre)
    (h0 : parse_text headmagic pre = Except.ok t0)
    (hopen : 1 ≤ opened (fgets_chunks MAX_LINE pre))
    (hval : text_ok value) (hlen : (key_value_line f.key value).length < MAX_LINE) :
    (∃ stored : Nat,
      parse_text headmagic (pre ++ key_value_line f.key value) =
        Except.ok { t0 with
          part := t0.part.set (opened (fgets_chunks MAX_LINE pre) - 1)
            (f.set (t0.part.getD (opened (fgets_chunks MAX_LINE pre) - 1) zero_line)
              stored) } ∧
      ((spec_leading_numeral value).natAbs ≤ ULONG_MAX →
        (stored : Int) = spec_leading_numeral value % 2 ^ 32) ∧
      (ULONG_MAX < (spec_leading_numeral value).natAbs → stored = 2 ^ 32 - 1)) ∧
    (lines_fit pre → fgets_chunks MAX_LINE pre = text_lines pre) := by
  refine ⟨⟨strtoul value % 2 ^ 32, ?_, strtoul_leading_numeral value hval.2.1⟩,
    fgets_chunks_eq_text_lines pre⟩
  unfold parse_text at h0
  cases hp : parse_lines (fgets_chunks MAX_LINE pre) ⟨-1, clear_ptable headmagic⟩ with
  | error e => rw [hp] at h0; cases h0
  | ok st =>
    rw [hp] at h0
    simp only at h0
    obtain ⟨hinv, hcur, -⟩ := parse_lines_run _ _ _ (clear_ptable_inv headmagic) hp
    rw [terminate_table_of_inv st hinv] at h0
    cases h0
    simp only at hcur
    have hc0 : 0 ≤ st.current := by omega
    have hidx : st.current.toNat = opened (fgets_chunks MAX_LINE pre) - 1 := by omega
    have hkv := parse_key_value_num st f value hc0
    have hstep : parse_lines (fgets_chunks MAX_LINE (key_value_line f.key value)) st =
        Except.ok (update_line st (fun l => f.set l (strtoul value % 2 ^ 32))) := by
      have := parse_lines_kv st _ f.key value [] [] (key_ok_num f).1 hval
        (fun c hc => by cases hc) (by
          unfold key_value_line at hlen
          simp only [List.length_append, List.length_cons, List.length_nil] at hlen ⊢
          omega) hkv
      rw [fgets_chunks_nil] at this
      unfold key_value_line
      rw [List.append_nil] at this
      exact this
    have hinv1 : (update_line st (fun l => f.set l (strtoul value % 2 ^ 32))).inv :=
      (parse_lines_run _ st _ hinv hstep).1
    unfold parse_text
    rw [fgets_chunks_append pre _ hpre, parse_lines_append, hp]
    simp only
    rw [hstep]
    simp only
    rw [terminate_table_of_inv _ hinv1]
    unfold update_line
    rw [hidx]

/-- C27, counterexample: the start `18446744073709551616` is a numeral that
denotes `2 ^ 64`, which is 0 modulo `2 ^ 32`, and `parse_text` stores
`0xFFFFFFFF`; the start made of 300 digits `1` makes `parse_text` fail, the
line being read in two pieces of which the second has no `=`. -/
theorem numeric_value_counterexamples :
    (spec_leading_numeral two_pow_64 = 2 ^ 64 ∧ spec_leading_numeral two_pow_64 % 2 ^ 32 = 0 ∧
      parse_text example_magic overflow_text =
        Except.ok { clear_ptable example_magic with
          part := ⟨List.replicate 16 0, 2 ^ 32 - 1, 0, 0, 0, 0, 0, 0, 0⟩ ::
            List.replicate 40 zero_line }) ∧
    parse_text example_magic long_number_text = Except.error ParseError.invalid_line := by
  refine ⟨⟨by decide!, by decide!, by decide!⟩, by decide!⟩

/-- C27, witness: after the lines `[partition]` and `name=modem`, the line
`length=abc`, whose value has no leading numeral, is accepted and stores 0 in
the length of entry 0; after a text whose comment of 267 bytes ends in
`[partition]`, read as a second marker, the line `start=7up` stores 7 in the
start of entry 1. -/
theorem parse_text_any_value_witness :
    (at_line_boundary (str "[partition]\nname=modem\n") ∧
    opened (fgets_chunks MAX_LINE (str "[partition]\nname=modem\n")) = 1 ∧
    text_ok (str "abc") ∧ spec_leading_numeral (str "abc") = 0 ∧
    ∃ stored : Nat,
      parse_text example_magic (str "[partition]\nname=modem\n" ++
          key_value_line (str "length") (str "abc")) =
        Except.ok { clear_ptable example_magic with
          part := ⟨copy16 (str "modem"), 0, 0, stored, 0, 0, 0, 0, 0⟩ ::
            List.replicate 40 zero_line } ∧
      ((spec_leading_numeral (str "abc")).natAbs ≤ ULONG_MAX →
        (stored : Int) = spec_leading_numeral (str "abc") % 2 ^ 32) ∧
      (ULONG_MAX < (spec_leading_numeral (str "abc")).natAbs → stored = 2 ^ 32 - 1)) ∧
    (at_line_boundary long_comment_marker ∧ ¬ lines_fit long_comment_marker ∧
    opened (fgets_chunks MAX_LINE long_comment_marker) = 2 ∧
    text_ok (str "7up") ∧ spec_leading_numeral (str "7up") = 7 ∧
    ∃ stored : Nat,
      parse_text example_magic (long_comment_marker ++
          key_value_line (str "start") (str "7up")) =
        Except.ok { clear_ptable example_magic with
          part := zero_line :: ⟨copy16 (str "a"), stored, 0, 0, 0, 0, 0, 0, 0⟩ ::
            List.replicate 39 zero_line } ∧
      ((spec_leading_numeral (str "7up")).natAbs ≤ ULONG_MAX →
        (stored : Int) = spec_leading_numeral (str "7up") % 2 ^ 32) ∧
      (ULONG_MAX < (spec_leading_numeral (str "7up")).natAbs → stored = 2 ^ 32 - 1)) := by
  have ho : opened (fgets_chunks MAX_LINE (str "[partition]\nname=modem\n")) = 1 := by decide
  have h1 := (parse_text_any_value example_magic (str "[partition]\nname=modem\n") (str "abc")
      NumField.length
      { clear_ptable example_magic with
        part := ⟨copy16 (str "modem"), 0, 0, 0, 0, 0, 0, 0, 0⟩ :: List.replicate 40 zero_line }
      (by decide) (by decide!) (by rw [ho]) (by decide) (by decide)).1
  rw [ho] at h1
  have ho3 : opened (fgets_chunks MAX_LINE long_comment_marker) = 2 := by decide!
  have h3 := (parse_text_any_value example_magic long_comment_marker (str "7up")
      NumField.start
      { clear_ptable example_magic with
        part := zero_line :: ⟨copy16 (str "a"), 0, 0, 0, 0, 0, 0, 0, 0⟩ ::
          List.replicate 39 zero_line }
      (by decide!) (by decide!) (by rw [ho3]; decide) (by decide) (by decide)).1
  rw [ho3] at h3
  exact ⟨⟨by decide, ho, by decide, by decide!, h1⟩,
    ⟨by decide!, by decide!, ho3, by decide, by decide!, h3⟩⟩

/-! ## The metadata file (C24) -/

theorem dec_char_props : ∀ d, d < 10 →
    digit_val (dec_char d) = d ∧ dec_char d ≠ 0 ∧ dec_char d ≠ ch '\n' ∧
    dec_char d ≠ ch '\r' ∧ dec_char d ≠ ch '=' ∧ (d ≠ 0 → dec_char d ≠ ch '0') := by
  decide

theorem fmt_dec_loop_append : ∀ (fuel n : Nat) (acc : List Byte),
    fmt_dec_loop fuel n acc = fmt_dec_loop fuel n [] ++ acc := by
  intro fuel
  induction fuel with
  | zero => intro n acc; rfl
  | succ f ih =>
    intro n acc
    unfold fmt_dec_loop
    split
    · rfl
    · rw [ih (n / 10) (dec_char (n % 10) :: acc), ih (n / 10) [dec_char (n % 10)]]
      simp

/-- Every character of a decimal conversion is a decimal digit. -/
theorem fmt_dec_loop_digits : ∀ (fuel n : Nat), ∀ c ∈ fmt_dec_loop fuel n [],
    ∃ d, d < 10 ∧ c = dec_char d := by
  intro fuel
  induction fuel with
  | zero => intro n c hc; simp [fmt_dec_loop] at hc
  | succ f ih =>
    intro n c hc
    unfold fmt_dec_loop at hc
    split at hc
    · simp only [List.mem_singleton] at hc
      exact ⟨n % 10, Nat.mod_lt _ (by decide), hc⟩
    · rw [fmt_dec_loop_append] at hc
      simp only [List.mem_append, List.mem_singleton] at hc
      rcases hc with hc | hc
      · exact ih _ c hc
      · exact ⟨n % 10, Nat.mod_lt _ (by decide), hc⟩

theorem fmt_dec_loop_ne_nil (fuel n : Nat) : fmt_dec_loop (fuel + 1) n [] ≠ [] := by
  unfold fmt_dec_loop
  split
  · simp
  · rw [fmt_dec_loop_append]; simp

theorem fmt_dec_loop_length : ∀ (fuel n : Nat), (fmt_dec_loop fuel n []).length ≤ fuel := by
  intro fuel
  induction fuel with
  | zero => intro n; simp [fmt_dec_loop]
  | succ f ih =>
    intro n
    unfold fmt_dec_loop
    split
    · simp
    · rw [fmt_dec_loop_append]
      have := ih (n / 10)
      simp only [List.length_append, List.length_singleton]
      omega

theorem digits_value_append (base : Nat) (xs : List Byte) (c : Byte) :
    digits_value base (xs ++ [c]) = digits_value base xs * base + digit_val c := by
  simp [digits_value, List.foldl_append]

/-- A decimal conversion with enough room for the number denotes it and does
not start with `0`, unless the number is 0. -/
theorem fmt_dec_loop_value : ∀ (fuel n : Nat), n < 10 ^ (fuel + 1) →
    digits_value 10 (fmt_dec_loop (fuel + 1) n []) = n ∧
    (n ≠ 0 → (fmt_dec_loop (fuel + 1) n []).head? ≠ some (ch '0')) := by
  intro fuel
  induction fuel with
  | zero =>
    intro n hn
    have hd := dec_char_props (n % 10) (Nat.mod_lt _ (by decide))
    have h0 : n / 10 = 0 := by omega
    have e : fmt_dec_loop 1 n [] = [dec_char (n % 10)] := by
      unfold fmt_dec_loop; rw [if_pos h0]
    rw [e]
    refine ⟨?_, fun hne h => ?_⟩
    · simp only [digits_value, List.map_cons, List.map_nil, List.foldl_cons, List.foldl_nil, hd.1]
      omega
    · simp only [List.head?_cons, Option.some.injEq] at h
      exact hd.2.2.2.2.2 (by omega) h
  | succ f ih =>
    intro n hn
    have hd := dec_char_props (n % 10) (Nat.mod_lt _ (by decide))
    by_cases h0 : n / 10 = 0
    · have e : fmt_dec_loop (f + 1 + 1) n [] = [dec_char (n % 10)] := by
        unfold fmt_dec_loop; rw [if_pos h0]
      rw [e]
      refine ⟨?_, fun hne h => ?_⟩
      · simp only [digits_value, List.map_cons, List.map_nil, List.foldl_cons, List.foldl_nil,
          hd.1]
        omega
      · simp only [List.head?_cons, Option.some.injEq] at h
        exact hd.2.2.2.2.2 (by omega) h
    · have e : fmt_dec_loop (f + 1 + 1) n [] =
          fmt_dec_loop (f + 1) (n / 10) [] ++ [dec_char (n % 10)] := by
        rw [fmt_dec_loop, if_neg h0, fmt_dec_loop_append]
      have hlt : n / 10 < 10 ^ (f + 1) := by
        rw [Nat.div_lt_iff_lt_mul (by decide)]
        rw [Nat.pow_succ] at hn
        exact hn
      obtain ⟨hv, hh⟩ := ih (n / 10) hlt
      rw [e]
      refine ⟨?_, fun _ => ?_⟩
      · rw [digits_value_append, hv, hd.1]
        omega
      · have hne := fmt_dec_loop_ne_nil f (n / 10)
        cases hl : fmt_dec_loop (f + 1) (n / 10) [] with
        | nil => exact absurd hl hne
        | cons c r =>
          rw [hl] at hh
          exact hh h0

theorem fmt_u_denotes (v : Nat) :
    denotes 10 (fmt_u v) (v % 2 ^ 32) ∧ no_leading_zero (fmt_u v) := by
  have hlt : v % 2 ^ 32 < 10 ^ (9 + 1) :=
    Nat.lt_trans (Nat.mod_lt v (by decide)) (by norm_num)
  obtain ⟨hv, hh⟩ := fmt_dec_loop_value 9 (v % 2 ^ 32) hlt
  refine ⟨⟨fmt_dec_loop_ne_nil 9 _, fun c hc => ?_, hv⟩, ?_⟩
  · obtain ⟨d, hd, e⟩ := fmt_dec_loop_digits 10 _ c hc
    rw [e, (dec_char_props d hd).1]
    exact hd
  · by_cases h0 : v % 2 ^ 32 = 0
    · right
      unfold fmt_u
      rw [h0]
      rfl
    · left
      exact hh h0

/-- The function `strtoul` reads back what `%u` prints. -/
theorem strtoul_fmt_u (v : Nat) : strtoul (fmt_u v) % 2 ^ 32 = v % 2 ^ 32 :=
  strtoul_decimal (fmt_u v) (v % 2 ^ 32) (fmt_u_denotes v).1 (fmt_u_denotes v).2
    (Nat.mod_lt v (by decide))

theorem hex_zeros_value (k : Nat) (ds : List Byte) :
    ((List.replicate k (ch '0') ++ ds).map digit_val).foldl (fun acc d => acc * 16 + d) 0 =
      (ds.map digit_val).foldl (fun acc d => acc * 16 + d) 0 := by
  induction k with
  | zero => rfl
  | succ k ih =>
    rw [List.replicate_succ, List.cons_append, List.map_cons, List.foldl_cons]
    have : 0 * 16 + digit_val (ch '0') = 0 := rfl
    rw [this]
    exact ih

theorem fmt_08x_denotes (v : Nat) : denotes 16 (fmt_08x v) (v % 2 ^ 32) := by
  obtain ⟨hhex, hne, -, hval⟩ := fmt_x_props v
  refine ⟨?_, ?_, ?_⟩
  · unfold fmt_08x
    intro h
    exact hne (List.append_eq_nil.mp h).2
  · intro c hc
    unfold fmt_08x at hc
    rcases List.mem_append.mp hc with hc | hc
    · rw [List.eq_of_mem_replicate hc]; decide
    · obtain ⟨d, hd, e⟩ := hhex c hc
      rw [e, (hex_char_props d hd).1]
      exact hd
  · unfold fmt_08x
    rw [hex_zeros_value]
    exact hval

/-- The function `strtoul` reads back what `0x%08x` prints. -/
theorem strtoul_fmt_08x (v : Nat) : strtoul (str "0x" ++ fmt_08x v) % 2 ^ 32 = v % 2 ^ 32 :=
  strtoul_hexadecimal (fmt_08x v) (v % 2 ^ 32) (fmt_08x_denotes v) (Nat.mod_lt v (by decide))

theorem fmt_08x_length (v : Nat) : (fmt_08x v).length = 8 := by
  obtain ⟨-, -, hlen, -⟩ := fmt_x_props v
  unfold fmt_08x
  rw [List.length_append, List.length_replicate]
  omega

theorem fmt_d_digit : ∀ i, i < 10 → fmt_d i = [dec_char i] := by decide

/-- A line `key=value` with its line feed is taken apart by `sscanf` into that
key and that value. -/
theorem scan_key_value_line (k a : List Byte) (hk : k ≠ []) (hk1 : ∀ c ∈ k, c ≠ ch '=')
    (hklen : k.length ≤ 63) (ha : a ≠ []) (ha1 : ∀ c ∈ a, c ≠ ch '\r' ∧ c ≠ ch '\n')
    (halen : a.length ≤ 255) :
    scan_key_value (k ++ ch '=' :: (a ++ [ch '\n'])) = some (k, a) := by
  have h1 : (k ++ ch '=' :: (a ++ [ch '\n'])).takeWhile (fun c => decide (c ≠ ch '=')) = k := by
    rw [takeWhile_append_of_all _ _ _ (fun c hc => by simpa using hk1 c hc)]
    simp
  have h2 : (a ++ [ch '\n']).takeWhile (fun c => decide (c ≠ ch '\r' ∧ c ≠ ch '\n')) = a := by
    rw [takeWhile_append_of_all _ _ _ (fun c hc => by simpa using ha1 c hc)]
    simp
  unfold scan_key_value
  simp only [h1]
  rw [List.take_of_length_le hklen, if_neg hk, List.drop_left]
  simp only [h2]
  rw [if_neg (by simp), List.take_of_length_le halen, if_neg ha]

theorem meta_line_comment (st : MetaState) (line : List Byte) :
    meta_line st (ch '#' :: line) = st := by
  unfold meta_line
  exact if_pos (Or.inl rfl)

theorem meta_line_blank (st : MetaState) : meta_line st [ch '\n'] = st := by
  unfold meta_line
  exact if_pos (Or.inr (Or.inl rfl))

theorem scan_block_header_digit : ∀ i, i < 10 →
    scan_block_header (cstr (str "[Block" ++ fmt_d i ++ str "]\n")) = some (i : Int) ∧
    (str "[Block" ++ fmt_d i ++ str "]\n").head? = some (ch '[') := by
  decide

/-- The line `[Block<i>]` makes `i` the current block and raises the block
count to `i + 1` when it is lower. -/
theorem meta_line_header (st : MetaState) (i : Nat) (hi : i < 10) :
    meta_line st (str "[Block" ++ fmt_d i ++ str "]\n") =
      { st with
        current_block := i,
        block_count := if (i : Int) ≥ st.block_count then i + 1 else st.block_count } := by
  obtain ⟨h1, h2⟩ := scan_block_header_digit i hi
  unfold meta_line
  rw [if_neg (by rw [h2]; decide), if_pos h2, h1]
  simp only
  by_cases hc : (i : Int) ≥ st.block_count
  · rw [if_pos hc, if_pos ⟨by omega, by unfold MAX_BLOCKS; omega, hc⟩]
  · rw [if_neg hc, if_neg (fun h => hc h.2.2)]

/-- A line `key=value` inside a block is dispatched on its key. -/
theorem meta_line_key_value (st : MetaState) (k a : List Byte) (c0 : Byte) (k0 : List Byte)
    (hk : k = c0 :: k0) (hc0 : c0 ≠ ch '#' ∧ c0 ≠ ch '\n' ∧ c0 ≠ ch '\r' ∧ c0 ≠ ch '[')
    (hk1 : ∀ c ∈ k, c ≠ ch '=' ∧ c ≠ 0) (hklen : k.length ≤ 63) (ha : a ≠ [])
    (ha1 : ∀ c ∈ a, c ≠ ch '\r' ∧ c ≠ ch '\n' ∧ c ≠ 0) (halen : a.length ≤ 255)
    (hcur : 0 ≤ st.current_block ∧ st.current_block < 10) :
    meta_line st (k ++ ch '=' :: (a ++ [ch '\n'])) =
      if k = str "lmode" then
        update_block st (fun d => { d with lmode := strtoul a % 2 ^ 32 })
      else if k = str "address" then
        update_block st (fun d => { d with adr := strtoul a % 2 ^ 32 })
      else if k = str "size" then
        update_block st (fun d => { d with size := strtoul a % 2 ^ 32 })
      else if k = str "file" then
        { st with block_files := st.block_files.set st.current_block.toNat a }
      else st := by
  have hcstr : cstr (k ++ ch '=' :: (a ++ [ch '\n'])) = k ++ ch '=' :: (a ++ [ch '\n']) := by
    apply cstr_of_no_nul
    intro c hc
    simp only [List.mem_append, List.mem_cons, List.mem_singleton, List.not_mem_nil,
      or_false] at hc
    rcases hc with hc | hc | hc | hc
    · exact (hk1 c hc).2
    · rw [hc]; decide
    · exact (ha1 c hc).2.2
    · rw [hc]; decide
  have hhead : (k ++ ch '=' :: (a ++ [ch '\n'])).head? = some c0 := by rw [hk]; rfl
  have hscan := scan_key_value_line k a (by rw [hk]; exact List.cons_ne_nil _ _)
    (fun c hc => (hk1 c hc).1) hklen ha (fun c hc => ⟨(ha1 c hc).1, (ha1 c hc).2.1⟩) halen
  unfold meta_line
  rw [hhead, if_neg (by
    simp only [Option.some.injEq, not_or]
    exact ⟨hc0.1, hc0.2.1, hc0.2.2.1⟩), if_neg (by
    simp only [Option.some.injEq]
    exact hc0.2.2.2), if_neg (by unfold MAX_BLOCKS; omega), hcstr, hscan]
  simp only
  rw [List.take_of_length_le halen]

theorem fgets_chunks_512_line (l rest : List Byte) (hnl : ∀ c ∈ l, c ≠ ch '\n')
    (hlen : l.length + 1 < 512) :
    fgets_chunks 512 (l ++ ch '\n' :: rest) = (l ++ [ch '\n']) :: fgets_chunks 512 rest := by
  unfold fgets_chunks
  rw [fgets_loop_line 512 l [] rest hnl (by simpa using hlen)]
  simp

/-- One line of the metadata, shorter than the line buffer, is consumed by one
iteration of the loop of `parse_metadata`. -/
theorem meta_lines_line (st : MetaState) (l rest : List Byte) (hnl : ∀ c ∈ l, c ≠ ch '\n')
    (hlen : l.length + 1 < 512) :
    (fgets_chunks 512 (l ++ ch '\n' :: rest)).foldl meta_line st =
      (fgets_chunks 512 rest).foldl meta_line (meta_line st (l ++ [ch '\n'])) := by
  rw [fgets_chunks_512_line l rest hnl hlen, List.foldl_cons]

theorem metadata_block_eq (e : Extracted) (rest : List Byte) :
    metadata_block e ++ rest =
      (str "[Block" ++ fmt_d e.index ++ str "]") ++ ch '\n' ::
      (key_value_line (str "name") (block_name e.index) ++
      (key_value_line (str "lmode") (fmt_u e.desc.lmode) ++
      (key_value_line (str "address") (str "0x" ++ fmt_08x e.desc.adr) ++
      (key_value_line (str "size") (str "0x" ++ fmt_08x e.desc.size) ++
      (key_value_line (str "offset") (str "0x" ++ fmt_08x e.desc.offset) ++
      (key_value_line (str "file") (block_file_name e.index) ++
      ([] ++ ch '\n' :: rest))))))) := by
  unfold metadata_block key_value_line
  simp only [List.append_assoc]
  rfl

/-- A line `key=value` of the metadata inside a block is consumed by one
iteration of the loop and dispatched on its key. -/
theorem meta_lines_key_value (st : MetaState) (k a more : List Byte) (c0 : Byte)
    (k0 : List Byte) (hk : k = c0 :: k0)
    (hc0 : c0 ≠ ch '#' ∧ c0 ≠ ch '\n' ∧ c0 ≠ ch '\r' ∧ c0 ≠ ch '[')
    (hk1 : ∀ c ∈ k, c ≠ ch '=' ∧ c ≠ 0 ∧ c ≠ ch '\n') (hklen : k.length ≤ 63)
    (ha : value_ok a) (hcur : 0 ≤ st.current_block ∧ st.current_block < 10) :
    (fgets_chunks 512 (key_value_line k a ++ more)).foldl meta_line st =
      (fgets_chunks 512 more).foldl meta_line
        (if k = str "lmode" then
          update_block st (fun d => { d with lmode := strtoul a % 2 ^ 32 })
        else if k = str "address" then
          update_block st (fun d => { d with adr := strtoul a % 2 ^ 32 })
        else if k = str "size" then
          update_block st (fun d => { d with size := strtoul a % 2 ^ 32 })
        else if k = str "file" then
          { st with block_files := st.block_files.set st.current_block.toNat a }
        else st) := by
  obtain ⟨ha0, ha1, halen⟩ := ha
  have e1 : key_value_line k a ++ more = (k ++ ch '=' :: a) ++ ch '\n' :: more := by
    unfold key_value_line
    simp
  have e2 : (k ++ ch '=' :: a) ++ [ch '\n'] = k ++ ch '=' :: (a ++ [ch '\n']) := by simp
  rw [e1, meta_lines_line st (k ++ ch '=' :: a) more (by
      intro c hc
      simp only [List.mem_append, List.mem_cons] at hc
      rcases hc with hc | hc | hc
      · exact (hk1 c hc).2.2
      · rw [hc]; decide
      · exact (ha1 c hc).2.1) (by
      simp only [List.length_append, List.length_cons]
      omega),
    e2, meta_line_key_value st k a c0 k0 hk hc0 (fun c hc => ⟨(hk1 c hc).1, (hk1 c hc).2.1⟩)
      hklen ha0 ha1 halen hcur]

theorem value_ok_block_name (i : Nat) : value_ok (block_name i) := by
  unfold block_name
  by_cases h0 : i = 0
  · rw [if_pos h0]; decide
  · rw [if_neg h0]
    by_cases h1 : i = 1
    · rw [if_pos h1]; decide
    · rw [if_neg h1]; decide

theorem value_ok_fmt_u (v : Nat) : value_ok (fmt_u v) := by
  refine ⟨fmt_dec_loop_ne_nil 9 _, fun c hc => ?_, ?_⟩
  · obtain ⟨d, hd, e⟩ := fmt_dec_loop_digits 10 _ c hc
    obtain ⟨-, h0, h1, h2, -, -⟩ := dec_char_props d hd
    rw [e]
    exact ⟨h2, h1, h0⟩
  · have := fmt_dec_loop_length 10 (v % 2 ^ 32)
    unfold fmt_u
    omega

theorem hex_digit_not_control : ∀ c : Byte, digit_val c < 16 →
    c ≠ ch '\r' ∧ c ≠ ch '\n' ∧ c ≠ 0 := by decide

theorem value_ok_fmt_08x (v : Nat) : value_ok (str "0x" ++ fmt_08x v) := by
  have hd := fmt_08x_denotes v
  refine ⟨by simp [str], fun c hc => ?_, ?_⟩
  · rcases List.mem_append.mp hc with hc | hc
    · have : c = ch '0' ∨ c = ch 'x' := by
        rw [show str "0x" = [ch '0', ch 'x'] from rfl] at hc
        simpa using hc
      rcases this with e | e <;> rw [e] <;> decide
    · exact hex_digit_not_control c (hd.2.1 c hc)
  · rw [List.length_append, fmt_08x_length]
    decide

theorem value_ok_block_file_name : ∀ i, i < 10 → value_ok (block_file_name i) := by decide

theorem getD_set_self {α : Type} (l : List α) (i : Nat) (a d : α) (h : i < l.length) :
    (l.set i a).getD i d = a := by
  rw [List.getD_eq_getElem?_getD, List.getElem?_set_self h]
  rfl

/-- The lines of one block of the metadata are consumed by `parse_metadata`
and leave the block stored. -/
theorem meta_lines_block (st : MetaState) (e : Extracted) (rest : List Byte)
    (hi : e.index < 10) (hb : st.blocks.length = 10) :
    (fgets_chunks 512 (metadata_block e ++ rest)).foldl meta_line st =
      (fgets_chunks 512 rest).foldl meta_line (store_block st e) := by
  have hcur : ∀ s : MetaState, s.current_block = (e.index : Int) →
      0 ≤ s.current_block ∧ s.current_block < 10 := by
    intro s hs; rw [hs]; omega
  have hd : fmt_d e.index = [dec_char e.index] := fmt_d_digit e.index hi
  rw [metadata_block_eq, meta_lines_line st _ _ (by
      intro c hc
      rw [hd] at hc
      obtain ⟨-, -, h1, -, -, -⟩ := dec_char_props e.index hi
      simp only [List.mem_append, List.mem_singleton] at hc
      rcases hc with (hc | hc) | hc
      · intro h; rw [h] at hc; revert hc; decide
      · rw [hc]; exact h1
      · intro h; rw [h] at hc; revert hc; decide) (by
      rw [hd]
      simp only [List.length_append, List.length_singleton]
      have : (str "[Block").length = 6 := rfl
      have : (str "]").length = 1 := rfl
      omega)]
  have e0 : (str "[Block" ++ fmt_d e.index ++ str "]") ++ [ch '\n'] =
      str "[Block" ++ fmt_d e.index ++ str "]\n" := by
    simp only [List.append_assoc]; rfl
  rw [e0, meta_line_header st e.index hi]
  rw [meta_lines_key_value _ (str "name") _ _ (ch 'n') (str "ame") rfl (by decide) (by decide)
    (by decide) (value_ok_block_name _) (hcur _ rfl)]
  rw [if_neg (by decide), if_neg (by decide), if_neg (by decide), if_neg (by decide)]
  rw [meta_lines_key_value _ (str "lmode") _ _ (ch 'l') (str "mode") rfl (by decide) (by decide)
    (by decide) (value_ok_fmt_u _) (hcur _ rfl)]
  rw [if_pos rfl]
  rw [meta_lines_key_value _ (str "address") _ _ (ch 'a') (str "ddress") rfl (by decide)
    (by decide) (by decide) (value_ok_fmt_08x _) (hcur _ rfl)]
  rw [if_neg (by decide), if_pos rfl]
  rw [meta_lines_key_value _ (str "size") _ _ (ch 's') (str "ize") rfl (by decide)
    (by decide) (by decide) (value_ok_fmt_08x _) (hcur _ rfl)]
  rw [if_neg (by decide), if_neg (by decide), if_pos rfl]
  rw [meta_lines_key_value _ (str "offset") _ _ (ch 'o') (str "ffset") rfl (by decide)
    (by decide) (by decide) (value_ok_fmt_08x _) (hcur _ rfl)]
  rw [if_neg (by decide), if_neg (by decide), if_neg (by decide), if_neg (by decide)]
  rw [meta_lines_key_value _ (str "file") _ _ (ch 'f') (str "ile") rfl (by decide)
    (by decide) (by decide) (value_ok_block_file_name _ hi) (hcur _ rfl)]
  rw [if_neg (by decide), if_neg (by decide), if_neg (by decide), if_pos rfl]
  rw [meta_lines_line _ [] rest (fun c hc => by cases hc) (by decide), List.nil_append,
    meta_line_blank]
  congr 1
  unfold update_block store_block
  simp only [Int.toNat_ofNat, List.set_set, List.length_set, getD_set_self _ _ _ _ (by omega : e.index < st.blocks.length), strtoul_fmt_u, strtoul_fmt_08x]

theorem metadata_header_eq (input_file : List Byte) (file_size : Nat) (rest : List Byte) :
    metadata_header input_file file_size ++ rest =
      (ch '#' :: str " USB Loader Metadata") ++ ch '\n' ::
      ((ch '#' :: (str " Original file: " ++ input_file)) ++ ch '\n' ::
      ((ch '#' :: (str " File size: " ++ (fmt_zu file_size ++ str " bytes"))) ++ ch '\n' ::
      ([] ++ ch '\n' :: rest))) := by
  have a1 : str "# USB Loader Metadata\n" = (ch '#' :: str " USB Loader Metadata") ++ [ch '\n'] :=
    rfl
  have a2 : str "# Original file: " = ch '#' :: str " Original file: " := rfl
  have a3 : str "\n" = [ch '\n'] := rfl
  have a4 : str "# File size: " = ch '#' :: str " File size: " := rfl
  have a5 : str " bytes\n\n" = str " bytes" ++ [ch '\n', ch '\n'] := rfl
  unfold metadata_header
  rw [a1, a2, a3, a4, a5]
  simp only [List.append_assoc, List.cons_append, List.nil_append]

/-- The comment lines at the head of the metadata are passed over, when the
path of the container holds no line feed and the line that quotes it fits the
line buffer. -/
theorem meta_lines_header (st : MetaState) (input_file : List Byte) (file_size : Nat)
    (rest : List Byte) (hnl : ∀ c ∈ input_file, c ≠ ch '\n') (hlen : input_file.length ≤ 493) :
    (fgets_chunks 512 (metadata_header input_file file_size ++ rest)).foldl meta_line st =
      (fgets_chunks 512 rest).foldl meta_line st := by
  have hzu : ∀ c ∈ fmt_zu file_size, c ≠ ch '\n' := by
    intro c hc
    obtain ⟨d, hd, e⟩ := fmt_dec_loop_digits 20 _ c hc
    rw [e]
    exact (dec_char_props d hd).2.2.1
  have hzl : (fmt_zu file_size).length ≤ 20 := fmt_dec_loop_length 20 _
  rw [metadata_header_eq, meta_lines_line st _ _ (by decide) (by decide), List.cons_append,
    meta_line_comment]
  rw [meta_lines_line st _ _ (by
      intro c hc
      simp only [List.mem_cons, List.mem_append] at hc
      rcases hc with hc | hc | hc
      · rw [hc]; decide
      · intro h; rw [h] at hc; revert hc; decide
      · exact hnl c hc) (by
      simp only [List.length_cons, List.length_append]
      have : (str " Original file: ").length = 16 := rfl
      omega), List.cons_append, meta_line_comment]
  rw [meta_lines_line st _ _ (by
      intro c hc
      simp only [List.mem_cons, List.mem_append] at hc
      rcases hc with hc | hc | hc | hc
      · rw [hc]; decide
      · intro h; rw [h] at hc; revert hc; decide
      · exact hzu c hc
      · intro h; rw [h] at hc; revert hc; decide) (by
      simp only [List.length_cons, List.length_append]
      have : (str " File size: ").length = 12 := rfl
      have : (str " bytes").length = 6 := rfl
      omega), List.cons_append, meta_line_comment]
  rw [meta_lines_line st [] rest (fun c hc => by cases hc) (by decide), List.nil_append,
    meta_line_blank]

/-- The blocks of the metadata are consumed one after the other. -/
theorem meta_lines_blocks : ∀ (bs : List Extracted) (st : MetaState),
    (∀ e ∈ bs, e.index < 10) → st.blocks.length = 10 →
    (fgets_chunks 512 ((bs.map metadata_block).flatten)).foldl meta_line st =
      bs.foldl store_block st := by
  intro bs
  induction bs with
  | nil => intro st _ _; rfl
  | cons e rest ih =>
    intro st hi hb
    rw [List.map_cons, List.flatten_cons,
      meta_lines_block st e _ (hi e (List.mem_cons_self _ _)) hb, List.foldl_cons]
    exact ih _ (fun x hx => hi x (List.mem_cons_of_mem _ hx)) (by
      unfold store_block
      simp only [List.length_set]
      exact hb)

/-- The arrays after the blocks `0..n-1` have been stored in that order. -/
theorem foldl_store_block : ∀ (bs : List Extracted), bs.length ≤ 10 →
    (∀ (k : Nat) (e : Extracted), bs[k]? = some e → e.index = k) →
    (bs.foldl store_block ⟨zero_blocks, zero_files, -1, 0⟩).block_count = bs.length ∧
    (bs.foldl store_block ⟨zero_blocks, zero_files, -1, 0⟩).blocks.length = 10 ∧
    (bs.foldl store_block ⟨zero_blocks, zero_files, -1, 0⟩).block_files.length = 10 ∧
    (∀ (k : Nat) (e : Extracted), bs[k]? = some e →
      (bs.foldl store_block ⟨zero_blocks, zero_files, -1, 0⟩).blocks[k]? =
        some ⟨e.desc.lmode % 2 ^ 32, e.desc.size % 2 ^ 32, e.desc.adr % 2 ^ 32, 0⟩ ∧
      (bs.foldl store_block ⟨zero_blocks, zero_files, -1, 0⟩).block_files[k]? =
        some (block_file_name k)) ∧
    (∀ k, bs.length ≤ k → k < 10 →
      (bs.foldl store_block ⟨zero_blocks, zero_files, -1, 0⟩).blocks[k]? = some zero_desc) := by
  intro bs
  induction bs using List.reverseRecOn with
  | nil =>
    intro _ _
    refine ⟨rfl, rfl, rfl, fun k e h => (by cases h), fun k _ hk => ?_⟩
    exact List.getElem?_replicate_of_lt hk
  | append_singleton bs e ih =>
    intro hlen hidx
    rw [List.length_append, List.length_singleton] at hlen
    have hidx' : ∀ (k : Nat) (x : Extracted), bs[k]? = some x → x.index = k := by
      intro k x hk
      apply hidx k x
      rw [List.getElem?_append_left (List.getElem?_eq_some_iff.mp hk).1]
      exact hk
    have he : e.index = bs.length := by
      apply hidx bs.length e
      rw [List.getElem?_append_right (Nat.le_refl _)]
      simp
    obtain ⟨h1, h2, h3, h4, h5⟩ := ih (by omega) hidx'
    rw [List.foldl_append, List.foldl_cons, List.foldl_nil]
    generalize bs.foldl store_block ⟨zero_blocks, zero_files, -1, 0⟩ = s at h1 h2 h3 h4 h5
    have hz : (s.blocks.getD bs.length zero_desc).offset = 0 := by
      rw [List.getD_eq_getElem?_getD, h5 bs.length (Nat.le_refl _) (by omega)]
      rfl
    unfold store_block
    simp only [he, h1, hz]
    refine ⟨?_, by rw [List.length_set]; exact h2, by rw [List.length_set]; exact h3, ?_, ?_⟩
    · rw [if_pos (by omega), List.length_append, List.length_singleton]
      push_cast
      rfl
    · intro k x hk
      by_cases hkl : k < bs.length
      · rw [List.getElem?_append_left hkl] at hk
        rw [List.getElem?_set_ne (by omega), List.getElem?_set_ne (by omega)]
        exact h4 k x hk
      · have hk2 : k = bs.length := by
          have := (List.getElem?_eq_some_iff.mp hk).1
          rw [List.length_append, List.length_singleton] at this
          omega
        subst hk2
        rw [List.getElem?_append_right (Nat.le_refl _)] at hk
        simp only [Nat.sub_self, List.getElem?_cons_zero, Option.some.injEq] at hk
        subst hk
        rw [List.getElem?_set_self (by omega), List.getElem?_set_self (by omega)]
        exact ⟨rfl, rfl⟩
    · intro k hk hk10
      rw [List.length_append, List.length_singleton] at hk
      rw [List.getElem?_set_ne (by omega)]
      exact h5 k (by omega) hk10

/-- The blocks `unpack_loader` extracts are the slots `i, i + 1, ...` of the
header, in order. -/
theorem unpack_blocks_slots (buf : List Byte) : ∀ (n i : Nat) (bs : List Extracted),
    unpack_blocks buf n i = Outcome.ok bs →
    bs.length ≤ n ∧ ∀ (k : Nat) (e : Extracted), bs[k]? = some e →
      e.index = i + k ∧ slot buf (i + k) = some e.desc ∧ HEADER_SIZE ≤ e.desc.offset := by
  intro n
  induction n with
  | zero =>
    intro i bs h
    unfold unpack_blocks at h
    cases h
    exact ⟨Nat.le_refl _, fun k e hk => (by cases hk)⟩
  | succ n ih =>
    intro i bs h
    have hnil : bs = [] → bs.length ≤ n + 1 ∧ ∀ (k : Nat) (e : Extracted), bs[k]? = some e →
        e.index = i + k ∧ slot buf (i + k) = some e.desc ∧ HEADER_SIZE ≤ e.desc.offset := by
      intro e
      subst e
      exact ⟨Nat.zero_le _, fun k e hk => (by cases hk)⟩
    unfold unpack_blocks at h
    cases hs : readU32 buf (blocks_offset i + 4) with
    | none => rw [hs] at h; cases h
    | some size =>
      rw [hs] at h
      simp only at h
      by_cases h0 : size = 0
      · rw [if_pos h0] at h; cases h; exact hnil rfl
      rw [if_neg h0] at h
      cases ho : readU32 buf (blocks_offset i + 12) with
      | none => rw [ho] at h; cases h
      | some offset =>
        rw [ho] at h
        simp only at h
        by_cases h1 : offset < HEADER_SIZE
        · rw [if_pos h1] at h; cases h; exact hnil rfl
        rw [if_neg h1] at h
        by_cases h2 : (offset + size) % 2 ^ 32 > buf.length
        · rw [if_pos h2] at h; cases h; exact hnil rfl
        rw [if_neg h2] at h
        cases hsl : slice buf offset size with
        | none => rw [hsl] at h; cases h
        | some data =>
          rw [hsl] at h
          simp only at h
          cases hm : readU32 buf (blocks_offset i) with
          | none => rw [hm] at h; cases h
          | some lmode =>
            cases ha : readU32 buf (blocks_offset i + 8) with
            | none => rw [hm, ha] at h; cases h
            | some adr =>
              rw [hm, ha] at h
              simp only at h
              cases hr : unpack_blocks buf n (i + 1) with
              | fail => rw [hr] at h; cases h
              | fault f => rw [hr] at h; cases h
              | ok rest =>
                rw [hr] at h
                cases h
                obtain ⟨hl, hrest⟩ := ih (i + 1) rest hr
                refine ⟨by rw [List.length_cons]; omega, fun k e hk => ?_⟩
                cases k with
                | zero =>
                  simp only [List.getElem?_cons_zero, Option.some.injEq] at hk
                  subst hk
                  exact ⟨rfl, slot_eq_some.mpr ⟨hm, hs, ha, ho⟩, by
                    simp only [Nat.not_lt] at h1; exact h1⟩
                | succ k =>
                  rw [List.getElem?_cons_succ] at hk
                  obtain ⟨e1, e2, e3⟩ := hrest k e hk
                  have : i + 1 + k = i + (k + 1) := by omega
                  rw [this] at e1 e2
                  exact ⟨e1, e2, e3⟩

theorem unpack_loader_blocks (buffer : List Byte) (u : Unpacked)
    (h : unpack_loader buffer = Outcome.ok u) :
    unpack_blocks buffer MAX_BLOCKS 0 = Outcome.ok u.blocks := by
  unfold unpack_loader at h
  by_cases h1 : buffer.length < HEADER_SIZE
  · rw [if_pos h1] at h; cases h
  rw [if_neg h1] at h
  cases hm : readU32 buffer 0 with
  | none => rw [hm] at h; cases h
  | some magic =>
    rw [hm] at h
    simp only at h
    by_cases h2 : magic ≠ MAGIC_SIGNATURE
    · rw [if_pos h2] at h; cases h
    rw [if_neg h2] at h
    cases hb : unpack_blocks buffer MAX_BLOCKS 0 with
    | fail => rw [hb] at h; cases h
    | fault f => rw [hb] at h; cases h
    | ok blocks => rw [hb] at h; cases h; rfl

theorem snprintf_512_short (s : List Byte) (h : s.length ≤ 511) : snprintf_512 s = s :=
  List.take_of_length_le h

theorem block_file_name_length : ∀ i, i < 10 → (block_file_name i).length ≤ 18 := by decide

/-- The names of the files in the output directory are pairwise distinct. -/
theorem saved_names_nodup :
    (str "/header.bin" :: str "/metadata.txt" ::
      (List.range 10).map (fun i => str "/" ++ block_file_name i)).Nodup := by decide

theorem map_index_eq_range {α : Type} (g : Nat → α) : ∀ (bs : List Extracted),
    (∀ (k : Nat) (e : Extracted), bs[k]? = some e → e.index = k) →
    bs.map (fun e => g e.index) = (List.range bs.length).map g := by
  intro bs hidx
  apply List.ext_getElem?
  intro k
  rw [List.getElem?_map, List.getElem?_map]
  by_cases hk : k < bs.length
  · rw [List.getElem?_eq_getElem hk, List.getElem?_range hk]
    simp only [Option.map_some']
    rw [hidx k _ (List.getElem?_eq_getElem hk)]
  · rw [List.getElem?_eq_none (by omega), List.getElem?_eq_none (by rw [List.length_range]; omega)]
    rfl

/-- C24, amended: for every container that `unpack_loader` accepts, read from
a path that holds no line feed and has at most 493 bytes and unpacked to an
output directory whose name has at most 492 bytes, `unpack_loader` saves the
header, the metadata and block `i` under the names `header.bin`,
`metadata.txt` and `block<i>_<name>.bin` in that directory, which are pairwise
distinct, and `parse_metadata` applied to the metadata written returns as
block count the number of extracted blocks and, for each extracted block `i`,
the mode, the address and the size of descriptor `i` of the container and the
name `block<i>_<name>.bin`, under which block `i` was saved and `pack_loader`
looks for it; the offset it returns is the 0 the caller put there, not the
offset of the descriptor, which is at least the header size.  The default
output directory of `main` for an input path of at most 483 bytes is within
the bound. -/
theorem parse_metadata_round_trip (input_file output_dir buffer : List Byte) (u : Unpacked)
    (h : unpack_loader buffer = Outcome.ok u)
    (hnl : ∀ c ∈ input_file, c ≠ ch '\n') (hlen : input_file.length ≤ 493)
    (hdir : output_dir.length ≤ 492) :
    unpack_files input_file output_dir buffer = Outcome.ok
      (⟨output_dir ++ str "/header.bin", u.header⟩ ::
        ⟨output_dir ++ str "/metadata.txt",
          metadata_text input_file buffer.length u.blocks⟩ ::
        u.blocks.map (fun e => ⟨output_dir ++ str "/" ++ block_file_name e.index, e.data⟩)) ∧
    (∀ files, unpack_files input_file output_dir buffer = Outcome.ok files →
      (files.map SavedFile.path).Nodup) ∧
    (parse_metadata (metadata_text input_file buffer.length u.blocks)
      zero_blocks zero_files).block_count = u.blocks.length ∧
    (∀ i, i < u.blocks.length → ∃ (d : block_desc) (e : Extracted) (name : List Byte),
      slot buffer i = some d ∧ HEADER_SIZE ≤ d.offset ∧
      (parse_metadata (metadata_text input_file buffer.length u.blocks)
        zero_blocks zero_files).blocks[i]? = some ⟨d.lmode, d.size, d.adr, 0⟩ ∧
      (parse_metadata (metadata_text input_file buffer.length u.blocks)
        zero_blocks zero_files).block_files[i]? = some name ∧
      name = block_file_name i ∧
      u.blocks[i]? = some e ∧ e.index = i ∧
      (∀ files, unpack_files input_file output_dir buffer = Outcome.ok files →
        files[i + 2]? = some ⟨output_dir ++ str "/" ++ name, e.data⟩) ∧
      pack_block_path output_dir name = output_dir ++ str "/" ++ name) ∧
    (input_file.length ≤ 483 →
      default_dir input_file = input_file ++ str ".unpacked" ∧
      (default_dir input_file).length ≤ 492) := by
  have hb := unpack_loader_blocks buffer u h
  obtain ⟨hl, hslots⟩ := unpack_blocks_slots buffer MAX_BLOCKS 0 u.blocks hb
  have hidx : ∀ (k : Nat) (e : Extracted), u.blocks[k]? = some e → e.index = k := by
    intro k e hk
    have := (hslots k e hk).1
    omega
  have hl10 : u.blocks.length ≤ 10 := hl
  have hparse : parse_metadata (metadata_text input_file buffer.length u.blocks)
      zero_blocks zero_files = u.blocks.foldl store_block ⟨zero_blocks, zero_files, -1, 0⟩ := by
    unfold parse_metadata metadata_text
    rw [meta_lines_header _ input_file buffer.length _ hnl hlen]
    apply meta_lines_blocks
    · intro e he
      obtain ⟨k, hk, hke⟩ := List.getElem_of_mem he
      have h1 : u.blocks[k]? = some e := by rw [List.getElem?_eq_getElem hk, hke]
      have := hidx k e h1
      omega
    · rfl
  have hpath : ∀ i, i < 10 →
      snprintf_512 (output_dir ++ str "/" ++ block_file_name i) =
        output_dir ++ str "/" ++ block_file_name i := by
    intro i hi
    apply snprintf_512_short
    rw [List.length_append, List.length_append]
    have := block_file_name_length i hi
    have : (str "/").length = 1 := rfl
    omega
  have hmap : u.blocks.map (fun e => (⟨block_path output_dir e.index, e.data⟩ : SavedFile)) =
      u.blocks.map (fun e => ⟨output_dir ++ str "/" ++ block_file_name e.index, e.data⟩) := by
    apply List.map_congr_left
    intro e he
    obtain ⟨k, hk, hke⟩ := List.getElem_of_mem he
    have h1 : u.blocks[k]? = some e := by rw [List.getElem?_eq_getElem hk, hke]
    have := hidx k e h1
    unfold block_path
    rw [hpath e.index (by omega)]
  have hfiles : unpack_files input_file output_dir buffer = Outcome.ok
      (⟨output_dir ++ str "/header.bin", u.header⟩ ::
        ⟨output_dir ++ str "/metadata.txt",
          metadata_text input_file buffer.length u.blocks⟩ ::
        u.blocks.map (fun e =>
          ⟨output_dir ++ str "/" ++ block_file_name e.index, e.data⟩)) := by
    unfold unpack_files
    rw [h]
    simp only
    rw [hmap]
    unfold header_path meta_path
    rw [snprintf_512_short _ (by
        rw [List.length_append]
        have : (str "/header.bin").length = 11 := rfl
        omega),
      snprintf_512_short _ (by
        rw [List.length_append]
        have : (str "/metadata.txt").length = 13 := rfl
        omega)]
  obtain ⟨h1, -, -, h4, -⟩ := foldl_store_block u.blocks hl hidx
  rw [hparse]
  refine ⟨hfiles, fun files hf => ?_, h1, fun i hi => ?_, fun h483 => ?_⟩
  · rw [hfiles] at hf
    cases hf
    have hsub : (str "/header.bin" :: str "/metadata.txt" ::
        (List.range u.blocks.length).map (fun i => str "/" ++ block_file_name i)).Nodup := by
      refine List.Nodup.sublist ?_ saved_names_nodup
      refine List.Sublist.cons₂ _ (List.Sublist.cons₂ _ (List.Sublist.map _ ?_))
      exact List.range_sublist.mpr hl10
    have hp : List.map SavedFile.path
        (⟨output_dir ++ str "/header.bin", u.header⟩ ::
          ⟨output_dir ++ str "/metadata.txt",
            metadata_text input_file buffer.length u.blocks⟩ ::
          u.blocks.map (fun e =>
            ⟨output_dir ++ str "/" ++ block_file_name e.index, e.data⟩)) =
        (str "/header.bin" :: str "/metadata.txt" ::
          (List.range u.blocks.length).map (fun i => str "/" ++ block_file_name i)).map
          (fun t => output_dir ++ t) := by
      rw [← map_index_eq_range (fun i => str "/" ++ block_file_name i) u.blocks hidx]
      simp only [List.map_cons, List.map_map, Function.comp_def, List.append_assoc]
    rw [hp]
    exact List.Nodup.map (List.append_right_injective output_dir) hsub
  · have hget : u.blocks[i]? = some (u.blocks[i]) := List.getElem?_eq_getElem hi
    obtain ⟨-, hslot, hoff⟩ := hslots i _ hget
    obtain ⟨hbl, hfile⟩ := h4 i _ hget
    rw [Nat.zero_add] at hslot
    obtain ⟨r1, r2, r3, -⟩ := slot_eq_some.mp hslot
    have hi10 : i < 10 := by omega
    refine ⟨(u.blocks[i]).desc, u.blocks[i], block_file_name i, hslot, hoff, ?_, hfile, rfl,
      hget, hidx i _ hget, fun files hf => ?_, ?_⟩
    · rw [hbl, Nat.mod_eq_of_lt (readU32_lt r1), Nat.mod_eq_of_lt (readU32_lt r2),
        Nat.mod_eq_of_lt (readU32_lt r3)]
    · rw [hfiles] at hf
      cases hf
      rw [List.getElem?_cons_succ, List.getElem?_cons_succ, List.getElem?_map, hget]
      simp only [Option.map_some']
      rw [hidx i _ hget]
    · unfold pack_block_path
      exact hpath i hi10
  · unfold default_dir
    have h9 : (str ".unpacked").length = 9 := rfl
    rw [snprintf_512_short _ (by rw [List.length_append]; omega)]
    exact ⟨rfl, by rw [List.length_append]; omega⟩

/-- C24, counterexample: the container `one_block_file [1, 2, 3]`, read from
the path `line_feed_path`, gives one extracted block, and `parse_metadata`
returns the block count 6 for the metadata written: the second line of the
comment that quotes the path is `[Block5]`.  Unpacked to the directory
`long_dir`, whose name has 500 bytes, the same container has its block saved
under the name `block0_ram`, the path being cut to 511 bytes, where the
metadata names `block0_raminit.bin`. -/
theorem metadata_round_trip_counterexamples :
    (unpack_loader (one_block_file [1, 2, 3]) =
        Outcome.ok ⟨(one_block_file [1, 2, 3]).take HEADER_SIZE,
          [⟨0, ⟨1, 3, 0x1000, 84⟩, [1, 2, 3]⟩]⟩ ∧
      unpack_files line_feed_path (str "out") (one_block_file [1, 2, 3]) = Outcome.ok
        [⟨str "out/header.bin", (one_block_file [1, 2, 3]).take HEADER_SIZE⟩,
          ⟨str "out/metadata.txt",
            metadata_text line_feed_path 87 [⟨0, ⟨1, 3, 0x1000, 84⟩, [1, 2, 3]⟩]⟩,
          ⟨str "out/block0_raminit.bin", [1, 2, 3]⟩] ∧
      (parse_metadata (metadata_text line_feed_path 87 [⟨0, ⟨1, 3, 0x1000, 84⟩, [1, 2, 3]⟩])
        zero_blocks zero_files).block_count = 6) ∧
    (long_dir.length = 500 ∧
      unpack_files (str "in.bin") long_dir (one_block_file [1, 2, 3]) = Outcome.ok
        [⟨long_dir ++ str "/header.bin", (one_block_file [1, 2, 3]).take HEADER_SIZE⟩,
          ⟨long_dir ++ str "/metadata.t",
            metadata_text (str "in.bin") 87 [⟨0, ⟨1, 3, 0x1000, 84⟩, [1, 2, 3]⟩]⟩,
          ⟨long_dir ++ str "/block0_ram", [1, 2, 3]⟩] ∧
      (parse_metadata (metadata_text (str "in.bin") 87 [⟨0, ⟨1, 3, 0x1000, 84⟩, [1, 2, 3]⟩])
        zero_blocks zero_files).block_files[0]? = some (str "block0_raminit.bin")) := by
  refine ⟨⟨by decide!, by decide!, by decide!⟩, by decide, by decide!, by decide!⟩

/-- C24, witness: the container `one_block_file [1, 2, 3]` read from the path
`in.bin` and unpacked to the directory `out`: one block, with mode 1, size 3
and address `0x1000`, saved to `out/block0_raminit.bin`. -/
theorem parse_metadata_round_trip_witness :
    unpack_loader (one_block_file [1, 2, 3]) =
      Outcome.ok ⟨(one_block_file [1, 2, 3]).take HEADER_SIZE,
        [⟨0, ⟨1, 3, 0x1000, 84⟩, [1, 2, 3]⟩]⟩ ∧
    (∀ c ∈ str "in.bin", c ≠ ch '\n') ∧ (str "in.bin").length ≤ 493 ∧
    (str "out").length ≤ 492 ∧
    unpack_files (str "in.bin") (str "out") (one_block_file [1, 2, 3]) = Outcome.ok
      [⟨str "out/header.bin", (one_block_file [1, 2, 3]).take HEADER_SIZE⟩,
        ⟨str "out/metadata.txt", metadata_text (str "in.bin") (one_block_file [1, 2, 3]).length
          [⟨0, ⟨1, 3, 0x1000, 84⟩, [1, 2, 3]⟩]⟩,
        ⟨str "out/block0_raminit.bin", [1, 2, 3]⟩] ∧
    (parse_metadata (metadata_text (str "in.bin") (one_block_file [1, 2, 3]).length
      [⟨0, ⟨1, 3, 0x1000, 84⟩, [1, 2, 3]⟩]) zero_blocks zero_files).block_count = 1 ∧
    (parse_metadata (metadata_text (str "in.bin") (one_block_file [1, 2, 3]).length
      [⟨0, ⟨1, 3, 0x1000, 84⟩, [1, 2, 3]⟩]) zero_blocks zero_files).blocks[0]? =
        some ⟨1, 3, 0x1000, 0⟩ ∧
    (parse_metadata (metadata_text (str "in.bin") (one_block_file [1, 2, 3]).length
      [⟨0, ⟨1, 3, 0x1000, 84⟩, [1, 2, 3]⟩]) zero_blocks zero_files).block_files[0]? =
        some (str "block0_raminit.bin") ∧
    pack_block_path (str "out") (str "block0_raminit.bin") = str "out/block0_raminit.bin" := by
  have h := parse_metadata_round_trip (str "in.bin") (str "out") (one_block_file [1, 2, 3])
    ⟨(one_block_file [1, 2, 3]).take HEADER_SIZE, [⟨0, ⟨1, 3, 0x1000, 84⟩, [1, 2, 3]⟩]⟩
    (by decide!) (by decide) (by decide) (by decide)
  obtain ⟨d, e, name, h1, -, h3, h4, h5, -, -, -, h9⟩ := h.2.2.2.1 0 (by decide)
  have hd : d = ⟨1, 3, 0x1000, 84⟩ := by
    have : slot (one_block_file [1, 2, 3]) 0 = some ⟨1, 3, 0x1000, 84⟩ := by decide!
    rw [this] at h1
    exact (Option.some.inj h1).symm
  subst hd
  subst h5
  exact ⟨by decide!, by decide, by decide, by decide, h.1, h.2.2.1, h3, h4, h9⟩

/-! ## The caller protocol of the patcher (C20) -/

theorem endpatch_eq (procs : Procedures) (oflag bflag : Bool) (fsize : Nat)
    (calls : List (Patcher × Nat)) (buf : List Byte) :
    endpatch procs oflag bflag fsize calls buf =
      { calls := if bflag then calls ++ [(.perasebad, (procs .perasebad buf fsize).1 % 2 ^ 32)]
          else calls
        written := if oflag then some (if bflag then (procs .perasebad buf fsize).2 else buf)
          else none } := by
  unfold endpatch
  cases bflag <;> rfl

/-- The function `main` of `loader-patch.c` follows the caller protocol. -/
theorem loader_patch_main_eq_spec (procs : Procedures) (oflag bflag : Bool)
    (file : List Byte) :
    loader_patch_main procs oflag bflag file = spec_patch_run procs oflag bflag file := by
  unfold loader_patch_main spec_patch_run revision_order
  simp only [try_revisions, endpatch_eq]
  generalize file.length % 2 ^ 32 = fsize
  generalize List.take fsize file = b0
  generalize procs .pv7r1 b0 fsize = r1
  by_cases h1 : r1.1 % 2 ^ 32 ≠ 0
  · simp only [h1, ne_eq, not_false_eq_true, if_true]
  have h1' : r1.1 % 2 ^ 32 = 0 := by simpa using h1
  simp only [h1', ne_eq, not_true_eq_false, if_false]
  generalize procs .pv7r2 r1.2 fsize = r2
  by_cases h2 : r2.1 % 2 ^ 32 ≠ 0
  · simp only [h2, ne_eq, not_false_eq_true, if_true, List.cons_append, List.nil_append]
  have h2' : r2.1 % 2 ^ 32 = 0 := by simpa using h2
  simp only [h2', ne_eq, not_true_eq_false, if_false]
  generalize procs .pv7r11 r2.2 fsize = r3
  by_cases h3 : r3.1 % 2 ^ 32 ≠ 0
  · simp only [h3, ne_eq, not_false_eq_true, if_true, List.cons_append, List.nil_append]
  have h3' : r3.1 % 2 ^ 32 = 0 := by simpa using h3
  simp only [h3', ne_eq, not_true_eq_false, if_false]
  generalize procs .pv7r22 r3.2 fsize = r4
  by_cases h4 : r4.1 % 2 ^ 32 ≠ 0
  · simp only [h4, ne_eq, not_false_eq_true, if_true, List.cons_append, List.nil_append]
  have h4' : r4.1 % 2 ^ 32 = 0 := by simpa using h4
  simp only [h4', ne_eq, not_true_eq_false, if_false]
  generalize procs .pv7r22_2 r4.2 fsize = r5
  by_cases h5 : r5.1 % 2 ^ 32 ≠ 0
  · simp only [h5, ne_eq, not_false_eq_true, if_true, List.cons_append, List.nil_append]
  have h5' : r5.1 % 2 ^ 32 = 0 := by simpa using h5
  simp only [h5', ne_eq, not_true_eq_false, if_false]
  generalize procs .pv7r22_3 r5.2 fsize = r6
  by_cases h6 : r6.1 % 2 ^ 32 ≠ 0
  · simp only [h6, ne_eq, not_false_eq_true, if_true, List.cons_append, List.nil_append]
  have h6' : r6.1 % 2 ^ 32 = 0 := by simpa using h6
  simp only [h6', ne_eq, not_true_eq_false, if_false, List.cons_append, List.nil_append]

/-- The procedures `try_revisions` tries are the first ones of the list, in
order; only the last one tried can have reported a match, and it has when the
list was not tried to its end. -/
theorem try_revisions_props (procs : Procedures) (fsize : Nat) :
    ∀ (order : List Patcher) (buf : List Byte),
    ((try_revisions procs fsize order buf).1.map Prod.fst =
        order.take (try_revisions procs fsize order buf).1.length) ∧
    (order ≠ [] → 1 ≤ (try_revisions procs fsize order buf).1.length) ∧
    (try_revisions procs fsize order buf).1.length ≤ order.length ∧
    (∀ (i : Nat) (c : Patcher × Nat), (try_revisions procs fsize order buf).1[i]? = some c →
      c.2 ≠ 0 → i + 1 = (try_revisions procs fsize order buf).1.length) ∧
    ((try_revisions procs fsize order buf).1.length < order.length →
      ∃ c, (try_revisions procs fsize order buf).1.getLast? = some c ∧ c.2 ≠ 0) := by
  intro order
  induction order with
  | nil =>
    intro buf
    refine ⟨rfl, fun h => absurd rfl h, Nat.le_refl _,
      fun i c h => (by simp [try_revisions] at h), fun h => absurd h (Nat.lt_irrefl _)⟩
  | cons p rest ih =>
    intro buf
    unfold try_revisions
    simp only
    by_cases hm : (procs p buf fsize).1 % 2 ^ 32 ≠ 0
    · rw [if_pos hm]
      refine ⟨rfl, fun _ => Nat.le_refl _, (by simp), fun i c h _ => ?_,
        fun _ => ⟨_, rfl, hm⟩⟩
      cases i with
      | zero => rfl
      | succ i => cases h
    · rw [if_neg hm]
      obtain ⟨a, -, b, c, d⟩ := ih (procs p buf fsize).2
      have h0 : (procs p buf fsize).1 % 2 ^ 32 = 0 := by simpa using hm
      refine ⟨?_, fun _ => (by simp), (by simp only [List.length_cons]; omega),
        fun i x h hx => ?_, fun h => ?_⟩
      · simp only [List.map_cons, List.length_cons, List.take_succ_cons, a]
      · cases i with
        | zero =>
          rw [List.getElem?_cons_zero] at h
          cases h
          exact absurd h0 hx
        | succ i =>
          rw [List.getElem?_cons_succ] at h
          simp only [List.length_cons]
          rw [c i x h hx]
      · simp only [List.length_cons] at h
        obtain ⟨x, hx, hx0⟩ := d (by omega)
        refine ⟨x, ?_, hx0⟩
        cases ht : (try_revisions procs fsize rest (procs p buf fsize).2).1 with
        | nil => rw [ht] at hx; cases hx
        | cons y ys => rw [ht] at hx; rw [List.getLast?_cons_cons]; exact hx

/-- C20: with any procedures behind the names of `patcher.h`, the `main` of
`loader-patch.c` calls revision patchers in the order V7R1, V7R2, V7R11, V7R22,
V7R22_2, V7R22_3, starting with the first; a patcher that reports a match (a
non-zero offset) is the last revision patcher called, and the sequence stops
before V7R22_3 only after a match.  After them the bad-block patcher is called
once when `-b` is given and not at all otherwise, whichever revision matched
and also when none did.  The output file is written exactly when `-o` is
given, with the buffer as the last procedure called left it. -/
theorem loader_patch_protocol (procs : Procedures) (oflag bflag : Bool) (file : List Byte) :
    ∃ (revs : List (Patcher × Nat)) (buf : List Byte),
      (revs, buf) = try_revisions procs (file.length % 2 ^ 32) revision_order
        (file.take (file.length % 2 ^ 32)) ∧
      revs.map Prod.fst = revision_order.take revs.length ∧ 1 ≤ revs.length ∧
      revs.length ≤ 6 ∧
      (∀ (i : Nat) (c : Patcher × Nat), revs[i]? = some c → c.2 ≠ 0 → i + 1 = revs.length) ∧
      (revs.length < 6 → ∃ c, revs.getLast? = some c ∧ c.2 ≠ 0) ∧
      (loader_patch_main procs oflag bflag file).calls =
        revs ++ (if bflag then
          [(Patcher.perasebad, (procs .perasebad buf (file.length % 2 ^ 32)).1 % 2 ^ 32)]
          else []) ∧
      (loader_patch_main procs oflag bflag file).written =
        (if oflag then
          some (if bflag then (procs .perasebad buf (file.length % 2 ^ 32)).2 else buf)
         else none) := by
  have key := try_revisions_props procs (file.length % 2 ^ 32) revision_order
    (file.take (file.length % 2 ^ 32))
  rw [loader_patch_main_eq_spec]
  unfold spec_patch_run
  simp only
  generalize try_revisions procs (file.length % 2 ^ 32) revision_order
    (file.take (file.length % 2 ^ 32)) = tried at key ⊢
  obtain ⟨revs, buf⟩ := tried
  obtain ⟨a, b, c, d, e⟩ := key
  refine ⟨revs, buf, rfl, a, b (by decide), c, d, e, ?_, rfl⟩
  cases bflag
  · simp only [Bool.false_eq_true, if_false, List.append_nil]
  · simp only [if_true]

/-- The front-end on a three-byte file with `example_procs`, under `-b` and
`-o`: V7R1 and V7R2 report nothing, V7R11 reports a match and no further
revision is tried; the bad-block patcher is called and the patched buffer is
written.  Without `-b` and `-o` the same revisions are tried and nothing is
written. -/
theorem loader_patch_main_example :
    loader_patch_main example_procs true true [1, 2, 3] =
      ⟨[(.pv7r1, 0), (.pv7r2, 0), (.pv7r11, 0x40), (.perasebad, 0)], some [0xFF, 2, 3]⟩ ∧
    loader_patch_main example_procs false false [1, 2, 3] =
      ⟨[(.pv7r1, 0), (.pv7r2, 0), (.pv7r11, 0x40)], none⟩ ∧
    loader_patch_main (fun _ buf _ => (0, buf)) true true [1, 2, 3] =
      ⟨[(.pv7r1, 0), (.pv7r2, 0), (.pv7r11, 0), (.pv7r22, 0), (.pv7r22_2, 0), (.pv7r22_3, 0),
        (.perasebad, 0)], some [1, 2, 3]⟩ := by
  refine ⟨by decide, by decide, by decide⟩

/-! ## The table inside a loader (C21, C22, C25) -/

theorem locate_at_spec (headmagic : List Byte) (hm : headmagic.length = 16) :
    ∀ (buf : List Byte) (off : Nat),
    (∀ r, locate_at headmagic buf off = some r →
      ∃ k, r = off + k ∧ (buf.drop k).take 16 = headmagic ∧
        ∀ j, j < k → (buf.drop j).take 16 ≠ headmagic) ∧
    (locate_at headmagic buf off = none → ∀ j, (buf.drop j).take 16 ≠ headmagic) := by
  intro buf
  induction buf with
  | nil =>
    intro off
    refine ⟨fun r h => (by cases h), fun _ j h => ?_⟩
    rw [List.drop_nil, List.take_nil] at h
    rw [← h] at hm
    cases hm
  | cons c cs ih =>
    intro off
    unfold locate_at
    by_cases h0 : (c :: cs).take 16 = headmagic
    · rw [if_pos h0]
      refine ⟨fun r hr => ?_, fun h => (by cases h)⟩
      cases hr
      exact ⟨0, rfl, h0, fun j hj => absurd hj (Nat.not_lt_zero _)⟩
    · rw [if_neg h0]
      obtain ⟨ih1, ih2⟩ := ih (off + 1)
      refine ⟨fun r hr => ?_, fun h j => ?_⟩
      · obtain ⟨k, e, hk, hlt⟩ := ih1 r hr
        refine ⟨k + 1, by omega, hk, fun j hj => ?_⟩
        cases j with
        | zero => exact h0
        | succ j => exact hlt j (by omega)
      · cases j with
        | zero => exact h0
        | succ j => exact ih2 h j

/-- The search finds the magic where it stands alone. -/
theorem locate_only (headmagic buf : List Byte) (k : Nat) (hm : headmagic.length = 16)
    (hk : ∀ j, (buf.drop j).take 16 = headmagic ↔ j = k) : locate headmagic buf = some k := by
  obtain ⟨h1, h2⟩ := locate_at_spec headmagic hm buf 0
  unfold locate
  cases hl : locate_at headmagic buf 0 with
  | none => exact absurd ((hk k).mpr rfl) (h2 hl k)
  | some r =>
    obtain ⟨k', e, hocc, -⟩ := h1 r hl
    rw [e, Nat.zero_add, (hk k').mp hocc]

/-- The search reports the absence of the magic. -/
theorem locate_absent (headmagic buf : List Byte) (hm : headmagic.length = 16)
    (hk : ∀ j, (buf.drop j).take 16 ≠ headmagic) : locate headmagic buf = none := by
  obtain ⟨h1, -⟩ := locate_at_spec headmagic hm buf 0
  unfold locate
  cases hl : locate_at headmagic buf 0 with
  | none => rfl
  | some r =>
    obtain ⟨k', -, hocc, -⟩ := h1 r hl
    exact absurd hocc (hk k')

theorem fread_into_length (obj data : List Byte) : (fread_into obj data).length = obj.length := by
  unfold fread_into
  simp only [List.length_append, List.length_take, List.length_drop]
  omega

theorem fread_into_full (obj data : List Byte) (h : obj.length ≤ data.length) :
    fread_into obj data = data.take obj.length := by
  unfold fread_into
  rw [List.drop_eq_nil_of_le h, List.append_nil]

theorem fread_into_take (obj data : List Byte) (n : Nat) (h1 : n ≤ data.length)
    (h2 : n ≤ obj.length) : (fread_into obj data).take n = data.take n := by
  unfold fread_into
  rw [List.take_append_of_le_length (by rw [List.length_take]; omega), List.take_take,
    Nat.min_eq_left h2]

/-- When `find_ptable` returns an offset other than 0, the front-end reads the
current table from the position of the stream. -/
theorem ptable_injector_found (headmagic stack ldr : List Byte) (mflag xflag rflag : Bool)
    (input : Option (List Byte)) (pos : Nat) (hf : find_ptable headmagic ldr ≠ 0) :
    (ptable_injector headmagic stack mflag xflag rflag input ldr pos).message ≠
      some InjectorMessage.table_not_found ∧
    (ptable_injector headmagic stack mflag xflag rflag input ldr pos).current =
      some (fread_into stack (ldr.drop pos)) := by
  unfold ptable_injector
  simp only
  rw [if_neg hf]
  unfold injector_found
  simp only
  by_cases h1 : (mflag || xflag) = true
  · rw [if_pos h1]
    exact ⟨by simp, rfl⟩
  · rw [if_neg h1]
    by_cases h2 : rflag = true
    · rw [if_pos h2]
      cases input with
      | none => exact ⟨by simp, rfl⟩
      | some file =>
        simp only
        by_cases h3 : memcmp_differs (fread_into (fread_into stack
            (ldr.drop pos)) file) headmagic 16 = true
        · rw [if_pos h3]; exact ⟨by simp, rfl⟩
        · rw [if_neg h3]; exact ⟨by simp, rfl⟩
    · rw [if_neg h2]
      exact ⟨by simp, rfl⟩

theorem only_at_of_bounded (buf magic : List Byte) (k : Nat) (hm : magic.length = 16)
    (hk : k ≤ buf.length)
    (h : ∀ j, j ≤ buf.length → ((buf.drop j).take 16 = magic ↔ j = k)) :
    ∀ j, (buf.drop j).take 16 = magic ↔ j = k := by
  intro j
  by_cases hj : j ≤ buf.length
  · exact h j hj
  · constructor
    · intro e
      rw [List.drop_eq_nil_of_le (by omega), List.take_nil] at e
      rw [← e] at hm
      cases hm
    · intro e
      omega

theorem absent_of_bounded (buf magic : List Byte) (hm : magic.length = 16)
    (h : ∀ j, j ≤ buf.length → (buf.drop j).take 16 ≠ magic) :
    ∀ j, (buf.drop j).take 16 ≠ magic := by
  intro j
  by_cases hj : j ≤ buf.length
  · exact h j hj
  · intro e
    rw [List.drop_eq_nil_of_le (by omega), List.take_nil] at e
    rw [← e] at hm
    cases hm

/-- The magic stands only at the offset the search finds when the search
finds nothing after it. -/
theorem only_at_of_locate (magic buf : List Byte) (k : Nat) (hm : magic.length = 16)
    (h1 : locate magic buf = some k) (h2 : locate magic (buf.drop (k + 1)) = none) :
    ∀ j, (buf.drop j).take 16 = magic ↔ j = k := by
  obtain ⟨k', e, hocc, hbefore⟩ := (locate_at_spec magic hm buf 0).1 k h1
  have hafter := (locate_at_spec magic hm (buf.drop (k + 1)) 0).2 h2
  rw [Nat.zero_add] at e
  subst e
  intro j
  constructor
  · intro hj
    by_contra hne
    rcases Nat.lt_or_gt_of_ne hne with hlt | hgt
    · exact hbefore j hlt hj
    · have := hafter (j - (k + 1))
      rw [List.drop_drop, show k + 1 + (j - (k + 1)) = j from by omega] at this
      exact this hj
  · intro hj
    rw [hj]
    exact hocc

/-- The test on the replacement: with `-r` alone, the rest of `main` refuses
the file exactly when the first 16 bytes of the record it has read differ from
the magic, and writes the record at `ptaddr` otherwise. -/
theorem injector_found_test (headmagic stack ldr file : List Byte) (ptaddr pos : Nat)
    (hm : headmagic.length = 16) :
    ((fread_into (fread_into stack (ldr.drop pos)) file).take 16 ≠ headmagic →
      injector_found headmagic stack false false true (some file) ldr ptaddr pos =
        { message := some InjectorMessage.not_a_partition_table,
          current := some (fread_into stack (ldr.drop pos)),
          extracted := none, shown := none, loader := ldr }) ∧
    ((fread_into (fread_into stack (ldr.drop pos)) file).take 16 = headmagic →
      injector_found headmagic stack false false true (some file) ldr ptaddr pos =
        { message := none,
          current := some (fread_into stack (ldr.drop pos)),
          extracted := none, shown := none,
          loader := write_at ldr ptaddr
            (fread_into (fread_into stack (ldr.drop pos)) file) }) := by
  constructor
  · intro h
    have hcmp : memcmp_differs (fread_into (fread_into stack (ldr.drop pos)) file)
        headmagic 16 = true := by
      unfold memcmp_differs
      rw [decide_eq_true_iff, List.take_of_length_le (by omega : headmagic.length ≤ 16)]
      exact h
    unfold injector_found
    simp only
    rw [if_neg (by decide), if_pos trivial, hcmp]
    rfl
  · intro h
    have hcmp : memcmp_differs (fread_into (fread_into stack (ldr.drop pos)) file)
        headmagic 16 = false := by
      unfold memcmp_differs
      rw [decide_eq_false_iff_not, not_not,
        List.take_of_length_le (by omega : headmagic.length ≤ 16)]
      exact h
    unfold injector_found
    simp only
    rw [if_neg (by decide), if_pos trivial, hcmp]
    rfl

theorem ptable_injector_of_found (headmagic stack ldr : List Byte) (mflag xflag rflag : Bool)
    (input : Option (List Byte)) (pos : Nat) (hf : find_ptable headmagic ldr ≠ 0) :
    ptable_injector headmagic stack mflag xflag rflag input ldr pos =
      injector_found headmagic stack mflag xflag rflag input ldr
        (find_ptable headmagic ldr) pos := by
  unfold ptable_injector
  simp only
  rw [if_neg hf]

/-- The test on the replacement, for the whole of `main`: with `-r` alone and
a table found. -/
theorem ptable_injector_test (headmagic stack ldr file : List Byte) (pos : Nat)
    (hm : headmagic.length = 16) (hf : find_ptable headmagic ldr ≠ 0) :
    ((fread_into (fread_into stack (ldr.drop pos)) file).take 16 ≠ headmagic →
      ptable_injector headmagic stack false false true (some file) ldr pos =
        { message := some InjectorMessage.not_a_partition_table,
          current := some (fread_into stack (ldr.drop pos)),
          extracted := none, shown := none, loader := ldr }) ∧
    ((fread_into (fread_into stack (ldr.drop pos)) file).take 16 = headmagic →
      ptable_injector headmagic stack false false true (some file) ldr pos =
        { message := none,
          current := some (fread_into stack (ldr.drop pos)),
          extracted := none, shown := none,
          loader := write_at ldr (find_ptable headmagic ldr)
            (fread_into (fread_into stack (ldr.drop pos)) file) }) := by
  rw [ptable_injector_of_found headmagic stack ldr false false true (some file) pos hf]
  exact injector_found_test headmagic stack ldr file (find_ptable headmagic ldr) pos hm

/-- A replacement file that holds a whole record with the head magic takes the
place of the 2048 bytes at the offset found. -/
theorem ptable_injector_replaces (headmagic stack ldr file : List Byte) (pos : Nat)
    (hm : headmagic.length = 16) (hs : stack.length = 2048)
    (hf : find_ptable headmagic ldr ≠ 0) (hlen : 2048 ≤ file.length)
    (hhead : file.take 16 = headmagic) :
    (ptable_injector headmagic stack false false true (some file) ldr pos).loader =
      write_at ldr (find_ptable headmagic ldr) (file.take 2048) := by
  have hcur := fread_into_length stack (ldr.drop pos)
  have hrep : fread_into (fread_into stack (ldr.drop pos)) file = file.take 2048 := by
    rw [fread_into_full _ _ (by rw [hcur, hs]; exact hlen), hcur, hs]
  have ht : (fread_into (fread_into stack (ldr.drop pos)) file).take 16 = headmagic := by
    rw [hrep, List.take_take, show min 16 2048 = 16 from rfl]
    exact hhead
  rw [(ptable_injector_test headmagic stack ldr file pos hm hf).2 ht, hrep]

/-- A replacement file of at least 16 bytes whose head differs from the magic
leaves the loader as it is. -/
theorem ptable_injector_rejects (headmagic stack ldr file : List Byte) (pos : Nat)
    (hm : headmagic.length = 16) (hs : stack.length = 2048)
    (hf : find_ptable headmagic ldr ≠ 0) (hlen : 16 ≤ file.length)
    (hhead : file.take 16 ≠ headmagic) :
    (ptable_injector headmagic stack false false true (some file) ldr pos).loader = ldr ∧
    (ptable_injector headmagic stack false false true (some file) ldr pos).message =
      some InjectorMessage.not_a_partition_table := by
  have hcur := fread_into_length stack (ldr.drop pos)
  have ht : (fread_into (fread_into stack (ldr.drop pos)) file).take 16 ≠ headmagic := by
    rw [fread_into_take _ _ 16 hlen (by rw [hcur, hs]; decide)]
    exact hhead
  rw [(ptable_injector_test headmagic stack ldr file pos hm hf).1 ht]
  exact ⟨rfl, rfl⟩

/-- The run of the front-end on the short replacement, wherever the stream
was left. -/
theorem short_replacement_run (pos : Nat) :
    ptable_injector example_magic (List.replicate 2048 0) false false true
      (some short_replacement) example_loader pos =
      { message := none,
        current := some (fread_into (List.replicate 2048 0) (example_loader.drop pos)),
        extracted := none, shown := none,
        loader := str "BOOT" ++ (short_replacement ++
          (fread_into (List.replicate 2048 0) (example_loader.drop pos)).drop 20) } := by
  have hfind : find_ptable example_magic example_loader = 4 := by decide!
  have hlen := fread_into_length (List.replicate 2048 0) (example_loader.drop pos)
  have h := (ptable_injector_test example_magic (List.replicate 2048 0) example_loader
    short_replacement pos (by decide) (by rw [hfind]; decide)).2
  rw [hfind] at h
  generalize fread_into (List.replicate 2048 0) (example_loader.drop pos) = cur at hlen h ⊢
  have hl : cur.length = 2048 := by rw [hlen]; rfl
  have hrep : fread_into cur short_replacement = short_replacement ++ cur.drop 20 := by
    unfold fread_into
    rw [List.take_of_length_le (by rw [hl]; decide)]
    rfl
  rw [hrep] at h
  rw [h rfl]
  have hw : write_at example_loader 4 (short_replacement ++ cur.drop 20) =
      str "BOOT" ++ (short_replacement ++ cur.drop 20) := by
    unfold write_at
    have h1 : (short_replacement ++ cur.drop 20).length = 2048 := by
      rw [List.length_append, List.length_drop, hl]
      rfl
    rw [h1, show example_loader.drop (4 + 2048) = [] from by decide!, List.append_nil,
      show example_loader.take 4 = str "BOOT" from by decide!,
      show List.replicate (4 - example_loader.length) (0 : Byte) = [] from by decide!,
      List.append_nil]
  rw [hw]

/-- C21: the loader `example_loader` holds a table at offset 4, and the
replacement file `short_replacement` has 20 bytes, the head magic and `V9.9`.
The front-end finds the table, takes the 20 bytes over the table it has read
from the loader, finds the magic in place, and writes the mixture back: the
loader is changed in the four bytes 20..23, and what stands at offset 4 is the
20 bytes of the file followed by the bytes 20..2047 of the old table.  Wherever
`find_ptable` has left the stream, the front-end reports nothing and the
loader is changed: what stands at offset 4 is the 20 bytes of the file followed
by the bytes 20..2047 of what was read as the current table. -/
theorem short_replacement_changes_loader :
    short_replacement.length = 20 ∧
    find_ptable example_magic example_loader = 4 ∧
    (ptable_injector example_magic (List.replicate 2048 0) false false true
      (some short_replacement) example_loader 4).message = none ∧
    (ptable_injector example_magic (List.replicate 2048 0) false false true
      (some short_replacement) example_loader 4).loader =
      str "BOOT" ++ (short_replacement ++ (fwrite_ptable example_table).drop 20) ∧
    (ptable_injector example_magic (List.replicate 2048 0) false false true
      (some short_replacement) example_loader 4).loader ≠ example_loader ∧
    (∀ pos,
      (ptable_injector example_magic (List.replicate 2048 0) false false true
        (some short_replacement) example_loader pos).message = none ∧
      (ptable_injector example_magic (List.replicate 2048 0) false false true
        (some short_replacement) example_loader pos).loader =
        str "BOOT" ++ (short_replacement ++
          (fread_into (List.replicate 2048 0) (example_loader.drop pos)).drop 20) ∧
      (ptable_injector example_magic (List.replicate 2048 0) false false true
        (some short_replacement) example_loader pos).loader ≠ example_loader) := by
  have hne : ∀ pos, (ptable_injector example_magic (List.replicate 2048 0) false false true
      (some short_replacement) example_loader pos).loader ≠ example_loader := by
    intro pos e
    rw [short_replacement_run pos] at e
    have := congrArg (fun l => l[21]?) e
    simp only at this
    rw [show example_loader[21]? = some (ch '1') from by decide!] at this
    exact absurd this (by
      generalize (fread_into (List.replicate 2048 0) (example_loader.drop pos)).drop 20 = x
      show ¬ (some (ch '9') = some (ch '1'))
      decide)
  have h4 : fread_into (List.replicate 2048 0) (example_loader.drop 4) =
      fwrite_ptable example_table := by decide!
  refine ⟨by decide, by decide!, ?_, ?_, hne 4, fun pos => ⟨?_, ?_, hne pos⟩⟩
  · rw [short_replacement_run 4]
  · rw [short_replacement_run 4, h4]
  · rw [short_replacement_run pos]
  · rw [short_replacement_run pos]

/-! ## The head of a table file (C25) -/

/-- The call `strncmp(s1, t, n)`, where `t` is a string literal of fewer than
`n` characters, returns 0 exactly when the memory at `s1` starts with the
characters of the literal and a NUL. -/
theorem strncmp_literal : ∀ (t s1 : List Byte) (n : Nat), (∀ c ∈ t, c ≠ 0) → t.length < n →
    (strncmp s1 (t ++ [0]) n = some 0 ↔ s1.take (t.length + 1) = t ++ [0]) := by
  intro t
  induction t with
  | nil =>
    intro s1 n _ hn
    obtain ⟨n, rfl⟩ : ∃ m, n = m + 1 := ⟨n - 1, by simp only [List.length_nil] at hn; omega⟩
    cases s1 with
    | nil => exact ⟨fun h => (by cases h), fun h => (by cases h)⟩
    | cons a s1 =>
      rw [List.nil_append]
      unfold strncmp
      by_cases ha : a = 0
      · subst ha
        rw [if_neg (by simp), if_pos rfl]
        exact ⟨fun _ => rfl, fun _ => rfl⟩
      · rw [if_pos ha]
        constructor
        · intro h
          simp only [Option.some.injEq] at h
          have hv : a.val = 0 := by
            have : ((0 : Byte).val : Int) = 0 := rfl
            rw [this] at h
            omega
          exact absurd (Fin.ext hv) ha
        · intro h
          simp only [List.length_nil, Nat.zero_add, List.take_succ_cons, List.take_zero,
            List.cons.injEq, and_true] at h
          exact absurd h ha
  | cons b t ih =>
    intro s1 n h0 hn
    obtain ⟨n, rfl⟩ : ∃ m, n = m + 1 := ⟨n - 1, by simp only [List.length_cons] at hn; omega⟩
    have hb : b ≠ 0 := h0 b (List.mem_cons_self _ _)
    cases s1 with
    | nil => exact ⟨fun h => (by cases h), fun h => (by cases h)⟩
    | cons a s1 =>
      rw [List.cons_append]
      unfold strncmp
      by_cases hab : a = b
      · subst hab
        rw [if_neg (by simp), if_neg hb, List.length_cons, List.take_succ_cons,
          ih s1 n (fun c hc => h0 c (List.mem_cons_of_mem _ hc))
            (by simp only [List.length_cons] at hn; omega)]
        simp
      · rw [if_pos hab]
        constructor
        · intro h
          simp only [Option.some.injEq] at h
          have hv : a.val = b.val := by omega
          exact absurd (Fin.ext hv) hab
        · intro h
          rw [List.length_cons, List.take_succ_cons] at h
          simp only [List.cons.injEq] at h
          exact absurd h.1 hab

theorem memcmp_differs_iff (a b : List Byte) (ha : a.length = 16) (hb : b.length = 16) :
    memcmp_differs a b 16 = false ↔ a = b := by
  unfold memcmp_differs
  rw [decide_eq_false_iff_not, not_not, List.take_of_length_le (by omega),
    List.take_of_length_le (by omega)]

theorem take_set_ne (input magic : List Byte) (i : Nat) (b : Byte)
    (hlen : 16 ≤ input.length) (hhead : input.take 16 = magic) (hi : i < 16)
    (hb : input[i]? ≠ some b) : (input.set i b).take 16 ≠ magic := by
  intro e
  rw [← hhead] at e
  have := congrArg (fun l => l[i]?) e
  simp only at this
  rw [List.getElem?_take_of_lt hi, List.getElem?_take_of_lt hi,
    List.getElem?_set_self (by omega)] at this
  exact hb this.symm

theorem dump_bin_warning_eq (headmagic input : List Byte) (hm : headmagic.length = 16)
    (hlen : sizeof_ptable_t ≤ input.length) :
    dump_bin_warning headmagic input = some (decide (input.take 16 ≠ headmagic)) := by
  unfold dump_bin_warning fread_ptable
  rw [if_neg (by omega)]
  simp only
  unfold memcmp_differs
  rw [List.take_take, show min 16 16 = 16 from rfl,
    List.take_of_length_le (by omega : headmagic.length ≤ 16)]

/-- C25: `ptable-list` hands the table it has read to `show_map` exactly when
its bytes 0..9 are `pTableHead` and byte 10 is NUL, so two tables that agree
on their first 11 bytes are both accepted or both refused, whatever the bytes
11..15 of their heads.  `dump_bin` of `ptable-editor`, on a file that holds a
whole table, prints no warning exactly when the 16 bytes of the head are those
of the magic constant, and `main` of `ptable-injector`, with `-r` alone, once a
table is found and for a replacement file of at least 16 bytes, writes the
replacement exactly when its first 16 bytes are those of the magic constant
and refuses it otherwise, leaving the loader as it is; changing any one of the
16 bytes of a head that passes makes either test fail. -/
theorem ptable_list_head_test (headmagic stack file : List Byte) (hm : headmagic.length = 16) :
    (ptable_list stack file = some (fread_into stack file) ↔
      (fread_into stack file).take 11 = str "pTableHead" ++ [0]) ∧
    (ptable_list stack file = none ↔
      (fread_into stack file).take 11 ≠ str "pTableHead" ++ [0]) ∧
    (∀ stack2 file2 : List Byte,
      (fread_into stack2 file2).take 11 = (fread_into stack file).take 11 →
      ((ptable_list stack2 file2).isSome = (ptable_list stack file).isSome)) ∧
    (∀ input : List Byte, sizeof_ptable_t ≤ input.length →
      (dump_bin_warning headmagic input = some false ↔ input.take 16 = headmagic) ∧
      (dump_bin_warning headmagic input = some true ↔ input.take 16 ≠ headmagic) ∧
      (∀ (i : Nat) (b : Byte), input.take 16 = headmagic → i < 16 → input[i]? ≠ some b →
        dump_bin_warning headmagic (input.set i b) = some true)) ∧
    (∀ (ldr replacement : List Byte) (ptaddr pos : Nat),
      stack.length = 2048 → 16 ≤ replacement.length →
      (replacement.take 16 = headmagic →
        injector_found headmagic stack false false true (some replacement) ldr ptaddr pos =
          { message := none, current := some (fread_into stack (ldr.drop pos)),
            extracted := none, shown := none,
            loader := write_at ldr ptaddr
              (fread_into (fread_into stack (ldr.drop pos)) replacement) }) ∧
      (replacement.take 16 ≠ headmagic →
        injector_found headmagic stack false false true (some replacement) ldr ptaddr pos =
          { message := some InjectorMessage.not_a_partition_table,
            current := some (fread_into stack (ldr.drop pos)),
            extracted := none, shown := none, loader := ldr }) ∧
      (∀ (i : Nat) (b : Byte), replacement.take 16 = headmagic → i < 16 →
        replacement[i]? ≠ some b →
        injector_found headmagic stack false false true (some (replacement.set i b)) ldr
            ptaddr pos =
          { message := some InjectorMessage.not_a_partition_table,
            current := some (fread_into stack (ldr.drop pos)),
            extracted := none, shown := none, loader := ldr })) := by
  have hlit : ∀ s1 : List Byte, strncmp s1 (str "pTableHead" ++ [0]) 16 = some 0 ↔
      s1.take 11 = str "pTableHead" ++ [0] :=
    fun s1 => strncmp_literal (str "pTableHead") s1 16 (by decide) (by decide)
  have hacc : ∀ s f : List Byte, (ptable_list s f).isSome = true ↔
      (fread_into s f).take 11 = str "pTableHead" ++ [0] := by
    intro s f
    unfold ptable_list
    simp only
    by_cases h : strncmp (fread_into s f) (str "pTableHead" ++ [0]) 16 = some 0
    · rw [if_neg (not_not.mpr h)]
      exact ⟨fun _ => (hlit _).mp h, fun _ => rfl⟩
    · rw [if_pos h]
      exact ⟨fun hh => (by cases hh), fun hh => absurd ((hlit _).mpr hh) h⟩
  have hinj : ∀ (ldr rep : List Byte) (pos : Nat), stack.length = 2048 → 16 ≤ rep.length →
      (fread_into (fread_into stack (ldr.drop pos)) rep).take 16 = rep.take 16 := by
    intro ldr rep pos hs hr
    exact fread_into_take _ _ 16 hr (by rw [fread_into_length, hs]; decide)
  refine ⟨?_, ?_, ?_, ?_, ?_⟩
  · unfold ptable_list
    simp only
    by_cases h : strncmp (fread_into stack file) (str "pTableHead" ++ [0]) 16 = some 0
    · rw [if_neg (not_not.mpr h)]
      exact ⟨fun _ => (hlit _).mp h, fun _ => rfl⟩
    · rw [if_pos h]
      exact ⟨fun hh => (by cases hh), fun hh => absurd ((hlit _).mpr hh) h⟩
  · unfold ptable_list
    simp only
    by_cases h : strncmp (fread_into stack file) (str "pTableHead" ++ [0]) 16 = some 0
    · rw [if_neg (not_not.mpr h)]
      exact ⟨fun hh => (by cases hh), fun hh => absurd ((hlit _).mp h) hh⟩
    · rw [if_pos h]
      exact ⟨fun _ hh => h ((hlit _).mpr hh), fun _ => rfl⟩
  · intro stack2 file2 he
    have h1 := hacc stack2 file2
    have h2 := hacc stack file
    rw [he] at h1
    cases ha : (ptable_list stack2 file2).isSome <;> cases hb : (ptable_list stack file).isSome
    · rfl
    · exact absurd (h1.mpr (h2.mp hb)) (by rw [ha]; decide)
    · exact absurd (h2.mpr (h1.mp ha)) (by rw [hb]; decide)
    · rfl
  · intro input hlen
    have hl16 : 16 ≤ input.length := by unfold sizeof_ptable_t at hlen; omega
    refine ⟨?_, ?_, fun i b hhead hi hb => ?_⟩
    · rw [dump_bin_warning_eq headmagic input hm hlen]
      simp
    · rw [dump_bin_warning_eq headmagic input hm hlen]
      simp
    · rw [dump_bin_warning_eq headmagic _ hm (by rw [List.length_set]; exact hlen)]
      simp only [Option.some.injEq, decide_eq_true_eq]
      exact take_set_ne input headmagic i b hl16 hhead hi hb
  · intro ldr rep ptaddr pos hs hr
    obtain ⟨t1, t2⟩ := injector_found_test headmagic stack ldr rep ptaddr pos hm
    rw [hinj ldr rep pos hs hr] at t1 t2
    refine ⟨t2, t1, fun i b hhead hi hb => ?_⟩
    have t3 := (injector_found_test headmagic stack ldr (rep.set i b) ptaddr pos hm).1
    rw [hinj ldr (rep.set i b) pos hs (by rw [List.length_set]; exact hr)] at t3
    exact t3 (take_set_ne rep headmagic i b hr hhead hi hb)

/-- C25, witness: with the head magic of the examples, the file
`junk_head_file`, whose head is `pTableHead`, a NUL and `junk!`, is accepted
by `ptable-list`, draws the warning of `dump_bin`, and is refused as a
replacement by `ptable-injector`, which leaves the loader as it is; the file
`table_file`, whose head is the magic, draws no warning and is written. -/
theorem ptable_list_head_test_witness :
    example_magic.length = 16 ∧
    ptable_list (List.replicate 2048 0) junk_head_file =
      some (fread_into (List.replicate 2048 0) junk_head_file) ∧
    dump_bin_warning example_magic junk_head_file = some true ∧
    dump_bin_warning example_magic table_file = some false ∧
    injector_found example_magic (List.replicate 2048 0) false false true
        (some junk_head_file) example_loader 4 4 =
      { message := some InjectorMessage.not_a_partition_table,
        current := some (fread_into (List.replicate 2048 0) (example_loader.drop 4)),
        extracted := none, shown := none, loader := example_loader } ∧
    (injector_found example_magic (List.replicate 2048 0) false false true
        (some table_file) example_loader 4 4).message = none := by
  have h := ptable_list_head_test example_magic (List.replicate 2048 0) junk_head_file
    (by decide)
  have hj := h.2.2.2.1 junk_head_file (by decide!)
  have ht := h.2.2.2.1 table_file (by decide!)
  have ij := h.2.2.2.2 example_loader junk_head_file 4 4 (by decide!) (by decide!)
  have it := h.2.2.2.2 example_loader table_file 4 4 (by decide!) (by decide!)
  refine ⟨by decide, h.1.mpr (by decide!), hj.2.1.mpr (by decide!), ht.1.mpr (by decide!),
    ij.2.1 (by decide!), ?_⟩
  rw [it.1 (by decide!)]

end Balong
